import Mathlib

/-!
# sql-formatter: a shallow embedding of `formatter.go`

Strings are modelled as lists of Unicode scalar values (`List Char`), i.e. the
runes of a valid UTF-8 Go string.  A Go call that can panic returns `Option`
(`none` is the panic).  The Go `regexp` package is modelled by a small
backtracking matcher that enumerates the end states of a pattern in priority
order; its first result is the leftmost-first match that `regexp` reports.
-/

namespace SqlFormatter

set_option maxRecDepth 1000000

/-- A Go string, as the list of its runes. -/
abbrev Str := List Char

/-! ## Runes -/

/-- The class `\s` of Go regular expressions: `[\t\n\f\r ]`. -/
def isReSpace (c : Char) : Bool :=
  c == ' ' || c == '\t' || c == '\n' || c == '\x0c' || c == '\r'

/-- The predicate `unicode.IsSpace`, which `strings.TrimSpace` uses. -/
def isSpace (c : Char) : Bool :=
  c == ' ' || c == '\t' || c == '\n' || c == '\x0b' || c == '\x0c' || c == '\r' ||
  c == '\u0085' || c == '\u00a0' || c == '\u1680' ||
  (0x2000 ≤ c.toNat && c.toNat ≤ 0x200a) ||
  c == '\u2028' || c == '\u2029' || c == '\u202f' || c == '\u205f' || c == '\u3000'

/-- The ASCII word characters `[0-9A-Za-z_]` that `\b` looks at. -/
def isWordChar (c : Char) : Bool :=
  (48 ≤ c.toNat && c.toNat ≤ 57) || (65 ≤ c.toNat && c.toNat ≤ 90) ||
  (97 ≤ c.toNat && c.toNat ≤ 122) || c == '_'

/-- Lower-casing of the ASCII letters. -/
def asciiLower (c : Char) : Char :=
  if 65 ≤ c.toNat && c.toNat ≤ 90 then Char.ofNat (c.toNat + 32) else c

/-- Upper-casing of the ASCII letters. -/
def asciiUpper (c : Char) : Char :=
  if 97 ≤ c.toNat && c.toNat ≤ 122 then Char.ofNat (c.toNat - 32) else c

/-- The rune map of `strings.ToUpper`, exact on every rune whose upper case is an
ASCII letter: the ASCII letters, U+0131 (dotless i) and U+017F (long s).  Other
runes are left alone; the program only compares the result with ASCII keywords. -/
def toUpperRune (c : Char) : Char :=
  if c == '\u0131' then 'I' else if c == '\u017f' then 'S' else asciiUpper c

/-- The rune map of `strings.ToLower` on the runes the program passes to it
(ASCII letters, digits, spaces). -/
def toLowerRune (c : Char) : Char := asciiLower c

/-- Go `strings.ToUpper`. -/
def ToUpper (s : Str) : Str := s.map toUpperRune

/-- Go `strings.ToLower`. -/
def ToLower (s : Str) : Str := s.map toLowerRune

/-- Case-insensitive match of a pattern rune `c` (an ASCII rune) against `x` under
the flag `(?i)`: `x` lies in the simple-fold orbit of `c`.  The orbits of `s` and
`k` have a third member (U+017F, U+212A). -/
def foldEq (c x : Char) : Bool :=
  asciiLower x == asciiLower c ||
  (asciiLower c == 's' && x == '\u017f') ||
  (asciiLower c == 'k' && x == '\u212a')

/-! ## Strings -/

/-- Go `strings.TrimLeft` by `unicode.IsSpace`. -/
def trimLeft (s : Str) : Str := s.dropWhile isSpace

/-- Go `strings.TrimSpace`. -/
def TrimSpace (s : Str) : Str := ((trimLeft s).reverse.dropWhile isSpace).reverse

/-- Go `strings.HasPrefix`. -/
def HasPrefix : Str → Str → Bool
  | _, [] => true
  | [], _ :: _ => false
  | c :: s, d :: p => c == d && HasPrefix s p

/-- Go `strings.Repeat(" ", n)`; a negative count panics. -/
def Repeat (c : Char) (n : Int) : Option Str :=
  if n < 0 then none else some (List.replicate n.toNat c)

/-! ## Regular expressions -/

/-- The fragment of RE2 syntax the program uses.  Repetition is only ever applied
to a single-rune class. -/
inductive Re where
  | eps : Re
  | cls (p : Char → Bool) : Re
  | bnd : Re
  | eot : Re
  | cat (a b : Re) : Re
  | alt (a b : Re) : Re
  | star (p : Char → Bool) : Re
  | lazy (p : Char → Bool) : Re
  | grp (r : Re) : Re

/-- A matcher thread: the rune before the cursor, the text after it, and the
capture groups closed so far. -/
structure St where
  prev : Option Char
  rest : Str
  caps : List Str

/-- Is there a word boundary between `prev` and the head of `rest`? -/
def atBoundary (prev : Option Char) (rest : Str) : Bool :=
  (match prev with | some c => isWordChar c | none => false) !=
  (match rest with | c :: _ => isWordChar c | [] => false)

/-- End states of the greedy `x*`, longest first. -/
def runStar (p : Char → Bool) (caps : List Str) : Option Char → Str → List St
  | prev, [] => [⟨prev, [], caps⟩]
  | prev, c :: t =>
    if p c then runStar p caps (some c) t ++ [⟨prev, c :: t, caps⟩]
    else [⟨prev, c :: t, caps⟩]

/-- End states of the non-greedy `x*?`, shortest first. -/
def runLazy (p : Char → Bool) (caps : List Str) : Option Char → Str → List St
  | prev, [] => [⟨prev, [], caps⟩]
  | prev, c :: t =>
    if p c then ⟨prev, c :: t, caps⟩ :: runLazy p caps (some c) t
    else [⟨prev, c :: t, caps⟩]

/-- All end states of `r` started in `st`, in the priority order of a
backtracking search (left alternative first, greedy longest first, non-greedy
shortest first). -/
def Re.run : Re → St → List St
  | .eps, st => [st]
  | .cls p, st =>
    match st.rest with
    | c :: t => if p c then [⟨some c, t, st.caps⟩] else []
    | [] => []
  | .bnd, st => if atBoundary st.prev st.rest then [st] else []
  | .eot, st => match st.rest with | [] => [st] | _ :: _ => []
  | .cat a b, st => (a.run st).flatMap b.run
  | .alt a b, st => a.run st ++ b.run st
  | .star p, st => runStar p st.caps st.prev st.rest
  | .lazy p, st => runLazy p st.caps st.prev st.rest
  | .grp r, st =>
    (r.run st).map fun e =>
      ⟨e.prev, e.rest, e.caps ++ [st.rest.take (st.rest.length - e.rest.length)]⟩

/-- The preferred match of `r` that starts at the cursor. -/
def matchAt (r : Re) (prev : Option Char) (s : Str) : Option St :=
  (r.run ⟨prev, s, []⟩).head?

/-- A located match: the text skipped before it, the matched text, the capture
groups, and the text after it with the rune before that text. -/
structure Found where
  before : Str
  matched : Str
  caps : List Str
  prevAfter : Option Char
  after : Str

/-- Leftmost match at or after the cursor. -/
def findFrom (r : Re) : Option Char → Str → Option Found
  | prev, [] =>
    match matchAt r prev [] with
    | some e => some ⟨[], [], e.caps, e.prev, e.rest⟩
    | none => none
  | prev, c :: t =>
    match matchAt r prev (c :: t) with
    | some e =>
      some ⟨[], (c :: t).take ((c :: t).length - e.rest.length), e.caps, e.prev, e.rest⟩
    | none =>
      match findFrom r (some c) t with
      | some f => some ⟨c :: f.before, f.matched, f.caps, f.prevAfter, f.after⟩
      | none => none

/-- Go `FindStringSubmatch`: the leftmost match and its groups, `none` for `nil`. -/
def FindStringSubmatch (r : Re) (s : Str) : Option (List Str) :=
  match findFrom r none s with
  | some f => some (f.matched :: f.caps)
  | none => none

/-- The successive non-overlapping matches of `r`, each with the text skipped
before it, and the text left after the last one.  Every pattern the program
scans with consumes at least one rune per match; the scan stops at an empty match. -/
def scanAll (r : Re) : Nat → Option Char → Str → List (Str × Str) × Str
  | 0, _, s => ([], s)
  | fuel + 1, prev, s =>
    match findFrom r prev s with
    | none => ([], s)
    | some f =>
      if f.matched.isEmpty then ([], s)
      else
        let rec_ := scanAll r fuel f.prevAfter f.after
        ((f.before, f.matched) :: rec_.1, rec_.2)

/-- Go `ReplaceAllString` with a replacement free of `$`. -/
def ReplaceAllString (r : Re) (s repl : Str) : Str :=
  let sc := scanAll r (s.length + 1) none s
  (sc.1.map fun bm => bm.1 ++ repl).flatten ++ sc.2

/-- Go `FindAllString(s, -1)`. -/
def FindAllString (r : Re) (s : Str) : List Str :=
  (scanAll r (s.length + 1) none s).1.map Prod.snd

/-- Go `Split(s, -1)` for a pattern without empty matches: the texts between the
matches and the text after the last one; the empty string gives `[""]`. -/
def Split (r : Re) (s : Str) : List Str :=
  let sc := scanAll r (s.length + 1) none s
  sc.1.map Prod.fst ++ [sc.2]

/-- A sequence of patterns. -/
def Re.seq : List Re → Re
  | [] => .eps
  | [r] => r
  | r :: rs => .cat r (Re.seq rs)

/-- A literal under `(?i)`. -/
def Re.lit (w : Str) : Re := Re.seq (w.map fun c => Re.cls (foldEq c))

/-- The pattern `\s+`. -/
def Re.ws1 : Re := .cat (.cls isReSpace) (.star isReSpace)

/-- The pattern `\s*`. -/
def Re.ws0 : Re := .star isReSpace

/-- The class `.`: any rune but a newline. -/
def isDot (c : Char) : Bool := c != '\n'

/-- An alternation of patterns. -/
def Re.alts : List Re → Re
  | [] => .eps
  | [r] => r
  | r :: rs => .alt r (Re.alts rs)

/-- A keyword of the pattern text, matched under `(?i)`. -/
def kw (w : String) : Re := Re.lit w.toList

/-- One rune of the pattern text that is not a letter. -/
def chr (c : Char) : Re := .cls fun x => x == c

/-- The pattern `c+` for a class `c`. -/
def Re.plus (p : Char → Bool) : Re := .cat (.cls p) (.star p)

/-! ## The formatter -/

/-- The Go struct `Formatter`. -/
structure Formatter where
  IndentSize : Int
  KeywordUpper : Bool

/-- Go `NewFormatter`. -/
def NewFormatter : Formatter := ⟨2, true⟩

/-- Go `Formatter.keyword`. -/
def keyword (f : Formatter) (word : Str) : Str :=
  if f.KeywordUpper then ToUpper word else ToLower word

/-- Go `Formatter.getIndent`; `strings.Repeat` panics on a negative count. -/
def getIndent (f : Formatter) (level : Int) : Option Str :=
  Repeat ' ' (level * f.IndentSize)

/-- Go `Formatter.cleanSQL`. -/
def cleanSQL (sql : Str) : Str :=
  TrimSpace (ReplaceAllString Re.ws1 sql " ".toList)

/-- The loop of `splitColumns`: the rest of the input, the text of `current`, and
`parenCount`. -/
def splitColumnsAux : Str → Str → Int → List Str
  | [], current, _ => if current.length > 0 then [current] else []
  | c :: t, current, parenCount =>
    if c == '(' then splitColumnsAux t (current ++ [c]) (parenCount + 1)
    else if c == ')' then splitColumnsAux t (current ++ [c]) (parenCount - 1)
    else if c == ',' then
      if parenCount == 0 then current :: splitColumnsAux t [] parenCount
      else splitColumnsAux t (current ++ [c]) parenCount
    else splitColumnsAux t (current ++ [c]) parenCount

/-- Go `Formatter.splitColumns`. -/
def splitColumns (columnsStr : Str) : List Str := splitColumnsAux columnsStr [] 0

/-- The pattern `(?i)\b` + keyword + `\b` of `formatSQL` and `formatKeywords`. -/
def keywordRe (w : String) : Re := Re.seq [.bnd, kw w, .bnd]

/-- The keyword list of `formatSQL`. -/
def prepassKeywords : List String :=
  ["SELECT", "FROM", "WHERE", "GROUP BY", "HAVING", "ORDER BY", "LIMIT",
   "INSERT", "INTO", "VALUES", "UPDATE", "SET", "DELETE",
   "JOIN", "INNER JOIN", "LEFT JOIN", "RIGHT JOIN", "FULL JOIN",
   "UNION", "UNION ALL", "CASE", "WHEN", "THEN", "ELSE", "END"]

/-- The keyword loop of `formatSQL` and of `formatKeywords`. -/
def replaceKeywords (f : Formatter) (keywords : List String) (sql : Str) : Str :=
  keywords.foldl (fun acc w => ReplaceAllString (keywordRe w) acc (keyword f w.toList)) sql

/-- Go `Formatter.formatKeywords`. -/
def formatKeywords (f : Formatter) (sql : Str) : Str :=
  replaceKeywords f ["INSERT INTO", "VALUES", "UPDATE", "SET", "DELETE FROM", "WHERE"] sql

/-- The tail `(?:\s+K1|...|\s*$)` of a clause pattern. -/
def clauseEnd (stops : List Re) : Re :=
  Re.alts (stops.map (fun k => Re.cat Re.ws1 k) ++ [Re.cat Re.ws0 .eot])

/-- The pattern `(?i)\bHEAD\s+(.*?)(?:\s+K1|...|\s*$)`. -/
def clauseRe (head : Re) (stops : List Re) : Re :=
  Re.seq [.bnd, head, Re.ws1, .grp (.lazy isDot), clauseEnd stops]

/-- The pattern text `GROUP\s+BY`. -/
def groupBy : Re := Re.seq [kw "GROUP", Re.ws1, kw "BY"]

/-- The pattern text `ORDER\s+BY`. -/
def orderBy : Re := Re.seq [kw "ORDER", Re.ws1, kw "BY"]

/-- A Go `map[string]string`, as the list of its entries. -/
abbrev ClauseMap := List (String × Str)

/-- Indexing a Go map: an absent key gives the empty string. -/
def ClauseMap.get (m : ClauseMap) (key : String) : Str :=
  match m.find? (fun e => e.1 == key) with
  | some e => e.2
  | none => []

/-- The loop shared by `splitSelectSQL`, `splitUpdateSQL` and `splitDeleteSQL`. -/
def extractClauses (patterns : List (String × Re)) (sql : Str) : ClauseMap :=
  patterns.filterMap fun kp =>
    match FindStringSubmatch kp.2 sql with
    | some (_ :: m1 :: _) => some (kp.1, TrimSpace m1)
    | _ => none

/-- The pattern table of `splitSelectSQL`. -/
def selectPatterns : List (String × Re) :=
  [("SELECT", clauseRe (kw "SELECT") [kw "FROM"]),
   ("FROM", clauseRe (kw "FROM") [kw "WHERE", groupBy, kw "HAVING", orderBy, kw "LIMIT"]),
   ("WHERE", clauseRe (kw "WHERE") [groupBy, kw "HAVING", orderBy, kw "LIMIT"]),
   ("GROUP BY", clauseRe groupBy [kw "HAVING", orderBy, kw "LIMIT"]),
   ("HAVING", clauseRe (kw "HAVING") [orderBy, kw "LIMIT"]),
   ("ORDER BY", clauseRe orderBy [kw "LIMIT"]),
   ("LIMIT", clauseRe (kw "LIMIT") [])]

/-- Go `Formatter.splitSelectSQL`. -/
def splitSelectSQL (sql : Str) : ClauseMap := extractClauses selectPatterns sql

/-- Go `Formatter.splitUpdateSQL`. -/
def splitUpdateSQL (sql : Str) : ClauseMap :=
  extractClauses
    [("UPDATE", clauseRe (kw "UPDATE") [kw "SET"]),
     ("SET", clauseRe (kw "SET") [kw "WHERE"]),
     ("WHERE", clauseRe (kw "WHERE") [])] sql

/-- Go `Formatter.splitDeleteSQL`. -/
def splitDeleteSQL (sql : Str) : ClauseMap :=
  extractClauses
    [("FROM", clauseRe (Re.seq [kw "DELETE", Re.ws1, kw "FROM"]) [kw "WHERE"]),
     ("WHERE", clauseRe (kw "WHERE") [])] sql

/-- The loop of `formatSelectColumns`, `formatColumnList`, `formatValueList` and
`formatSetClause`: the trimmed items, with `sep` written before every item but
the first. -/
def joinTrimmed (sep : Str) : List Str → Str
  | [] => []
  | c :: cs => TrimSpace c ++ (cs.map fun x => sep ++ TrimSpace x).flatten

/-- Go `Formatter.formatSelectColumns`; `getIndent` is called once per column
after the first. -/
def formatSelectColumns (f : Formatter) (selectPart : Str) : Option Str :=
  match splitColumns selectPart with
  | [] => some selectPart
  | [c] => some (TrimSpace c)
  | c :: cs => do
    let indent ← getIndent f 1
    pure (joinTrimmed (",\n".toList ++ indent) (c :: cs))

/-- The pattern `(?i)\b(INNER\s+JOIN|LEFT\s+JOIN|RIGHT\s+JOIN|FULL\s+JOIN|JOIN)\b`. -/
def joinRe : Re :=
  Re.seq [.bnd,
    .grp (Re.alts [Re.seq [kw "INNER", Re.ws1, kw "JOIN"], Re.seq [kw "LEFT", Re.ws1, kw "JOIN"],
      Re.seq [kw "RIGHT", Re.ws1, kw "JOIN"], Re.seq [kw "FULL", Re.ws1, kw "JOIN"], kw "JOIN"]),
    .bnd]

/-- The loop of `formatFromClause` over `joins`, with `parts[1:]` alongside: the
guard `i+1 < len(parts)` holds exactly while that list is not exhausted. -/
def formatJoins (f : Formatter) : List Str → List Str → Option Str
  | [], _ => some []
  | _ :: joins, [] => formatJoins f joins []
  | join :: joins, part :: parts => do
    let indent ← getIndent f 1
    let rest ← formatJoins f joins parts
    pure ("\n".toList ++ indent ++ (keyword f join ++ " ".toList ++ TrimSpace part) ++ rest)

/-- Go `Formatter.formatFromClause`; indexing `parts[0]` of an empty slice panics. -/
def formatFromClause (f : Formatter) (fromPart : Str) : Option Str :=
  match Split joinRe fromPart with
  | [] => none
  | p0 :: parts => do
    let rest ← formatJoins f (FindAllString joinRe fromPart) parts
    pure (TrimSpace p0 ++ rest)

/-- A section written by the statements `if part := parts[name]; part != ""`
that render a clause verbatim: nothing for an empty part, else a newline, the
header, a newline, the indent and the part. -/
def clauseSection (f : Formatter) (indent : Str) (name : String) (part : Str) : Str :=
  if part != [] then "\n".toList ++ keyword f name.toList ++ "\n".toList ++ (indent ++ part)
  else []

/-- Go `Formatter.formatSelectStatement`. -/
def formatSelectStatement (f : Formatter) (sql : Str) : Option Str := do
  let parts := splitSelectSQL sql
  let indent ← getIndent f 1
  let selectPart := parts.get "SELECT"
  let r1 ← if selectPart != [] then do
      let selectColumns ← formatSelectColumns f selectPart
      pure (keyword f "SELECT".toList ++ "\n".toList ++ (indent ++ selectColumns))
    else pure []
  let fromPart := parts.get "FROM"
  let r2 ← if fromPart != [] then do
      let fromClause ← formatFromClause f fromPart
      pure ("\n".toList ++ keyword f "FROM".toList ++ "\n".toList ++ (indent ++ fromClause))
    else pure []
  pure (r1 ++ r2
    ++ clauseSection f indent "WHERE" (parts.get "WHERE")
    ++ clauseSection f indent "GROUP BY" (parts.get "GROUP BY")
    ++ clauseSection f indent "HAVING" (parts.get "HAVING")
    ++ clauseSection f indent "ORDER BY" (parts.get "ORDER BY")
    ++ clauseSection f indent "LIMIT" (parts.get "LIMIT"))

/-- Go `Formatter.formatColumnList`. -/
def formatColumnList (columns : Str) : Str :=
  let cols := splitColumns columns
  if cols.length ≤ 1 then columns else joinTrimmed ", ".toList cols

/-- Go `Formatter.formatValueList`. -/
def formatValueList (values : Str) : Str :=
  let vals := splitColumns values
  if vals.length ≤ 1 then values else joinTrimmed ", ".toList vals

/-- Go `Formatter.formatSetClause`. -/
def formatSetClause (f : Formatter) (setPart : Str) : Option Str :=
  let assignments := splitColumns setPart
  if assignments.length ≤ 1 then some setPart
  else do
    let indent ← getIndent f 1
    pure (joinTrimmed (",\n".toList ++ indent) assignments)

/-- The class `\S`. -/
def isNotReSpace (c : Char) : Bool := !isReSpace c

/-- The class `[^)]`. -/
def isNotRParen (c : Char) : Bool := c != ')'

/-- The pattern
`(?i)\bINSERT\s+INTO\s+(\S+)\s*\(([^)]+)\)\s+VALUES\s*\(([^)]+)\)`. -/
def insertRe : Re :=
  Re.seq [.bnd, kw "INSERT", Re.ws1, kw "INTO", Re.ws1, .grp (Re.plus isNotReSpace), Re.ws0,
    chr '(', .grp (Re.plus isNotRParen), chr ')', Re.ws1, kw "VALUES", Re.ws0,
    chr '(', .grp (Re.plus isNotRParen), chr ')']

/-- Go `Formatter.formatInsertStatement`. -/
def formatInsertStatement (f : Formatter) (sql : Str) : Option Str :=
  match FindStringSubmatch insertRe sql with
  | some (_ :: m1 :: m2 :: m3 :: _) => do
    let tableName := TrimSpace m1
    let columns := TrimSpace m2
    let values := TrimSpace m3
    let indent ← getIndent f 1
    pure (keyword f "INSERT INTO".toList ++ " ".toList ++ tableName
      ++ ("\n".toList ++ indent ++ "(".toList ++ formatColumnList columns ++ ")".toList)
      ++ ("\n".toList ++ keyword f "VALUES".toList)
      ++ ("\n".toList ++ indent ++ "(".toList ++ formatValueList values ++ ")".toList))
  | _ => some (formatKeywords f sql)

/-- Go `Formatter.formatUpdateStatement`. -/
def formatUpdateStatement (f : Formatter) (sql : Str) : Option Str := do
  let parts := splitUpdateSQL sql
  let indent ← getIndent f 1
  let updatePart := parts.get "UPDATE"
  let r1 := if updatePart != [] then keyword f "UPDATE".toList ++ " ".toList ++ updatePart else []
  let setPart := parts.get "SET"
  let r2 ← if setPart != [] then do
      let setClause ← formatSetClause f setPart
      pure ("\n".toList ++ keyword f "SET".toList ++ ("\n".toList ++ indent ++ setClause))
    else pure []
  pure (r1 ++ r2 ++ clauseSection f indent "WHERE" (parts.get "WHERE"))

/-- Go `Formatter.formatDeleteStatement`. -/
def formatDeleteStatement (f : Formatter) (sql : Str) : Option Str := do
  let parts := splitDeleteSQL sql
  let indent ← getIndent f 1
  let fromPart := parts.get "FROM"
  let r1 := if fromPart != [] then keyword f "DELETE FROM".toList ++ " ".toList ++ fromPart else []
  pure (r1 ++ clauseSection f indent "WHERE" (parts.get "WHERE"))

/-- Go `Formatter.formatSQL`. -/
def formatSQL (f : Formatter) (sql0 : Str) : Option Str :=
  let sql := replaceKeywords f prepassKeywords sql0
  let sqlUpper := ToUpper (TrimSpace sql)
  if HasPrefix sqlUpper "SELECT".toList then formatSelectStatement f sql
  else if HasPrefix sqlUpper "INSERT".toList then formatInsertStatement f sql
  else if HasPrefix sqlUpper "UPDATE".toList then formatUpdateStatement f sql
  else if HasPrefix sqlUpper "DELETE".toList then formatDeleteStatement f sql
  else some sql

/-- The error value `fmt.Errorf("SQL statement cannot be empty")`. -/
def emptyError : Str := "SQL statement cannot be empty".toList

/-- Go `Formatter.Format`: the returned string and the error (`none` for `nil`);
the outer `none` is a panic. -/
def Format (f : Formatter) (sql : Str) : Option (Str × Option Str) :=
  if TrimSpace sql == [] then some ([], some emptyError)
  else do
    let cleaned := cleanSQL sql
    let formatted ← formatSQL f cleaned
    pure (formatted, none)

/-! ## Vocabulary of the statements -/

/-- The text whose lines are the given ones: the lines separated by one newline,
with nothing before the first and nothing after the last. -/
def joinLines : List Str → Str
  | [] => []
  | [l] => l
  | l :: ls => l ++ '\n' :: joinLines ls

/-- The lines of an indented, comma-separated list: each item trimmed behind the
indent, with a comma after every item but the last. -/
def commaLines (indent : Str) : List Str → List Str
  | [] => []
  | [c] => [indent ++ TrimSpace c]
  | c :: cs => (indent ++ TrimSpace c ++ [',']) :: commaLines indent cs

/-- The rune before the cursor after `m` has been consumed. -/
def lastOr (prev : Option Char) (m : Str) : Option Char :=
  match m.getLast? with
  | some c => some c
  | none => prev

/-- An end state `e` reached from `st` by consuming the text `m`. -/
def Consumes (st e : St) (m : Str) : Prop :=
  st.rest = m ++ e.rest ∧ e.prev = lastOr st.prev m

/-- The check `P` holds at every position of a text: at the cursor and after
every rune, each time with the rune before the position. -/
def allPositions (P : Option Char → Str → Bool) : Option Char → Str → Bool
  | prev, [] => P prev []
  | prev, c :: t => P prev (c :: t) && allPositions P (some c) t

/-- At this position the pattern `r` does not match, or the text it matches is
`repl` itself. -/
def matchStable (r : Re) (repl : Str) (prev : Option Char) (s : Str) : Bool :=
  match matchAt r prev s with
  | none => true
  | some e => s.take (s.length - e.rest.length) == repl

/-- What `cleanSQL` does to whitespace, written as a direct scan: every maximal run
of `\s` runes becomes one space.  The flag tells whether the rune before the
cursor belongs to such a run. -/
def collapseWs : Bool → Str → Str
  | _, [] => []
  | inRun, c :: t =>
    if isReSpace c then (if inRun then collapseWs true t else ' ' :: collapseWs true t)
    else c :: collapseWs false t

/-- A pattern rune whose fold orbit is sent to one rune by `ToUpper`: any rune
but `k` and `K`, whose orbit holds the Kelvin sign. -/
def plainFold (c : Char) : Bool := c != 'k' && c != 'K'

/-- The preferred end state of `r`, whatever the rune before the cursor: started
on the text `s` with the groups `caps`, it stops before `s'` with the groups
`caps'`. -/
def Steps (r : Re) (s : Str) (caps : List Str) (s' : Str) (caps' : List Str) : Prop :=
  ∀ prev, ∃ prev', (r.run ⟨prev, s, caps⟩).head? = some ⟨prev', s', caps'⟩

/-- The items of a list joined by a comma and a space. -/
def commaSep : List Str → Str
  | [] => []
  | [a] => a
  | a :: l => a ++ ',' :: ' ' :: commaSep l

/-- The statement `INSERT INTO t (cols) VALUES (vals)`. -/
def insertStatement (t cols vals : Str) : Str :=
  "INSERT INTO ".toList ++ t ++ " (".toList ++ cols ++ ") VALUES (".toList ++ vals ++ ")".toList

/-- The only whitespace of a text is single spaces: every `\s` rune is a space and
is not followed by another `\s` rune. -/
def singleSpaced : Str → Bool
  | [] => true
  | [c] => !isReSpace c || c == ' '
  | c :: d :: t => (!isReSpace c || (c == ' ' && !isReSpace d)) && singleSpaced (d :: t)

/-- Every whole-word, case-insensitive occurrence of one of the keywords `ws` in
the text is already written in the configured case. -/
def keywordsCased (f : Formatter) (ws : List String) (s : Str) : Bool :=
  ws.all fun w => allPositions (matchStable (keywordRe w) (keyword f w.toList)) none s

/-- A plain item of a column or value list: not empty, trimmed,
and free of commas and parentheses. -/
def plainItem (a : Str) : Bool :=
  !a.isEmpty && TrimSpace a == a && a.all fun c => c != ',' && c != '(' && c != ')'

/-- A text that neither starts nor ends with a `unicode.IsSpace` rune. -/
def Trimmed (s : Str) : Prop :=
  ∀ x, (s.head? = some x ∨ s.getLast? = some x) → isSpace x = false

/-- Does the text before the cursor end in a `\s` rune, `b` telling it for the
empty text? -/
def endsInRun : Bool → Str → Bool
  | b, [] => b
  | _, c :: t => endsInRun (isReSpace c) t

/-- The text left after a case-insensitive occurrence of the literal `w` at the
start of a text; `none` when the text does not start with `w`. -/
def stripLit : Str → Str → Option Str
  | [], s => some s
  | _ :: _, [] => none
  | c :: w, x :: s => if foldEq c x then stripLit w s else none

/-- The letters of `w` occur nowhere in the text, in any letter case. -/
def noOccurrence (w : String) (s : Str) : Bool :=
  allPositions (fun _ x => (stripLit w.toList x).isNone) none s

/-- The pattern `r` has no match that starts at the text `s`, whatever stands
before it. -/
def Fails (r : Re) (s : Str) : Prop :=
  ∀ prev caps, r.run ⟨prev, s, caps⟩ = []

/-- The statement `UPDATE t SET a` with the table name `t` and the text `a` of
the assignments. -/
def updateStatement (t a : Str) : Str :=
  "UPDATE ".toList ++ t ++ " SET ".toList ++ a

/-- The segments written one after the other with a comma between two neighbours
(Go `strings.Join(segments, ",")`). -/
def joinCommas : List Str → Str
  | [] => []
  | [x] => x
  | x :: l => x ++ ',' :: joinCommas l

/-- Read from parenthesis depth `d`, the text never closes a parenthesis that is
not open, and it ends at depth zero. -/
def balancedFrom : Int → Str → Bool
  | d, [] => d == 0
  | d, c :: t =>
    if c == '(' then balancedFrom (d + 1) t
    else if c == ')' then decide (0 < d) && balancedFrom (d - 1) t
    else balancedFrom d t

/-- The parentheses of the text are balanced: the depth is never negative along
the text and zero at its end. -/
def balanced (s : Str) : Bool := balancedFrom 0 s

/-- Read from parenthesis depth `d`, the text has no comma at depth zero. -/
def noTopCommaFrom : Int → Str → Bool
  | _, [] => true
  | d, c :: t =>
    if c == '(' then noTopCommaFrom (d + 1) t
    else if c == ')' then noTopCommaFrom (d - 1) t
    else if c == ',' then d != 0 && noTopCommaFrom d t
    else noTopCommaFrom d t

/-- The text has no comma outside parentheses. -/
def noTopComma (s : Str) : Bool := noTopCommaFrom 0 s

/-- The text `x` occurs in the text `s` as a contiguous piece. -/
def occursIn (x s : Str) : Prop := ∃ a b, s = a ++ x ++ b

/-- The text ` WHERE c` of a condition `c`, and nothing when there is none. -/
def whereTail : Option Str → Str
  | none => []
  | some c => " WHERE ".toList ++ c

/-- The statement `DELETE FROM t`, followed by ` WHERE c` when a condition `c`
is given. -/
def deleteStatement (t : Str) (w : Option Str) : Str :=
  "DELETE FROM ".toList ++ t ++ whereTail w

/-- The lines of a formatted DELETE statement: `DELETE FROM t`, and for a condition
`c` the header `WHERE` and the indented condition. -/
def deleteLines (indent t : Str) : Option Str → List Str
  | none => ["DELETE FROM ".toList ++ t]
  | some c => ["DELETE FROM ".toList ++ t, "WHERE".toList, indent ++ c]

/-- The first word of a clause keyword. -/
def firstWord (n : String) : String :=
  if n = "GROUP BY" then "GROUP" else if n = "ORDER BY" then "ORDER" else n

/-- The pattern text that stands for a clause keyword in the clause patterns. -/
def kwRe (n : String) : Re :=
  if n = "GROUP BY" then groupBy else if n = "ORDER BY" then orderBy else kw n

/-- The clause keywords of a SELECT statement, in the order of the statement. -/
def selectOrder : List String :=
  ["SELECT", "FROM", "WHERE", "GROUP BY", "HAVING", "ORDER BY", "LIMIT"]

/-- The text of a list of clauses: every keyword followed by its content, with
single spaces in between. -/
def clauseText : List (String × Str) → Str
  | [] => []
  | [e] => e.1.toList ++ ' ' :: e.2
  | e :: l => e.1.toList ++ ' ' :: (e.2 ++ ' ' :: clauseText l)

/-- A clause that may be absent. -/
def optClause (n : String) : Option Str → List (String × Str)
  | none => []
  | some c => [(n, c)]

/-- A clause content of the standard SELECT statements: not empty, trimmed, and
with the letters of the first word of no clause keyword anywhere in it. -/
def plainContent (c : Str) : Prop :=
  c ≠ [] ∧ Trimmed c ∧ ∀ n ∈ selectOrder, noOccurrence (firstWord n) c = true

/-- The clauses of the statement `SELECT a FROM b`, followed by those of the
clauses WHERE, GROUP BY, HAVING, ORDER BY and LIMIT that are given. -/
def selectClauses (a b : Str) (w g h o l : Option Str) : List (String × Str) :=
  ("SELECT", a) :: ("FROM", b) :: (optClause "WHERE" w ++ (optClause "GROUP BY" g ++
    (optClause "HAVING" h ++ (optClause "ORDER BY" o ++ optClause "LIMIT" l))))

/-- The image of a matcher state under lower-casing of the ASCII letters. -/
def St.low (st : St) : St :=
  ⟨st.prev.map toLowerRune, ToLower st.rest, st.caps.map ToLower⟩

/-- The image of a located match under lower-casing of the ASCII letters. -/
def Found.low (f : Found) : Found :=
  ⟨ToLower f.before, ToLower f.matched, f.caps.map ToLower, f.prevAfter.map toLowerRune,
    ToLower f.after⟩

/-- The classes of the pattern do not tell the two cases of an ASCII letter apart. -/
def Re.caseBlind : Re → Prop
  | .cls p => ∀ c, p (toLowerRune c) = p c
  | .star p => ∀ c, p (toLowerRune c) = p c
  | .lazy p => ∀ c, p (toLowerRune c) = p c
  | .cat a b => a.caseBlind ∧ b.caseBlind
  | .alt a b => a.caseBlind ∧ b.caseBlind
  | .grp r => r.caseBlind
  | .eps => True
  | .bnd => True
  | .eot => True

/-- The classes of the pattern hold ASCII runes only. -/
def Re.asciiOnly : Re → Prop
  | .cls p => ∀ c, p c = true → c.toNat < 128
  | .star p => ∀ c, p c = true → c.toNat < 128
  | .lazy p => ∀ c, p c = true → c.toNat < 128
  | .cat a b => a.asciiOnly ∧ b.asciiOnly
  | .alt a b => a.asciiOnly ∧ b.asciiOnly
  | .grp r => r.asciiOnly
  | .eps => True
  | .bnd => True
  | .eot => True

/-- The configuration `f` with lower-case keywords. -/
def Formatter.lower (f : Formatter) : Formatter := ⟨f.IndentSize, false⟩

/-- The statement that `formatSQL` hands to the statement formatters: the input
after the whitespace normalization of `cleanSQL` and the keyword pre-pass. -/
def prepassed (f : Formatter) (s : Str) : Str :=
  replaceKeywords f prepassKeywords (cleanSQL s)

/-- The spelling of a clause header in the configured case: the upper-case
spelling `u` when `KeywordUpper` is set, the lower-case spelling `l` otherwise. -/
def header (f : Formatter) (u l : String) : Str :=
  if f.KeywordUpper then u.toList else l.toList

/-- The two spellings of the twelve clause headers. -/
def headerSpellings : List (String × String) :=
  [("SELECT", "select"), ("FROM", "from"), ("WHERE", "where"), ("GROUP BY", "group by"),
   ("HAVING", "having"), ("ORDER BY", "order by"), ("LIMIT", "limit"),
   ("INSERT INTO", "insert into"), ("VALUES", "values"), ("UPDATE", "update"), ("SET", "set"),
   ("DELETE FROM", "delete from")]

/-- No rune of the text is a lower-case ASCII letter. -/
def fullyUpper (s : Str) : Bool := s.all fun c => !(97 ≤ c.toNat && c.toNat ≤ 122)

/-- No rune of the text is an upper-case ASCII letter. -/
def fullyLower (s : Str) : Bool := s.all fun c => !(65 ≤ c.toNat && c.toNat ≤ 90)

/-- A section of the output under a header line: nothing when the clause text
`part` is empty; otherwise `lead`, the header, a newline, the indent and `body`. -/
def headed (lead hdr indent part body : Str) : Str :=
  if part = [] then [] else lead ++ hdr ++ '\n' :: (indent ++ body)

/-- The first line of a formatted UPDATE or DELETE statement: nothing when the
clause text `part` is empty; otherwise the header, a space and the text. -/
def titled (hdr part : Str) : Str :=
  if part = [] then [] else hdr ++ ' ' :: part
/-- At the start of the two texts, `x` holds the letters of `w` in some letter
case and `r` holds `w` in the configured case. -/
def recasedAt (f : Formatter) (w x r : Str) : Bool :=
  (stripLit w x).isSome && r.take w.length == keyword f w

/-- The text `r` is the text `x` with nothing changed but the letter case of
keywords: both have the same length, and every position at which they differ lies
inside a window where `x` holds the letters of one of the keywords `ws`, in some
letter case, and `r` holds that keyword in the configured case. -/
def recasedOnly (f : Formatter) (ws : List String) (x r : Str) : Prop :=
  r.length = x.length ∧
  ∀ i, r[i]? = x[i]? ∨ ∃ w ∈ ws, ∃ a, a ≤ i ∧ i < a + w.toList.length ∧
    recasedAt f w.toList (x.drop a) (r.drop a) = true

/-- The rune `b` is the rune `a`, or the configured case of an ASCII pattern rune
whose fold orbit holds `a`. -/
def recasedRune (f : Formatter) (a b : Char) : Prop :=
  b = a ∨ ∃ c, c.toNat < 128 ∧ foldEq c a = true ∧ keyword f [c] = [b]
/-- The text after a non-empty run of whitespace at the start of a text. -/
def skipSpaces : Str → Option Str
  | [] => none
  | c :: t => if isReSpace c then some (t.dropWhile isReSpace) else none

/-- The text after the words `ws` at the start of a text: the words in any letter
case, with a non-empty run of whitespace between two of them. -/
def stripWords : List String → Str → Option Str
  | [], s => some s
  | [w], s => stripLit w.toList s
  | w :: ws, s => (stripLit w.toList s).bind fun r => (skipSpaces r).bind (stripWords ws)

/-- The JOIN-family keywords, word by word, in the order in which they are tried. -/
def joinFamily : List (List String) :=
  [["INNER", "JOIN"], ["LEFT", "JOIN"], ["RIGHT", "JOIN"], ["FULL", "JOIN"], ["JOIN"]]

/-- Is the rune a word character?  No rune (the start or the end of the text)
counts as none. -/
def isWord : Option Char → Bool
  | some c => isWordChar c
  | none => false

/-- A whole-word, case-insensitive occurrence of a JOIN-family keyword at the
cursor: the rune before the cursor is no word character, the text starts with the
keyword, and the rune after the keyword is no word character.  The result is the
text after the keyword. -/
def joinKeywordAt (prev : Option Char) (s : Str) : Option Str :=
  if isWord prev then none
  else (joinFamily.filterMap fun k => stripWords k s).find? fun rest => !isWord rest.head?

/-- The leftmost JOIN keyword at or after the cursor: the text before it, the
keyword as written, and the text after it. -/
def findJoin : Option Char → Str → Option (Str × Str × Str)
  | _, [] => none
  | prev, c :: t =>
    match joinKeywordAt prev (c :: t) with
    | some rest => some ([], (c :: t).take ((c :: t).length - rest.length), rest)
    | none => (findJoin (some c) t).map fun r => (c :: r.1, r.2.1, r.2.2)

/-- The successive JOIN keywords of a text from left to right, each with the text
before it, and the text after the last one.  The first argument bounds the number
of keywords; the length of the text is enough. -/
def joinOccurrences : Nat → Option Char → Str → List (Str × Str) × Str
  | 0, _, s => ([], s)
  | fuel + 1, prev, s =>
    match findJoin prev s with
    | none => ([], s)
    | some (before, word, after) =>
      let rec_ := joinOccurrences fuel (lastOr (lastOr prev before) word) after
      ((before, word) :: rec_.1, rec_.2)

/-- The JOIN keywords of a FROM text, as written, from left to right. -/
def joinWords (s : Str) : List Str :=
  (joinOccurrences (s.length + 1) none s).1.map Prod.snd

/-- The texts around the JOIN keywords of a FROM text: the text before the first
keyword, the texts between two keywords, and the text after the last one. -/
def joinTexts (s : Str) : List Str :=
  (joinOccurrences (s.length + 1) none s).1.map Prod.fst
    ++ [(joinOccurrences (s.length + 1) none s).2]

/-- The text of a list of clauses: every header, as `hdr` writes it, followed by
the content of the clause, with single spaces in between. -/
def clauseTextOf (hdr : String → Str) : List (String × Str) → Str
  | [] => []
  | [e] => hdr e.1 ++ ' ' :: e.2
  | e :: l => hdr e.1 ++ ' ' :: (e.2 ++ ' ' :: clauseTextOf hdr l)

/-- A clause content that is not empty, is trimmed, and holds the letters of the
first word `fw n` of no clause keyword `n` of the statement kind. -/
def plainIn (fw : String → String) (ns : List String) (c : Str) : Prop :=
  c ≠ [] ∧ Trimmed c ∧ ∀ n ∈ ns, noOccurrence (fw n) c = true

/-- What the clause patterns of a statement kind need to know about its clause
keywords `ns`: the pattern text `re n` fails where the first word `fw n` does not
stand, it steps over the header `hdr n`, the first word has no space, it occurs in
no other header, and a header starts with a word character. -/
def ClauseTable (hdr : String → Str) (re : String → Re) (fw : String → String)
    (ns : List String) : Prop :=
  (∀ n s, stripLit (fw n).toList s = none → Fails (re n) s) ∧
  (∀ n ∈ ns, ∀ X c, Steps (re n) (hdr n ++ ' ' :: X) c (' ' :: X) c) ∧
  (∀ n ∈ ns, (fw n).toList ≠ [] ∧ ∀ c ∈ (fw n).toList, foldEq c ' ' = false) ∧
  (∀ n ∈ ns, ∀ n' ∈ ns, n ≠ n' → noOccurrence (fw n) (hdr n') = true) ∧
  (∀ n ∈ ns, ∃ x t, hdr n = x :: t ∧ isWordChar x = true)

/-- A clause keyword in the configured case. -/
def kwText (f : Formatter) (n : String) : Str := keyword f n.toList

/-- The section of a clause that is rendered verbatim: nothing for an absent
clause; otherwise a newline, the header in the configured case, a newline, the
indent and the content of the clause. -/
def verbatim (f : Formatter) (indent : Str) (n : String) : Option Str → Str
  | none => []
  | some c => '\n' :: (kwText f n ++ '\n' :: (indent ++ c))

/-- Two texts that the whitespace normalization cannot tell apart, whatever stands
around them: from either state of the scan they collapse to the same text and
leave the scan in the same state. -/
def sameWords (x y : Str) : Prop :=
  ∀ b, collapseWs b x = collapseWs b y ∧ endsInRun b x = endsInRun b y

theorem TrimSpace_eq_nil_iff (s : Str) : TrimSpace s = [] ↔ ∀ c ∈ s, isSpace c = true := by
  unfold TrimSpace trimLeft
  rw [List.reverse_eq_nil_iff, List.dropWhile_eq_nil_iff]
  constructor
  · intro h
    by_contra hne
    have hne2 : s.dropWhile isSpace ≠ [] := by
      rw [Ne, List.dropWhile_eq_nil_iff]; exact hne
    have h1 := List.head_dropWhile_not isSpace s hne2
    have h2 := h _ (List.mem_reverse.mpr (List.head_mem hne2))
    simp [h2] at h1
  · intro h c hc
    have : s.dropWhile isSpace = [] := List.dropWhile_eq_nil_iff.mpr h
    simp [this] at hc

theorem getIndent_of_nonneg (f : Formatter) (h : 0 ≤ f.IndentSize) :
    getIndent f 1 = some (List.replicate f.IndentSize.toNat ' ') := by
  unfold getIndent Repeat
  simp [Int.not_lt.mpr h]

theorem formatSelectColumns_of_nonneg (f : Formatter) (h : 0 ≤ f.IndentSize) (p : Str) :
    ∃ r, formatSelectColumns f p = some r := by
  unfold formatSelectColumns
  split
  · exact ⟨_, rfl⟩
  · exact ⟨_, rfl⟩
  · simp [getIndent_of_nonneg f h]

theorem formatJoins_of_nonneg (f : Formatter) (h : 0 ≤ f.IndentSize) (joins parts : List Str) :
    ∃ r, formatJoins f joins parts = some r := by
  induction joins generalizing parts with
  | nil => exact ⟨_, rfl⟩
  | cons j js ih =>
    cases parts with
    | nil => simpa [formatJoins] using ih []
    | cons q qs =>
      obtain ⟨r, hr⟩ := ih qs
      simp [formatJoins, getIndent_of_nonneg f h, hr]

theorem formatFromClause_of_nonneg (f : Formatter) (h : 0 ≤ f.IndentSize) (p : Str) :
    ∃ r, formatFromClause f p = some r := by
  unfold formatFromClause
  split
  · rename_i heq
    simp [Split] at heq
  · rename_i p0 parts heq
    obtain ⟨r, hr⟩ := formatJoins_of_nonneg f h (FindAllString joinRe p) parts
    simp [hr]

theorem formatSelectStatement_of_nonneg (f : Formatter) (h : 0 ≤ f.IndentSize) (sql : Str) :
    ∃ r, formatSelectStatement f sql = some r := by
  unfold formatSelectStatement
  obtain ⟨r1, h1⟩ := formatSelectColumns_of_nonneg f h ((splitSelectSQL sql).get "SELECT")
  obtain ⟨r2, h2⟩ := formatFromClause_of_nonneg f h ((splitSelectSQL sql).get "FROM")
  simp only [getIndent_of_nonneg f h, h1, h2, Option.bind_eq_bind, Option.some_bind, Option.pure_def]
  split <;> split <;> simp

theorem formatSetClause_of_nonneg (f : Formatter) (h : 0 ≤ f.IndentSize) (p : Str) :
    ∃ r, formatSetClause f p = some r := by
  unfold formatSetClause
  simp only [getIndent_of_nonneg f h]
  split <;> simp

theorem formatInsertStatement_of_nonneg (f : Formatter) (h : 0 ≤ f.IndentSize) (sql : Str) :
    ∃ r, formatInsertStatement f sql = some r := by
  unfold formatInsertStatement
  split
  · simp [getIndent_of_nonneg f h]
  · exact ⟨_, rfl⟩

theorem formatUpdateStatement_of_nonneg (f : Formatter) (h : 0 ≤ f.IndentSize) (sql : Str) :
    ∃ r, formatUpdateStatement f sql = some r := by
  unfold formatUpdateStatement
  obtain ⟨r1, h1⟩ := formatSetClause_of_nonneg f h ((splitUpdateSQL sql).get "SET")
  simp only [getIndent_of_nonneg f h, h1, Option.bind_eq_bind, Option.some_bind, Option.pure_def]
  split <;> simp

theorem formatDeleteStatement_of_nonneg (f : Formatter) (h : 0 ≤ f.IndentSize) (sql : Str) :
    ∃ r, formatDeleteStatement f sql = some r := by
  unfold formatDeleteStatement
  simp [getIndent_of_nonneg f h]

theorem formatSQL_of_nonneg (f : Formatter) (h : 0 ≤ f.IndentSize) (sql : Str) :
    ∃ r, formatSQL f sql = some r := by
  unfold formatSQL
  simp only
  split
  · exact formatSelectStatement_of_nonneg f h _
  · split
    · exact formatInsertStatement_of_nonneg f h _
    · split
      · exact formatUpdateStatement_of_nonneg f h _
      · split
        · exact formatDeleteStatement_of_nonneg f h _
        · exact ⟨_, rfl⟩

/-! ## Properties of the specification -/

/-- C1 (as amended): for every configuration with `IndentSize ≥ 0` and every input
`s`, either `s` is empty or all whitespace and `Format` returns the empty string
with the error, or `s` has a non-whitespace rune and `Format` returns with a nil
error. -/
theorem Format_error_iff_blank (f : Formatter) (s : Str) (h : 0 ≤ f.IndentSize) :
    ((∀ c ∈ s, isSpace c = true) ∧ Format f s = some ([], some emptyError)) ∨
    ((¬ ∀ c ∈ s, isSpace c = true) ∧ ∃ r, Format f s = some (r, none)) := by
  by_cases hs : ∀ c ∈ s, isSpace c = true
  · left
    refine ⟨hs, ?_⟩
    have := (TrimSpace_eq_nil_iff s).mpr hs
    simp [Format, this]
  · right
    refine ⟨hs, ?_⟩
    have hne : TrimSpace s ≠ [] := fun e => hs ((TrimSpace_eq_nil_iff s).mp e)
    obtain ⟨r, hr⟩ := formatSQL_of_nonneg f h (cleanSQL s)
    exact ⟨r, by simp [Format, hne, hr]⟩

/-- Witness of C1: the default configuration on the statement `select a`. -/
theorem Format_error_iff_blank_witness :
    ((∀ c ∈ "select a".toList, isSpace c = true) ∧
      Format NewFormatter "select a".toList = some ([], some emptyError)) ∨
    ((¬ ∀ c ∈ "select a".toList, isSpace c = true) ∧
      ∃ r, Format NewFormatter "select a".toList = some (r, none)) :=
  Format_error_iff_blank NewFormatter "select a".toList (by decide)

/-- C1 fails as stated: with `IndentSize = -1` the statement `select a` is not
blank, yet `Format` returns no nil error: `getIndent` panics in `strings.Repeat`. -/
theorem Format_negative_indent_panics :
    (¬ ∀ c ∈ "select a".toList, isSpace c = true) ∧
    Format ⟨-1, true⟩ "select a".toList = none := by
  decide

theorem joinLines_cons (l : Str) (ls : List Str) (h : ls ≠ []) :
    joinLines (l :: ls) = l ++ '\n' :: joinLines ls := by
  cases ls with
  | nil => exact absurd rfl h
  | cons a as => rfl

theorem commaLines_length (indent : Str) (cs : List Str) :
    (commaLines indent cs).length = cs.length := by
  induction cs with
  | nil => rfl
  | cons c cs ih =>
    cases cs with
    | nil => rfl
    | cons d ds => simpa [commaLines] using ih

theorem commaLines_getElem? (indent : Str) (cs : List Str) (i : Nat) (hi : i < cs.length) :
    (commaLines indent cs)[i]? =
      some (indent ++ TrimSpace (cs.get ⟨i, hi⟩) ++ (if i + 1 < cs.length then [','] else [])) := by
  induction cs generalizing i with
  | nil => simp at hi
  | cons c cs ih =>
    cases cs with
    | nil =>
      have : i = 0 := by simpa using hi
      subst this
      simp [commaLines]
    | cons d ds =>
      cases i with
      | zero => simp [commaLines]
      | succ j =>
        have hj : j < (d :: ds).length := by simpa using hi
        have := ih j hj
        simp only [commaLines, List.getElem?_cons_succ] at this ⊢
        rw [this]
        simp

theorem joinTrimmed_lines (indent : Str) (c : Str) (cs : List Str) :
    indent ++ joinTrimmed (",\n".toList ++ indent) (c :: cs) =
      joinLines (commaLines indent (c :: cs)) := by
  induction cs generalizing c with
  | nil => simp [joinTrimmed, commaLines, joinLines]
  | cons d ds ih =>
    have := ih d
    have hne : commaLines indent (d :: ds) ≠ [] := by
      intro e
      have := commaLines_length indent (d :: ds)
      simp [e] at this
    simp only [joinTrimmed, List.map_cons, List.flatten_cons] at this ⊢
    simp only [commaLines]
    rw [joinLines_cons _ _ hne, ← this]
    simp

theorem mem_TrimSpace (s : Str) (c : Char) (h : c ∈ TrimSpace s) : c ∈ s := by
  unfold TrimSpace trimLeft at h
  have h1 := List.mem_reverse.mp h
  have h2 := (List.dropWhile_sublist _).mem h1
  have h3 := List.mem_reverse.mp h2
  exact (List.dropWhile_sublist _).mem h3

theorem mem_splitColumnsAux (t cur : Str) (d : Int) (seg : Str)
    (h : seg ∈ splitColumnsAux t cur d) (c : Char) (hc : c ∈ seg) : c ∈ cur ∨ c ∈ t := by
  induction t generalizing cur d with
  | nil =>
    simp only [splitColumnsAux] at h
    split at h
    · simp at h; subst h; exact Or.inl hc
    · simp at h
  | cons x t ih =>
    simp only [splitColumnsAux] at h
    split at h
    · rcases ih _ _ h with h' | h'
      · simp at h'; rcases h' with h' | h' <;> simp [h']
      · simp [h']
    · split at h
      · rcases ih _ _ h with h' | h'
        · simp at h'; rcases h' with h' | h' <;> simp [h']
        · simp [h']
      · split at h
        · split at h
          · rcases List.mem_cons.mp h with h' | h'
            · subst h'; exact Or.inl hc
            · rcases ih _ _ h' with h'' | h''
              · simp at h''
              · simp [h'']
          · rcases ih _ _ h with h' | h'
            · simp at h'; rcases h' with h' | h' <;> simp [h']
            · simp [h']
        · rcases ih _ _ h with h' | h'
          · simp at h'; rcases h' with h' | h' <;> simp [h']
          · simp [h']

theorem mem_splitColumns (p seg : Str) (h : seg ∈ splitColumns p) (c : Char) (hc : c ∈ seg) :
    c ∈ p := by
  rcases mem_splitColumnsAux p [] 0 seg h c hc with h' | h'
  · simp at h'
  · exact h'

theorem mem_commaLines (indent : Str) (cs : List Str) (l : Str) (h : l ∈ commaLines indent cs)
    (c : Char) (hc : c ∈ l) : c ∈ indent ∨ c = ',' ∨ ∃ seg ∈ cs, c ∈ seg := by
  induction cs with
  | nil => simp [commaLines] at h
  | cons a as ih =>
    cases as with
    | nil =>
      simp only [commaLines, List.mem_singleton] at h
      subst h
      rcases List.mem_append.mp hc with h' | h'
      · exact Or.inl h'
      · exact Or.inr (Or.inr ⟨a, by simp, mem_TrimSpace _ _ h'⟩)
    | cons b bs =>
      simp only [commaLines, List.mem_cons] at h
      rcases h with h | h
      · subst h
        simp only [List.mem_append, List.mem_singleton] at hc
        rcases hc with (h' | h') | h'
        · exact Or.inl h'
        · exact Or.inr (Or.inr ⟨a, by simp, mem_TrimSpace _ _ h'⟩)
        · exact Or.inr (Or.inl h')
      · have := ih (by simpa [commaLines] using h)
        rcases this with h' | h' | ⟨seg, hs, h'⟩
        · exact Or.inl h'
        · exact Or.inr (Or.inl h')
        · exact Or.inr (Or.inr ⟨seg, List.mem_cons_of_mem _ hs, h'⟩)

/-- C5: for a SELECT-list text `p` (no newline: the clause pattern captures it with
`.`) whose top-level split has `k ≥ 1` segments, the rendered SELECT body, the
indent followed by `formatSelectColumns p`, is the text of exactly `k` lines; line
`i` is the indent, the `i`-th segment trimmed, and a comma exactly when it is not
the last line. -/
theorem formatSelectColumns_lines (f : Formatter) (p : Str) (h : 0 ≤ f.IndentSize)
    (hp : '\n' ∉ p) (hk : 1 ≤ (splitColumns p).length) :
    ∃ indent body lines, getIndent f 1 = some indent ∧ formatSelectColumns f p = some body ∧
      indent ++ body = joinLines lines ∧ lines.length = (splitColumns p).length ∧
      (∀ l ∈ lines, '\n' ∉ l) ∧
      ∀ (i : Nat) (hi : i < (splitColumns p).length), lines[i]? =
        some (indent ++ TrimSpace ((splitColumns p).get ⟨i, hi⟩) ++
          (if i + 1 < (splitColumns p).length then [','] else [])) := by
  obtain ⟨body, hb⟩ := formatSelectColumns_of_nonneg f h p
  refine ⟨_, body, commaLines (List.replicate f.IndentSize.toNat ' ') (splitColumns p),
    getIndent_of_nonneg f h, hb, ?_, commaLines_length _ _, ?_, ?_⟩
  · unfold formatSelectColumns at hb
    rcases hsc : splitColumns p with _ | ⟨c, cs⟩
    · simp [hsc] at hk
    · rw [hsc] at hb
      cases cs with
      | nil =>
        simp only [Option.some.injEq] at hb
        subst hb
        simp [commaLines, joinLines]
      | cons d ds =>
        simp only [getIndent_of_nonneg f h, Option.bind_eq_bind, Option.some_bind,
          Option.pure_def, Option.some.injEq] at hb
        subst hb
        exact joinTrimmed_lines _ c (d :: ds)
  · intro l hl hc
    rcases mem_commaLines _ _ l hl '\n' hc with h' | h' | ⟨seg, hs, h'⟩
    · have := List.eq_of_mem_replicate h'
      exact absurd this (by decide)
    · exact absurd h' (by decide)
    · exact hp (mem_splitColumns p seg hs _ h')
  · intro i hi
    exact commaLines_getElem? _ _ i hi

/-- Witness of C5: the list `id, name, email` at the default indent. -/
theorem formatSelectColumns_lines_witness :
    ∃ indent body lines, getIndent NewFormatter 1 = some indent ∧
      formatSelectColumns NewFormatter "id, name, email".toList = some body ∧
      indent ++ body = joinLines lines ∧
      lines.length = (splitColumns "id, name, email".toList).length ∧
      (∀ l ∈ lines, '\n' ∉ l) ∧
      ∀ (i : Nat) (hi : i < (splitColumns "id, name, email".toList).length), lines[i]? =
        some (indent ++ TrimSpace ((splitColumns "id, name, email".toList).get ⟨i, hi⟩) ++
          (if i + 1 < (splitColumns "id, name, email".toList).length then [','] else [])) :=
  formatSelectColumns_lines NewFormatter "id, name, email".toList (by decide) (by decide)
    (by decide)

/-- C3: the join scenario of the specification, at the default configuration. -/
theorem Format_select_join_scenario :
    Format NewFormatter
      "select u.id, p.name from users u join products p on u.id = p.user_id where u.age > 25 order by p.price desc limit 10".toList
    = some ("SELECT\n  u.id,\n  p.name\nFROM\n  users u\n  JOIN products p on u.id = p.user_id\nWHERE\n  u.age > 25\nORDER BY\n  p.price desc\nLIMIT\n  10".toList,
        none) := by
  decide!

/-- C4 fails on the code: for `SELECT* FROM users` the clause map holds only FROM,
and the output starts with a newline before that first section. -/
theorem formatSelectStatement_leading_newline :
    splitSelectSQL "SELECT* FROM users".toList = [("FROM", "users".toList)] ∧
    formatSelectStatement NewFormatter "SELECT* FROM users".toList
      = some "\nFROM\n  users".toList ∧
    Format NewFormatter "SELECT* FROM users".toList = some ("\nFROM\n  users".toList, none) := by
  decide!

/-- C8 fails on the code: a two-row INSERT matches the unanchored pattern, the
structured path is taken and the second row is dropped. -/
theorem Format_insert_two_rows_drops_row :
    Format NewFormatter "INSERT INTO t (a) VALUES (1), (2)".toList
      = some ("INSERT INTO t\n  (a)\nVALUES\n  (1)".toList, none) := by
  decide!

/-! ## The matcher consumes a prefix -/

theorem lastOr_nil (prev : Option Char) : lastOr prev [] = prev := rfl

theorem lastOr_append_singleton (prev : Option Char) (m : Str) (c : Char) :
    lastOr prev (m ++ [c]) = some c := by
  simp [lastOr]

theorem lastOr_cons (prev : Option Char) (c : Char) (m : Str) :
    lastOr prev (c :: m) = lastOr (some c) m := by
  cases m with
  | nil => simp [lastOr]
  | cons d ds =>
    have : (d :: ds).getLast? = some ((d :: ds).getLast (by simp)) := List.getLast?_eq_getLast _ _
    simp [lastOr, List.getLast?_cons_cons, this]

theorem lastOr_append (prev : Option Char) (a b : Str) :
    lastOr prev (a ++ b) = lastOr (lastOr prev a) b := by
  induction a generalizing prev with
  | nil => simp [lastOr_nil]
  | cons c a ih => simp only [List.cons_append, lastOr_cons, ih]

theorem runStar_sound (p : Char → Bool) (caps : List Str) (prev : Option Char) (s : Str)
    (e : St) (h : e ∈ runStar p caps prev s) :
    ∃ m, s = m ++ e.rest ∧ e.prev = lastOr prev m ∧ e.caps = caps ∧ ∀ c ∈ m, p c = true := by
  induction s generalizing prev with
  | nil =>
    simp only [runStar, List.mem_singleton] at h
    subst h
    exact ⟨[], rfl, rfl, rfl, by simp⟩
  | cons c t ih =>
    simp only [runStar] at h
    split at h
    · rename_i hp
      rcases List.mem_append.mp h with h | h
      · obtain ⟨m, h1, h2, h3, h4⟩ := ih _ h
        refine ⟨c :: m, by simp [← h1], by simpa [lastOr_cons] using h2, h3, ?_⟩
        intro x hx
        rcases List.mem_cons.mp hx with hx | hx
        · subst hx; exact hp
        · exact h4 x hx
      · simp only [List.mem_singleton] at h
        subst h
        exact ⟨[], rfl, rfl, rfl, by simp⟩
    · simp only [List.mem_singleton] at h
      subst h
      exact ⟨[], rfl, rfl, rfl, by simp⟩

theorem runLazy_sound (p : Char → Bool) (caps : List Str) (prev : Option Char) (s : Str)
    (e : St) (h : e ∈ runLazy p caps prev s) :
    ∃ m, s = m ++ e.rest ∧ e.prev = lastOr prev m ∧ e.caps = caps ∧ ∀ c ∈ m, p c = true := by
  induction s generalizing prev with
  | nil =>
    simp only [runLazy, List.mem_singleton] at h
    subst h
    exact ⟨[], rfl, rfl, rfl, by simp⟩
  | cons c t ih =>
    simp only [runLazy] at h
    split at h
    · rename_i hp
      rcases List.mem_cons.mp h with h | h
      · subst h
        exact ⟨[], rfl, rfl, rfl, by simp⟩
      · obtain ⟨m, h1, h2, h3, h4⟩ := ih _ h
        refine ⟨c :: m, by simp [← h1], by simpa [lastOr_cons] using h2, h3, ?_⟩
        intro x hx
        rcases List.mem_cons.mp hx with hx | hx
        · subst hx; exact hp
        · exact h4 x hx
    · simp only [List.mem_singleton] at h
      subst h
      exact ⟨[], rfl, rfl, rfl, by simp⟩

theorem run_sound (r : Re) (st e : St) (h : e ∈ r.run st) : ∃ m, Consumes st e m := by
  induction r generalizing st e with
  | eps =>
    simp only [Re.run, List.mem_singleton] at h
    subst h
    exact ⟨[], rfl, rfl⟩
  | cls p =>
    simp only [Re.run] at h
    split at h
    · rename_i c t hr
      split at h
      · simp only [List.mem_singleton] at h
        subst h
        exact ⟨[c], by simp [hr], by simp [lastOr]⟩
      · simp at h
    · simp at h
  | bnd =>
    simp only [Re.run] at h
    split at h
    · simp only [List.mem_singleton] at h
      subst h
      exact ⟨[], rfl, rfl⟩
    · simp at h
  | eot =>
    simp only [Re.run] at h
    split at h
    · simp only [List.mem_singleton] at h
      subst h
      exact ⟨[], rfl, rfl⟩
    · simp at h
  | cat a b iha ihb =>
    simp only [Re.run, List.mem_flatMap] at h
    obtain ⟨mid, h1, h2⟩ := h
    obtain ⟨m1, ha1, ha2⟩ := iha _ _ h1
    obtain ⟨m2, hb1, hb2⟩ := ihb _ _ h2
    exact ⟨m1 ++ m2, by rw [ha1, hb1, List.append_assoc], by rw [hb2, ha2, lastOr_append]⟩
  | alt a b iha ihb =>
    simp only [Re.run] at h
    rcases List.mem_append.mp h with h | h
    · exact iha _ _ h
    · exact ihb _ _ h
  | star p =>
    simp only [Re.run] at h
    obtain ⟨m, h1, h2, _, _⟩ := runStar_sound _ _ _ _ _ h
    exact ⟨m, h1, h2⟩
  | lazy p =>
    simp only [Re.run] at h
    obtain ⟨m, h1, h2, _, _⟩ := runLazy_sound _ _ _ _ _ h
    exact ⟨m, h1, h2⟩
  | grp r ih =>
    simp only [Re.run, List.mem_map] at h
    obtain ⟨e', h1, h2⟩ := h
    obtain ⟨m, hm1, hm2⟩ := ih _ _ h1
    subst h2
    exact ⟨m, hm1, hm2⟩

theorem matchAt_sound (r : Re) (prev : Option Char) (s : Str) (e : St)
    (h : matchAt r prev s = some e) :
    ∃ m, s = m ++ e.rest ∧ e.prev = lastOr prev m ∧ s.take (s.length - e.rest.length) = m := by
  unfold matchAt at h
  have hmem : e ∈ r.run ⟨prev, s, []⟩ := List.mem_of_mem_head? h
  obtain ⟨m, h1, h2⟩ := run_sound r _ _ hmem
  simp only at h1 h2
  refine ⟨m, h1, h2, ?_⟩
  rw [h1]
  simp

/-! ## Locating matches -/

theorem findFrom_some (r : Re) (prev : Option Char) (s : Str) (f : Found)
    (h : findFrom r prev s = some f) :
    s = f.before ++ (f.matched ++ f.after) ∧
    f.prevAfter = lastOr (lastOr prev f.before) f.matched ∧
    ∃ e, matchAt r (lastOr prev f.before) (f.matched ++ f.after) = some e ∧
      e.rest = f.after ∧ e.caps = f.caps := by
  induction s generalizing prev f with
  | nil =>
    simp only [findFrom] at h
    split at h
    · rename_i e he
      simp only [Option.some.injEq] at h
      subst h
      obtain ⟨m, h1, h2, _⟩ := matchAt_sound _ _ _ _ he
      have hm : m = [] := by
        have := congrArg List.length h1
        simp at this
        exact List.eq_nil_of_length_eq_zero (by omega)
      subst hm
      have hr : e.rest = [] := by simpa using h1.symm
      refine ⟨by simp [hr], by simpa [lastOr_nil] using h2, e, ?_, rfl, rfl⟩
      simpa [lastOr_nil, hr] using he
    · simp at h
  | cons c t ih =>
    simp only [findFrom] at h
    split at h
    · rename_i e he
      simp only [Option.some.injEq] at h
      subst h
      obtain ⟨m, h1, h2, h3⟩ := matchAt_sound _ _ _ _ he
      simp only [lastOr_nil, List.nil_append]
      rw [h3]
      exact ⟨h1, h2, e, by rw [← h1]; exact he, rfl, rfl⟩
    · split at h
      · rename_i f' hf'
        simp only [Option.some.injEq] at h
        subst h
        obtain ⟨h1, h2, e, h3, h4, h5⟩ := ih _ _ hf'
        refine ⟨by simp [h1], ?_, e, ?_, h4, h5⟩
        · simpa [lastOr_cons] using h2
        · simpa [lastOr_cons] using h3
      · simp at h

theorem allPositions_here (P : Option Char → Str → Bool) (prev : Option Char) (s : Str)
    (h : allPositions P prev s = true) : P prev s = true := by
  cases s with
  | nil => simpa [allPositions] using h
  | cons c t =>
    simp only [allPositions, Bool.and_eq_true] at h
    exact h.1

theorem allPositions_append (P : Option Char → Str → Bool) (prev : Option Char) (a b : Str)
    (h : allPositions P prev (a ++ b) = true) : allPositions P (lastOr prev a) b = true := by
  induction a generalizing prev with
  | nil => simpa [lastOr_nil] using h
  | cons c a ih =>
    simp only [List.cons_append, allPositions, Bool.and_eq_true] at h
    simpa [lastOr_cons] using ih _ h.2

/-- The text rebuilt from a scan: every skipped text followed by what stands for
its match, then the rest. -/
theorem scanAll_rebuild (r : Re) (fuel : Nat) (prev : Option Char) (s : Str) :
    ((scanAll r fuel prev s).1.map fun bm => bm.1 ++ bm.2).flatten ++ (scanAll r fuel prev s).2
      = s := by
  induction fuel generalizing prev s with
  | zero => simp [scanAll]
  | succ n ih =>
    simp only [scanAll]
    split
    · simp
    · rename_i f hf
      split
      · simp
      · obtain ⟨h1, _, _⟩ := findFrom_some _ _ _ _ hf
        simp only [List.map_cons, List.flatten_cons, List.append_assoc]
        rw [ih]
        exact h1.symm

theorem scanAll_stable (r : Re) (repl : Str) (fuel : Nat) (prev : Option Char) (s : Str)
    (h : allPositions (matchStable r repl) prev s = true) :
    ((scanAll r fuel prev s).1.map fun bm => bm.1 ++ repl).flatten ++ (scanAll r fuel prev s).2
      = s := by
  induction fuel generalizing prev s with
  | zero => simp [scanAll]
  | succ n ih =>
    simp only [scanAll]
    split
    · simp
    · rename_i f hf
      split
      · simp
      · obtain ⟨h1, h2, e, h3, h4, _⟩ := findFrom_some _ _ _ _ hf
        simp only [List.map_cons, List.flatten_cons, List.append_assoc]
        rw [h1] at h
        have hs := allPositions_append _ _ _ _ h
        have hhere := allPositions_here _ _ _ hs
        simp only [matchStable, h3, h4] at hhere
        have hm : f.matched = repl := by
          have : List.take ((f.matched ++ f.after).length - f.after.length) (f.matched ++ f.after)
              = f.matched := by simp
          rw [this] at hhere
          simpa using hhere
        have hs2 := allPositions_append _ _ _ _ hs
        rw [← h2] at hs2
        rw [ih _ _ hs2, ← hm]
        exact h1.symm

theorem ReplaceAllString_stable (r : Re) (repl s : Str)
    (h : allPositions (matchStable r repl) none s = true) : ReplaceAllString r s repl = s := by
  unfold ReplaceAllString
  exact scanAll_stable r repl _ none s h

/-! ## Runes -/

theorem toNat_inj (c d : Char) (h : c.toNat = d.toNat) : c = d := by
  rw [← Char.ofNat_toNat c, ← Char.ofNat_toNat d, h]

theorem toNat_ofNat_small (n : Nat) (h : n < 0xd800) : (Char.ofNat n).toNat = n := by
  have hv : n.isValidChar := Or.inl h
  simp only [Char.ofNat, dif_pos hv]
  rfl

theorem toNat_asciiUpper (c : Char) :
    (asciiUpper c).toNat = if 97 ≤ c.toNat ∧ c.toNat ≤ 122 then c.toNat - 32 else c.toNat := by
  unfold asciiUpper
  by_cases h : 97 ≤ c.toNat ∧ c.toNat ≤ 122
  · have : (97 ≤ c.toNat && c.toNat ≤ 122) = true := by simpa using h
    rw [if_pos this, if_pos h]
    exact toNat_ofNat_small _ (by omega)
  · have : ¬ ((97 ≤ c.toNat && c.toNat ≤ 122) = true) := by simpa using h
    rw [if_neg this, if_neg h]

theorem toNat_asciiLower (c : Char) :
    (asciiLower c).toNat = if 65 ≤ c.toNat ∧ c.toNat ≤ 90 then c.toNat + 32 else c.toNat := by
  unfold asciiLower
  by_cases h : 65 ≤ c.toNat ∧ c.toNat ≤ 90
  · have : (65 ≤ c.toNat && c.toNat ≤ 90) = true := by simpa using h
    rw [if_pos this, if_pos h]
    exact toNat_ofNat_small _ (by omega)
  · have : ¬ ((65 ≤ c.toNat && c.toNat ≤ 90) = true) := by simpa using h
    rw [if_neg this, if_neg h]

theorem toNat_toUpperRune (c : Char) :
    (toUpperRune c).toNat =
      if c.toNat = 0x131 then 73 else if c.toNat = 0x17f then 83
      else if 97 ≤ c.toNat ∧ c.toNat ≤ 122 then c.toNat - 32 else c.toNat := by
  unfold toUpperRune
  by_cases h1 : c = '\u0131'
  · subst h1; rfl
  · have h1' : c.toNat ≠ 0x131 := fun e => h1 (toNat_inj _ _ e)
    have hb1 : ¬ ((c == '\u0131') = true) := by simpa using h1
    rw [if_neg hb1, if_neg h1']
    by_cases h2 : c = '\u017f'
    · subst h2; rfl
    · have h2' : c.toNat ≠ 0x17f := fun e => h2 (toNat_inj _ _ e)
      have hb2 : ¬ ((c == '\u017f') = true) := by simpa using h2
      rw [if_neg hb2, if_neg h2']
      exact toNat_asciiUpper c

theorem toUpperRune_ne_newline (c : Char) (h : c ≠ '\n') : toUpperRune c ≠ '\n' := by
  intro e
  have h1 := congrArg Char.toNat e
  rw [toNat_toUpperRune] at h1
  have h2 : c.toNat ≠ 10 := fun e' => h (toNat_inj _ _ e')
  have h3 : ('\n' : Char).toNat = 10 := rfl
  rw [h3] at h1
  split at h1
  · omega
  · split at h1
    · omega
    · split at h1 <;> omega

theorem toLowerRune_ne_newline (c : Char) (h : c ≠ '\n') : toLowerRune c ≠ '\n' := by
  intro e
  have h1 := congrArg Char.toNat e
  unfold toLowerRune at h1
  rw [toNat_asciiLower] at h1
  have h2 : c.toNat ≠ 10 := fun e' => h (toNat_inj _ _ e')
  have h3 : ('\n' : Char).toNat = 10 := rfl
  rw [h3] at h1
  split at h1 <;> omega

theorem newline_not_mem_keyword (f : Formatter) (w : Str) (h : '\n' ∉ w) :
    '\n' ∉ keyword f w := by
  unfold keyword ToUpper ToLower
  split
  · intro hm
    obtain ⟨c, hc, e⟩ := List.mem_map.mp hm
    exact toUpperRune_ne_newline c (fun e' => h (e' ▸ hc)) e
  · intro hm
    obtain ⟨c, hc, e⟩ := List.mem_map.mp hm
    exact toLowerRune_ne_newline c (fun e' => h (e' ▸ hc)) e

/-! ## The FROM clause -/

theorem joinLines_eq (l : Str) (ls : List Str) :
    joinLines (l :: ls) = l ++ (ls.map fun x => '\n' :: x).flatten := by
  induction ls generalizing l with
  | nil => simp [joinLines]
  | cons a as ih =>
    rw [joinLines_cons _ _ (by simp), ih]
    simp

theorem interleave_split (L : List (Str × Str)) (t p0 : Str) (parts : List Str)
    (h : L.map Prod.fst ++ [t] = p0 :: parts) :
    parts.length = L.length ∧
    p0 ++ (List.zipWith (fun j p => j ++ p) (L.map Prod.snd) parts).flatten
      = (L.map fun bm => bm.1 ++ bm.2).flatten ++ t := by
  induction L generalizing p0 parts with
  | nil =>
    simp only [List.map_nil, List.nil_append, List.cons.injEq] at h
    obtain ⟨h1, h2⟩ := h
    subst h1 h2
    simp
  | cons bm L ih =>
    simp only [List.map_cons, List.cons_append, List.cons.injEq] at h
    obtain ⟨h1, h2⟩ := h
    subst h1
    cases parts with
    | nil => simp at h2
    | cons p1 parts' =>
      obtain ⟨ih1, ih2⟩ := ih p1 parts' h2
      refine ⟨by simp [ih1], ?_⟩
      simp only [List.map_cons, List.zipWith_cons_cons, List.flatten_cons, List.append_assoc]
      rw [ih2]

theorem formatJoins_eq (f : Formatter) (indent : Str) (hi : getIndent f 1 = some indent)
    (joins parts : List Str) (hl : parts.length = joins.length) :
    formatJoins f joins parts = some
      ((List.zipWith (fun j p => indent ++ keyword f j ++ " ".toList ++ TrimSpace p) joins
        parts).map fun x => '\n' :: x).flatten := by
  induction joins generalizing parts with
  | nil => simp [formatJoins]
  | cons j js ih =>
    cases parts with
    | nil => simp at hl
    | cons p ps =>
      have := ih ps (by simpa using hl)
      simp [formatJoins, hi, this]

/-- The lines of `formatFromClause` in terms of the split of the text by `joinRe`. -/
theorem fromClause_by_split (f : Formatter) (s : Str) (h : 0 ≤ f.IndentSize)
    (hs : '\n' ∉ s) :
    ∃ indent p0 parts out lines,
      getIndent f 1 = some indent ∧ Split joinRe s = p0 :: parts ∧
      parts.length = (FindAllString joinRe s).length ∧
      p0 ++ (List.zipWith (fun j p => j ++ p) (FindAllString joinRe s) parts).flatten = s ∧
      formatFromClause f s = some out ∧ out = joinLines lines ∧
      lines = TrimSpace p0 :: List.zipWith
        (fun j p => indent ++ keyword f j ++ " ".toList ++ TrimSpace p)
        (FindAllString joinRe s) parts ∧
      lines.length = (FindAllString joinRe s).length + 1 ∧
      ∀ l ∈ lines, '\n' ∉ l := by
  have hi := getIndent_of_nonneg f h
  obtain ⟨p0, parts, hsp⟩ : ∃ p0 parts, Split joinRe s = p0 :: parts := by
    cases hsp : Split joinRe s with
    | nil => simp [Split] at hsp
    | cons a b => exact ⟨a, b, rfl⟩
  have hsp' := hsp
  unfold Split at hsp'
  obtain ⟨hlen, hrec⟩ := interleave_split _ _ _ _ hsp'
  rw [scanAll_rebuild] at hrec
  have hlen' : parts.length = (FindAllString joinRe s).length := by
    simp [FindAllString, hlen]
  have hrec' : p0 ++ (List.zipWith (fun j p => j ++ p) (FindAllString joinRe s) parts).flatten
      = s := hrec
  refine ⟨_, p0, parts, _, _, hi, hsp, hlen', hrec', ?_, rfl, rfl, ?_, ?_⟩
  · unfold formatFromClause
    rw [hsp]
    simp only [formatJoins_eq f _ hi _ _ hlen', Option.bind_eq_bind, Option.some_bind,
      Option.pure_def, joinLines_eq]
  · simp [hlen']
  · intro l hl hc
    have hsub : ∀ c, (c ∈ p0 ∨ ∃ x ∈ List.zipWith (fun j p => j ++ p) (FindAllString joinRe s)
        parts, c ∈ x) → c ∈ s := by
      intro c hc
      rw [← hrec']
      rcases hc with hc | ⟨x, hx, hc⟩
      · exact List.mem_append_left _ hc
      · exact List.mem_append_right _ (List.mem_flatten.mpr ⟨x, hx, hc⟩)
    rcases List.mem_cons.mp hl with hl | hl
    · subst hl
      exact hs (hsub _ (Or.inl (mem_TrimSpace _ _ hc)))
    · obtain ⟨i, hi1, hi2⟩ := List.mem_iff_getElem.mp hl
      simp only [List.getElem_zipWith] at hi2
      simp only [List.length_zipWith] at hi1
      have hj : i < (FindAllString joinRe s).length := by omega
      have hp : i < parts.length := by omega
      have hx : (FindAllString joinRe s)[i] ++ parts[i] ∈
          List.zipWith (fun j p => j ++ p) (FindAllString joinRe s) parts := by
        apply List.mem_iff_getElem.mpr
        exact ⟨i, by simp; omega, by simp⟩
      subst hi2
      simp only [List.mem_append] at hc
      rcases hc with ((hc | hc) | hc) | hc
      · exact absurd (List.eq_of_mem_replicate hc) (by decide)
      · refine newline_not_mem_keyword f _ ?_ hc
        intro hn
        exact hs (hsub _ (Or.inr ⟨_, hx, List.mem_append_left _ hn⟩))
      · simp at hc
      · exact hs (hsub _ (Or.inr ⟨_, hx, List.mem_append_right _ (mem_TrimSpace _ _ hc)⟩))

/-! ## Keyword patterns -/

theorem Re.seq_cons_run (r : Re) (rs : List Re) (st : St) :
    (Re.seq (r :: rs)).run st = (r.run st).flatMap (Re.seq rs).run := by
  cases rs with
  | nil => simp [Re.seq, Re.run]
  | cons a as => simp [Re.seq, Re.run]

theorem lit_sound (w : Str) (st e : St) (h : e ∈ (Re.lit w).run st) :
    ∃ m, st.rest = m ++ e.rest ∧ List.Forall₂ (fun c x => foldEq c x = true) w m := by
  induction w generalizing st with
  | nil =>
    simp only [Re.lit, List.map_nil, Re.seq, Re.run, List.mem_singleton] at h
    subst h
    exact ⟨[], rfl, List.Forall₂.nil⟩
  | cons c w ih =>
    simp only [Re.lit, List.map_cons] at h
    rw [Re.seq_cons_run] at h
    obtain ⟨mid, h1, h2⟩ := List.mem_flatMap.mp h
    simp only [Re.run] at h1
    split at h1
    · rename_i x t hx
      split at h1
      · rename_i hp
        simp only [List.mem_singleton] at h1
        subst h1
        obtain ⟨m, hm1, hm2⟩ := ih _ h2
        simp only at hm1
        exact ⟨x :: m, by simp [hx, hm1], List.Forall₂.cons hp hm2⟩
      · simp at h1
    · simp at h1

theorem keywordRe_sound (w : String) (prev : Option Char) (s : Str) (e : St)
    (h : matchAt (keywordRe w) prev s = some e) :
    List.Forall₂ (fun c x => foldEq c x = true) w.toList (s.take (s.length - e.rest.length)) := by
  have hmem : e ∈ (keywordRe w).run ⟨prev, s, []⟩ := List.mem_of_mem_head? h
  unfold keywordRe at hmem
  rw [Re.seq_cons_run] at hmem
  obtain ⟨m1, h1, h2⟩ := List.mem_flatMap.mp hmem
  rw [Re.seq_cons_run] at h2
  obtain ⟨m2, h3, h4⟩ := List.mem_flatMap.mp h2
  simp only [Re.run] at h1
  split at h1
  · simp only [List.mem_singleton] at h1
    subst h1
    obtain ⟨m, hm1, hm2⟩ := lit_sound _ _ _ h3
    simp only [Re.seq, Re.run] at h4
    split at h4
    · simp only [List.mem_singleton] at h4
      subst h4
      simp only at hm1
      rw [hm1]
      simpa using hm2
    · simp at h4
  · simp at h1

theorem scanAll_map (φ : Char → Char) (r : Re) (repl : Str)
    (hM : ∀ prev s e, matchAt r prev s = some e →
      (s.take (s.length - e.rest.length)).map φ = repl.map φ)
    (fuel : Nat) (prev : Option Char) (s : Str) :
    (((scanAll r fuel prev s).1.map fun bm => bm.1 ++ repl).flatten
      ++ (scanAll r fuel prev s).2).map φ = s.map φ := by
  induction fuel generalizing prev s with
  | zero => simp [scanAll]
  | succ n ih =>
    simp only [scanAll]
    split
    · simp
    · rename_i f hf
      split
      · simp
      · obtain ⟨h1, h2, e, h3, h4, _⟩ := findFrom_some _ _ _ _ hf
        have hm := hM _ _ _ h3
        rw [h4] at hm
        simp only [List.length_append, Nat.add_sub_cancel, List.take_left'] at hm
        have := ih f.prevAfter f.after
        simp only [List.map_cons, List.flatten_cons, List.append_assoc, List.map_append] at this ⊢
        rw [this, ← hm]
        conv_rhs => rw [h1]
        simp

theorem ReplaceAllString_map (φ : Char → Char) (r : Re) (repl : Str)
    (hM : ∀ prev s e, matchAt r prev s = some e →
      (s.take (s.length - e.rest.length)).map φ = repl.map φ) (s : Str) :
    (ReplaceAllString r s repl).map φ = s.map φ := by
  unfold ReplaceAllString
  exact scanAll_map φ r repl hM _ none s

theorem toUpperRune_idem (c : Char) : toUpperRune (toUpperRune c) = toUpperRune c := by
  apply toNat_inj
  rw [toNat_toUpperRune (toUpperRune c), toNat_toUpperRune c]
  split_ifs <;> omega

theorem toUpperRune_toLowerRune (c : Char) : toUpperRune (toLowerRune c) = toUpperRune c := by
  apply toNat_inj
  rw [toNat_toUpperRune (toLowerRune c), toNat_toUpperRune c]
  unfold toLowerRune
  rw [toNat_asciiLower]
  split_ifs <;> omega

theorem ToUpper_keyword (f : Formatter) (w : Str) : ToUpper (keyword f w) = ToUpper w := by
  unfold keyword ToUpper ToLower
  split
  · simp [toUpperRune_idem]
  · simp [toUpperRune_toLowerRune]

theorem toUpperRune_of_foldEq (c x : Char) (hc : plainFold c = true) (h : foldEq c x = true) :
    toUpperRune x = toUpperRune c := by
  have hk : c.toNat ≠ 107 ∧ c.toNat ≠ 75 := by
    simp only [plainFold, Bool.and_eq_true, bne_iff_ne, ne_eq] at hc
    exact ⟨fun e => hc.1 (toNat_inj _ _ e), fun e => hc.2 (toNat_inj _ _ e)⟩
  simp only [foldEq, Bool.or_eq_true, Bool.and_eq_true, beq_iff_eq] at h
  apply toNat_inj
  rw [toNat_toUpperRune x, toNat_toUpperRune c]
  rcases h with (h | ⟨h1, h2⟩) | ⟨h1, h2⟩
  · have h' := congrArg Char.toNat h
    rw [toNat_asciiLower, toNat_asciiLower] at h'
    split_ifs at h' ⊢ <;> omega
  · have h' := congrArg Char.toNat h1
    rw [toNat_asciiLower] at h'
    have hs : ('s' : Char).toNat = 115 := rfl
    have hx : x.toNat = 0x17f := by subst h2; rfl
    rw [hs] at h'
    split_ifs at h' ⊢ <;> omega
  · have h' := congrArg Char.toNat h1
    rw [toNat_asciiLower] at h'
    have hs : ('k' : Char).toNat = 107 := rfl
    rw [hs] at h'
    split_ifs at h' <;> omega

theorem ToUpper_of_forall₂_foldEq (w m : Str) (hw : ∀ c ∈ w, plainFold c = true)
    (h : List.Forall₂ (fun c x => foldEq c x = true) w m) : ToUpper m = ToUpper w := by
  induction h with
  | nil => rfl
  | cons hcx _ ih =>
    simp only [ToUpper, List.map_cons, List.cons.injEq] at ih ⊢
    exact ⟨toUpperRune_of_foldEq _ _ (hw _ (by simp)) hcx,
      ih (fun c hc => hw c (List.mem_cons_of_mem _ hc))⟩

theorem ToUpper_ReplaceAllString_keyword (f : Formatter) (w : String)
    (hw : ∀ c ∈ w.toList, plainFold c = true) (s : Str) :
    ToUpper (ReplaceAllString (keywordRe w) s (keyword f w.toList)) = ToUpper s := by
  unfold ToUpper
  apply ReplaceAllString_map
  intro prev s e h
  have := ToUpper_of_forall₂_foldEq _ _ hw (keywordRe_sound w prev s e h)
  have h2 := ToUpper_keyword f w.toList
  unfold ToUpper at this h2
  rw [this, h2]

theorem ToUpper_replaceKeywords (f : Formatter) (ws : List String)
    (hws : ∀ w ∈ ws, ∀ c ∈ w.toList, plainFold c = true) (s : Str) :
    ToUpper (replaceKeywords f ws s) = ToUpper s := by
  unfold replaceKeywords
  induction ws generalizing s with
  | nil => rfl
  | cons w ws ih =>
    simp only [List.foldl_cons]
    rw [ih (fun w' hw' => hws w' (List.mem_cons_of_mem _ hw'))]
    exact ToUpper_ReplaceAllString_keyword f w (hws w (by simp)) s

theorem prepassKeywords_plain : ∀ w ∈ prepassKeywords, ∀ c ∈ w.toList, plainFold c = true := by
  decide

theorem fallbackKeywords_plain :
    ∀ w ∈ ["INSERT INTO", "VALUES", "UPDATE", "SET", "DELETE FROM", "WHERE"],
      ∀ c ∈ w.toList, plainFold c = true := by
  decide

/-! ## Whitespace normalisation -/

theorem runStar_head (p : Char → Bool) (caps : List Str) (prev : Option Char) (s : Str) :
    (runStar p caps prev s).head? =
      some ⟨lastOr prev (s.takeWhile p), s.dropWhile p, caps⟩ := by
  induction s generalizing prev with
  | nil => simp [runStar, lastOr_nil]
  | cons c t ih =>
    simp only [runStar]
    by_cases hp : p c = true
    · simp only [hp, if_true, List.takeWhile_cons_of_pos, List.dropWhile_cons_of_pos]
      rw [List.head?_append, ih]
      simp [lastOr_cons]
    · simp [hp, lastOr_nil]

theorem matchAt_ws1_cons (prev : Option Char) (c : Char) (t : Str) :
    matchAt Re.ws1 prev (c :: t) =
      if isReSpace c then
        some ⟨lastOr (some c) (t.takeWhile isReSpace), t.dropWhile isReSpace, []⟩
      else none := by
  unfold matchAt Re.ws1
  simp only [Re.run]
  by_cases hp : isReSpace c = true
  · simp [hp, runStar_head]
  · simp [hp]

theorem matchAt_ws1_nil (prev : Option Char) : matchAt Re.ws1 prev [] = none := by
  simp [matchAt, Re.ws1, Re.run]

theorem findFrom_ws1 (prev : Option Char) (s : Str) :
    findFrom Re.ws1 prev s =
      match s.dropWhile (fun c => !isReSpace c) with
      | [] => none
      | c :: t => some ⟨s.takeWhile (fun c => !isReSpace c), c :: t.takeWhile isReSpace, [],
          lastOr (some c) (t.takeWhile isReSpace), t.dropWhile isReSpace⟩ := by
  induction s generalizing prev with
  | nil => simp [findFrom, matchAt_ws1_nil]
  | cons d s ih =>
    simp only [findFrom, matchAt_ws1_cons]
    by_cases hp : isReSpace d = true
    · simp only [hp, if_true, Bool.not_true, Bool.false_eq_true, not_false_eq_true,
        List.dropWhile_cons_of_neg, List.takeWhile_cons_of_neg]
      have h2 : d :: s = (d :: s.takeWhile isReSpace) ++ s.dropWhile isReSpace := by
        simp [List.takeWhile_append_dropWhile]
      have hlen : (d :: s).length - (s.dropWhile isReSpace).length
          = (d :: s.takeWhile isReSpace).length := by
        have := congrArg List.length h2
        simp only [List.length_append, List.length_cons] at this
        simp only [List.length_cons]
        omega
      have htake : List.take ((d :: s).length - (s.dropWhile isReSpace).length) (d :: s)
          = d :: s.takeWhile isReSpace := by
        rw [hlen]
        conv_lhs => rw [h2]
        exact List.take_left' rfl
      rw [htake]
    · have hp' : isReSpace d = false := by simpa using hp
      simp only [hp', Bool.false_eq_true, if_false, Bool.not_false, List.dropWhile_cons_of_pos,
        List.takeWhile_cons_of_pos]
      rw [ih]
      cases hd : s.dropWhile (fun c => !isReSpace c) <;> simp

theorem collapseWs_true (s : Str) :
    collapseWs true s = collapseWs false (s.dropWhile isReSpace) := by
  induction s with
  | nil => rfl
  | cons c t ih =>
    by_cases hp : isReSpace c = true
    · simp [collapseWs, hp, ih]
    · simp [collapseWs, hp]

theorem collapseWs_of_no_space (b : Bool) (s : Str) (h : ∀ c ∈ s, isReSpace c = false) :
    collapseWs b s = s := by
  induction s generalizing b with
  | nil => rfl
  | cons c t ih =>
    have hc := h c (by simp)
    simp only [collapseWs, hc, Bool.false_eq_true, if_false]
    rw [ih _ (fun x hx => h x (List.mem_cons_of_mem _ hx))]

theorem collapseWs_append_of_no_space (b : Bool) (a s : Str)
    (h : ∀ c ∈ a, isReSpace c = false) :
    collapseWs b (a ++ s) = a ++ collapseWs (if a = [] then b else false) s := by
  induction a generalizing b with
  | nil => simp
  | cons c t ih =>
    have hc := h c (by simp)
    simp only [List.cons_append, collapseWs, hc, Bool.false_eq_true, if_false, List.append_eq]
    rw [ih _ (fun x hx => h x (List.mem_cons_of_mem _ hx))]
    by_cases ht : t = [] <;> simp [ht]

theorem scanAll_ws1 (fuel : Nat) (prev : Option Char) (s : Str) (hf : s.length < fuel) :
    ((scanAll Re.ws1 fuel prev s).1.map fun bm => bm.1 ++ [' ']).flatten
      ++ (scanAll Re.ws1 fuel prev s).2 = collapseWs false s := by
  induction fuel generalizing prev s with
  | zero => omega
  | succ n ih =>
    simp only [scanAll, findFrom_ws1]
    have hsplit : s = s.takeWhile (fun c => !isReSpace c) ++ s.dropWhile (fun c => !isReSpace c) :=
      (List.takeWhile_append_dropWhile _ _).symm
    have hpre : ∀ c ∈ s.takeWhile (fun c => !isReSpace c), isReSpace c = false := by
      intro c hc
      simpa using List.mem_takeWhile_imp hc
    rcases hd : s.dropWhile (fun c => !isReSpace c) with _ | ⟨c, t⟩
    · simp only [List.map_nil, List.flatten_nil, List.nil_append]
      rw [hd, List.append_nil] at hsplit
      rw [collapseWs_of_no_space]
      rw [hsplit]
      exact hpre
    · simp only [List.isEmpty_cons, Bool.false_eq_true, if_false, List.map_cons,
        List.flatten_cons, List.append_assoc]
      have hc : isReSpace c = true := by
        have := List.head_dropWhile_not (fun c => !isReSpace c) s (by simp [hd])
        simpa [hd] using this
      have hlen : (t.dropWhile isReSpace).length < n := by
        have h1 := congrArg List.length hsplit
        rw [hd] at h1
        simp only [List.length_append, List.length_cons] at h1
        have h2 : (t.dropWhile isReSpace).length ≤ t.length :=
          (List.dropWhile_sublist _).length_le
        omega
      rw [ih _ _ hlen]
      conv_rhs => rw [hsplit, hd]
      rw [collapseWs_append_of_no_space _ _ _ hpre]
      simp only [collapseWs, hc, if_true]
      rw [collapseWs_true]
      split <;> simp

theorem ReplaceAllString_ws1 (s : Str) :
    ReplaceAllString Re.ws1 s " ".toList = collapseWs false s := by
  unfold ReplaceAllString
  exact scanAll_ws1 _ none s (by omega)

theorem cleanSQL_eq (s : Str) : cleanSQL s = TrimSpace (collapseWs false s) := by
  unfold cleanSQL
  rw [ReplaceAllString_ws1]

theorem mem_collapseWs (b : Bool) (s : Str) (c : Char) (h : c ∈ collapseWs b s) :
    c = ' ' ∨ (c ∈ s ∧ isReSpace c = false) := by
  induction s generalizing b with
  | nil => simp [collapseWs] at h
  | cons d t ih =>
    simp only [collapseWs] at h
    split at h
    · split at h
      · rcases ih _ h with h' | h'
        · exact Or.inl h'
        · exact Or.inr ⟨List.mem_cons_of_mem _ h'.1, h'.2⟩
      · rcases List.mem_cons.mp h with h' | h'
        · exact Or.inl h'
        · rcases ih _ h' with h'' | h''
          · exact Or.inl h''
          · exact Or.inr ⟨List.mem_cons_of_mem _ h''.1, h''.2⟩
    · rename_i hd
      rcases List.mem_cons.mp h with h' | h'
      · subst h'
        exact Or.inr ⟨by simp, by simpa using hd⟩
      · rcases ih _ h' with h'' | h''
        · exact Or.inl h''
        · exact Or.inr ⟨List.mem_cons_of_mem _ h''.1, h''.2⟩

theorem newline_not_mem_cleanSQL (s : Str) : '\n' ∉ cleanSQL s := by
  intro h
  rw [cleanSQL_eq] at h
  rcases mem_collapseWs _ _ _ (mem_TrimSpace _ _ h) with h' | h'
  · exact absurd h' (by decide)
  · exact absurd h'.2 (by decide)

theorem char_eq_iff (c d : Char) : c = d ↔ c.toNat = d.toNat :=
  ⟨fun h => by rw [h], toNat_inj c d⟩

theorem isSpace_iff (c : Char) : isSpace c = true ↔
    (c.toNat = 32 ∨ (9 ≤ c.toNat ∧ c.toNat ≤ 13) ∨ c.toNat = 0x85 ∨ c.toNat = 0xa0 ∨
      c.toNat = 0x1680 ∨ (0x2000 ≤ c.toNat ∧ c.toNat ≤ 0x200a) ∨ c.toNat = 0x2028 ∨
      c.toNat = 0x2029 ∨ c.toNat = 0x202f ∨ c.toNat = 0x205f ∨ c.toNat = 0x3000) := by
  simp only [isSpace, Bool.or_eq_true, beq_iff_eq, Bool.and_eq_true, decide_eq_true_eq,
    char_eq_iff]
  simp only [Char.reduceToNat]
  omega

theorem isSpace_toUpperRune (c : Char) : isSpace (toUpperRune c) = isSpace c := by
  rw [Bool.eq_iff_iff, isSpace_iff, isSpace_iff, toNat_toUpperRune]
  split_ifs <;> omega

theorem TrimSpace_map (φ : Char → Char) (hφ : ∀ c, isSpace (φ c) = isSpace c) (s : Str) :
    TrimSpace (s.map φ) = (TrimSpace s).map φ := by
  have hc : (isSpace ∘ φ) = isSpace := funext hφ
  unfold TrimSpace trimLeft
  rw [List.dropWhile_map, hc, ← List.map_reverse, List.dropWhile_map, hc, ← List.map_reverse]

theorem TrimSpace_ToUpper (s : Str) : TrimSpace (ToUpper s) = ToUpper (TrimSpace s) :=
  TrimSpace_map toUpperRune isSpace_toUpperRune s

theorem dropWhile_idem (p : Char → Bool) (s : Str) :
    (s.dropWhile p).dropWhile p = s.dropWhile p := by
  induction s with
  | nil => rfl
  | cons c t ih =>
    by_cases h : p c = true
    · simp [h, ih]
    · simp [h]

theorem dropWhile_reverse_dropWhile (p : Char → Bool) (s : Str) :
    ((s.dropWhile p).reverse.dropWhile p).reverse.dropWhile p
      = ((s.dropWhile p).reverse.dropWhile p).reverse := by
  rcases hs : s.dropWhile p with _ | ⟨c, t⟩
  · simp
  · have hc : p c = false := by
      have := List.head_dropWhile_not p s (by simp [hs])
      simpa [hs] using this
    have hne : (List.dropWhile p (c :: t).reverse) ≠ [] := by
      rw [Ne, List.dropWhile_eq_nil_iff]
      intro h
      have := h c (by simp)
      simp [hc] at this
    obtain ⟨m, hm⟩ : ∃ m, (List.dropWhile p (c :: t).reverse).reverse = c :: m := by
      have hsuf : List.dropWhile p (c :: t).reverse <:+ (c :: t).reverse :=
        List.dropWhile_suffix p
      have hpre : (List.dropWhile p (c :: t).reverse).reverse <+: (c :: t) := by
        have := List.reverse_prefix.mpr hsuf
        simpa using this
      obtain ⟨z, hz⟩ := hpre
      rcases hd : (List.dropWhile p (c :: t).reverse).reverse with _ | ⟨d, m⟩
      · exact absurd (List.reverse_eq_nil_iff.mp hd) hne
      · rw [hd] at hz
        simp only [List.cons_append, List.cons.injEq] at hz
        exact ⟨m, by rw [hz.1]⟩
    rw [hm]
    simp [hc]

theorem TrimSpace_idem (s : Str) : TrimSpace (TrimSpace s) = TrimSpace s := by
  have h1 : (TrimSpace s).dropWhile isSpace = TrimSpace s := dropWhile_reverse_dropWhile _ s
  have h2 : (TrimSpace s).reverse.dropWhile isSpace = (TrimSpace s).reverse := by
    unfold TrimSpace trimLeft
    rw [List.reverse_reverse, dropWhile_idem]
  show ((List.dropWhile isSpace (TrimSpace s)).reverse.dropWhile isSpace).reverse = TrimSpace s
  rw [h1, h2, List.reverse_reverse]

theorem TrimSpace_cleanSQL (s : Str) : TrimSpace (cleanSQL s) = cleanSQL s := by
  unfold cleanSQL
  exact TrimSpace_idem _

theorem cleanSQL_eq_nil_of_blank (s : Str) (h : TrimSpace s = []) : cleanSQL s = [] := by
  rw [cleanSQL_eq, TrimSpace_eq_nil_iff]
  intro c hc
  rcases mem_collapseWs _ _ _ hc with h' | h'
  · subst h'; rfl
  · exact (TrimSpace_eq_nil_iff s).mp h c h'.1

/-- The upper-cased statement that `formatSQL` dispatches on is the upper-cased
normalized statement: the keyword pre-pass changes letter case only. -/
theorem sqlUpper_eq (f : Formatter) (s : Str) :
    ToUpper (TrimSpace (replaceKeywords f prepassKeywords (cleanSQL s))) = ToUpper (cleanSQL s) := by
  rw [← TrimSpace_ToUpper, ToUpper_replaceKeywords f _ prepassKeywords_plain, TrimSpace_ToUpper,
    TrimSpace_cleanSQL]

theorem mem_ToUpper_newline (s : Str) (h : '\n' ∈ ToUpper s) : '\n' ∈ s := by
  obtain ⟨c, hc, e⟩ := List.mem_map.mp h
  by_contra hn
  exact toUpperRune_ne_newline c (fun e' => hn (e' ▸ hc)) e

/-! ## Following the preferred path of a pattern -/

theorem head?_flatMap_of_head {α β : Type} (l : List α) (g : α → List β) (x : α) (y : β)
    (h1 : l.head? = some x) (h2 : (g x).head? = some y) : (l.flatMap g).head? = some y := by
  cases l with
  | nil => simp at h1
  | cons a as =>
    simp only [List.head?_cons, Option.some.injEq] at h1
    subst h1
    simp [List.flatMap_cons, List.head?_append, h2]

theorem Steps.seq_cons {r : Re} {rs : List Re} {s s1 s2 : Str} {c c1 c2 : List Str}
    (h1 : Steps r s c s1 c1) (h2 : Steps (Re.seq rs) s1 c1 s2 c2) :
    Steps (Re.seq (r :: rs)) s c s2 c2 := by
  intro prev
  obtain ⟨p1, hp1⟩ := h1 prev
  obtain ⟨p2, hp2⟩ := h2 p1
  exact ⟨p2, by rw [Re.seq_cons_run]; exact head?_flatMap_of_head _ _ _ _ hp1 hp2⟩

theorem Steps.seq_nil (s : Str) (c : List Str) : Steps (Re.seq []) s c s c :=
  fun prev => ⟨prev, rfl⟩

theorem Steps.cat {a b : Re} {s s1 s2 : Str} {c c1 c2 : List Str}
    (h1 : Steps a s c s1 c1) (h2 : Steps b s1 c1 s2 c2) : Steps (Re.cat a b) s c s2 c2 := by
  intro prev
  obtain ⟨p1, hp1⟩ := h1 prev
  obtain ⟨p2, hp2⟩ := h2 p1
  exact ⟨p2, head?_flatMap_of_head _ _ _ _ hp1 hp2⟩

theorem Steps.cls (p : Char → Bool) (x : Char) (t : Str) (c : List Str) (h : p x = true) :
    Steps (Re.cls p) (x :: t) c t c :=
  fun _ => ⟨some x, by simp [Re.run, h]⟩

theorem Steps.chr (x : Char) (t : Str) (c : List Str) : Steps (chr x) (x :: t) c t c :=
  Steps.cls _ x t c (by simp)

theorem Steps.star (p : Char → Bool) (s : Str) (c : List Str) :
    Steps (Re.star p) s c (s.dropWhile p) c :=
  fun prev => ⟨_, by simp only [Re.run]; exact runStar_head p c prev s⟩

theorem dropWhile_append_stop (p : Char → Bool) (a b : Str) (ha : ∀ x ∈ a, p x = true)
    (hb : ∀ x, b.head? = some x → p x = false) : (a ++ b).dropWhile p = b := by
  rw [List.dropWhile_append_of_pos ha]
  cases b with
  | nil => rfl
  | cons x t => simp [hb x rfl]

/-- The greedy `p*` takes a whole run `a` of `p`-runes that ends the text or is
followed by a rune outside `p`. -/
theorem Steps.star_run (p : Char → Bool) (a b : Str) (c : List Str)
    (ha : ∀ x ∈ a, p x = true) (hb : ∀ x, b.head? = some x → p x = false) :
    Steps (Re.star p) (a ++ b) c b c := by
  have := Steps.star p (a ++ b) c
  rwa [dropWhile_append_stop p a b ha hb] at this

theorem Steps.plus_run (p : Char → Bool) (a b : Str) (c : List Str) (hne : a ≠ [])
    (ha : ∀ x ∈ a, p x = true) (hb : ∀ x, b.head? = some x → p x = false) :
    Steps (Re.plus p) (a ++ b) c b c := by
  cases a with
  | nil => exact absurd rfl hne
  | cons x t =>
    exact Steps.cat (Steps.cls p x (t ++ b) c (ha x (by simp)))
      (Steps.star_run p t b c (fun y hy => ha y (List.mem_cons_of_mem _ hy)) hb)

theorem Steps.ws1_space (t : Str) (c : List Str)
    (hb : ∀ x, t.head? = some x → isReSpace x = false) : Steps Re.ws1 (' ' :: t) c t c :=
  Steps.plus_run isReSpace [' '] t c (by simp) (by simp; rfl) hb

theorem Steps.ws0_space (t : Str) (c : List Str)
    (hb : ∀ x, t.head? = some x → isReSpace x = false) : Steps Re.ws0 (' ' :: t) c t c :=
  Steps.star_run isReSpace [' '] t c (by simp; rfl) hb

theorem Steps.grp {r : Re} {a b : Str} {c c1 : List Str} (h : Steps r (a ++ b) c b c1) :
    Steps (Re.grp r) (a ++ b) c b (c1 ++ [a]) := by
  intro prev
  obtain ⟨p1, hp1⟩ := h prev
  refine ⟨p1, ?_⟩
  simp only [Re.run, List.head?_map, hp1, Option.map_some']
  simp

theorem foldEq_self (c : Char) : foldEq c c = true := by
  simp [foldEq]

theorem Steps.lit (w rest : Str) (c : List Str) : Steps (Re.lit w) (w ++ rest) c rest c := by
  induction w with
  | nil => exact fun prev => ⟨prev, rfl⟩
  | cons x w ih =>
    have h : Re.lit (x :: w) = Re.seq (Re.cls (foldEq x) :: w.map fun c => Re.cls (foldEq c)) := rfl
    rw [h]
    exact Steps.seq_cons (Steps.cls _ x (w ++ rest) c (foldEq_self x)) ih

theorem Steps.kw (w : String) (rest : Str) (c : List Str) :
    Steps (kw w) (w.toList ++ rest) c rest c :=
  Steps.lit w.toList rest c

/-! ## The INSERT pattern on a standard statement -/

theorem head?_append_cons (t rest : Str) (ht : t ≠ []) (x : Char)
    (h : (t ++ rest).head? = some x) : x ∈ t := by
  cases t with
  | nil => exact absurd rfl ht
  | cons a as =>
    simp only [List.cons_append, List.head?_cons, Option.some.injEq] at h
    subst h
    simp

theorem insertRe_steps (t cols vals : Str) (ht : t ≠ []) (hts : ∀ c ∈ t, isReSpace c = false)
    (hc : cols ≠ []) (hcp : ')' ∉ cols) (hv : vals ≠ []) (hvp : ')' ∉ vals) (prev : Option Char)
    (hprev : ∀ c, prev = some c → isWordChar c = false) :
    ∃ prev', matchAt insertRe prev
      ("INSERT".toList ++ ' ' :: ("INTO".toList ++ ' ' :: (t ++ ' ' :: '(' :: (cols ++ ')' :: ' ' ::
        ("VALUES".toList ++ ' ' :: '(' :: (vals ++ [')'])))))) =
      some ⟨prev', [], [t, cols, vals]⟩ := by
  have hnp : ∀ (a : Str), ')' ∉ a → ∀ x ∈ a, isNotRParen x = true := by
    intro a ha x hx
    simp only [isNotRParen, bne_iff_ne, ne_eq]
    intro e
    exact ha (e ▸ hx)
  have hns : ∀ x ∈ t, isNotReSpace x = true := by
    intro x hx
    simp [isNotReSpace, hts x hx]
  have hsteps :
      Steps (Re.seq [kw "INSERT", Re.ws1, kw "INTO", Re.ws1, .grp (Re.plus isNotReSpace), Re.ws0,
        chr '(', .grp (Re.plus isNotRParen), chr ')', Re.ws1, kw "VALUES", Re.ws0,
        chr '(', .grp (Re.plus isNotRParen), chr ')'])
      ("INSERT".toList ++ ' ' :: ("INTO".toList ++ ' ' :: (t ++ ' ' :: '(' :: (cols ++ ')' :: ' ' ::
        ("VALUES".toList ++ ' ' :: '(' :: (vals ++ [')'])))))) [] [] [t, cols, vals] := by
    refine Steps.seq_cons (Steps.kw "INSERT" _ _) ?_
    refine Steps.seq_cons (Steps.ws1_space _ _ (by intro x hx; simp at hx; subst hx; rfl)) ?_
    refine Steps.seq_cons (Steps.kw "INTO" _ _) ?_
    refine Steps.seq_cons (Steps.ws1_space _ _
      (fun x hx => hts x (head?_append_cons t _ ht x hx))) ?_
    refine Steps.seq_cons (Steps.grp (Steps.plus_run isNotReSpace t _ _ ht hns
      (by intro x hx; simp at hx; subst hx; rfl))) ?_
    refine Steps.seq_cons (Steps.ws0_space _ _ (by intro x hx; simp at hx; subst hx; rfl)) ?_
    refine Steps.seq_cons (Steps.chr '(' _ _) ?_
    refine Steps.seq_cons (Steps.grp (Steps.plus_run isNotRParen cols _ _ hc (hnp cols hcp)
      (by intro x hx; simp at hx; subst hx; rfl))) ?_
    refine Steps.seq_cons (Steps.chr ')' _ _) ?_
    refine Steps.seq_cons (Steps.ws1_space _ _ (by intro x hx; simp at hx; subst hx; rfl)) ?_
    refine Steps.seq_cons (Steps.kw "VALUES" _ _) ?_
    refine Steps.seq_cons (Steps.ws0_space _ _ (by intro x hx; simp at hx; subst hx; rfl)) ?_
    refine Steps.seq_cons (Steps.chr '(' _ _) ?_
    refine Steps.seq_cons (Steps.grp (Steps.plus_run isNotRParen vals _ _ hv (hnp vals hvp)
      (by intro x hx; simp at hx; subst hx; rfl))) ?_
    exact Steps.seq_cons (Steps.chr ')' _ _) (Steps.seq_nil _ _)
  obtain ⟨p', hp'⟩ := hsteps prev
  refine ⟨p', ?_⟩
  unfold matchAt insertRe
  rw [Re.seq_cons_run]
  have hb : Re.bnd.run ⟨prev, "INSERT".toList ++ ' ' :: ("INTO".toList ++ ' ' :: (t ++ ' ' :: '(' ::
      (cols ++ ')' :: ' ' :: ("VALUES".toList ++ ' ' :: '(' :: (vals ++ [')']))))), []⟩
      = [⟨prev, "INSERT".toList ++ ' ' :: ("INTO".toList ++ ' ' :: (t ++ ' ' :: '(' ::
      (cols ++ ')' :: ' ' :: ("VALUES".toList ++ ' ' :: '(' :: (vals ++ [')']))))), []⟩] := by
    have hat : atBoundary prev ("INSERT".toList ++ ' ' :: ("INTO".toList ++ ' ' :: (t ++ ' ' ::
        '(' :: (cols ++ ')' :: ' ' :: ("VALUES".toList ++ ' ' :: '(' :: (vals ++ [')'])))))) = true := by
      cases prev with
      | none => rfl
      | some c => simp [atBoundary, hprev c rfl]; rfl
    simp only [Re.run, hat, if_true]
  rw [hb]
  simpa using hp'

theorem FindStringSubmatch_insertRe (t cols vals : Str) (ht : t ≠ [])
    (hts : ∀ c ∈ t, isReSpace c = false) (hc : cols ≠ []) (hcp : ')' ∉ cols) (hv : vals ≠ [])
    (hvp : ')' ∉ vals) :
    FindStringSubmatch insertRe (insertStatement t cols vals)
      = some [insertStatement t cols vals, t, cols, vals] := by
  have hS : insertStatement t cols vals =
      "INSERT".toList ++ ' ' :: ("INTO".toList ++ ' ' :: (t ++ ' ' :: '(' :: (cols ++ ')' :: ' ' ::
        ("VALUES".toList ++ ' ' :: '(' :: (vals ++ [')']))))) := by
    simp [insertStatement]
  obtain ⟨p', hp'⟩ := insertRe_steps t cols vals ht hts hc hcp hv hvp none (by simp)
  rw [← hS] at hp'
  have hcons : ∃ x y, insertStatement t cols vals = x :: y := ⟨'I', _, by rw [hS]; rfl⟩
  obtain ⟨x, y, hxy⟩ := hcons
  unfold FindStringSubmatch
  rw [hxy] at hp' ⊢
  simp [findFrom, hp']

/-! ## Statements the normalisation and the pre-pass leave unchanged -/

theorem collapseWs_singleSpaced (s : Str) (h : singleSpaced s = true) :
    collapseWs false s = s := by
  induction s with
  | nil => rfl
  | cons c t ih =>
    cases t with
    | nil =>
      simp only [singleSpaced, Bool.or_eq_true, Bool.not_eq_true', beq_iff_eq] at h
      rcases h with h | h
      · simp [collapseWs, h]
      · subst h
        simp [collapseWs]
    | cons d t' =>
      simp only [singleSpaced, Bool.and_eq_true, Bool.or_eq_true, Bool.not_eq_true',
        beq_iff_eq] at h
      obtain ⟨h1, h2⟩ := h
      have ih' := ih h2
      rcases h1 with h1 | ⟨h1, h3⟩
      · simp only [collapseWs, h1, Bool.false_eq_true, if_false] at ih' ⊢
        rw [ih']
      · subst h1
        have hs : isReSpace ' ' = true := rfl
        simp only [collapseWs, hs, if_true, h3, Bool.false_eq_true, if_false] at ih' ⊢
        rw [List.cons.injEq] at ih'
        rw [ih'.2]

theorem TrimSpace_of_ends (a b : Char) (m : Str) (ha : isSpace a = false)
    (hb : isSpace b = false) : TrimSpace (a :: (m ++ [b])) = a :: (m ++ [b]) := by
  unfold TrimSpace trimLeft
  simp [ha, hb]

theorem TrimSpace_of_no_space (s : Str) (h : ∀ c ∈ s, isSpace c = false) : TrimSpace s = s := by
  unfold TrimSpace trimLeft
  have h1 : s.dropWhile isSpace = s := by
    cases s with
    | nil => rfl
    | cons c t => simp [h c (by simp)]
  rw [h1]
  have h2 : s.reverse.dropWhile isSpace = s.reverse := by
    rcases hr : s.reverse with _ | ⟨c, t⟩
    · rfl
    · have : c ∈ s := by
        have : c ∈ s.reverse := by rw [hr]; simp
        exact List.mem_reverse.mp this
      simp [h c this]
  rw [h2, List.reverse_reverse]

theorem replaceKeywords_of_cased (f : Formatter) (ws : List String) (s : Str)
    (h : keywordsCased f ws s = true) : replaceKeywords f ws s = s := by
  unfold replaceKeywords
  unfold keywordsCased at h
  induction ws with
  | nil => rfl
  | cons w ws ih =>
    simp only [List.all_cons, Bool.and_eq_true] at h
    simp only [List.foldl_cons]
    rw [ReplaceAllString_stable _ _ _ h.1]
    exact ih h.2

/-! ## Lists of plain items -/

theorem TrimSpace_of_trimmed (s : Str) (h : Trimmed s) : TrimSpace s = s := by
  unfold TrimSpace trimLeft
  have h1 : s.dropWhile isSpace = s := by
    cases s with
    | nil => rfl
    | cons c t => simp [h c (Or.inl rfl)]
  rw [h1]
  have h2 : s.reverse.dropWhile isSpace = s.reverse := by
    rcases hr : s.reverse with _ | ⟨c, t⟩
    · rfl
    · have : s.getLast? = some c := by
        rw [← List.head?_reverse, hr]; rfl
      simp [h c (Or.inr this)]
  rw [h2, List.reverse_reverse]

theorem trimmed_of_TrimSpace (s : Str) (h : TrimSpace s = s) : Trimmed s := by
  intro x hx
  rcases hx with hx | hx
  · have h1 : (TrimSpace s).dropWhile isSpace = TrimSpace s := dropWhile_reverse_dropWhile _ s
    rw [h] at h1
    cases s with
    | nil => simp at hx
    | cons c t =>
      simp only [List.head?_cons, Option.some.injEq] at hx
      subst hx
      by_contra hc
      simp only [Bool.not_eq_false] at hc
      simp only [List.dropWhile_cons_of_pos hc] at h1
      have := (List.dropWhile_sublist isSpace (l := t)).length_le
      rw [h1] at this
      simp at this
  · have h2 : (TrimSpace s).reverse.dropWhile isSpace = (TrimSpace s).reverse := by
      unfold TrimSpace trimLeft
      rw [List.reverse_reverse, dropWhile_idem]
    rw [h] at h2
    rw [← List.head?_reverse] at hx
    rcases hr : s.reverse with _ | ⟨c, t⟩
    · simp [hr] at hx
    · rw [hr] at hx h2
      simp only [List.head?_cons, Option.some.injEq] at hx
      subst hx
      by_contra hc
      simp only [Bool.not_eq_false] at hc
      simp only [List.dropWhile_cons_of_pos hc] at h2
      have := (List.dropWhile_sublist isSpace (l := t)).length_le
      rw [h2] at this
      simp at this

theorem plainItem_iff (a : Str) : plainItem a = true ↔
    a ≠ [] ∧ TrimSpace a = a ∧ ∀ c ∈ a, c ≠ ',' ∧ c ≠ '(' ∧ c ≠ ')' := by
  simp only [plainItem, Bool.and_eq_true, Bool.not_eq_true', List.isEmpty_eq_false, beq_iff_eq,
    List.all_eq_true, bne_iff_ne, ne_eq, and_assoc]

theorem splitColumnsAux_cons_plain (c : Char) (t cur : Str) (d : Int)
    (h : c ≠ ',' ∧ c ≠ '(' ∧ c ≠ ')') :
    splitColumnsAux (c :: t) cur d = splitColumnsAux t (cur ++ [c]) d := by
  obtain ⟨h1, h2, h3⟩ := h
  rw [splitColumnsAux]
  simp only [beq_iff_eq, h1, h2, h3, if_false]

theorem splitColumnsAux_comma (t cur : Str) :
    splitColumnsAux (',' :: t) cur 0 = cur :: splitColumnsAux t [] 0 := by
  rw [splitColumnsAux]
  have e1 : ¬ (',' : Char) = '(' := by decide
  have e2 : ¬ (',' : Char) = ')' := by decide
  simp only [beq_iff_eq, e1, e2, if_false, if_true]

theorem splitColumnsAux_nil (cur : Str) (d : Int) (h : cur ≠ []) :
    splitColumnsAux [] cur d = [cur] := by
  rw [splitColumnsAux]
  simp [List.length_pos, h]

theorem splitColumnsAux_append (a rest cur : Str) (d : Int)
    (h : ∀ c ∈ a, c ≠ ',' ∧ c ≠ '(' ∧ c ≠ ')') :
    splitColumnsAux (a ++ rest) cur d = splitColumnsAux rest (cur ++ a) d := by
  induction a generalizing cur with
  | nil => simp
  | cons x a ih =>
    rw [List.cons_append, splitColumnsAux_cons_plain x _ cur d (h x (by simp)),
      ih _ (fun c hc => h c (List.mem_cons_of_mem _ hc))]
    simp

theorem commaSep_cons_cons (a b : Str) (l : List Str) :
    commaSep (a :: b :: l) = a ++ ',' :: ' ' :: commaSep (b :: l) := rfl

theorem splitColumnsAux_commaSep (a : Str) (l : List Str) (cur : Str)
    (h : ∀ x ∈ a :: l, plainItem x = true) :
    splitColumnsAux (commaSep (a :: l)) cur 0 = (cur ++ a) :: l.map fun x => ' ' :: x := by
  induction l generalizing a cur with
  | nil =>
    obtain ⟨h1, _, h3⟩ := (plainItem_iff a).mp (h a (by simp))
    have := splitColumnsAux_append a [] cur 0 h3
    simp only [List.append_nil] at this
    rw [commaSep, this, splitColumnsAux_nil _ _ (by simp [h1])]
    rfl
  | cons b l ih =>
    obtain ⟨_, _, h3⟩ := (plainItem_iff a).mp (h a (by simp))
    have hsp : (' ' : Char) ≠ ',' ∧ (' ' : Char) ≠ '(' ∧ (' ' : Char) ≠ ')' := by decide
    rw [commaSep_cons_cons, splitColumnsAux_append a _ cur 0 h3, splitColumnsAux_comma,
      splitColumnsAux_cons_plain ' ' _ [] 0 hsp,
      ih b _ (fun x hx => h x (List.mem_cons_of_mem _ hx))]
    simp

theorem splitColumns_commaSep (a : Str) (l : List Str) (h : ∀ x ∈ a :: l, plainItem x = true) :
    splitColumns (commaSep (a :: l)) = a :: l.map fun x => ' ' :: x := by
  unfold splitColumns
  simpa using splitColumnsAux_commaSep a l [] h

theorem commaSep_eq (a : Str) (l : List Str) :
    commaSep (a :: l) = a ++ (l.map fun x => ',' :: ' ' :: x).flatten := by
  induction l generalizing a with
  | nil => simp [commaSep]
  | cons b l ih =>
    rw [commaSep_cons_cons, ih b]
    simp

theorem TrimSpace_space_cons (x : Str) : TrimSpace (' ' :: x) = TrimSpace x := by
  unfold TrimSpace trimLeft
  have : isSpace ' ' = true := rfl
  simp [this]

theorem joinTrimmed_commaSep (a : Str) (l : List Str) (h : ∀ x ∈ a :: l, plainItem x = true) :
    joinTrimmed ", ".toList (a :: l.map fun x => ' ' :: x) = commaSep (a :: l) := by
  rw [commaSep_eq]
  simp only [joinTrimmed, List.map_map]
  rw [((plainItem_iff a).mp (h a (by simp))).2.1]
  congr 2
  apply List.map_congr_left
  intro x hx
  simp only [Function.comp, TrimSpace_space_cons]
  rw [((plainItem_iff x).mp (h x (List.mem_cons_of_mem _ hx))).2.1]
  rfl

theorem formatColumnList_commaSep (a : Str) (l : List Str)
    (h : ∀ x ∈ a :: l, plainItem x = true) :
    formatColumnList (commaSep (a :: l)) = commaSep (a :: l) := by
  unfold formatColumnList
  simp only [splitColumns_commaSep a l h]
  split
  · rfl
  · exact joinTrimmed_commaSep a l h

theorem formatValueList_commaSep (a : Str) (l : List Str)
    (h : ∀ x ∈ a :: l, plainItem x = true) :
    formatValueList (commaSep (a :: l)) = commaSep (a :: l) :=
  formatColumnList_commaSep a l h

theorem isSpace_of_isReSpace (c : Char) (h : isReSpace c = true) : isSpace c = true := by
  simp only [isReSpace, Bool.or_eq_true, beq_iff_eq] at h
  rcases h with (((h | h) | h) | h) | h <;> subst h <;> rfl

theorem isReSpace_of_not_isSpace (c : Char) (h : isSpace c = false) : isReSpace c = false := by
  by_contra hc
  simp only [Bool.not_eq_false] at hc
  rw [isSpace_of_isReSpace c hc] at h
  exact Bool.noConfusion h

theorem commaSep_ne_nil (a : Str) (l : List Str) (h : a ≠ []) : commaSep (a :: l) ≠ [] := by
  rw [commaSep_eq]
  simp [h]

theorem mem_commaSep (a : Str) (l : List Str) (c : Char) (h : c ∈ commaSep (a :: l)) :
    c = ',' ∨ c = ' ' ∨ ∃ x ∈ a :: l, c ∈ x := by
  rw [commaSep_eq] at h
  simp only [List.mem_append, List.mem_flatten, List.mem_map] at h
  rcases h with h | ⟨y, ⟨x, hx, rfl⟩, hc⟩
  · exact Or.inr (Or.inr ⟨a, by simp, h⟩)
  · simp only [List.mem_cons] at hc
    rcases hc with hc | hc | hc
    · exact Or.inl hc
    · exact Or.inr (Or.inl hc)
    · exact Or.inr (Or.inr ⟨x, List.mem_cons_of_mem _ hx, hc⟩)

theorem rparen_not_mem_commaSep (a : Str) (l : List Str) (h : ∀ x ∈ a :: l, plainItem x = true) :
    ')' ∉ commaSep (a :: l) := by
  intro hc
  rcases mem_commaSep a l _ hc with h' | h' | ⟨x, hx, h'⟩
  · exact absurd h' (by decide)
  · exact absurd h' (by decide)
  · exact (((plainItem_iff x).mp (h x hx)).2.2 _ h').2.2 rfl

theorem getLast?_commaSep (a : Str) (l : List Str) (h : ∀ x ∈ a :: l, x ≠ []) :
    ∃ b ∈ a :: l, (commaSep (a :: l)).getLast? = b.getLast? := by
  induction l generalizing a with
  | nil => exact ⟨a, by simp, rfl⟩
  | cons b l ih =>
    obtain ⟨z, hz, e⟩ := ih b (fun x hx => h x (List.mem_cons_of_mem _ hx))
    refine ⟨z, List.mem_cons_of_mem _ hz, ?_⟩
    rw [commaSep_cons_cons, ← e]
    have hne : commaSep (b :: l) ≠ [] := commaSep_ne_nil b l (h b (by simp))
    have : a ++ ',' :: ' ' :: commaSep (b :: l) = (a ++ [',', ' ']) ++ commaSep (b :: l) := by simp
    rw [this, List.getLast?_append_of_ne_nil _ hne]

theorem trimmed_commaSep (a : Str) (l : List Str) (h : ∀ x ∈ a :: l, plainItem x = true) :
    Trimmed (commaSep (a :: l)) := by
  have hne : ∀ x ∈ a :: l, x ≠ [] := fun x hx => ((plainItem_iff x).mp (h x hx)).1
  have htr : ∀ x ∈ a :: l, Trimmed x :=
    fun x hx => trimmed_of_TrimSpace x ((plainItem_iff x).mp (h x hx)).2.1
  intro x hx
  rcases hx with hx | hx
  · apply htr a (by simp) x
    left
    rw [commaSep_eq] at hx
    cases a with
    | nil => exact absurd rfl (hne [] (by simp))
    | cons c t => simpa using hx
  · obtain ⟨b, hb, e⟩ := getLast?_commaSep a l hne
    exact htr b hb x (Or.inr (e ▸ hx))

/-! ## The standard INSERT statement -/

theorem insertStatement_shape (t cols vals : Str) :
    insertStatement t cols vals =
      'I' :: (("NSERT INTO ".toList ++ t ++ " (".toList ++ cols ++ ") VALUES (".toList ++ vals)
        ++ [')']) := by
  simp [insertStatement]

theorem TrimSpace_insertStatement (t cols vals : Str) :
    TrimSpace (insertStatement t cols vals) = insertStatement t cols vals := by
  rw [insertStatement_shape]
  exact TrimSpace_of_ends _ _ _ rfl rfl

theorem cleanSQL_insertStatement (t cols vals : Str)
    (hsp : singleSpaced (insertStatement t cols vals) = true) :
    cleanSQL (insertStatement t cols vals) = insertStatement t cols vals := by
  rw [cleanSQL_eq, collapseWs_singleSpaced _ hsp, TrimSpace_insertStatement]

/-- The text `INSERT INTO t` / `  (cols)` / `VALUES` / `  (vals)`. -/
theorem formatSQL_insertStatement (t : Str) (c v : Str) (cs vs : List Str)
    (ht : t ≠ []) (hts : ∀ x ∈ t, isSpace x = false)
    (hcs : ∀ x ∈ c :: cs, plainItem x = true) (hvs : ∀ x ∈ v :: vs, plainItem x = true)
    (hkw : keywordsCased NewFormatter prepassKeywords
      (insertStatement t (commaSep (c :: cs)) (commaSep (v :: vs))) = true) :
    formatSQL NewFormatter (insertStatement t (commaSep (c :: cs)) (commaSep (v :: vs))) =
      some ("INSERT INTO ".toList ++ t ++ "\n  (".toList ++ commaSep (c :: cs)
        ++ ")\nVALUES\n  (".toList ++ commaSep (v :: vs) ++ ")".toList) := by
  have hc1 : c ≠ [] := ((plainItem_iff c).mp (hcs c (by simp))).1
  have hv1 : v ≠ [] := ((plainItem_iff v).mp (hvs v (by simp))).1
  have hS := insertStatement_shape t (commaSep (c :: cs)) (commaSep (v :: vs))
  have htrim := TrimSpace_insertStatement t (commaSep (c :: cs)) (commaSep (v :: vs))
  have hpre := replaceKeywords_of_cased _ _ _ hkw
  have hfind := FindStringSubmatch_insertRe t (commaSep (c :: cs)) (commaSep (v :: vs)) ht
    (fun x hx => isReSpace_of_not_isSpace x (hts x hx)) (commaSep_ne_nil c cs hc1)
    (rparen_not_mem_commaSep c cs hcs) (commaSep_ne_nil v vs hv1)
    (rparen_not_mem_commaSep v vs hvs)
  have hsel : HasPrefix (ToUpper (insertStatement t (commaSep (c :: cs)) (commaSep (v :: vs))))
      "SELECT".toList = false := by
    rw [hS]; rfl
  have hins : HasPrefix (ToUpper (insertStatement t (commaSep (c :: cs)) (commaSep (v :: vs))))
      "INSERT".toList = true := by
    rw [hS]; rfl
  unfold formatSQL
  simp only [hpre, htrim]
  rw [if_neg (by rw [hsel]; exact Bool.false_ne_true), if_pos hins]
  unfold formatInsertStatement
  rw [hfind]
  simp only [TrimSpace_of_no_space t hts, TrimSpace_of_trimmed _ (trimmed_commaSep c cs hcs),
    TrimSpace_of_trimmed _ (trimmed_commaSep v vs hvs), formatColumnList_commaSep c cs hcs,
    formatValueList_commaSep v vs hvs]
  have hind : getIndent NewFormatter 1 = some "  ".toList := rfl
  have hk1 : keyword NewFormatter "INSERT INTO".toList = "INSERT INTO".toList := by decide
  have hk2 : keyword NewFormatter "VALUES".toList = "VALUES".toList := by decide
  simp only [hind, hk1, hk2, Option.bind_eq_bind, Option.some_bind, Option.pure_def]
  simp

/-- C7 (as amended): for a table name `t` (not empty, no whitespace) and non-empty
lists of plain items (trimmed, not empty, free of commas and parentheses), when
the statement `INSERT INTO t (c1, ..., cn) VALUES (v1, ..., vm)` has no whitespace
but single spaces and every pre-pass keyword occurring in it is already in upper
case, `Format` with the default configuration returns exactly
`INSERT INTO t` / `  (c1, ..., cn)` / `VALUES` / `  (v1, ..., vm)`. -/
theorem Format_insert_standard (t : Str) (c v : Str) (cs vs : List Str)
    (ht : t ≠ []) (hts : ∀ x ∈ t, isSpace x = false)
    (hcs : ∀ x ∈ c :: cs, plainItem x = true) (hvs : ∀ x ∈ v :: vs, plainItem x = true)
    (hsp : singleSpaced (insertStatement t (commaSep (c :: cs)) (commaSep (v :: vs))) = true)
    (hkw : keywordsCased NewFormatter prepassKeywords
      (insertStatement t (commaSep (c :: cs)) (commaSep (v :: vs))) = true) :
    Format NewFormatter (insertStatement t (commaSep (c :: cs)) (commaSep (v :: vs))) =
      some ("INSERT INTO ".toList ++ t ++ "\n  (".toList ++ commaSep (c :: cs)
        ++ ")\nVALUES\n  (".toList ++ commaSep (v :: vs) ++ ")".toList, none) := by
  have hne : TrimSpace (insertStatement t (commaSep (c :: cs)) (commaSep (v :: vs))) ≠ [] := by
    rw [TrimSpace_insertStatement, insertStatement_shape]
    simp
  unfold Format
  rw [if_neg (by simpa using hne)]
  simp only [cleanSQL_insertStatement _ _ _ hsp,
    formatSQL_insertStatement t c v cs vs ht hts hcs hvs hkw]
  rfl

/-- Witness of C7: the INSERT scenario of the specification. -/
theorem Format_insert_standard_witness :
    Format NewFormatter (insertStatement "users".toList
        (commaSep ["name".toList, "email".toList])
        (commaSep ["'Alice'".toList, "'a@x.com'".toList])) =
      some ("INSERT INTO ".toList ++ "users".toList ++ "\n  (".toList
        ++ commaSep ["name".toList, "email".toList] ++ ")\nVALUES\n  (".toList
        ++ commaSep ["'Alice'".toList, "'a@x.com'".toList] ++ ")".toList, none) :=
  Format_insert_standard "users".toList "name".toList "'Alice'".toList ["email".toList]
    ["'a@x.com'".toList] (by decide) (by decide) (by decide) (by decide) (by decide!)
    (by decide!)

/-- C7 fails as stated: the value item `'x  y'` is trimmed, not empty, free of
commas, parentheses and keywords, yet the statement is not returned with that
item: the normalisation collapses the two spaces inside the literal. -/
theorem Format_insert_collapses_literal :
    plainItem "a".toList = true ∧ plainItem "'x  y'".toList = true ∧
    insertStatement "t".toList (commaSep ["a".toList]) (commaSep ["'x  y'".toList])
      = "INSERT INTO t (a) VALUES ('x  y')".toList ∧
    Format NewFormatter "INSERT INTO t (a) VALUES ('x  y')".toList
      = some ("INSERT INTO t\n  (a)\nVALUES\n  ('x y')".toList, none) ∧
    Format NewFormatter "INSERT INTO t (a) VALUES ('x  y')".toList
      ≠ some ("INSERT INTO t\n  (a)\nVALUES\n  ('x  y')".toList, none) := by
  decide!

/-! ## Formatting the formatted INSERT statement again -/

theorem collapseWs_append (b : Bool) (x y : Str) :
    collapseWs b (x ++ y) = collapseWs b x ++ collapseWs (endsInRun b x) y := by
  induction x generalizing b with
  | nil => simp [collapseWs, endsInRun]
  | cons c t ih =>
    by_cases hc : isReSpace c = true
    · cases b <;> simp [collapseWs, endsInRun, hc, ih]
    · simp [collapseWs, endsInRun, hc, ih]

theorem collapseWs_cons_of_not_space (b : Bool) (c : Char) (t : Str) (h : isReSpace c = false) :
    collapseWs b (c :: t) = c :: collapseWs false t := by
  simp [collapseWs, h]

theorem collapseWs_false_space (c : Char) (t : Str) (h : isReSpace c = true) :
    collapseWs false (c :: t) = ' ' :: collapseWs true t := by
  simp [collapseWs, h]

theorem collapseWs_true_space (c : Char) (t : Str) (h : isReSpace c = true) :
    collapseWs true (c :: t) = collapseWs true t := by
  simp [collapseWs, h]

theorem collapseWs_formatted_insert (t cols vals : Str) :
    collapseWs false ("INSERT INTO ".toList ++ t ++ "\n  (".toList ++ cols
      ++ ")\nVALUES\n  (".toList ++ vals ++ ")".toList)
    = collapseWs false (insertStatement t cols vals) := by
  have e1 : "INSERT INTO ".toList ++ t ++ "\n  (".toList ++ cols ++ ")\nVALUES\n  (".toList
      ++ vals ++ ")".toList = ("INSERT INTO ".toList ++ t) ++ ('\n' :: ' ' :: ' ' :: '(' :: (cols ++
        (')' :: '\n' :: 'V' :: 'A' :: 'L' :: 'U' :: 'E' :: 'S' :: '\n' :: ' ' :: ' ' :: '(' ::
          (vals ++ [')'])))) := by simp
  have e2 : insertStatement t cols vals = ("INSERT INTO ".toList ++ t) ++ (' ' :: '(' :: (cols ++
        (')' :: ' ' :: 'V' :: 'A' :: 'L' :: 'U' :: 'E' :: 'S' :: ' ' :: '(' ::
          (vals ++ [')'])))) := by simp [insertStatement]
  have hn : isReSpace '\n' = true := rfl
  have hs : isReSpace ' ' = true := rfl
  have hl : isReSpace '(' = false := rfl
  rw [e1, e2, collapseWs_append, collapseWs_append false ("INSERT INTO ".toList ++ t)]
  congr 1
  generalize endsInRun false ("INSERT INTO ".toList ++ t) = b
  have key : ∀ b', collapseWs b' ('(' :: (cols ++ (')' :: '\n' :: 'V' :: 'A' :: 'L' :: 'U' :: 'E'
      :: 'S' :: '\n' :: ' ' :: ' ' :: '(' :: (vals ++ [')']))))
      = collapseWs b' ('(' :: (cols ++ (')' :: ' ' :: 'V' :: 'A' :: 'L' :: 'U' :: 'E' :: 'S' :: ' '
        :: '(' :: (vals ++ [')'])))) := by
    intro b'
    rw [collapseWs_cons_of_not_space _ _ _ hl, collapseWs_cons_of_not_space _ _ _ hl,
      collapseWs_append, collapseWs_append false cols]
    congr 2
  cases b
  · rw [collapseWs_false_space _ _ hn, collapseWs_true_space _ _ hs, collapseWs_true_space _ _ hs,
      collapseWs_false_space _ _ hs, key]
  · rw [collapseWs_true_space _ _ hn, collapseWs_true_space _ _ hs, collapseWs_true_space _ _ hs,
      collapseWs_true_space _ _ hs, key]

theorem cleanSQL_formatted_insert (t cols vals : Str)
    (hsp : singleSpaced (insertStatement t cols vals) = true) :
    cleanSQL ("INSERT INTO ".toList ++ t ++ "\n  (".toList ++ cols
      ++ ")\nVALUES\n  (".toList ++ vals ++ ")".toList) = insertStatement t cols vals := by
  rw [cleanSQL_eq, collapseWs_formatted_insert, ← cleanSQL_eq, cleanSQL_insertStatement _ _ _ hsp]

theorem TrimSpace_ne_nil_of_mem (s : Str) (c : Char) (hc : c ∈ s) (h : isSpace c = false) :
    TrimSpace s ≠ [] := by
  intro e
  have := (TrimSpace_eq_nil_iff s).mp e c hc
  rw [h] at this
  exact Bool.noConfusion this

theorem Format_of_formatSQL (f : Formatter) (s x r : Str) (hne : TrimSpace s ≠ [])
    (hc : cleanSQL s = x) (hf : formatSQL f x = some r) : Format f s = some (r, none) := by
  unfold Format
  rw [if_neg (by simpa using hne)]
  simp only [hc, hf]
  rfl

theorem lit_cons (c : Char) (w : Str) :
    Re.lit (c :: w) = Re.seq (Re.cls (foldEq c) :: w.map fun c => Re.cls (foldEq c)) := rfl

theorem lit_run_eq (w : Str) (prev : Option Char) (s : Str) (caps : List Str) :
    (Re.lit w).run ⟨prev, s, caps⟩ =
      match stripLit w s with
      | some rest => [⟨lastOr prev (s.take w.length), rest, caps⟩]
      | none => [] := by
  induction w generalizing prev s with
  | nil => simp [Re.lit, Re.seq, Re.run, stripLit, lastOr_nil]
  | cons c w ih =>
    rw [lit_cons, Re.seq_cons_run]
    cases s with
    | nil => simp [Re.run, stripLit]
    | cons x s =>
      by_cases h : foldEq c x = true
      · simp only [Re.run, h, if_true, List.flatMap_cons, List.flatMap_nil, List.append_nil,
          stripLit]
        have := ih (some x) s
        simp only [Re.lit] at this
        rw [this]
        cases stripLit w s <;> simp [lastOr_cons]
      · simp [Re.run, h, stripLit]

theorem kw_run_nil (w : String) (prev : Option Char) (s : Str) (caps : List Str)
    (h : stripLit w.toList s = none) : (kw w).run ⟨prev, s, caps⟩ = [] := by
  unfold kw
  rw [lit_run_eq, h]

theorem allPositions_suffix (P : Option Char → Str → Bool) (pre suf : Str)
    (h : allPositions P none (pre ++ suf) = true) : P (lastOr none pre) suf = true :=
  allPositions_here _ _ _ (allPositions_append _ _ _ _ h)

theorem noOccurrence_suffix (w : String) (pre suf : Str) (h : noOccurrence w (pre ++ suf) = true) :
    stripLit w.toList suf = none := by
  have := allPositions_suffix _ pre suf h
  simpa using this

/-! ## Clause patterns -/

theorem Steps.alt_left {a b : Re} {s s' : Str} {c c' : List Str} (h : Steps a s c s' c') :
    Steps (Re.alt a b) s c s' c' := by
  intro prev
  obtain ⟨p, hp⟩ := h prev
  exact ⟨p, by simp only [Re.run, List.head?_append, hp]; rfl⟩

theorem Steps.alt_right {a b : Re} {s s' : Str} {c c' : List Str} (ha : Fails a s)
    (h : Steps b s c s' c') : Steps (Re.alt a b) s c s' c' := by
  intro prev
  obtain ⟨p, hp⟩ := h prev
  exact ⟨p, by simp only [Re.run, ha prev c, List.nil_append, hp]⟩

theorem Fails.alt {a b : Re} {s : Str} (ha : Fails a s) (hb : Fails b s) :
    Fails (Re.alt a b) s := by
  intro prev caps
  simp [Re.run, ha prev caps, hb prev caps]

theorem fails_ws1_kw (w : String) (s : Str)
    (h : ∀ m suf, s = m ++ suf → stripLit w.toList suf = none) :
    Fails (Re.cat Re.ws1 (kw w)) s := by
  intro prev caps
  show (Re.ws1.run ⟨prev, s, caps⟩).flatMap (kw w).run = []
  rw [List.flatMap_eq_nil_iff]
  intro e he
  obtain ⟨m, hm, _⟩ := run_sound Re.ws1 _ _ he
  exact kw_run_nil w _ _ _ (h m e.rest hm)

theorem fails_ws1_of_not_space (r : Re) (x : Char) (t : Str) (h : isReSpace x = false) :
    Fails (Re.cat Re.ws1 r) (x :: t) := by
  intro prev caps
  simp [Re.run, Re.ws1, h]

theorem fails_ws0_eot (s : Str) (h : ∃ c ∈ s, isReSpace c = false) :
    Fails (Re.cat Re.ws0 .eot) s := by
  intro prev caps
  simp only [Re.run, Re.ws0]
  rw [List.flatMap_eq_nil_iff]
  intro e he
  obtain ⟨m, hm, _, _, hall⟩ := runStar_sound _ _ _ _ _ he
  cases hr : e.rest with
  | nil =>
    exfalso
    obtain ⟨c, hc, hcs⟩ := h
    rw [hm, hr, List.append_nil] at hc
    rw [hall c hc] at hcs
    exact Bool.noConfusion hcs
  | cons y ys => rfl

theorem steps_ws0_eot_nil (c : List Str) : Steps (Re.cat Re.ws0 .eot) [] c [] c :=
  fun prev => ⟨prev, by simp [Re.run, Re.ws0, runStar]⟩

/-- The non-greedy capture followed by a clause end `E`: the capture grows over
`cap` while `E` fails, and stops where `E` first succeeds. -/
theorem Steps.lazy_capture (E : Re) (cap rest rest' : Str) (c c' : List Str)
    (hdot : ∀ x ∈ cap, isDot x = true)
    (hfail : ∀ a x b, cap = a ++ x :: b → Fails E (x :: b ++ rest))
    (hend : Steps E rest (c ++ [cap]) rest' c') :
    Steps (Re.seq [.grp (.lazy isDot), E]) (cap ++ rest) c rest' c' := by
  intro prev
  have hrun : ∀ st, (Re.seq [.grp (.lazy isDot), E]).run st =
      (runLazy isDot st.caps st.prev st.rest).flatMap fun e =>
        E.run ⟨e.prev, e.rest, e.caps ++ [st.rest.take (st.rest.length - e.rest.length)]⟩ := by
    intro st
    rw [Re.seq_cons_run]
    simp only [Re.run, Re.seq, List.flatMap_map]
  rw [hrun]
  simp only
  have key : ∀ (b a : Str) (pv : Option Char), cap = a ++ b →
      ∃ p', ((runLazy isDot c pv (b ++ rest)).flatMap fun e =>
        E.run ⟨e.prev, e.rest, e.caps ++
          [(cap ++ rest).take ((cap ++ rest).length - e.rest.length)]⟩).head?
        = some ⟨p', rest', c'⟩ := by
    intro b
    induction b with
    | nil =>
      intro a pv hab
      obtain ⟨p', hp'⟩ := hend pv
      refine ⟨p', ?_⟩
      have hfirst : ∃ tl, runLazy isDot c pv ([] ++ rest) = ⟨pv, rest, c⟩ :: tl := by
        cases rest with
        | nil => exact ⟨[], rfl⟩
        | cons y ys =>
          simp only [List.nil_append, runLazy]
          split
          · exact ⟨_, rfl⟩
          · exact ⟨[], rfl⟩
      obtain ⟨tl, htl⟩ := hfirst
      rw [htl, List.flatMap_cons, List.head?_append]
      simp only [List.length_append, Nat.add_sub_cancel, List.take_left']
      rw [hp']
      rfl
    | cons x b ih =>
      intro a pv hab
      have hx : isDot x = true := hdot x (by rw [hab]; simp)
      have hcons : runLazy isDot c pv (x :: b ++ rest) =
          ⟨pv, x :: b ++ rest, c⟩ :: runLazy isDot c (some x) (b ++ rest) := by
        simp [runLazy, hx]
      rw [hcons, List.flatMap_cons, hfail a x b hab _ _, List.nil_append]
      exact ih (a ++ [x]) (some x) (by rw [hab]; simp)
  exact key cap [] prev rfl

theorem clauseRe_run (head : Re) (stops : List Re) (st : St) :
    (clauseRe head stops).run st =
      if atBoundary st.prev st.rest then
        (Re.seq [head, Re.ws1, .grp (.lazy isDot), clauseEnd stops]).run st
      else [] := by
  unfold clauseRe
  rw [Re.seq_cons_run]
  simp only [Re.run]
  split <;> simp

theorem matchAt_clauseRe (head : Re) (stops : List Re) (H cap rest rest' : Str)
    (prev : Option Char)
    (hb : atBoundary prev (H ++ ' ' :: (cap ++ rest)) = true)
    (hhead : Steps head (H ++ ' ' :: (cap ++ rest)) [] (' ' :: (cap ++ rest)) [])
    (hcap0 : ∀ x, (cap ++ rest).head? = some x → isReSpace x = false)
    (hdot : ∀ x ∈ cap, isDot x = true)
    (hfail : ∀ a x b, cap = a ++ x :: b → Fails (clauseEnd stops) (x :: b ++ rest))
    (hend : Steps (clauseEnd stops) rest [cap] rest' [cap]) :
    ∃ p', matchAt (clauseRe head stops) prev (H ++ ' ' :: (cap ++ rest))
      = some ⟨p', rest', [cap]⟩ := by
  have hsteps : Steps (Re.seq [head, Re.ws1, .grp (.lazy isDot), clauseEnd stops])
      (H ++ ' ' :: (cap ++ rest)) [] rest' [cap] :=
    Steps.seq_cons hhead (Steps.seq_cons (Steps.ws1_space _ _ hcap0)
      (Steps.lazy_capture _ cap rest rest' [] [cap] hdot hfail hend))
  obtain ⟨p', hp'⟩ := hsteps prev
  exact ⟨p', by unfold matchAt; rw [clauseRe_run]; simp only [hb, if_true]; exact hp'⟩

theorem matchAt_clauseRe_of_strip (w : String) (stops : List Re) (prev : Option Char) (s : Str)
    (h : stripLit w.toList s = none) : matchAt (clauseRe (kw w) stops) prev s = none := by
  unfold matchAt
  rw [clauseRe_run]
  split
  · rw [Re.seq_cons_run, kw_run_nil w _ _ _ h]
    rfl
  · rfl

theorem matchAt_clauseRe_of_not_boundary (head : Re) (stops : List Re) (prev : Option Char)
    (s : Str) (h : atBoundary prev s = false) : matchAt (clauseRe head stops) prev s = none := by
  unfold matchAt
  rw [clauseRe_run]
  simp [h]

theorem findFrom_cons_of_none (r : Re) (prev : Option Char) (x : Char) (s : Str)
    (h : matchAt r prev (x :: s) = none) :
    findFrom r prev (x :: s) =
      (findFrom r (some x) s).map fun f =>
        ⟨x :: f.before, f.matched, f.caps, f.prevAfter, f.after⟩ := by
  simp only [findFrom, h]
  cases findFrom r (some x) s <;> rfl

theorem findFrom_here (r : Re) (prev : Option Char) (x : Char) (s : Str) (e : St)
    (h : matchAt r prev (x :: s) = some e) :
    findFrom r prev (x :: s) =
      some ⟨[], (x :: s).take ((x :: s).length - e.rest.length), e.caps, e.prev, e.rest⟩ := by
  simp only [findFrom, h]

theorem findFrom_skip (r : Re) (pre s' : Str) (prev : Option Char)
    (h : ∀ a x b, pre = a ++ x :: b → matchAt r (lastOr prev a) (x :: b ++ s') = none) :
    findFrom r prev (pre ++ s') =
      (findFrom r (lastOr prev pre) s').map fun f =>
        ⟨pre ++ f.before, f.matched, f.caps, f.prevAfter, f.after⟩ := by
  induction pre generalizing prev with
  | nil =>
    simp only [List.nil_append, lastOr_nil]
    cases findFrom r prev s' <;> rfl
  | cons x pre ih =>
    have h0 : matchAt r prev (x :: (pre ++ s')) = none := by
      simpa [lastOr_nil] using h [] x pre rfl
    rw [List.cons_append, findFrom_cons_of_none r prev x _ h0, ih (some x)]
    · rw [lastOr_cons]
      cases findFrom r (lastOr (some x) pre) s' <;> rfl
    · intro a y b hab
      have := h (x :: a) y b (by rw [hab]; rfl)
      rwa [lastOr_cons] at this

theorem findFrom_none (r : Re) (s : Str) (prev : Option Char)
    (h : ∀ a b, s = a ++ b → matchAt r (lastOr prev a) b = none) : findFrom r prev s = none := by
  induction s generalizing prev with
  | nil =>
    have := h [] [] rfl
    simp only [lastOr_nil] at this
    simp [findFrom, this]
  | cons x s ih =>
    have h0 : matchAt r prev (x :: s) = none := by
      simpa [lastOr_nil] using h [] (x :: s) rfl
    rw [findFrom_cons_of_none r prev x s h0, ih (some x)]
    · rfl
    · intro a b hab
      have := h (x :: a) b (by rw [hab]; rfl)
      rwa [lastOr_cons] at this

/-! ## The clause patterns on a standard UPDATE statement -/

theorem singleSpaced_mem (s : Str) (h : singleSpaced s = true) (c : Char) (hc : c ∈ s)
    (hs : isReSpace c = true) : c = ' ' := by
  induction s with
  | nil => simp at hc
  | cons x t ih =>
    cases t with
    | nil =>
      simp only [List.mem_singleton] at hc
      subst hc
      simp only [singleSpaced, Bool.or_eq_true, Bool.not_eq_true', beq_iff_eq] at h
      rcases h with h | h
      · rw [h] at hs; exact Bool.noConfusion hs
      · exact h
    | cons y t' =>
      simp only [singleSpaced, Bool.and_eq_true, Bool.or_eq_true, Bool.not_eq_true',
        beq_iff_eq] at h
      rcases List.mem_cons.mp hc with hc | hc
      · subst hc
        rcases h.1 with h1 | h1
        · rw [h1] at hs; exact Bool.noConfusion hs
        · exact h1.1
      · exact ih h.2 hc

theorem isDot_of_singleSpaced (s : Str) (h : singleSpaced s = true) (c : Char) (hc : c ∈ s) :
    isDot c = true := by
  simp only [isDot, bne_iff_ne, ne_eq]
  intro e
  subst e
  exact absurd (singleSpaced_mem s h _ hc rfl) (by decide)

theorem isReSpace_of_isWordChar (c : Char) (h : isWordChar c = true) : isReSpace c = false := by
  by_contra hc
  simp only [Bool.not_eq_false] at hc
  simp only [isReSpace, Bool.or_eq_true, beq_iff_eq] at hc
  rcases hc with (((hc | hc) | hc) | hc) | hc <;> subst hc <;> exact absurd h (by decide)

theorem isSpace_of_isWordChar (c : Char) (h : isWordChar c = true) : isSpace c = false := by
  by_contra hc
  simp only [Bool.not_eq_false] at hc
  rw [isSpace_iff] at hc
  simp only [isWordChar, Bool.or_eq_true, Bool.and_eq_true, decide_eq_true_eq, beq_iff_eq,
    char_eq_iff] at h
  simp only [Char.reduceToNat] at h
  omega

theorem clauseEnd_one (k : Re) :
    clauseEnd [k] = Re.alt (Re.cat Re.ws1 k) (Re.cat Re.ws0 .eot) := rfl

theorem clauseEnd_zero : clauseEnd [] = Re.cat Re.ws0 .eot := rfl

theorem FindStringSubmatch_update (t a : Str) (ht : t ≠ [])
    (htw : ∀ x ∈ t, isWordChar x = true) (hsp : singleSpaced (updateStatement t a) = true) :
    ∃ m0, FindStringSubmatch (clauseRe (kw "UPDATE") [kw "SET"]) (updateStatement t a)
      = some [m0, t] := by
  have hS : updateStatement t a =
      "UPDATE".toList ++ ' ' :: (t ++ ' ' :: ("SET".toList ++ ' ' :: a)) := by
    simp [updateStatement]
  have hm := matchAt_clauseRe (kw "UPDATE") [kw "SET"] "UPDATE".toList t
    (' ' :: ("SET".toList ++ ' ' :: a)) (' ' :: a) none (by rfl) (Steps.kw "UPDATE" _ _)
    (fun x hx => isReSpace_of_isWordChar x (htw x (head?_append_cons t _ ht x hx)))
    (fun x hx => isDot_of_singleSpaced _ hsp x (by simp [updateStatement, hx]))
    (by
      intro p x b hp
      have hx : isReSpace x = false := isReSpace_of_isWordChar x (htw x (by rw [hp]; simp))
      rw [clauseEnd_one]
      exact Fails.alt (fails_ws1_of_not_space _ x _ hx) (fails_ws0_eot _ ⟨x, by simp, hx⟩))
    (by
      rw [clauseEnd_one]
      exact Steps.alt_left (Steps.cat
        (Steps.ws1_space _ _ (by intro x hx; simp at hx; subst hx; rfl)) (Steps.kw "SET" _ _)))
  obtain ⟨p', hp'⟩ := hm
  rw [← hS] at hp'
  obtain ⟨x, y, hxy⟩ : ∃ x y, updateStatement t a = x :: y := ⟨'U', _, by rw [hS]; rfl⟩
  unfold FindStringSubmatch
  rw [hxy] at hp' ⊢
  rw [findFrom_here _ _ _ _ _ hp']
  exact ⟨_, rfl⟩

theorem stripLit_set_table (t rest : Str) (ht : t ≠ []) (htw : ∀ x ∈ t, isWordChar x = true)
    (hset : stripLit "SET".toList t ≠ some []) :
    stripLit "SET".toList (t ++ ' ' :: rest) = none ∨
    ∃ x r, stripLit "SET".toList (t ++ ' ' :: rest) = some (x :: r) ∧ isReSpace x = false := by
  have hE : foldEq 'E' ' ' = false := by decide
  have hT : foldEq 'T' ' ' = false := by decide
  change stripLit ['S', 'E', 'T'] t ≠ some [] at hset
  show stripLit ['S', 'E', 'T'] (t ++ ' ' :: rest) = none ∨
    ∃ x r, stripLit ['S', 'E', 'T'] (t ++ ' ' :: rest) = some (x :: r) ∧ isReSpace x = false
  rcases t with _ | ⟨x1, _ | ⟨x2, _ | ⟨x3, _ | ⟨x4, t4⟩⟩⟩⟩
  · exact absurd rfl ht
  · left
    simp only [List.cons_append, List.nil_append, stripLit, hE]
    split <;> simp
  · left
    simp only [List.cons_append, List.nil_append, stripLit, hT]
    split
    · split <;> simp
    · rfl
  · left
    simp only [stripLit] at hset
    simp only [List.cons_append, List.nil_append, stripLit]
    by_cases h1 : foldEq 'S' x1 = true
    · by_cases h2 : foldEq 'E' x2 = true
      · by_cases h3 : foldEq 'T' x3 = true
        · simp [h1, h2, h3] at hset
        · simp [h1, h2, h3]
      · simp [h1, h2]
    · simp [h1]
  · simp only [List.cons_append, stripLit]
    by_cases h1 : foldEq 'S' x1 = true
    · by_cases h2 : foldEq 'E' x2 = true
      · by_cases h3 : foldEq 'T' x3 = true
        · right
          exact ⟨x4, t4 ++ ' ' :: rest, by simp [h1, h2, h3],
            isReSpace_of_isWordChar _ (htw x4 (by simp))⟩
        · left; simp [h1, h2, h3]
      · left; simp [h1, h2]
    · left; simp [h1]

theorem matchAt_set_at_table (t rest : Str) (stops : List Re) (prev : Option Char) (ht : t ≠ [])
    (htw : ∀ x ∈ t, isWordChar x = true) (hset : stripLit "SET".toList t ≠ some []) :
    matchAt (clauseRe (kw "SET") stops) prev (t ++ ' ' :: rest) = none := by
  unfold matchAt
  rw [clauseRe_run]
  split
  · rw [Re.seq_cons_run]
    unfold kw
    rw [lit_run_eq]
    rcases stripLit_set_table t rest ht htw hset with h | ⟨x, r, h, hx⟩
    · rw [h]; rfl
    · rw [h]
      simp only [List.flatMap_cons, List.flatMap_nil, List.append_nil]
      rw [Re.seq_cons_run]
      simp [Re.ws1, Re.run, hx]
  · rfl

theorem atBoundary_word_word (c x : Char) (s : Str) (hc : isWordChar c = true)
    (hx : isWordChar x = true) : atBoundary (some c) (x :: s) = false := by
  simp [atBoundary, hc, hx]

theorem lastOr_mem (prev : Option Char) (a : Str) (ha : a ≠ []) :
    ∃ c ∈ a, lastOr prev a = some c := by
  have h : a.getLast? = some (a.getLast ha) := List.getLast?_eq_getLast _ _
  exact ⟨a.getLast ha, List.getLast_mem ha, by simp [lastOr, h]⟩

theorem FindStringSubmatch_set (t a : Str) (ht : t ≠ [])
    (htw : ∀ x ∈ t, isWordChar x = true) (hset : stripLit "SET".toList t ≠ some [])
    (ha : a ≠ []) (hat : Trimmed a)
    (hsp : singleSpaced (updateStatement t a) = true)
    (hw : noOccurrence "WHERE" (updateStatement t a) = true) :
    ∃ m0, FindStringSubmatch (clauseRe (kw "SET") [kw "WHERE"]) (updateStatement t a)
      = some [m0, a] := by
  have hS : updateStatement t a =
      "UPDATE ".toList ++ (t ++ ([' '] ++ ("SET".toList ++ ' ' :: (a ++ [])))) := by
    simp [updateStatement]
  have hfirst : ∀ x, a.head? = some x → isReSpace x = false :=
    fun x hx => isReSpace_of_not_isSpace x (hat x (Or.inl hx))
  obtain ⟨z, hz, hzl⟩ : ∃ z, a.getLast? = some z ∧ isReSpace z = false := by
    have h : a.getLast? = some (a.getLast ha) := List.getLast?_eq_getLast _ _
    exact ⟨_, h, isReSpace_of_not_isSpace _ (hat _ (Or.inr h))⟩
  -- the match at the SET of the statement
  have hm := matchAt_clauseRe (kw "SET") [kw "WHERE"] "SET".toList a [] [] (some ' ') (by rfl)
    (Steps.kw "SET" _ _) (by simpa using hfirst)
    (fun x hx => isDot_of_singleSpaced _ hsp x (by simp [updateStatement, hx]))
    (by
      intro p x b hp
      rw [clauseEnd_one]
      refine Fails.alt (fails_ws1_kw "WHERE" _ ?_) (fails_ws0_eot _ ⟨z, ?_, hzl⟩)
      · intro m suf hms
        apply noOccurrence_suffix "WHERE" ("UPDATE ".toList ++ t ++ " SET ".toList ++ p ++ m) suf
        have : updateStatement t a
            = "UPDATE ".toList ++ t ++ " SET ".toList ++ p ++ (x :: b ++ []) := by
          rw [hp]; simp [updateStatement]
        rw [hms] at this
        rw [← hw, this]
        simp
      · have : (x :: b).getLast? = some z := by
          rw [hp, List.getLast?_append_of_ne_nil _ (by simp)] at hz
          exact hz
        simpa using List.mem_of_getLast?_eq_some this)
    (by
      rw [clauseEnd_one]
      exact Steps.alt_right (fun prev caps => by simp [Re.run, Re.ws1])
        (steps_ws0_eot_nil _))
  obtain ⟨p', hp'⟩ := hm
  -- no match before it
  have h1 : ∀ p x b, "UPDATE ".toList = p ++ x :: b →
      matchAt (clauseRe (kw "SET") [kw "WHERE"]) (lastOr none p)
        (x :: b ++ (t ++ ([' '] ++ ("SET".toList ++ ' ' :: (a ++ []))))) = none := by
    intro p x b hp
    apply matchAt_clauseRe_of_strip
    have hx : x ∈ "UPDATE ".toList := by rw [hp]; simp
    have : ∀ y ∈ "UPDATE ".toList, foldEq 'S' y = false := by decide
    show stripLit ['S', 'E', 'T'] (x :: _) = none
    simp [stripLit, this x hx]
  have h2 : ∀ p x b, t = p ++ x :: b →
      matchAt (clauseRe (kw "SET") [kw "WHERE"]) (lastOr (lastOr none "UPDATE ".toList) p)
        (x :: b ++ ([' '] ++ ("SET".toList ++ ' ' :: (a ++ [])))) = none := by
    intro p x b hp
    by_cases hpn : p = []
    · subst hpn
      have := matchAt_set_at_table t ("SET".toList ++ ' ' :: (a ++ [])) [kw "WHERE"]
        (lastOr (lastOr none "UPDATE ".toList) []) ht htw hset
      rw [hp] at this
      simpa using this
    · obtain ⟨c, hc, hcl⟩ := lastOr_mem (lastOr none "UPDATE ".toList) p hpn
      rw [hcl]
      apply matchAt_clauseRe_of_not_boundary
      exact atBoundary_word_word c x _ (htw c (by rw [hp]; simp [hc])) (htw x (by rw [hp]; simp))
  have h3 : ∀ p x b, [' '] = p ++ x :: b →
      matchAt (clauseRe (kw "SET") [kw "WHERE"])
        (lastOr (lastOr (lastOr none "UPDATE ".toList) t) p)
        (x :: b ++ ("SET".toList ++ ' ' :: (a ++ []))) = none := by
    intro p x b hp
    apply matchAt_clauseRe_of_strip
    have hx : x = ' ' := by
      have : x ∈ [' '] := by rw [hp]; simp
      simpa using this
    subst hx
    rfl
  have hprev : lastOr (lastOr (lastOr none "UPDATE ".toList) t) [' '] = some ' ' := rfl
  unfold FindStringSubmatch
  rw [hS, findFrom_skip _ _ _ _ h1, findFrom_skip _ _ _ _ h2, findFrom_skip _ _ _ _ h3, hprev]
  have hcons : "SET".toList ++ ' ' :: (a ++ []) = 'S' :: ("ET".toList ++ ' ' :: (a ++ [])) := rfl
  rw [hcons] at hp' ⊢
  rw [findFrom_here _ _ _ _ _ hp']
  simp

theorem FindStringSubmatch_where_none (s : Str) (hw : noOccurrence "WHERE" s = true) :
    FindStringSubmatch (clauseRe (kw "WHERE") []) s = none := by
  unfold FindStringSubmatch
  rw [findFrom_none]
  intro p b hpb
  apply matchAt_clauseRe_of_strip
  exact noOccurrence_suffix "WHERE" p b (hpb ▸ hw)

/-! ## Splitting a list without a trailing comma -/

theorem splitColumnsAux_ne_nil (s cur : Str) (d : Int) (h : s ≠ [] ∨ cur ≠ []) :
    splitColumnsAux s cur d ≠ [] := by
  induction s generalizing cur d with
  | nil =>
    rcases h with h | h
    · exact absurd rfl h
    · rw [splitColumnsAux_nil _ _ h]; simp
  | cons c t ih =>
    rw [splitColumnsAux]
    split
    · exact ih _ _ (Or.inr (by simp))
    · split
      · exact ih _ _ (Or.inr (by simp))
      · split
        · split
          · simp
          · exact ih _ _ (Or.inr (by simp))
        · exact ih _ _ (Or.inr (by simp))

theorem getLast?_cons_of_ne_nil (c : Char) (t : Str) (h : t ≠ []) :
    (c :: t).getLast? = t.getLast? := by
  cases t with
  | nil => exact absurd rfl h
  | cons d ds => simp [List.getLast?_cons_cons]

theorem splitColumnsAux_single (s cur : Str) (d : Int) (seg : Str)
    (h : splitColumnsAux s cur d = [seg]) (hl : s.getLast? ≠ some ',') : seg = cur ++ s := by
  induction s generalizing cur d with
  | nil =>
    rw [splitColumnsAux] at h
    split at h
    · simpa using h.symm
    · simp at h
  | cons c t ih =>
    have hl' : t.getLast? ≠ some ',' := by
      intro e
      apply hl
      cases t with
      | nil => simp at e
      | cons y ys => rw [getLast?_cons_of_ne_nil _ _ (by simp)]; exact e
    rw [splitColumnsAux] at h
    split at h
    · simpa using ih _ _ h hl'
    · split at h
      · simpa using ih _ _ h hl'
      · split at h
        · rename_i hc
          split at h
          · simp only [List.cons.injEq] at h
            have ht : t = [] := by
              by_contra hne
              exact splitColumnsAux_ne_nil t [] d (Or.inl hne) h.2
            subst ht
            simp only [beq_iff_eq] at hc
            subst hc
            exact absurd rfl hl
          · simpa using ih _ _ h hl'
        · simpa using ih _ _ h hl'

theorem splitColumns_single (a seg : Str) (h : splitColumns a = [seg])
    (hl : a.getLast? ≠ some ',') : seg = a := by
  simpa using splitColumnsAux_single a [] 0 seg h hl

theorem splitColumnsAux_last (s cur : Str) (d : Int) (z : Char) (hz : s.getLast? = some z)
    (hc : z ≠ ',') : ∃ seg, (splitColumnsAux s cur d).getLast? = some seg ∧ z ∈ seg := by
  induction s generalizing cur d with
  | nil => simp at hz
  | cons c t ih =>
    by_cases ht : t = []
    · subst ht
      simp only [List.getLast?_singleton, Option.some.injEq] at hz
      subst hz
      have hne : cur ++ [c] ≠ [] := by simp
      rw [splitColumnsAux]
      split
      · exact ⟨_, by rw [splitColumnsAux_nil _ _ hne]; rfl, by simp⟩
      · split
        · exact ⟨_, by rw [splitColumnsAux_nil _ _ hne]; rfl, by simp⟩
        · split
          · rename_i h
            simp only [beq_iff_eq] at h
            exact absurd h hc
          · exact ⟨_, by rw [splitColumnsAux_nil _ _ hne]; rfl, by simp⟩
    · rw [getLast?_cons_of_ne_nil _ _ ht] at hz
      rw [splitColumnsAux]
      split
      · exact ih _ _ hz
      · split
        · exact ih _ _ hz
        · split
          · split
            · obtain ⟨seg, h1, h2⟩ := ih [] d hz
              refine ⟨seg, ?_, h2⟩
              rcases hsc : splitColumnsAux t [] d with _ | ⟨y, ys⟩
              · exact absurd hsc (splitColumnsAux_ne_nil _ _ _ (Or.inl ht))
              · rw [hsc] at h1
                rw [List.getLast?_cons_cons]
                exact h1
            · exact ih _ _ hz
          · exact ih _ _ hz

/-! ## The standard UPDATE statement -/

theorem updateStatement_shape (t a : Str) :
    updateStatement t a = 'U' :: ("PDATE ".toList ++ t ++ " SET ".toList ++ a) := by
  simp [updateStatement]

theorem trimmed_updateStatement (t a : Str) (ha : a ≠ []) (hat : Trimmed a) :
    Trimmed (updateStatement t a) := by
  intro x hx
  rcases hx with hx | hx
  · rw [updateStatement_shape] at hx
    simp only [List.head?_cons, Option.some.injEq] at hx
    subst hx
    rfl
  · unfold updateStatement at hx
    rw [List.getLast?_append_of_ne_nil _ ha] at hx
    exact hat x (Or.inr hx)

theorem cleanSQL_updateStatement (t a : Str) (ha : a ≠ []) (hat : Trimmed a)
    (hsp : singleSpaced (updateStatement t a) = true) :
    cleanSQL (updateStatement t a) = updateStatement t a := by
  rw [cleanSQL_eq, collapseWs_singleSpaced _ hsp,
    TrimSpace_of_trimmed _ (trimmed_updateStatement t a ha hat)]

theorem splitUpdateSQL_updateStatement (t a : Str) (ht : t ≠ [])
    (htw : ∀ x ∈ t, isWordChar x = true) (hset : stripLit "SET".toList t ≠ some [])
    (ha : a ≠ []) (hat : Trimmed a)
    (hsp : singleSpaced (updateStatement t a) = true)
    (hw : noOccurrence "WHERE" (updateStatement t a) = true) :
    splitUpdateSQL (updateStatement t a) = [("UPDATE", t), ("SET", a)] := by
  obtain ⟨m0, h0⟩ := FindStringSubmatch_update t a ht htw hsp
  obtain ⟨m1, h1⟩ := FindStringSubmatch_set t a ht htw hset ha hat hsp hw
  have h2 := FindStringSubmatch_where_none _ hw
  have htt : TrimSpace t = t :=
    TrimSpace_of_no_space t (fun x hx => isSpace_of_isWordChar x (htw x hx))
  unfold splitUpdateSQL extractClauses
  simp only [List.filterMap_cons, List.filterMap_nil, h0, h1, h2, htt,
    TrimSpace_of_trimmed a hat]

theorem formatSetClause_lines (f : Formatter) (a : Str) (hind : 0 ≤ f.IndentSize)
    (ha : a ≠ []) (hat : Trimmed a) (hac : a.getLast? ≠ some ',') :
    ∃ r, formatSetClause f a = some r ∧
      List.replicate f.IndentSize.toNat ' ' ++ r =
        joinLines (commaLines (List.replicate f.IndentSize.toNat ' ') (splitColumns a)) := by
  unfold formatSetClause
  rcases hsc : splitColumns a with _ | ⟨c, _ | ⟨d, ds⟩⟩
  · exact absurd hsc (splitColumnsAux_ne_nil a [] 0 (Or.inl ha))
  · have := splitColumns_single a c hsc hac
    subst this
    refine ⟨c, by simp, ?_⟩
    simp [commaLines, joinLines, TrimSpace_of_trimmed _ hat]
  · refine ⟨joinTrimmed (",\n".toList ++ List.replicate f.IndentSize.toNat ' ') (c :: d :: ds),
      by simp [getIndent_of_nonneg f hind], ?_⟩
    exact joinTrimmed_lines _ c (d :: ds)

theorem formatSQL_updateStatement (f : Formatter) (t a : Str) (hup : f.KeywordUpper = true)
    (hind : 0 ≤ f.IndentSize) (ht : t ≠ [])
    (htw : ∀ x ∈ t, isWordChar x = true) (hset : stripLit "SET".toList t ≠ some [])
    (ha : a ≠ []) (hat : Trimmed a) (hac : a.getLast? ≠ some ',')
    (hsp : singleSpaced (updateStatement t a) = true)
    (hkw : keywordsCased f prepassKeywords (updateStatement t a) = true)
    (hw : noOccurrence "WHERE" (updateStatement t a) = true) :
    formatSQL f (updateStatement t a) =
      some (joinLines (("UPDATE ".toList ++ t) :: "SET".toList ::
        commaLines (List.replicate f.IndentSize.toNat ' ') (splitColumns a))) := by
  have hS := updateStatement_shape t a
  have htrim := TrimSpace_of_trimmed _ (trimmed_updateStatement t a ha hat)
  have hpre := replaceKeywords_of_cased _ _ _ hkw
  have hsel : HasPrefix (ToUpper (updateStatement t a)) "SELECT".toList = false := by
    rw [hS]; rfl
  have hins : HasPrefix (ToUpper (updateStatement t a)) "INSERT".toList = false := by
    rw [hS]; rfl
  have hupd : HasPrefix (ToUpper (updateStatement t a)) "UPDATE".toList = true := by
    rw [hS]; rfl
  obtain ⟨r, hr1, hr2⟩ := formatSetClause_lines f a hind ha hat hac
  have hne : commaLines (List.replicate f.IndentSize.toNat ' ') (splitColumns a) ≠ [] := by
    intro e
    have h1 := commaLines_length (List.replicate f.IndentSize.toNat ' ') (splitColumns a)
    rw [e] at h1
    exact splitColumnsAux_ne_nil a [] 0 (Or.inl ha) (List.eq_nil_of_length_eq_zero h1.symm)
  have hk1 : keyword f "UPDATE".toList = "UPDATE".toList := by
    unfold keyword; rw [if_pos hup]; decide
  have hk2 : keyword f "SET".toList = "SET".toList := by
    unfold keyword; rw [if_pos hup]; decide
  have hg1 : ClauseMap.get [("UPDATE", t), ("SET", a)] "UPDATE" = t := by
    simp [ClauseMap.get]
  have hg2 : ClauseMap.get [("UPDATE", t), ("SET", a)] "SET" = a := by
    simp [ClauseMap.get]
  have hg3 : ClauseMap.get [("UPDATE", t), ("SET", a)] "WHERE" = [] := by
    simp [ClauseMap.get]
  unfold formatSQL
  simp only [hpre, htrim]
  rw [if_neg (by rw [hsel]; exact Bool.false_ne_true),
    if_neg (by rw [hins]; exact Bool.false_ne_true), if_pos hupd]
  unfold formatUpdateStatement
  simp only [splitUpdateSQL_updateStatement t a ht htw hset ha hat hsp hw, hg1, hg2, hg3,
    getIndent_of_nonneg f hind, hr1, hk1, hk2, clauseSection, Option.bind_eq_bind,
    Option.some_bind, Option.pure_def]
  have e1 : (t != []) = true := by simpa using ht
  have e2 : (a != []) = true := by simpa using ha
  simp only [e1, e2, if_true]
  rw [joinLines_cons _ _ (by simp), joinLines_cons _ _ hne, ← hr2]
  simp

/-- C10 (as amended): take a statement `UPDATE t SET a` where `t` is an identifier
(word characters) other than the word SET and `a` is a non-empty trimmed text that
does not end with a comma; let it have no whitespace but single spaces, every
pre-pass keyword in it already in the configured case, and the letters WHERE
nowhere in it.  With `KeywordUpper` set and `IndentSize ≥ 0`, `Format` returns
exactly the line `UPDATE t`, the line `SET`, and one line per top-level segment of
`a`: the indent, the segment trimmed, and a comma on every line but the last.  No
line holds a newline and the last line is not empty, so the output has no WHERE
header and ends neither with a newline nor with a blank line. -/
theorem Format_update_standard (f : Formatter) (t a : Str) (hup : f.KeywordUpper = true)
    (hind : 0 ≤ f.IndentSize) (ht : t ≠ [])
    (htw : ∀ x ∈ t, isWordChar x = true) (hset : stripLit "SET".toList t ≠ some [])
    (ha : a ≠ []) (hat : Trimmed a) (hac : a.getLast? ≠ some ',')
    (hsp : singleSpaced (updateStatement t a) = true)
    (hkw : keywordsCased f prepassKeywords (updateStatement t a) = true)
    (hw : noOccurrence "WHERE" (updateStatement t a) = true) :
    ∃ indent lines, getIndent f 1 = some indent ∧
      lines.length = (splitColumns a).length ∧ 1 ≤ lines.length ∧
      (∀ (i : Nat) (hi : i < (splitColumns a).length), lines[i]? =
        some (indent ++ TrimSpace ((splitColumns a).get ⟨i, hi⟩) ++
          (if i + 1 < (splitColumns a).length then [','] else []))) ∧
      Format f (updateStatement t a) =
        some (joinLines (("UPDATE ".toList ++ t) :: "SET".toList :: lines), none) ∧
      (∀ l ∈ ("UPDATE ".toList ++ t) :: "SET".toList :: lines, '\n' ∉ l) ∧
      (∀ l, lines.getLast? = some l → l ≠ []) := by
  have hseg : splitColumns a ≠ [] := splitColumnsAux_ne_nil a [] 0 (Or.inl ha)
  have hlen := commaLines_length (List.replicate f.IndentSize.toNat ' ') (splitColumns a)
  have hpos : 1 ≤ (splitColumns a).length := by
    cases h : splitColumns a with
    | nil => exact absurd h hseg
    | cons x xs => simp
  have hnl : ∀ c ∈ a, c ≠ '\n' := by
    intro c hc e
    have := isDot_of_singleSpaced _ hsp c (by simp [updateStatement, hc])
    rw [e] at this
    exact absurd this (by decide)
  refine ⟨_, commaLines (List.replicate f.IndentSize.toNat ' ') (splitColumns a),
    getIndent_of_nonneg f hind, hlen, by omega, fun i hi => commaLines_getElem? _ _ i hi, ?_, ?_, ?_⟩
  · refine Format_of_formatSQL _ _ _ _ ?_ (cleanSQL_updateStatement t a ha hat hsp)
      (formatSQL_updateStatement f t a hup hind ht htw hset ha hat hac hsp hkw hw)
    exact TrimSpace_ne_nil_of_mem _ 'U' (by simp [updateStatement]) rfl
  · intro l hl hc
    rcases List.mem_cons.mp hl with hl | hl
    · subst hl
      rcases List.mem_append.mp hc with hc | hc
      · exact absurd hc (by decide)
      · exact absurd (htw _ hc) (by decide)
    · rcases List.mem_cons.mp hl with hl | hl
      · subst hl
        exact absurd hc (by decide)
      · rcases mem_commaLines _ _ l hl '\n' hc with h' | h' | ⟨seg, hs, h'⟩
        · exact absurd (List.eq_of_mem_replicate h') (by decide)
        · exact absurd h' (by decide)
        · exact hnl _ (mem_splitColumns a seg hs _ h') rfl
  · intro l hl e
    obtain ⟨z, hz⟩ : ∃ z, a.getLast? = some z :=
      ⟨a.getLast ha, List.getLast?_eq_getLast _ _⟩
    have hzc : z ≠ ',' := fun e' => hac (e' ▸ hz)
    obtain ⟨seg, hs1, hs2⟩ := splitColumnsAux_last a [] 0 z hz hzc
    have hs1' : (splitColumns a).getLast? = some seg := hs1
    rw [List.getLast?_eq_getElem?, hlen] at hl
    rw [List.getLast?_eq_getElem?] at hs1'
    have hi : (splitColumns a).length - 1 < (splitColumns a).length := by omega
    rw [commaLines_getElem? _ _ _ hi] at hl
    have hget : (splitColumns a).get ⟨(splitColumns a).length - 1, hi⟩ = seg := by
      rw [List.getElem?_eq_getElem hi] at hs1'
      simpa using hs1'
    rw [hget] at hl
    simp only [Option.some.injEq] at hl
    rw [e] at hl
    have hne := TrimSpace_ne_nil_of_mem seg z hs2 (hat z (Or.inr hz))
    exact hne (List.append_eq_nil.mp (List.append_eq_nil.mp hl).1).2

/-- Witness of C10: the UPDATE scenario of the specification. -/
theorem Format_update_standard_witness :
    ∃ indent lines, getIndent NewFormatter 1 = some indent ∧
      lines.length = (splitColumns "active = true".toList).length ∧ 1 ≤ lines.length ∧
      (∀ (i : Nat) (hi : i < (splitColumns "active = true".toList).length), lines[i]? =
        some (indent ++ TrimSpace ((splitColumns "active = true".toList).get ⟨i, hi⟩) ++
          (if i + 1 < (splitColumns "active = true".toList).length then [','] else []))) ∧
      Format NewFormatter (updateStatement "users".toList "active = true".toList) =
        some (joinLines (("UPDATE ".toList ++ "users".toList) :: "SET".toList :: lines), none) ∧
      (∀ l ∈ ("UPDATE ".toList ++ "users".toList) :: "SET".toList :: lines, '\n' ∉ l) ∧
      (∀ l, lines.getLast? = some l → l ≠ []) :=
  Format_update_standard NewFormatter "users".toList "active = true".toList rfl (by decide)
    (by decide) (by decide) (by decide) (by decide)
    (fun x hx => by
      rcases hx with hx | hx
      · have : x = 'a' := by simpa using hx.symm
        subst this; rfl
      · have : x = 'e' := by simpa using hx.symm
        subst this; rfl)
    (by decide) (by decide!) (by decide!) (by decide!)

/-- C10 fails as stated: both statements are of the form `UPDATE t SET a1, ..., an`
without a WHERE keyword.  In the first the keyword pre-pass rewrites the word `end`
inside the literal, so the line is not the assignment; in the second the SET
clause is cut before ` wherever` and the second assignment loses its end. -/
theorem Format_update_changes_assignment :
    (findFrom (keywordRe "WHERE") none "UPDATE posts SET title = 'the end'".toList).isNone ∧
    Format NewFormatter "UPDATE posts SET title = 'the end'".toList
      = some ("UPDATE posts\nSET\n  title = 'the END'".toList, none) ∧
    (findFrom (keywordRe "WHERE") none "UPDATE t SET a = 1, b = 'x wherever'".toList).isNone ∧
    Format NewFormatter "UPDATE t SET a = 1, b = 'x wherever'".toList
      = some ("UPDATE t\nSET\n  a = 1,\n  b = 'x".toList, none) := by
  decide!

/-! ## Formatting the formatted UPDATE statement again -/

theorem commaLines_map_space (indent c : Str) (cs : List Str) :
    commaLines indent (c :: cs.map fun x => ' ' :: x) = commaLines indent (c :: cs) := by
  induction cs generalizing c with
  | nil => rfl
  | cons d ds ih =>
    have h1 : commaLines indent (c :: (d :: ds).map fun x => ' ' :: x)
        = (indent ++ TrimSpace c ++ [',']) :: commaLines indent ((' ' :: d) :: ds.map fun x => ' ' :: x) :=
      rfl
    have h2 : commaLines indent (c :: d :: ds)
        = (indent ++ TrimSpace c ++ [',']) :: commaLines indent (d :: ds) := rfl
    rw [h1, h2, ← ih d]
    congr 1
    cases ds with
    | nil => simp [commaLines, TrimSpace_space_cons]
    | cons e es => simp [commaLines, TrimSpace_space_cons]

theorem collapseWs_true_spaces (indent s : Str) (h : ∀ x ∈ indent, x = ' ') :
    collapseWs true (indent ++ s) = collapseWs true s := by
  induction indent with
  | nil => rfl
  | cons x t ih =>
    have hx : x = ' ' := h x (by simp)
    subst hx
    rw [List.cons_append, collapseWs_true_space ' ' _ rfl]
    exact ih (fun y hy => h y (List.mem_cons_of_mem _ hy))

theorem collapseWs_flag_irrelevant (b : Bool) (s : Str)
    (h : ∀ x, s.head? = some x → isReSpace x = false) (hne : s ≠ []) :
    collapseWs b s = collapseWs false s := by
  cases s with
  | nil => exact absurd rfl hne
  | cons x t =>
    rw [collapseWs_cons_of_not_space _ _ _ (h x rfl), collapseWs_cons_of_not_space _ _ _ (h x rfl)]

theorem endsInRun_of_ne_nil (b b' : Bool) (s : Str) (h : s ≠ []) :
    endsInRun b s = endsInRun b' s := by
  cases s with
  | nil => exact absurd rfl h
  | cons x t => rfl

theorem plainItem_head (x : Str) (h : plainItem x = true) :
    x ≠ [] ∧ ∀ y, x.head? = some y → isReSpace y = false := by
  obtain ⟨h1, h2, _⟩ := (plainItem_iff x).mp h
  exact ⟨h1, fun y hy => isReSpace_of_not_isSpace y (trimmed_of_TrimSpace x h2 y (Or.inl hy))⟩

theorem commaSep_head (c : Str) (cs : List Str) (h : ∀ x ∈ c :: cs, plainItem x = true) :
    commaSep (c :: cs) ≠ [] ∧ ∀ y, (commaSep (c :: cs)).head? = some y → isReSpace y = false := by
  obtain ⟨h1, h2⟩ := plainItem_head c (h c (by simp))
  refine ⟨commaSep_ne_nil c cs h1, ?_⟩
  intro y hy
  apply h2 y
  rw [commaSep_eq] at hy
  cases c with
  | nil => exact absurd rfl h1
  | cons a as => simpa using hy

theorem collapseWs_commaLines (indent c : Str) (cs : List Str) (hi : ∀ x ∈ indent, x = ' ')
    (h : ∀ x ∈ c :: cs, plainItem x = true) :
    collapseWs true (joinLines (commaLines indent (c :: cs)))
      = collapseWs false (commaSep (c :: cs)) := by
  induction cs generalizing c with
  | nil =>
    obtain ⟨h1, h2⟩ := plainItem_head c (h c (by simp))
    have htc : TrimSpace c = c := ((plainItem_iff c).mp (h c (by simp))).2.1
    simp only [commaLines, joinLines, commaSep, htc]
    rw [collapseWs_true_spaces _ _ hi, collapseWs_flag_irrelevant true c h2 h1]
  | cons d ds ih =>
    obtain ⟨h1, h2⟩ := plainItem_head c (h c (by simp))
    have htc : TrimSpace c = c := ((plainItem_iff c).mp (h c (by simp))).2.1
    have hd := commaSep_head d ds (fun x hx => h x (List.mem_cons_of_mem _ hx))
    have hne : commaLines indent (d :: ds) ≠ [] := by
      intro e
      have := commaLines_length indent (d :: ds)
      simp [e] at this
    have e1 : commaLines indent (c :: d :: ds)
        = (indent ++ TrimSpace c ++ [',']) :: commaLines indent (d :: ds) := rfl
    rw [e1, joinLines_cons _ _ hne, commaSep_cons_cons, htc]
    have e2 : indent ++ c ++ [','] ++ '\n' :: joinLines (commaLines indent (d :: ds))
        = indent ++ (c ++ (',' :: '\n' :: joinLines (commaLines indent (d :: ds)))) := by simp
    rw [e2, collapseWs_true_spaces _ _ hi, collapseWs_append, collapseWs_append false c,
      collapseWs_flag_irrelevant true c h2 h1, endsInRun_of_ne_nil true false c h1,
      collapseWs_cons_of_not_space _ _ _ (by rfl : isReSpace ',' = false),
      collapseWs_cons_of_not_space _ _ _ (by rfl : isReSpace ',' = false),
      collapseWs_false_space _ _ (by rfl : isReSpace '\n' = true),
      collapseWs_false_space _ _ (by rfl : isReSpace ' ' = true),
      ih d (fun x hx => h x (List.mem_cons_of_mem _ hx)),
      collapseWs_flag_irrelevant true _ hd.2 hd.1]

theorem cleanSQL_formatted_update (t c : Str) (cs : List Str) (indent : Str)
    (hi : ∀ x ∈ indent, x = ' ') (ht : t ≠ []) (htw : ∀ x ∈ t, isWordChar x = true)
    (h : ∀ x ∈ c :: cs, plainItem x = true)
    (hsp : singleSpaced (updateStatement t (commaSep (c :: cs))) = true) :
    cleanSQL (joinLines (("UPDATE ".toList ++ t) :: "SET".toList ::
      commaLines indent (splitColumns (commaSep (c :: cs)))))
      = updateStatement t (commaSep (c :: cs)) := by
  have hat := trimmed_commaSep c cs h
  have hane := commaSep_ne_nil c cs ((plainItem_iff c).mp (h c (by simp))).1
  have hne : commaLines indent (c :: cs) ≠ [] := by
    intro e
    have := commaLines_length indent (c :: cs)
    simp [e] at this
  have hts : ∀ x ∈ t, isReSpace x = false := fun x hx => isReSpace_of_isWordChar x (htw x hx)
  have key : collapseWs false (joinLines (("UPDATE ".toList ++ t) :: "SET".toList ::
      commaLines indent (c :: cs))) = collapseWs false (updateStatement t (commaSep (c :: cs))) := by
    rw [joinLines_cons _ _ (by simp), joinLines_cons _ _ hne]
    have e1 : "UPDATE ".toList ++ t ++ '\n' :: ("SET".toList ++ '\n' ::
        joinLines (commaLines indent (c :: cs)))
        = "UPDATE ".toList ++ (t ++ ('\n' :: 'S' :: 'E' :: 'T' :: '\n' ::
          joinLines (commaLines indent (c :: cs)))) := by simp
    have e2 : updateStatement t (commaSep (c :: cs))
        = "UPDATE ".toList ++ (t ++ (' ' :: 'S' :: 'E' :: 'T' :: ' ' :: commaSep (c :: cs))) := by
      simp [updateStatement]
    rw [e1, e2, collapseWs_append, collapseWs_append false "UPDATE ".toList,
      collapseWs_append_of_no_space _ t _ hts, collapseWs_append_of_no_space _ t _ hts]
    simp only [ht, if_false]
    rw [collapseWs_false_space _ _ (by rfl : isReSpace '\n' = true),
      collapseWs_false_space _ _ (by rfl : isReSpace ' ' = true),
      collapseWs_cons_of_not_space _ _ _ (by rfl : isReSpace 'S' = false),
      collapseWs_cons_of_not_space _ _ _ (by rfl : isReSpace 'S' = false),
      collapseWs_cons_of_not_space _ _ _ (by rfl : isReSpace 'E' = false),
      collapseWs_cons_of_not_space _ _ _ (by rfl : isReSpace 'E' = false),
      collapseWs_cons_of_not_space _ _ _ (by rfl : isReSpace 'T' = false),
      collapseWs_cons_of_not_space _ _ _ (by rfl : isReSpace 'T' = false),
      collapseWs_false_space _ _ (by rfl : isReSpace '\n' = true),
      collapseWs_false_space _ _ (by rfl : isReSpace ' ' = true),
      collapseWs_commaLines indent c cs hi h,
      collapseWs_flag_irrelevant true _ (commaSep_head c cs h).2 (commaSep_head c cs h).1]
  rw [splitColumns_commaSep c cs h, commaLines_map_space, cleanSQL_eq, key, ← cleanSQL_eq,
    cleanSQL_updateStatement t _ hane hat hsp]

theorem getLast?_commaSep_ne_comma (c : Str) (cs : List Str)
    (h : ∀ x ∈ c :: cs, plainItem x = true) : (commaSep (c :: cs)).getLast? ≠ some ',' := by
  intro e
  obtain ⟨b, hb, hbl⟩ := getLast?_commaSep c cs (fun x hx => ((plainItem_iff x).mp (h x hx)).1)
  rw [hbl] at e
  exact (((plainItem_iff b).mp (h b hb)).2.2 _ (List.mem_of_getLast?_eq_some e)).1 rfl

/-! ## Statements without an extracted clause, and the statement kind -/

/-- C12 fails on the code: for `DELETE users` and for `SELECT` the clause map is
empty and `Format` returns the empty string with a nil error, where the fallback
`formatKeywords` (taken by `formatInsertStatement` only) would give the statement
back. -/
theorem Format_empty_clause_map_gives_empty :
    splitDeleteSQL "DELETE users".toList = [] ∧
    Format NewFormatter "DELETE users".toList = some ([], none) ∧
    formatKeywords NewFormatter "DELETE users".toList = "DELETE users".toList ∧
    splitSelectSQL "SELECT".toList = [] ∧
    Format NewFormatter "select".toList = some ([], none) := by
  decide!

/-- C13 fails on the code: the first word of `selected from t` is not SELECT, yet
the statement is formatted as a SELECT statement (the kind is tested with
`HasPrefix`), and the output is not the keyword-cased statement
`selected FROM t`; likewise `UPDATES t` is formatted as an UPDATE statement. -/
theorem Format_kind_by_prefix :
    replaceKeywords NewFormatter prepassKeywords (cleanSQL "selected from t".toList)
      = "selected FROM t".toList ∧
    Format NewFormatter "selected from t".toList = some ("\nFROM\n  t".toList, none) ∧
    replaceKeywords NewFormatter prepassKeywords (cleanSQL "UPDATES t".toList)
      = "UPDATES t".toList ∧
    Format NewFormatter "UPDATES t".toList = some ([], none) := by
  decide!

/-- C15 fails on the code: with `IndentSize = 2` the output for `SELECT* FROM users`
has three lines, an empty one, `FROM` and `  users`; its first line is not a
header and does not start with the two-space indent. -/
theorem Format_blank_line_not_indented :
    getIndent NewFormatter 1 = some "  ".toList ∧
    Format NewFormatter "SELECT* FROM users".toList
      = some (joinLines [[], "FROM".toList, "  users".toList], none) ∧
    HasPrefix [] "  ".toList = false := by
  decide!

/-! ## The column splitter -/

theorem joinCommas_cons_cons (x y : Str) (l : List Str) :
    joinCommas (x :: y :: l) = x ++ ',' :: joinCommas (y :: l) := rfl

theorem joinCommas_nil : joinCommas [] = [] := rfl

theorem joinCommas_singleton (x : Str) : joinCommas [x] = x := rfl

theorem joinCommas_cons (x : Str) (l : List Str) (h : l ≠ []) :
    joinCommas (x :: l) = x ++ ',' :: joinCommas l := by
  cases l with
  | nil => exact absurd rfl h
  | cons y l => rfl

/-- The segments of `splitColumnsAux`, joined by commas, are the text read so far
followed by the text still to read, up to one comma at the very end. -/
theorem joinCommas_splitColumnsAux (s cur : Str) (d : Int) :
    joinCommas (splitColumnsAux s cur d) = cur ++ s ∨
      joinCommas (splitColumnsAux s cur d) ++ [','] = cur ++ s := by
  induction s generalizing cur d with
  | nil =>
    left
    rw [splitColumnsAux]
    split
    · simp [joinCommas_singleton]
    · rename_i h
      have : cur = [] := by
        cases cur with
        | nil => rfl
        | cons a b => simp at h
      simp [joinCommas_nil, this]
  | cons c t ih =>
    have hstep : ∀ cur2 d2, splitColumnsAux t (cur ++ [c]) d2 = cur2 →
        (joinCommas (splitColumnsAux t (cur ++ [c]) d2) = cur ++ c :: t ∨
          joinCommas (splitColumnsAux t (cur ++ [c]) d2) ++ [','] = cur ++ c :: t) := by
      intro _ d2 _
      have := ih (cur ++ [c]) d2
      simpa using this
    rw [splitColumnsAux]
    split
    · exact hstep _ _ rfl
    · split
      · exact hstep _ _ rfl
      · split
        · rename_i hc
          have hc' : c = ',' := by simpa using hc
          subst hc'
          split
          · by_cases hR : splitColumnsAux t [] d = []
            · have ht : t = [] := by
                by_contra hne
                exact splitColumnsAux_ne_nil t [] d (Or.inl hne) hR
              subst ht
              right
              rw [hR, joinCommas_singleton]
            · rw [joinCommas_cons _ _ hR]
              rcases ih [] d with h | h
              · left; simp [h]
              · right
                simp only [List.nil_append] at h
                simp only [List.append_assoc, List.cons_append]
                rw [h]
          · exact hstep _ _ rfl
        · exact hstep _ _ rfl

theorem balancedFrom_cons (d : Int) (c : Char) (t : Str) :
    balancedFrom d (c :: t) =
      if c == '(' then balancedFrom (d + 1) t
      else if c == ')' then decide (0 < d) && balancedFrom (d - 1) t
      else balancedFrom d t := by
  rw [balancedFrom]

theorem noTopCommaFrom_cons (d : Int) (c : Char) (t : Str) :
    noTopCommaFrom d (c :: t) =
      if c == '(' then noTopCommaFrom (d + 1) t
      else if c == ')' then noTopCommaFrom (d - 1) t
      else if c == ',' then d != 0 && noTopCommaFrom d t
      else noTopCommaFrom d t := by
  rw [noTopCommaFrom]

/-- On a text that is balanced from the current depth, the splitter returns
segments that are balanced and have no comma at depth zero, when the text read
so far is the start of such a segment. -/
theorem splitColumnsAux_balanced (s cur : Str) (d : Int)
    (hs : balancedFrom d s = true)
    (hb : ∀ tail, balancedFrom d tail = true → balancedFrom 0 (cur ++ tail) = true)
    (hn : ∀ tail, noTopCommaFrom d tail = true → noTopCommaFrom 0 (cur ++ tail) = true) :
    ∀ seg ∈ splitColumnsAux s cur d, balanced seg = true ∧ noTopComma seg = true := by
  induction s generalizing cur d with
  | nil =>
    intro seg hseg
    rw [splitColumnsAux] at hseg
    split at hseg
    · simp only [List.mem_singleton] at hseg
      subst hseg
      have h1 := hb [] hs
      have h2 := hn [] (by rw [noTopCommaFrom])
      simp only [List.append_nil] at h1 h2
      exact ⟨h1, h2⟩
    · simp at hseg
  | cons c t ih =>
    rw [balancedFrom_cons] at hs
    rw [splitColumnsAux]
    split
    · rename_i hc
      simp only [hc, if_true] at hs
      refine ih _ _ hs ?_ ?_
      · intro tail ht
        have := hb (c :: tail) (by rw [balancedFrom_cons]; simp only [hc, if_true]; exact ht)
        simpa using this
      · intro tail ht
        have := hn (c :: tail) (by rw [noTopCommaFrom_cons]; simp only [hc, if_true]; exact ht)
        simpa using this
    · rename_i hc
      split
      · rename_i hc2
        simp only [hc, hc2, if_true, Bool.false_eq_true, if_false, Bool.and_eq_true,
          decide_eq_true_eq] at hs
        refine ih _ _ hs.2 ?_ ?_
        · intro tail ht
          have := hb (c :: tail) (by
            rw [balancedFrom_cons]
            simp only [hc, hc2, if_true, Bool.false_eq_true, if_false, Bool.and_eq_true,
              decide_eq_true_eq]
            exact ⟨hs.1, ht⟩)
          simpa using this
        · intro tail ht
          have := hn (c :: tail) (by
            rw [noTopCommaFrom_cons]
            simp only [hc, hc2, if_true, Bool.false_eq_true, if_false]
            exact ht)
          simpa using this
      · rename_i hc2
        simp only [hc, hc2, Bool.false_eq_true, if_false] at hs
        have hkeep : ∀ seg ∈ splitColumnsAux t (cur ++ [c]) d, (c == ',') = false ∨ d ≠ 0 →
            balanced seg = true ∧ noTopComma seg = true := by
          intro seg hseg hcd
          refine ih _ _ hs ?_ ?_ seg hseg
          · intro tail ht
            have := hb (c :: tail) (by
              rw [balancedFrom_cons]
              simp only [hc, hc2, Bool.false_eq_true, if_false]
              exact ht)
            simpa using this
          · intro tail ht
            have := hn (c :: tail) (by
              rw [noTopCommaFrom_cons]
              simp only [hc, hc2, Bool.false_eq_true, if_false]
              rcases hcd with h | h
              · simp only [h, Bool.false_eq_true, if_false]; exact ht
              · split
                · simp [h, ht]
                · exact ht)
            simpa using this
        split
        · rename_i hc3
          split
          · rename_i hd
            have hd0 : d = 0 := by simpa using hd
            subst hd0
            intro seg hseg
            rcases List.mem_cons.mp hseg with h | h
            · subst h
              have h1 := hb [] (by rw [balancedFrom]; rfl)
              have h2 := hn [] (by rw [noTopCommaFrom])
              simp only [List.append_nil] at h1 h2
              exact ⟨h1, h2⟩
            · exact ih [] 0 hs (fun tail ht => ht) (fun tail ht => ht) seg h
          · rename_i hd
            intro seg hseg
            exact hkeep seg hseg (Or.inr (by simpa using hd))
        · rename_i hc3
          intro seg hseg
          exact hkeep seg hseg (Or.inl (by simpa using hc3))

/-- An element that is balanced and has no comma at depth zero is read into the
current segment as a whole. -/
theorem splitColumnsAux_element (e rest cur : Str) (d : Int)
    (hb : balancedFrom d e = true) (hn : noTopCommaFrom d e = true) :
    splitColumnsAux (e ++ rest) cur d = splitColumnsAux rest (cur ++ e) 0 := by
  induction e generalizing cur d with
  | nil =>
    have hd : d = 0 := by
      rw [balancedFrom] at hb
      simpa using hb
    subst hd
    simp
  | cons c t ih =>
    rw [balancedFrom_cons] at hb
    rw [noTopCommaFrom_cons] at hn
    rw [List.cons_append, splitColumnsAux]
    split
    · rename_i hc
      simp only [hc, if_true] at hb hn
      rw [ih _ _ hb hn]
      simp
    · rename_i hc
      split
      · rename_i hc2
        simp only [hc, hc2, if_true, Bool.false_eq_true, if_false, Bool.and_eq_true] at hb hn
        rw [ih _ _ hb.2 hn]
        simp
      · rename_i hc2
        simp only [hc, hc2, Bool.false_eq_true, if_false] at hb hn
        split
        · rename_i hc3
          simp only [hc3, if_true, Bool.and_eq_true, bne_iff_ne, ne_eq] at hn
          have hd : ¬ (d == 0) = true := by simpa using hn.1
          rw [if_neg hd, ih _ _ hb hn.2]
          simp
        · rename_i hc3
          simp only [hc3, Bool.false_eq_true, if_false] at hn
          rw [ih _ _ hb hn]
          simp

/-- Below depth zero, and with no opening parenthesis left, no comma splits. -/
theorem splitColumnsAux_negative (b cur : Str) (d : Int) (hd : d < 0)
    (hb : ∀ c ∈ b, c ≠ '(') (hcur : cur ≠ []) :
    splitColumnsAux b cur d = [cur ++ b] := by
  induction b generalizing cur d with
  | nil => rw [splitColumnsAux_nil _ _ hcur]; simp
  | cons c t ih =>
    have hc : ¬ (c == '(') = true := by simpa using hb c (by simp)
    have ht : ∀ x ∈ t, x ≠ '(' := fun x hx => hb x (List.mem_cons_of_mem _ hx)
    rw [splitColumnsAux, if_neg hc]
    split
    · rw [ih (cur ++ [c]) (d - 1) (by omega) ht (by simp)]; simp
    · have hd0 : ¬ (d == 0) = true := by
        simp only [beq_iff_eq]; omega
      simp only [hd0, if_false, ite_self]
      rw [ih (cur ++ [c]) d hd ht (by simp)]; simp

/-! ## Properties of the column splitter -/

/-- C17: for a text with balanced parentheses, every segment returned by
`splitColumns` has balanced parentheses and no comma at depth zero, and the
segments joined by commas give the text back (up to one comma at its very end):
the commas removed are the ones at depth zero, and no comma inside parentheses
is removed. -/
theorem splitColumns_balanced (s : Str) (h : balanced s = true) :
    (∀ seg ∈ splitColumns s, balanced seg = true ∧ noTopComma seg = true) ∧
    (joinCommas (splitColumns s) = s ∨ joinCommas (splitColumns s) ++ [','] = s) := by
  refine ⟨splitColumnsAux_balanced s [] 0 h (fun _ ht => ht) (fun _ ht => ht), ?_⟩
  simpa [splitColumns] using joinCommas_splitColumnsAux s [] 0

/-- Witness of C17: a list with nested parentheses. -/
theorem splitColumns_balanced_witness :
    balanced "id, f(a, (b, c)), d".toList = true ∧
    ((∀ seg ∈ splitColumns "id, f(a, (b, c)), d".toList,
        balanced seg = true ∧ noTopComma seg = true) ∧
      (joinCommas (splitColumns "id, f(a, (b, c)), d".toList) = "id, f(a, (b, c)), d".toList ∨
        joinCommas (splitColumns "id, f(a, (b, c)), d".toList) ++ [',']
          = "id, f(a, (b, c)), d".toList)) :=
  ⟨by decide, splitColumns_balanced _ (by decide)⟩

/-- C18 (amended): for elements `e1..en`, `n ≥ 1`, each with balanced parentheses
and no comma outside parentheses, the last one not empty, `splitColumns` applied
to the elements joined by commas returns exactly the elements, whitespace kept. -/
theorem splitColumns_joinCommas (es : List Str) (hne : es ≠ [])
    (hel : ∀ e ∈ es, balanced e = true ∧ noTopComma e = true)
    (hlast : es.getLast? ≠ some []) :
    splitColumns (joinCommas es) = es ∧
      joinCommas (splitColumns (joinCommas es)) = joinCommas es := by
  have key : splitColumns (joinCommas es) = es := by
    unfold splitColumns
    induction es with
    | nil => exact absurd rfl hne
    | cons e l ih =>
      have he := hel e (by simp)
      cases l with
      | nil =>
        have hen : e ≠ [] := by
          intro h0
          apply hlast
          simp [h0]
        have := splitColumnsAux_element e [] [] 0 he.1 he.2
        simp only [List.append_nil, List.nil_append] at this
        rw [joinCommas_singleton, this, splitColumnsAux_nil _ _ hen]
      | cons e2 r =>
        rw [joinCommas_cons_cons, splitColumnsAux_element e _ [] 0 he.1 he.2,
          List.nil_append, splitColumnsAux_comma,
          ih (by simp) (fun x hx => hel x (List.mem_cons_of_mem _ hx))
            (by simpa [List.getLast?_cons_cons] using hlast)]
  exact ⟨key, by rw [key]⟩

/-- Witness of C18: four elements, one of them empty and one with a comma inside
parentheses. -/
theorem splitColumns_joinCommas_witness :
    splitColumns (joinCommas ["id".toList, " COUNT(*)".toList, "".toList, " MAX(a, b)".toList])
      = ["id".toList, " COUNT(*)".toList, "".toList, " MAX(a, b)".toList] ∧
    joinCommas (splitColumns
        (joinCommas ["id".toList, " COUNT(*)".toList, "".toList, " MAX(a, b)".toList]))
      = joinCommas ["id".toList, " COUNT(*)".toList, "".toList, " MAX(a, b)".toList] :=
  splitColumns_joinCommas _ (by decide) (by decide) (by decide)

/-- C18 fails as stated: an empty last element is dropped, so the two elements `a`
and the empty text, joined to `a,`, come back as one segment, and the single empty
element comes back as no segment. -/
theorem splitColumns_drops_empty_last :
    balanced [] = true ∧ noTopComma [] = true ∧
    joinCommas ["a".toList, []] = "a,".toList ∧
    splitColumns (joinCommas ["a".toList, []]) = ["a".toList] ∧
    splitColumns (joinCommas [[]]) = [] := by
  decide

/-- C19 (amended): the segments returned by `splitColumns` keep the whitespace of
the input: joined by commas they give the input back, up to one comma at its very
end; it is `TrimSpace`, applied to each segment by the callers, that removes the
whitespace around a segment. -/
theorem splitColumns_keeps_whitespace (s : Str) :
    (joinCommas (splitColumns s) = s ∨ joinCommas (splitColumns s) ++ [','] = s) ∧
    (∀ seg ∈ splitColumns s, Trimmed (TrimSpace seg)) ∧
    ∀ sep, joinTrimmed sep (splitColumns s) = joinTrimmed sep ((splitColumns s).map TrimSpace) := by
  refine ⟨by simpa [splitColumns] using joinCommas_splitColumnsAux s [] 0,
    fun seg _ => trimmed_of_TrimSpace _ (TrimSpace_idem seg), ?_⟩
  intro sep
  cases splitColumns s with
  | nil => rfl
  | cons c cs => simp [joinTrimmed, TrimSpace_idem, Function.comp_def]

/-- Witness of C19: the list of `TestSplitColumns`. -/
theorem splitColumns_keeps_whitespace_witness :
    (joinCommas (splitColumns "id, name, email".toList) = "id, name, email".toList ∨
      joinCommas (splitColumns "id, name, email".toList) ++ [','] = "id, name, email".toList) ∧
    (∀ seg ∈ splitColumns "id, name, email".toList, Trimmed (TrimSpace seg)) ∧
    ∀ sep, joinTrimmed sep (splitColumns "id, name, email".toList)
      = joinTrimmed sep ((splitColumns "id, name, email".toList).map TrimSpace) :=
  splitColumns_keeps_whitespace "id, name, email".toList

/-- C19 fails as stated: the segments of `id, name, email` are `id`, ` name` and
` email`, the last two with their leading space, as `TestSplitColumns` expects. -/
theorem splitColumns_segments_untrimmed :
    splitColumns "id, name, email".toList = ["id".toList, " name".toList, " email".toList] ∧
    TrimSpace " name".toList ≠ " name".toList := by
  decide

/-- C20 (amended): `splitColumns` is total, and its depth counter is not clamped
at zero: after an unmatched closing parenthesis the depth is negative, and with
no opening parenthesis after it no later comma splits, so the text comes back as
one segment. -/
theorem splitColumns_unmatched_close (a b : Str)
    (ha : ∀ c ∈ a, c ≠ ',' ∧ c ≠ '(' ∧ c ≠ ')') (hb : ∀ c ∈ b, c ≠ '(') :
    splitColumns (a ++ ')' :: b) = [a ++ ')' :: b] := by
  unfold splitColumns
  rw [splitColumnsAux_append a _ [] 0 ha, List.nil_append, splitColumnsAux]
  have e1 : ¬ ((')' : Char) == '(') = true := by decide
  have e2 : ((')' : Char) == ')') = true := by decide
  rw [if_neg e1, if_pos e2, splitColumnsAux_negative b _ _ (by omega) hb (by simp)]
  simp

/-- Witness of C20: two commas after an unmatched closing parenthesis. -/
theorem splitColumns_unmatched_close_witness :
    splitColumns ("a".toList ++ ')' :: ", b, c".toList) = ["a".toList ++ ')' :: ", b, c".toList] :=
  splitColumns_unmatched_close _ _ (by decide) (by decide)

/-- C20 fails as stated: `a), b` yields one segment, not two. -/
theorem splitColumns_no_clamp :
    splitColumns "a), b".toList = ["a), b".toList] := by
  decide

/-! ## Captured clause texts -/

theorem occursIn_refl (s : Str) : occursIn s s := ⟨[], [], by simp⟩

theorem occursIn_trans (x y z : Str) (h1 : occursIn x y) (h2 : occursIn y z) : occursIn x z := by
  obtain ⟨a, b, rfl⟩ := h1
  obtain ⟨c, d, rfl⟩ := h2
  exact ⟨c ++ a, b ++ d, by simp⟩

theorem occursIn_append_left (x m r : Str) (h : occursIn x r) : occursIn x (m ++ r) := by
  obtain ⟨a, b, rfl⟩ := h
  exact ⟨m ++ a, b, by simp⟩

theorem occursIn_take (n : Nat) (s : Str) : occursIn (s.take n) s :=
  ⟨[], s.drop n, by simp⟩

theorem mem_of_occursIn (x s : Str) (h : occursIn x s) (c : Char) (hc : c ∈ x) : c ∈ s := by
  obtain ⟨a, b, rfl⟩ := h
  simp [hc]

theorem occursIn_TrimSpace (s : Str) : occursIn (TrimSpace s) s := by
  unfold TrimSpace trimLeft
  obtain ⟨a, ha⟩ := List.dropWhile_suffix isSpace (l := s)
  obtain ⟨b, hb⟩ := List.dropWhile_suffix isSpace (l := (s.dropWhile isSpace).reverse)
  refine ⟨a, b.reverse, ?_⟩
  have h2 : s.dropWhile isSpace
      = ((s.dropWhile isSpace).reverse.dropWhile isSpace).reverse ++ b.reverse := by
    have := congrArg List.reverse hb
    simpa using this.symm
  rw [List.append_assoc, ← h2, ha]

/-- Every capture group closed by a run is a piece of the text the run started on,
or was closed before. -/
theorem run_caps (r : Re) (st e : St) (h : e ∈ r.run st) :
    ∀ c ∈ e.caps, c ∈ st.caps ∨ occursIn c st.rest := by
  induction r generalizing st e with
  | eps =>
    simp only [Re.run, List.mem_singleton] at h
    subst h
    exact fun c hc => Or.inl hc
  | cls p =>
    simp only [Re.run] at h
    split at h
    · split at h
      · simp only [List.mem_singleton] at h
        subst h
        exact fun c hc => Or.inl hc
      · simp at h
    · simp at h
  | bnd =>
    simp only [Re.run] at h
    split at h
    · simp only [List.mem_singleton] at h
      subst h
      exact fun c hc => Or.inl hc
    · simp at h
  | eot =>
    simp only [Re.run] at h
    split at h
    · simp only [List.mem_singleton] at h
      subst h
      exact fun c hc => Or.inl hc
    · simp at h
  | cat a b iha ihb =>
    simp only [Re.run, List.mem_flatMap] at h
    obtain ⟨mid, h1, h2⟩ := h
    obtain ⟨m1, ha1, _⟩ := run_sound a _ _ h1
    intro c hc
    rcases ihb _ _ h2 c hc with h | h
    · exact iha _ _ h1 c h
    · right
      rw [ha1]
      exact occursIn_append_left _ _ _ h
  | alt a b iha ihb =>
    simp only [Re.run] at h
    rcases List.mem_append.mp h with h | h
    · exact iha _ _ h
    · exact ihb _ _ h
  | star p =>
    simp only [Re.run] at h
    obtain ⟨m, _, _, h3, _⟩ := runStar_sound _ _ _ _ _ h
    intro c hc
    rw [h3] at hc
    exact Or.inl hc
  | lazy p =>
    simp only [Re.run] at h
    obtain ⟨m, _, _, h3, _⟩ := runLazy_sound _ _ _ _ _ h
    intro c hc
    rw [h3] at hc
    exact Or.inl hc
  | grp r ih =>
    simp only [Re.run, List.mem_map] at h
    obtain ⟨e', h1, h2⟩ := h
    subst h2
    intro c hc
    simp only [List.mem_append, List.mem_singleton] at hc
    rcases hc with hc | hc
    · exact ih _ _ h1 c hc
    · right
      rw [hc]
      exact occursIn_take _ _

theorem FindStringSubmatch_caps (r : Re) (s : Str) (l : List Str)
    (h : FindStringSubmatch r s = some l) : ∀ c ∈ l, occursIn c s := by
  unfold FindStringSubmatch at h
  split at h
  · rename_i f hf
    simp only [Option.some.injEq] at h
    subst h
    obtain ⟨hs, _, e, he, _, hcaps⟩ := findFrom_some r none s f hf
    intro c hc
    rcases List.mem_cons.mp hc with hc | hc
    · subst hc
      exact ⟨f.before, f.after, by rw [hs]; simp⟩
    · rw [← hcaps] at hc
      have hmem : e ∈ r.run ⟨lastOr none f.before, f.matched ++ f.after, []⟩ :=
        List.mem_of_mem_head? he
      rcases run_caps r _ _ hmem c hc with h' | h'
      · simp at h'
      · rw [hs]
        exact occursIn_append_left _ _ _ h'
  · simp at h

theorem extractClauses_occursIn (patterns : List (String × Re)) (sql : Str) (e : String × Str)
    (h : e ∈ extractClauses patterns sql) : occursIn e.2 sql := by
  unfold extractClauses at h
  obtain ⟨kp, _, hkp⟩ := List.mem_filterMap.mp h
  split at hkp
  · rename_i m0 m1 rest hfs
    simp only [Option.some.injEq] at hkp
    subst hkp
    exact occursIn_trans _ _ _ (occursIn_TrimSpace m1)
      (FindStringSubmatch_caps _ _ _ hfs m1 (by simp))
  · simp at hkp

theorem extractClauses_trimmed (patterns : List (String × Re)) (sql : Str) (e : String × Str)
    (h : e ∈ extractClauses patterns sql) : Trimmed e.2 := by
  unfold extractClauses at h
  obtain ⟨kp, _, hkp⟩ := List.mem_filterMap.mp h
  split at hkp
  · simp only [Option.some.injEq] at hkp
    subst hkp
    exact trimmed_of_TrimSpace _ (TrimSpace_idem _)
  · simp at hkp

theorem ClauseMap.get_mem (m : ClauseMap) (key : String) (h : m.get key ≠ []) :
    ∃ e ∈ m, e.2 = m.get key := by
  unfold ClauseMap.get at h ⊢
  split at h
  · rename_i e he
    exact ⟨e, List.mem_of_find?_eq_some he, rfl⟩
  · exact absurd rfl h

theorem clauseSection_head (f : Formatter) (indent : Str) (name : String) (part : Str) :
    clauseSection f indent name part = [] ∨
      (clauseSection f indent name part).head? = some '\n' := by
  unfold clauseSection
  split
  · right; rfl
  · left; rfl

theorem head?_append_newline (a b : Str) (ha : a = [] ∨ a.head? = some '\n')
    (hb : b = [] ∨ b.head? = some '\n') : a ++ b = [] ∨ (a ++ b).head? = some '\n' := by
  rcases ha with ha | ha
  · subst ha; simpa using hb
  · right
    cases a with
    | nil => simp at ha
    | cons x a => simpa using ha

/-- The section of a verbatim clause inside the output of `formatSelectStatement`. -/
theorem formatSelectStatement_section (f : Formatter) (sql out : Str)
    (h : formatSelectStatement f sql = some out) (name : String)
    (hname : name ∈ ["WHERE", "GROUP BY", "HAVING", "ORDER BY", "LIMIT"]) :
    ∃ indent pre post, getIndent f 1 = some indent ∧
      out = pre ++ clauseSection f indent name ((splitSelectSQL sql).get name) ++ post ∧
      (post = [] ∨ post.head? = some '\n') := by
  unfold formatSelectStatement at h
  cases hi : getIndent f 1 with
  | none => simp [hi] at h
  | some indent =>
    simp only [hi, Option.bind_eq_bind, Option.some_bind, Option.pure_def] at h
    have key : ∃ R, R ++ clauseSection f indent "WHERE" ((splitSelectSQL sql).get "WHERE")
        ++ clauseSection f indent "GROUP BY" ((splitSelectSQL sql).get "GROUP BY")
        ++ clauseSection f indent "HAVING" ((splitSelectSQL sql).get "HAVING")
        ++ clauseSection f indent "ORDER BY" ((splitSelectSQL sql).get "ORDER BY")
        ++ clauseSection f indent "LIMIT" ((splitSelectSQL sql).get "LIMIT") = out := by
      split at h
      · obtain ⟨sc, _, h⟩ := Option.bind_eq_some.mp h
        split at h
        · obtain ⟨fc, _, h⟩ := Option.bind_eq_some.mp h
          simp only [Option.some.injEq] at h
          exact ⟨_, h⟩
        · simp only [Option.some.injEq] at h
          exact ⟨_, h⟩
      · split at h
        · obtain ⟨fc, _, h⟩ := Option.bind_eq_some.mp h
          simp only [Option.some.injEq] at h
          exact ⟨_, h⟩
        · simp only [Option.some.injEq] at h
          exact ⟨_, h⟩
    clear h
    obtain ⟨R, h⟩ := key
    have hW := clauseSection_head f indent "WHERE" ((splitSelectSQL sql).get "WHERE")
    have hG := clauseSection_head f indent "GROUP BY" ((splitSelectSQL sql).get "GROUP BY")
    have hH := clauseSection_head f indent "HAVING" ((splitSelectSQL sql).get "HAVING")
    have hO := clauseSection_head f indent "ORDER BY" ((splitSelectSQL sql).get "ORDER BY")
    have hL := clauseSection_head f indent "LIMIT" ((splitSelectSQL sql).get "LIMIT")
    simp only [List.mem_cons, List.mem_singleton, List.not_mem_nil, or_false] at hname
    rcases hname with rfl | rfl | rfl | rfl | rfl
    · refine ⟨indent, R, _, rfl, ?_, head?_append_newline _ _ hG (head?_append_newline _ _ hH
        (head?_append_newline _ _ hO hL))⟩
      rw [← h]; simp only [List.append_assoc]
    · refine ⟨indent, R ++ clauseSection f indent "WHERE" ((splitSelectSQL sql).get "WHERE"), _,
        rfl, ?_, head?_append_newline _ _ hH (head?_append_newline _ _ hO hL)⟩
      rw [← h]; simp only [List.append_assoc]
    · refine ⟨indent, R ++ clauseSection f indent "WHERE" ((splitSelectSQL sql).get "WHERE")
        ++ clauseSection f indent "GROUP BY" ((splitSelectSQL sql).get "GROUP BY"), _,
        rfl, ?_, head?_append_newline _ _ hO hL⟩
      rw [← h]; simp only [List.append_assoc]
    · refine ⟨indent, R ++ clauseSection f indent "WHERE" ((splitSelectSQL sql).get "WHERE")
        ++ clauseSection f indent "GROUP BY" ((splitSelectSQL sql).get "GROUP BY")
        ++ clauseSection f indent "HAVING" ((splitSelectSQL sql).get "HAVING"), _,
        rfl, ?_, hL⟩
      rw [← h]
    · refine ⟨indent, R ++ clauseSection f indent "WHERE" ((splitSelectSQL sql).get "WHERE")
        ++ clauseSection f indent "GROUP BY" ((splitSelectSQL sql).get "GROUP BY")
        ++ clauseSection f indent "HAVING" ((splitSelectSQL sql).get "HAVING")
        ++ clauseSection f indent "ORDER BY" ((splitSelectSQL sql).get "ORDER BY"), [],
        rfl, ?_, Or.inl rfl⟩
      rw [← h]; simp only [List.append_nil]

/-! ## Verbatim clauses of a SELECT statement -/

/-- C16 fails as stated: the WHERE line of `SELECT a FROM t WHERE note = 'the end'`
is not the clause text of the input; the word `end` inside the quoted literal is
written in upper case by the keyword pre-pass. -/
theorem Format_select_clause_recased :
    cleanSQL "SELECT a FROM t WHERE note = 'the end'".toList
      = "SELECT a FROM t WHERE note = 'the end'".toList ∧
    Format NewFormatter "SELECT a FROM t WHERE note = 'the end'".toList
      = some ("SELECT\n  a\nFROM\n  t\nWHERE\n  note = 'the END'".toList, none) := by
  decide!

/-! ## The clause patterns on a standard DELETE statement -/

theorem stripLit_append_space (w a r : Str) (hw : ∀ c ∈ w, foldEq c ' ' = false)
    (ha : stripLit w a = none) : stripLit w (a ++ ' ' :: r) = none := by
  induction w generalizing a with
  | nil => simp [stripLit] at ha
  | cons c w ih =>
    cases a with
    | nil => simp [stripLit, hw c (by simp)]
    | cons x a =>
      simp only [List.cons_append, stripLit] at ha ⊢
      split
      · rename_i hx
        rw [if_pos hx] at ha
        exact ih a (fun y hy => hw y (List.mem_cons_of_mem _ hy)) ha
      · rfl

theorem ws1_run_sound (st e : St) (h : e ∈ Re.ws1.run st) :
    ∃ m, st.rest = m ++ e.rest ∧ m ≠ [] ∧ ∀ c ∈ m, isReSpace c = true := by
  unfold Re.ws1 at h
  simp only [Re.run, List.mem_flatMap] at h
  obtain ⟨mid, h1, h2⟩ := h
  split at h1
  · rename_i c t hr
    split at h1
    · rename_i hc
      simp only [List.mem_singleton] at h1
      subst h1
      obtain ⟨m, hm, _, _, hall⟩ := runStar_sound _ _ _ _ _ h2
      simp only at hm
      refine ⟨c :: m, by rw [hr, hm]; rfl, by simp, ?_⟩
      intro y hy
      rcases List.mem_cons.mp hy with hy | hy
      · rw [hy]; exact hc
      · exact hall y hy
    · simp at h1
  · simp at h1

/-- The stop `\s+KW` fails inside a text that ends in a rune other than `\s`, when
the letters of the keyword start at no place of the text followed by `rest`. -/
theorem fails_ws1_kw_inside (w : String) (xb rest : Str)
    (hz : ∃ z, xb.getLast? = some z ∧ isReSpace z = false)
    (h : ∀ p suf, xb = p ++ suf → stripLit w.toList (suf ++ rest) = none) :
    Fails (Re.cat Re.ws1 (kw w)) (xb ++ rest) := by
  intro prev caps
  show (Re.ws1.run ⟨prev, xb ++ rest, caps⟩).flatMap (kw w).run = []
  rw [List.flatMap_eq_nil_iff]
  intro e he
  obtain ⟨m, hm, _, hall⟩ := ws1_run_sound _ _ he
  simp only at hm
  obtain ⟨z, hzl, hzs⟩ := hz
  have hzm : z ∈ xb := List.mem_of_getLast?_eq_some hzl
  rcases List.append_eq_append_iff.mp hm with ⟨a', h1, h2⟩ | ⟨c', h1, h2⟩
  · -- the run is longer than the text: impossible
    have : z ∈ m := by rw [h1]; simp [hzm]
    rw [hall z this] at hzs
    exact Bool.noConfusion hzs
  · apply kw_run_nil
    rw [h2]
    exact h m c' h1

theorem deleteStatement_eq (t : Str) (w : Option Str) :
    deleteStatement t w = "DELETE FROM".toList ++ ' ' :: (t ++ whereTail w) := by
  simp [deleteStatement]

theorem whereTail_cases (w : Option Str) : whereTail w = [] ∨ ∃ r, whereTail w = ' ' :: r := by
  cases w with
  | none => exact Or.inl rfl
  | some c => exact Or.inr ⟨_, rfl⟩

theorem stripLit_where_in_table (t tail : Str) (htail : tail = [] ∨ ∃ r, tail = ' ' :: r)
    (hnw : noOccurrence "WHERE" t = true) (p suf : Str) (hp : t = p ++ suf) :
    stripLit "WHERE".toList (suf ++ tail) = none := by
  have h0 : stripLit "WHERE".toList suf = none := noOccurrence_suffix "WHERE" p suf (hp ▸ hnw)
  rcases htail with h | ⟨r, h⟩
  · rw [h]; simpa using h0
  · rw [h]; exact stripLit_append_space _ _ _ (by decide) h0

theorem FindStringSubmatch_delete_from (t tail tail' : Str) (ht : t ≠ [])
    (htt : Trimmed t) (hnw : noOccurrence "WHERE" t = true)
    (htail : tail = [] ∨ ∃ r, tail = ' ' :: r)
    (hend : Steps (clauseEnd [kw "WHERE"]) tail [t] tail' [t])
    (hsp : singleSpaced ("DELETE FROM".toList ++ ' ' :: (t ++ tail)) = true) :
    ∃ m0, FindStringSubmatch
        (clauseRe (Re.seq [kw "DELETE", Re.ws1, kw "FROM"]) [kw "WHERE"])
        ("DELETE FROM".toList ++ ' ' :: (t ++ tail))
      = some [m0, t] := by
  obtain ⟨z, hz, hzl⟩ : ∃ z, t.getLast? = some z ∧ isReSpace z = false := by
    have h : t.getLast? = some (t.getLast ht) := List.getLast?_eq_getLast _ _
    exact ⟨_, h, isReSpace_of_not_isSpace _ (htt _ (Or.inr h))⟩
  have hhead : ∀ X : Str, Steps (Re.seq [kw "DELETE", Re.ws1, kw "FROM"])
      ("DELETE FROM".toList ++ ' ' :: X) [] (' ' :: X) [] := by
    intro X
    have e : "DELETE FROM".toList ++ ' ' :: X
        = "DELETE".toList ++ ' ' :: ("FROM".toList ++ ' ' :: X) := rfl
    rw [e]
    exact Steps.seq_cons (Steps.kw "DELETE" _ _)
      (Steps.seq_cons (Steps.ws1_space _ _ (by intro x hx; simp at hx; subst hx; rfl))
        (Steps.kw "FROM" _ _))
  have hm := matchAt_clauseRe (Re.seq [kw "DELETE", Re.ws1, kw "FROM"]) [kw "WHERE"]
    "DELETE FROM".toList t tail tail' none (by rfl) (hhead _)
    (fun x hx => isReSpace_of_not_isSpace x
      (htt x (Or.inl (by
        cases t with
        | nil => exact absurd rfl ht
        | cons a b => simpa using hx))))
    (fun x hx => isDot_of_singleSpaced _ hsp x (by simp [hx]))
    (by
      intro p x b hp
      rw [clauseEnd_one]
      have hlast : (x :: b).getLast? = some z := by
        rw [hp, List.getLast?_append_of_ne_nil _ (by simp)] at hz
        exact hz
      have hzm : z ∈ x :: b := List.mem_of_getLast?_eq_some hlast
      refine Fails.alt (fails_ws1_kw_inside "WHERE" (x :: b) _ ⟨z, hlast, hzl⟩ ?_)
        (fails_ws0_eot _ ⟨z, List.mem_append_left _ hzm, hzl⟩)
      intro q suf hq
      exact stripLit_where_in_table t tail htail hnw (p ++ q) suf (by rw [hp, hq]; simp))
    hend
  obtain ⟨p', hp'⟩ := hm
  obtain ⟨x, y, hxy⟩ : ∃ x y, "DELETE FROM".toList ++ ' ' :: (t ++ tail) = x :: y :=
    ⟨'D', _, rfl⟩
  unfold FindStringSubmatch
  rw [hxy] at hp' ⊢
  rw [findFrom_here _ _ _ _ _ hp']
  exact ⟨_, rfl⟩

theorem clauseEnd_where_nil (c : List Str) :
    Steps (clauseEnd [kw "WHERE"]) [] c [] c := by
  rw [clauseEnd_one]
  exact Steps.alt_right (fun prev caps => by simp [Re.run, Re.ws1]) (steps_ws0_eot_nil _)

theorem clauseEnd_where_some (x : Str) (c : List Str) :
    Steps (clauseEnd [kw "WHERE"]) (whereTail (some x)) c (' ' :: x) c := by
  rw [clauseEnd_one]
  exact Steps.alt_left (Steps.cat
    (Steps.ws1_space _ _ (by intro y hy; simp at hy; subst hy; rfl)) (Steps.kw "WHERE" _ _))

/-- No match of the WHERE pattern starts inside `DELETE FROM t `. -/
theorem findFrom_where_skip_delete (t tail : Str) (htail : tail = [] ∨ ∃ r, tail = ' ' :: r)
    (hnw : noOccurrence "WHERE" t = true) :
    findFrom (clauseRe (kw "WHERE") []) none ("DELETE FROM ".toList ++ (t ++ tail)) =
      (findFrom (clauseRe (kw "WHERE") []) (lastOr (some ' ') t) tail).map fun f =>
        ⟨"DELETE FROM ".toList ++ (t ++ f.before), f.matched, f.caps, f.prevAfter, f.after⟩ := by
  have h1 : ∀ p x b, "DELETE FROM ".toList = p ++ x :: b →
      matchAt (clauseRe (kw "WHERE") []) (lastOr none p) (x :: b ++ (t ++ tail)) = none := by
    intro p x b hp
    apply matchAt_clauseRe_of_strip
    have hx : x ∈ "DELETE FROM ".toList := by rw [hp]; simp
    have : ∀ y ∈ "DELETE FROM ".toList, foldEq 'W' y = false := by decide
    show stripLit ['W', 'H', 'E', 'R', 'E'] (x :: _) = none
    simp [stripLit, this x hx]
  have h2 : ∀ p x b, t = p ++ x :: b →
      matchAt (clauseRe (kw "WHERE") []) (lastOr (lastOr none "DELETE FROM ".toList) p)
        (x :: b ++ tail) = none := by
    intro p x b hp
    apply matchAt_clauseRe_of_strip
    exact stripLit_where_in_table t tail htail hnw p (x :: b) hp
  rw [findFrom_skip _ _ _ _ h1, findFrom_skip _ _ _ _ h2]
  have hprev : lastOr (lastOr none "DELETE FROM ".toList) t = lastOr (some ' ') t := rfl
  rw [hprev]
  cases findFrom (clauseRe (kw "WHERE") []) (lastOr (some ' ') t) tail <;> simp

theorem FindStringSubmatch_delete_where_none (t : Str) (hnw : noOccurrence "WHERE" t = true) :
    FindStringSubmatch (clauseRe (kw "WHERE") []) (deleteStatement t none) = none := by
  unfold FindStringSubmatch deleteStatement
  rw [List.append_assoc, findFrom_where_skip_delete t (whereTail none) (Or.inl rfl) hnw]
  have : findFrom (clauseRe (kw "WHERE") []) (lastOr (some ' ') t) (whereTail none) = none := by
    apply findFrom_none
    intro a b hab
    apply matchAt_clauseRe_of_strip
    have hb : b = [] := by
      have : a ++ b = [] := hab.symm
      exact (List.append_eq_nil.mp this).2
    rw [hb]; rfl
  rw [this]
  rfl

theorem FindStringSubmatch_delete_where (t c : Str) (hnw : noOccurrence "WHERE" t = true)
    (hc : c ≠ []) (hct : Trimmed c)
    (hsp : singleSpaced (deleteStatement t (some c)) = true) :
    ∃ m0, FindStringSubmatch (clauseRe (kw "WHERE") []) (deleteStatement t (some c))
      = some [m0, c] := by
  have hfirst : ∀ x, c.head? = some x → isReSpace x = false :=
    fun x hx => isReSpace_of_not_isSpace x (hct x (Or.inl hx))
  obtain ⟨z, hz, hzl⟩ : ∃ z, c.getLast? = some z ∧ isReSpace z = false := by
    have h : c.getLast? = some (c.getLast hc) := List.getLast?_eq_getLast _ _
    exact ⟨_, h, isReSpace_of_not_isSpace _ (hct _ (Or.inr h))⟩
  have hm := matchAt_clauseRe (kw "WHERE") [] "WHERE".toList c [] [] (some ' ') (by rfl)
    (Steps.kw "WHERE" _ _) (by simpa using hfirst)
    (fun x hx => isDot_of_singleSpaced _ hsp x (by simp [deleteStatement, whereTail, hx]))
    (by
      intro p x b hp
      rw [clauseEnd_zero]
      refine fails_ws0_eot _ ⟨z, ?_, hzl⟩
      have : (x :: b).getLast? = some z := by
        rw [hp, List.getLast?_append_of_ne_nil _ (by simp)] at hz
        exact hz
      simpa using List.mem_of_getLast?_eq_some this)
    (by rw [clauseEnd_zero]; exact steps_ws0_eot_nil _)
  obtain ⟨p', hp'⟩ := hm
  have h3 : matchAt (clauseRe (kw "WHERE") []) (lastOr (some ' ') t)
      (' ' :: ("WHERE".toList ++ ' ' :: (c ++ []))) = none := by
    apply matchAt_clauseRe_of_strip
    rfl
  have hT : whereTail (some c) = ' ' :: ("WHERE".toList ++ ' ' :: (c ++ [])) := by
    simp [whereTail]
  unfold FindStringSubmatch deleteStatement
  rw [List.append_assoc, findFrom_where_skip_delete t _ (whereTail_cases _) hnw, hT,
    findFrom_cons_of_none _ _ _ _ h3]
  have hcons : "WHERE".toList ++ ' ' :: (c ++ []) = 'W' :: ("HERE".toList ++ ' ' :: (c ++ [])) :=
    rfl
  rw [hcons] at hp' ⊢
  rw [findFrom_here _ _ _ _ _ hp']
  simp

theorem deleteStatement_shape (t : Str) (w : Option Str) :
    deleteStatement t w = 'D' :: ("ELETE FROM ".toList ++ t ++ whereTail w) := by
  simp [deleteStatement]

theorem trimmed_deleteStatement (t : Str) (w : Option Str) (ht : t ≠ []) (htt : Trimmed t)
    (hc : ∀ c, w = some c → c ≠ [] ∧ Trimmed c) : Trimmed (deleteStatement t w) := by
  intro x hx
  rcases hx with hx | hx
  · rw [deleteStatement_shape] at hx
    simp only [List.head?_cons, Option.some.injEq] at hx
    subst hx
    rfl
  · cases w with
    | none =>
      simp only [deleteStatement, whereTail, List.append_nil] at hx
      rw [List.getLast?_append_of_ne_nil _ ht] at hx
      exact htt x (Or.inr hx)
    | some c =>
      obtain ⟨hc1, hc2⟩ := hc c rfl
      simp only [deleteStatement, whereTail] at hx
      rw [← List.append_assoc, List.getLast?_append_of_ne_nil _ hc1] at hx
      exact hc2 x (Or.inr hx)

theorem cleanSQL_deleteStatement (t : Str) (w : Option Str) (ht : t ≠ []) (htt : Trimmed t)
    (hc : ∀ c, w = some c → c ≠ [] ∧ Trimmed c)
    (hsp : singleSpaced (deleteStatement t w) = true) :
    cleanSQL (deleteStatement t w) = deleteStatement t w := by
  rw [cleanSQL_eq, collapseWs_singleSpaced _ hsp,
    TrimSpace_of_trimmed _ (trimmed_deleteStatement t w ht htt hc)]

theorem splitDeleteSQL_deleteStatement (t : Str) (w : Option Str) (ht : t ≠ [])
    (htt : Trimmed t) (hnw : noOccurrence "WHERE" t = true)
    (hc : ∀ c, w = some c → c ≠ [] ∧ Trimmed c)
    (hsp : singleSpaced (deleteStatement t w) = true) :
    (splitDeleteSQL (deleteStatement t w)).get "FROM" = t ∧
    (splitDeleteSQL (deleteStatement t w)).get "WHERE" = w.getD [] := by
  have htrim := TrimSpace_of_trimmed t htt
  cases w with
  | none =>
    obtain ⟨m0, h0⟩ := FindStringSubmatch_delete_from t (whereTail none) [] ht htt hnw
      (Or.inl rfl) (clauseEnd_where_nil _) (by rw [← deleteStatement_eq]; exact hsp)
    rw [← deleteStatement_eq] at h0
    have h1 := FindStringSubmatch_delete_where_none t hnw
    unfold splitDeleteSQL extractClauses
    simp only [List.filterMap_cons, List.filterMap_nil, h0, h1, htrim]
    simp [ClauseMap.get]
  | some c =>
    obtain ⟨hc1, hc2⟩ := hc c rfl
    obtain ⟨m0, h0⟩ := FindStringSubmatch_delete_from t (whereTail (some c)) (' ' :: c) ht htt hnw
      (whereTail_cases _) (clauseEnd_where_some c _) (by rw [← deleteStatement_eq]; exact hsp)
    rw [← deleteStatement_eq] at h0
    obtain ⟨m1, h1⟩ := FindStringSubmatch_delete_where t c hnw hc1 hc2 hsp
    unfold splitDeleteSQL extractClauses
    simp only [List.filterMap_cons, List.filterMap_nil, h0, h1, htrim,
      TrimSpace_of_trimmed c hc2]
    simp [ClauseMap.get]

theorem formatSQL_deleteStatement (f : Formatter) (t : Str) (w : Option Str)
    (hup : f.KeywordUpper = true) (hind : 0 ≤ f.IndentSize) (ht : t ≠ [])
    (htt : Trimmed t) (hnw : noOccurrence "WHERE" t = true)
    (hc : ∀ c, w = some c → c ≠ [] ∧ Trimmed c)
    (hsp : singleSpaced (deleteStatement t w) = true)
    (hkw : keywordsCased f prepassKeywords (deleteStatement t w) = true) :
    formatSQL f (deleteStatement t w) =
      some (joinLines (deleteLines (List.replicate f.IndentSize.toNat ' ') t w)) := by
  have hS := deleteStatement_shape t w
  have htrim := TrimSpace_of_trimmed _ (trimmed_deleteStatement t w ht htt hc)
  have hpre := replaceKeywords_of_cased _ _ _ hkw
  have hsel : HasPrefix (ToUpper (deleteStatement t w)) "SELECT".toList = false := by
    rw [hS]; rfl
  have hins : HasPrefix (ToUpper (deleteStatement t w)) "INSERT".toList = false := by
    rw [hS]; rfl
  have hupd : HasPrefix (ToUpper (deleteStatement t w)) "UPDATE".toList = false := by
    rw [hS]; rfl
  have hdel : HasPrefix (ToUpper (deleteStatement t w)) "DELETE".toList = true := by
    rw [hS]; rfl
  have hk1 : keyword f "DELETE FROM".toList = "DELETE FROM".toList := by
    unfold keyword; rw [if_pos hup]; decide
  have hk2 : keyword f "WHERE".toList = "WHERE".toList := by
    unfold keyword; rw [if_pos hup]; decide
  obtain ⟨hg1, hg2⟩ := splitDeleteSQL_deleteStatement t w ht htt hnw hc hsp
  unfold formatSQL
  simp only [hpre, htrim]
  rw [if_neg (by rw [hsel]; exact Bool.false_ne_true),
    if_neg (by rw [hins]; exact Bool.false_ne_true),
    if_neg (by rw [hupd]; exact Bool.false_ne_true), if_pos hdel]
  unfold formatDeleteStatement
  simp only [hg1, hg2, getIndent_of_nonneg f hind, hk1, hk2, clauseSection, Option.bind_eq_bind,
    Option.some_bind, Option.pure_def]
  have e1 : (t != []) = true := by simpa using ht
  simp only [e1, if_true]
  cases w with
  | none => simp [deleteLines, joinLines]
  | some c =>
    have e2 : (c != []) = true := by simpa using (hc c rfl).1
    simp [deleteLines, joinLines, e2]

/-- C11 (amended): take a statement `DELETE FROM t` or `DELETE FROM t WHERE c`
where `t` is a non-empty trimmed text in which the letters WHERE occur nowhere and
`c` is a non-empty trimmed text; let the statement have no whitespace but single
spaces and every pre-pass keyword in it already in the configured case.  With
`KeywordUpper` set and `IndentSize ≥ 0`, `Format` returns exactly the line
`DELETE FROM t`, followed, when there is a condition, by the line `WHERE` and one
line made of one indent level and `c`; without a condition the output is the
single line `DELETE FROM t`. -/
theorem Format_delete_standard (f : Formatter) (t : Str) (w : Option Str)
    (hup : f.KeywordUpper = true) (hind : 0 ≤ f.IndentSize) (ht : t ≠ [])
    (htt : Trimmed t) (hnw : noOccurrence "WHERE" t = true)
    (hc : ∀ c, w = some c → c ≠ [] ∧ Trimmed c)
    (hsp : singleSpaced (deleteStatement t w) = true)
    (hkw : keywordsCased f prepassKeywords (deleteStatement t w) = true) :
    ∃ indent, getIndent f 1 = some indent ∧
      Format f (deleteStatement t w) = some (joinLines (deleteLines indent t w), none) ∧
      ∀ l ∈ deleteLines indent t w, '\n' ∉ l := by
  refine ⟨_, getIndent_of_nonneg f hind, ?_, ?_⟩
  · refine Format_of_formatSQL _ _ _ _ ?_ (cleanSQL_deleteStatement t w ht htt hc hsp)
      (formatSQL_deleteStatement f t w hup hind ht htt hnw hc hsp hkw)
    exact TrimSpace_ne_nil_of_mem _ 'D' (by simp [deleteStatement]) rfl
  · have hnl : ∀ x ∈ deleteStatement t w, x ≠ '\n' := by
      intro x hx e
      have := isDot_of_singleSpaced _ hsp x hx
      rw [e] at this
      exact absurd this (by decide)
    have h1 : '\n' ∉ "DELETE FROM ".toList ++ t := by
      intro h
      exact hnl _ (by unfold deleteStatement; exact List.mem_append_left _ h) rfl
    intro l hl
    cases w with
    | none =>
      simp only [deleteLines, List.mem_singleton] at hl
      subst hl
      exact h1
    | some c =>
      simp only [deleteLines, List.mem_cons, List.mem_singleton, List.not_mem_nil,
        or_false] at hl
      rcases hl with hl | hl | hl
      · subst hl; exact h1
      · subst hl; decide
      · subst hl
        intro h
        rcases List.mem_append.mp h with h | h
        · exact absurd (List.eq_of_mem_replicate h) (by decide)
        · exact hnl _ (by simp [deleteStatement, whereTail, h]) rfl

/-- Witness of C11: the DELETE scenario of the tests. -/
theorem Format_delete_standard_witness :
    ∃ indent, getIndent NewFormatter 1 = some indent ∧
      Format NewFormatter (deleteStatement "users".toList (some "age < 18".toList))
        = some (joinLines (deleteLines indent "users".toList (some "age < 18".toList)), none) ∧
      ∀ l ∈ deleteLines indent "users".toList (some "age < 18".toList), '\n' ∉ l :=
  Format_delete_standard NewFormatter "users".toList (some "age < 18".toList) rfl (by decide)
    (by decide) (trimmed_of_TrimSpace _ (by decide)) (by decide)
    (fun c h => by
      simp only [Option.some.injEq] at h
      subst h
      exact ⟨by decide, trimmed_of_TrimSpace _ (by decide)⟩)
    (by decide!) (by decide!)

/-- C11 fails as stated: in `DELETE FROM t WHERE x = 'a  b'` the condition holds
neither a whole-word WHERE nor a pre-pass keyword, yet the line under `WHERE` is not
the condition: whitespace normalization has collapsed the two spaces inside the
literal.  In `DELETE FROM a wherever WHERE c` the text after FROM is cut before
` wherever`, although it holds no whole-word WHERE either. -/
theorem Format_delete_collapses_literal :
    Format NewFormatter "DELETE FROM t WHERE x = 'a  b'".toList
      = some ("DELETE FROM t\nWHERE\n  x = 'a b'".toList, none) ∧
    (prepassKeywords.all fun w =>
      (findFrom (keywordRe w) none "t".toList).isNone &&
      (findFrom (keywordRe w) none "x = 'a  b'".toList).isNone) = true ∧
    Format NewFormatter "DELETE FROM a wherever WHERE c".toList
      = some ("DELETE FROM a\nWHERE\n  c".toList, none) ∧
    (prepassKeywords.all fun w =>
      (findFrom (keywordRe w) none "a wherever".toList).isNone &&
      (findFrom (keywordRe w) none "c".toList).isNone) = true := by
  decide!

theorem Format_of_nonneg (f : Formatter) (s : Str) (h : 0 ≤ f.IndentSize) :
    Format f s = some ([], some emptyError) ∨ ∃ r, Format f s = some (r, none) := by
  by_cases hs : TrimSpace s = []
  · left
    simp [Format, hs]
  · right
    obtain ⟨r, hr⟩ := formatSQL_of_nonneg f h (cleanSQL s)
    exact ⟨r, by simp [Format, hs, hr]⟩

/-! ## Totality -/

/-- C23: for `IndentSize ≥ 0`, `Format` returns on every input (no call panics):
the JOIN split of any text yields at least one part, and exactly one more part
than there are JOIN matches, so `parts[0]` in `formatFromClause` is in bounds and
`formatFromClause` returns; and `getIndent` is asked for a non-negative number of
repetitions and returns. -/
theorem Format_total (f : Formatter) (h : 0 ≤ f.IndentSize) :
    (∀ s, ∃ out err, Format f s = some (out, err)) ∧
    (∀ p, (∃ p0 parts, Split joinRe p = p0 :: parts) ∧
      (Split joinRe p).length = (FindAllString joinRe p).length + 1 ∧
      ∃ r, formatFromClause f p = some r) ∧
    (0 ≤ 1 * f.IndentSize ∧ ∃ indent, getIndent f 1 = some indent) := by
  refine ⟨?_, ?_, by omega, _, getIndent_of_nonneg f h⟩
  · intro s
    rcases Format_of_nonneg f s h with h1 | ⟨r, h1⟩
    · exact ⟨_, _, h1⟩
    · exact ⟨_, _, h1⟩
  · intro p
    have hlen : (Split joinRe p).length = (FindAllString joinRe p).length + 1 := by
      simp [Split, FindAllString]
    refine ⟨?_, hlen, formatFromClause_of_nonneg f h p⟩
    cases hs : Split joinRe p with
    | nil => rw [hs] at hlen; simp at hlen
    | cons p0 parts => exact ⟨p0, parts, rfl⟩

/-- Witness of C23: the default configuration. -/
theorem Format_total_witness :
    (∀ s, ∃ out err, Format NewFormatter s = some (out, err)) ∧
    (∀ p, (∃ p0 parts, Split joinRe p = p0 :: parts) ∧
      (Split joinRe p).length = (FindAllString joinRe p).length + 1 ∧
      ∃ r, formatFromClause NewFormatter p = some r) ∧
    (0 ≤ 1 * NewFormatter.IndentSize ∧ ∃ indent, getIndent NewFormatter 1 = some indent) :=
  Format_total NewFormatter (by decide)

/-! ## Clause patterns on statements without recurring keywords -/

theorem allPositions_iff (P : Option Char → Str → Bool) (prev : Option Char) (s : Str) :
    allPositions P prev s = true ↔ ∀ a b, s = a ++ b → P (lastOr prev a) b = true := by
  constructor
  · intro h a b hab
    subst hab
    exact allPositions_here _ _ _ (allPositions_append _ _ _ _ h)
  · intro h
    induction s generalizing prev with
    | nil => simpa [allPositions, lastOr_nil] using h [] [] rfl
    | cons c t ih =>
      simp only [allPositions, Bool.and_eq_true]
      refine ⟨by simpa [lastOr_nil] using h [] (c :: t) rfl, ih (some c) ?_⟩
      intro a b hab
      have := h (c :: a) b (by rw [hab]; rfl)
      rwa [lastOr_cons] at this

theorem noOccurrence_iff (w : String) (s : Str) :
    noOccurrence w s = true ↔ ∀ a b, s = a ++ b → stripLit w.toList b = none := by
  unfold noOccurrence
  rw [allPositions_iff]
  simp

theorem noOccurrence_append_space (w : String) (x y : Str)
    (hw : ∀ c ∈ w.toList, foldEq c ' ' = false) (hw0 : w.toList ≠ [])
    (hx : noOccurrence w x = true) (hy : noOccurrence w y = true) :
    noOccurrence w (x ++ ' ' :: y) = true := by
  rw [noOccurrence_iff] at hx hy ⊢
  intro a b hab
  rcases List.append_eq_append_iff.mp hab with ⟨a', h1, h2⟩ | ⟨c', h1, h2⟩
  · cases a' with
    | nil =>
      simp only [List.nil_append] at h2
      rw [← h2]
      have := stripLit_append_space w.toList [] y hw (by
        cases hwl : w.toList with
        | nil => exact absurd hwl hw0
        | cons c t => rfl)
      simpa using this
    | cons z a' =>
      simp only [List.cons_append, List.cons.injEq] at h2
      exact hy a' b h2.2
  · -- the position lies in `x`
    rw [h2]
    exact stripLit_append_space _ _ _ hw (hx a c' h1)

theorem clauseText_singleton (e : String × Str) : clauseText [e] = e.1.toList ++ ' ' :: e.2 := rfl

theorem clauseText_cons_cons (e e' : String × Str) (l : List (String × Str)) :
    clauseText (e :: e' :: l) = e.1.toList ++ ' ' :: (e.2 ++ ' ' :: clauseText (e' :: l)) := rfl

theorem clauseText_cons (e : String × Str) (l : List (String × Str)) (h : l ≠ []) :
    clauseText (e :: l) = e.1.toList ++ ' ' :: (e.2 ++ ' ' :: clauseText l) := by
  cases l with
  | nil => exact absurd rfl h
  | cons e' l => rfl

theorem noOccurrence_clauseText (w : String) (L : List (String × Str))
    (hw : ∀ c ∈ w.toList, foldEq c ' ' = false) (hw0 : w.toList ≠ [])
    (h : ∀ e ∈ L, noOccurrence w e.1.toList = true ∧ noOccurrence w e.2 = true) :
    noOccurrence w (clauseText L) = true := by
  induction L with
  | nil =>
    rw [noOccurrence_iff]
    intro a b hab
    have hb : b = [] := (List.append_eq_nil.mp hab.symm).2
    subst hb
    cases hwl : w.toList with
    | nil => exact absurd hwl hw0
    | cons c t => rfl
  | cons e l ih =>
    obtain ⟨h1, h2⟩ := h e (by simp)
    cases l with
    | nil =>
      rw [clauseText_singleton]
      exact noOccurrence_append_space w _ _ hw hw0 h1 h2
    | cons e' l =>
      rw [clauseText_cons_cons]
      exact noOccurrence_append_space w _ _ hw hw0 h1
        (noOccurrence_append_space w _ _ hw hw0 h2
          (ih (fun x hx => h x (List.mem_cons_of_mem _ hx))))

/-- A clause keyword pattern does not start where its first word does not. -/
theorem kwRe_fails (n : String) (s : Str) (h : stripLit (firstWord n).toList s = none) :
    Fails (kwRe n) s := by
  intro prev caps
  unfold kwRe
  unfold firstWord at h
  split
  · rename_i hn
    rw [if_pos hn] at h
    unfold groupBy
    rw [Re.seq_cons_run, kw_run_nil _ _ _ _ h]
    rfl
  · rename_i hn
    rw [if_neg hn] at h
    split
    · rename_i hn2
      rw [if_pos hn2] at h
      unfold orderBy
      rw [Re.seq_cons_run, kw_run_nil _ _ _ _ h]
      rfl
    · rename_i hn2
      rw [if_neg hn2] at h
      exact kw_run_nil _ _ _ _ h

theorem kwRe_steps (n : String) (hn : n ∈ selectOrder) (X : Str) (c : List Str) :
    Steps (kwRe n) (n.toList ++ ' ' :: X) c (' ' :: X) c := by
  have hby : ∀ (w : String) (Y : Str), Steps (Re.seq [kw w, Re.ws1, kw "BY"])
      (w.toList ++ ' ' :: ("BY".toList ++ Y)) c Y c := fun w Y =>
    Steps.seq_cons (Steps.kw w _ _)
      (Steps.seq_cons (Steps.ws1_space _ _ (by intro x hx; simp at hx; subst hx; rfl))
        (Steps.kw "BY" _ _))
  simp only [selectOrder, List.mem_cons, List.mem_singleton, List.not_mem_nil, or_false] at hn
  rcases hn with rfl | rfl | rfl | rfl | rfl | rfl | rfl
  · exact Steps.kw "SELECT" _ _
  · exact Steps.kw "FROM" _ _
  · exact Steps.kw "WHERE" _ _
  · exact hby "GROUP" _
  · exact Steps.kw "HAVING" _ _
  · exact hby "ORDER" _
  · exact Steps.kw "LIMIT" _ _

theorem firstWord_spaceless : ∀ n ∈ selectOrder,
    (firstWord n).toList ≠ [] ∧ ∀ c ∈ (firstWord n).toList, foldEq c ' ' = false := by
  decide

theorem firstWord_not_in_other : ∀ n ∈ selectOrder, ∀ n' ∈ selectOrder, n ≠ n' →
    noOccurrence (firstWord n) n'.toList = true := by
  decide

theorem selectOrder_head : ∀ n ∈ selectOrder,
    n.toList.head?.map isWordChar = some true := by
  decide

theorem matchAt_clauseRe_of_fails (head : Re) (stops : List Re) (prev : Option Char) (s : Str)
    (h : Fails head s) : matchAt (clauseRe head stops) prev s = none := by
  unfold matchAt
  rw [clauseRe_run]
  split
  · rw [Re.seq_cons_run, h]
    rfl
  · rfl

theorem FindStringSubmatch_clause_absent (n : String) (stops : List Re) (S : Str)
    (h : noOccurrence (firstWord n) S = true) :
    FindStringSubmatch (clauseRe (kwRe n) stops) S = none := by
  unfold FindStringSubmatch
  rw [findFrom_none]
  intro p b hpb
  exact matchAt_clauseRe_of_fails _ _ _ _ (kwRe_fails n b ((noOccurrence_iff _ _).mp h p b hpb))

theorem Fails.alts_all (l : List Re) (s : Str) (hl : l ≠ []) (h : ∀ r ∈ l, Fails r s) :
    Fails (Re.alts l) s := by
  induction l with
  | nil => exact absurd rfl hl
  | cons r l ih =>
    cases l with
    | nil => exact h r (by simp)
    | cons r' l' =>
      exact Fails.alt (h r (by simp)) (ih (by simp) (fun x hx => h x (List.mem_cons_of_mem _ hx)))

theorem Steps.alts (l1 l2 : List Re) (r : Re) (s s' : Str) (c c' : List Str)
    (h1 : ∀ x ∈ l1, Fails x s) (h : Steps r s c s' c') :
    Steps (Re.alts (l1 ++ r :: l2)) s c s' c' := by
  induction l1 with
  | nil =>
    cases l2 with
    | nil => exact h
    | cons y l2 => exact Steps.alt_left h
  | cons x l1 ih =>
    have hne : l1 ++ r :: l2 ≠ [] := by simp
    obtain ⟨y, l, hy⟩ : ∃ y l, l1 ++ r :: l2 = y :: l := by
      cases hl : l1 ++ r :: l2 with
      | nil => exact absurd hl hne
      | cons y l => exact ⟨y, l, rfl⟩
    have ih' := ih (fun z hz => h1 z (List.mem_cons_of_mem _ hz))
    rw [List.cons_append, hy]
    rw [hy] at ih'
    exact Steps.alt_right (h1 x (by simp)) ih'

theorem fails_ws1_nil (r : Re) : Fails (Re.cat Re.ws1 r) [] :=
  fun prev caps => by simp [Re.run, Re.ws1]

/-- After one space that a rune other than `\s` follows, `\s+R` fails when `R`
fails behind the space. -/
theorem fails_ws1_space (r : Re) (Y : Str) (hY : ∀ x, Y.head? = some x → isReSpace x = false)
    (h : Fails r Y) : Fails (Re.cat Re.ws1 r) (' ' :: Y) := by
  intro prev caps
  show (Re.ws1.run ⟨prev, ' ' :: Y, caps⟩).flatMap r.run = []
  rw [List.flatMap_eq_nil_iff]
  intro e he
  obtain ⟨m, hm, hm0, hall⟩ := ws1_run_sound _ _ he
  simp only at hm
  have hrest : e.rest = Y := by
    cases m with
    | nil => exact absurd rfl hm0
    | cons z m =>
      simp only [List.cons_append, List.cons.injEq] at hm
      cases m with
      | nil => simpa using hm.2.symm
      | cons z2 m =>
        exfalso
        have h2 := hm.2
        have hz2 : isReSpace z2 = true := hall z2 (by simp)
        rw [h2] at hY
        have := hY z2 (by simp)
        rw [hz2] at this
        exact Bool.noConfusion this
  have : e = ⟨e.prev, Y, e.caps⟩ := by rw [← hrest]
  rw [this]
  exact h _ _

/-- The stop `\s+R` fails inside a text that ends in a rune other than `\s`, when
`R` fails at every place of the text followed by `rest`. -/
theorem fails_ws1_inside (r : Re) (xb rest : Str)
    (hz : ∃ z, xb.getLast? = some z ∧ isReSpace z = false)
    (h : ∀ p suf, xb = p ++ suf → Fails r (suf ++ rest)) :
    Fails (Re.cat Re.ws1 r) (xb ++ rest) := by
  intro prev caps
  show (Re.ws1.run ⟨prev, xb ++ rest, caps⟩).flatMap r.run = []
  rw [List.flatMap_eq_nil_iff]
  intro e he
  obtain ⟨m, hm, _, hall⟩ := ws1_run_sound _ _ he
  simp only at hm
  obtain ⟨z, hzl, hzs⟩ := hz
  have hzm : z ∈ xb := List.mem_of_getLast?_eq_some hzl
  rcases List.append_eq_append_iff.mp hm with ⟨a', h1, h2⟩ | ⟨c', h1, h2⟩
  · have : z ∈ m := by rw [h1]; simp [hzm]
    rw [hall z this] at hzs
    exact Bool.noConfusion hzs
  · have : e = ⟨e.prev, c' ++ rest, e.caps⟩ := by rw [← h2]
    rw [this]
    exact h m c' h1 _ _

theorem stripLit_in_content (w : String) (hw : ∀ c ∈ w.toList, foldEq c ' ' = false)
    (t tail : Str) (htail : tail = [] ∨ ∃ r, tail = ' ' :: r)
    (hnw : noOccurrence w t = true) (p suf : Str) (hp : t = p ++ suf) :
    stripLit w.toList (suf ++ tail) = none := by
  have h0 : stripLit w.toList suf = none := (noOccurrence_iff _ _).mp hnw p suf hp
  rcases htail with h | ⟨r, h⟩
  · rw [h]; simpa using h0
  · rw [h]; exact stripLit_append_space _ _ _ hw h0

theorem clauseText_first (e : String × Str) (L2 : List (String × Str)) :
    ∃ rest, clauseText (e :: L2) = e.1.toList ++ ' ' :: (e.2 ++ rest) ∧
      ((L2 = [] ∧ rest = []) ∨
        ∃ e2 L2' more, L2 = e2 :: L2' ∧ rest = ' ' :: (e2.1.toList ++ ' ' :: more)) := by
  cases L2 with
  | nil => exact ⟨[], by simp [clauseText_singleton], Or.inl ⟨rfl, rfl⟩⟩
  | cons e2 L2' =>
    refine ⟨' ' :: clauseText (e2 :: L2'), by rw [clauseText_cons_cons], Or.inr ?_⟩
    cases L2' with
    | nil => exact ⟨e2, [], e2.2, rfl, by rw [clauseText_singleton]⟩
    | cons e3 L3 => exact ⟨e2, e3 :: L3, _, rfl, by rw [clauseText_cons_cons]⟩

theorem selectOrder_cons (n : String) (hn : n ∈ selectOrder) :
    ∃ x t, n.toList = x :: t ∧ isWordChar x = true := by
  have h := selectOrder_head n hn
  cases hl : n.toList with
  | nil => rw [hl] at h; simp at h
  | cons x t =>
    rw [hl] at h
    exact ⟨x, t, rfl, by simpa using h⟩

/-- The clause pattern of the keyword `n` matches at a header `n`, and captures the
content up to the next header, when that one is among the stops of the pattern. -/
theorem matchAt_clause_header (n : String) (hn : n ∈ selectOrder) (stops : List String)
    (hst : ∀ k ∈ stops, k ∈ selectOrder) (c : Str) (hc : plainContent c)
    (L2 : List (String × Str)) (hL2 : ∀ e L2', L2 = e :: L2' → e.1 ∈ stops)
    (prev : Option Char) (hprev : prev = none ∨ prev = some ' ')
    (hdot : ∀ x ∈ c, isDot x = true) :
    ∃ p' rest', matchAt (clauseRe (kwRe n) (stops.map kwRe)) prev (clauseText ((n, c) :: L2))
      = some ⟨p', rest', [c]⟩ := by
  obtain ⟨hc0, hct, hcw⟩ := hc
  obtain ⟨rest, hrest, hcases⟩ := clauseText_first (n, c) L2
  simp only at hrest
  obtain ⟨x0, t0, hx0, hx0w⟩ := selectOrder_cons n hn
  obtain ⟨z, hz, hzl⟩ : ∃ z, c.getLast? = some z ∧ isReSpace z = false := by
    have h : c.getLast? = some (c.getLast hc0) := List.getLast?_eq_getLast _ _
    exact ⟨_, h, isReSpace_of_not_isSpace _ (hct _ (Or.inr h))⟩
  have htail : rest = [] ∨ ∃ r, rest = ' ' :: r := by
    rcases hcases with ⟨_, h⟩ | ⟨e2, L2', more, _, h⟩
    · exact Or.inl h
    · exact Or.inr ⟨_, h⟩
  have hb : atBoundary prev (n.toList ++ ' ' :: (c ++ rest)) = true := by
    rw [hx0]
    have hsp : isWordChar ' ' = false := by decide
    rcases hprev with h | h <;> subst h <;> simp [atBoundary, hx0w, hsp]
  -- where the capture stops
  have hend : ∃ rest', Steps (clauseEnd (stops.map kwRe)) rest [c] rest' [c] := by
    unfold clauseEnd
    rcases hcases with ⟨_, h⟩ | ⟨e2, L2', more, hL, h⟩
    · subst h
      refine ⟨[], Steps.alts _ [] _ _ _ _ _ ?_ (steps_ws0_eot_nil _)⟩
      intro x hx
      obtain ⟨k, _, rfl⟩ := List.mem_map.mp hx
      exact fails_ws1_nil _
    · subst h
      have he2 : e2.1 ∈ stops := hL2 e2 L2' hL
      obtain ⟨s1, s2, hs, hnot⟩ := List.eq_append_cons_of_mem he2
      obtain ⟨y0, u0, hy0, hy0w⟩ := selectOrder_cons e2.1 (hst _ he2)
      have hhead : ∀ y, (e2.1.toList ++ ' ' :: more).head? = some y → isReSpace y = false := by
        intro y hy
        rw [hy0] at hy
        simp only [List.cons_append, List.head?_cons, Option.some.injEq] at hy
        subst hy
        exact isReSpace_of_isWordChar _ hy0w
      refine ⟨' ' :: more, ?_⟩
      have hsplit : List.map (fun k => Re.cat Re.ws1 k) (List.map kwRe stops)
          ++ [Re.cat Re.ws0 Re.eot]
          = List.map (fun k => Re.cat Re.ws1 k) (List.map kwRe s1) ++
            Re.cat Re.ws1 (kwRe e2.1) ::
              (List.map (fun k => Re.cat Re.ws1 k) (List.map kwRe s2)
                ++ [Re.cat Re.ws0 Re.eot]) := by
        rw [hs]; simp
      rw [hsplit]
      refine Steps.alts _ _ _ _ _ _ _ ?_
        (Steps.cat (Steps.ws1_space _ _ hhead) (kwRe_steps e2.1 (hst _ he2) more _))
      intro x hx
      obtain ⟨r, hr, rfl⟩ := List.mem_map.mp hx
      obtain ⟨k, hk, rfl⟩ := List.mem_map.mp hr
      have hk1 : k ∈ stops := by rw [hs]; simp [hk]
      have hne : k ≠ e2.1 := fun e => hnot (e ▸ hk)
      have hno := firstWord_not_in_other k (hst k hk1) e2.1 (hst _ he2) hne
      have h0 : stripLit (firstWord k).toList e2.1.toList = none :=
        (noOccurrence_iff _ _).mp hno [] _ rfl
      exact fails_ws1_space _ _ hhead
        (kwRe_fails k _ (stripLit_append_space _ _ _ (firstWord_spaceless k (hst k hk1)).2 h0))
  obtain ⟨rest', hend⟩ := hend
  have hm := matchAt_clauseRe (kwRe n) (stops.map kwRe) n.toList c rest rest' prev hb
    (kwRe_steps n hn _ _)
    (fun x hx => isReSpace_of_not_isSpace x (hct x (Or.inl (by
      cases c with
      | nil => exact absurd rfl hc0
      | cons a b => simpa using hx))))
    hdot
    (by
      intro p x b hp
      have hlast : (x :: b).getLast? = some z := by
        rw [hp, List.getLast?_append_of_ne_nil _ (by simp)] at hz
        exact hz
      have hzm : z ∈ x :: b := List.mem_of_getLast?_eq_some hlast
      unfold clauseEnd
      refine Fails.alts_all _ _ (by simp) ?_
      intro r hr
      rcases List.mem_append.mp hr with hr | hr
      · obtain ⟨r0, hr0, rfl⟩ := List.mem_map.mp hr
        obtain ⟨k, hk, rfl⟩ := List.mem_map.mp hr0
        refine fails_ws1_inside _ (x :: b) rest ⟨z, hlast, hzl⟩ ?_
        intro q suf hq
        exact kwRe_fails k _ (stripLit_in_content _ (firstWord_spaceless k (hst k hk)).2 c rest
          htail (hcw k (hst k hk)) (p ++ q) suf (by rw [hp, hq]; simp))
      · simp only [List.mem_singleton] at hr
        subst hr
        exact fails_ws0_eot _ ⟨z, List.mem_append_left _ hzm, hzl⟩)
    hend
  obtain ⟨p', hp'⟩ := hm
  rw [← hrest] at hp'
  exact ⟨p', rest', hp'⟩

theorem clauseText_append (L1 L : List (String × Str)) (h1 : L1 ≠ []) (h : L ≠ []) :
    clauseText (L1 ++ L) = clauseText L1 ++ ' ' :: clauseText L := by
  induction L1 with
  | nil => exact absurd rfl h1
  | cons e l ih =>
    cases l with
    | nil =>
      obtain ⟨e', L', rfl⟩ : ∃ e' L', L = e' :: L' := by
        cases L with
        | nil => exact absurd rfl h
        | cons e' L' => exact ⟨e', L', rfl⟩
      simp [clauseText_cons_cons, clauseText_singleton]
    | cons e2 l =>
      have := ih (by simp)
      simp only [List.cons_append] at this ⊢
      rw [clauseText_cons_cons, this, clauseText_cons_cons]
      simp

theorem mem_clauseText (L : List (String × Str)) (e : String × Str) (he : e ∈ L) (x : Char)
    (hx : x ∈ e.2) : x ∈ clauseText L := by
  induction L with
  | nil => simp at he
  | cons e' l ih =>
    cases l with
    | nil =>
      simp only [List.mem_singleton] at he
      subst he
      rw [clauseText_singleton]
      simp [hx]
    | cons e2 l =>
      rw [clauseText_cons_cons]
      rcases List.mem_cons.mp he with h | h
      · subst h; simp [hx]
      · have := ih h
        simp [this]

/-- In a statement in which the first word of the keyword `n` occurs only in the
header `n`, the clause pattern of `n` captures the content that follows that
header. -/
theorem FindStringSubmatch_clause_present (n : String) (hn : n ∈ selectOrder)
    (stops : List String) (hst : ∀ k ∈ stops, k ∈ selectOrder)
    (L1 L2 : List (String × Str)) (c : Str)
    (hL1 : ∀ e ∈ L1, noOccurrence (firstWord n) e.1.toList = true ∧
      noOccurrence (firstWord n) e.2 = true)
    (hc : plainContent c) (hL2 : ∀ e L2', L2 = e :: L2' → e.1 ∈ stops)
    (hsp : singleSpaced (clauseText (L1 ++ (n, c) :: L2)) = true) :
    ∃ m0, FindStringSubmatch (clauseRe (kwRe n) (stops.map kwRe))
      (clauseText (L1 ++ (n, c) :: L2)) = some [m0, c] := by
  have hdot : ∀ x ∈ c, isDot x = true := fun x hx =>
    isDot_of_singleSpaced _ hsp x (mem_clauseText _ (n, c) (by simp) x hx)
  obtain ⟨hw0, hw⟩ := firstWord_spaceless n hn
  obtain ⟨x0, t0, hx0, _⟩ := selectOrder_cons n hn
  obtain ⟨y, u, hyu⟩ : ∃ y u, clauseText ((n, c) :: L2) = y :: u := by
    obtain ⟨rest, hrest, _⟩ := clauseText_first (n, c) L2
    simp only at hrest
    exact ⟨x0, _, by rw [hrest, hx0]; rfl⟩
  unfold FindStringSubmatch
  by_cases h1 : L1 = []
  · subst h1
    obtain ⟨p', rest', hm⟩ := matchAt_clause_header n hn stops hst c hc L2 hL2 none
      (Or.inl rfl) hdot
    rw [List.nil_append]
    rw [hyu] at hm ⊢
    rw [findFrom_here _ _ _ _ _ hm]
    exact ⟨_, rfl⟩
  · obtain ⟨p', rest', hm⟩ := matchAt_clause_header n hn stops hst c hc L2 hL2 (some ' ')
      (Or.inr rfl) hdot
    have hno := noOccurrence_clauseText (firstWord n) L1 hw hw0 hL1
    have hskip : ∀ a x b, clauseText L1 = a ++ x :: b →
        matchAt (clauseRe (kwRe n) (stops.map kwRe)) (lastOr none a)
          (x :: b ++ ' ' :: clauseText ((n, c) :: L2)) = none := by
      intro a x b hab
      exact matchAt_clauseRe_of_fails _ _ _ _ (kwRe_fails n _
        (stripLit_in_content _ hw _ _ (Or.inr ⟨_, rfl⟩) hno a (x :: b) hab))
    have hspace : matchAt (clauseRe (kwRe n) (stops.map kwRe)) (lastOr none (clauseText L1))
        (' ' :: clauseText ((n, c) :: L2)) = none := by
      refine matchAt_clauseRe_of_fails _ _ _ _ (kwRe_fails n _ ?_)
      have := stripLit_append_space (firstWord n).toList [] (clauseText ((n, c) :: L2)) hw (by
        cases hwl : (firstWord n).toList with
        | nil => exact absurd hwl hw0
        | cons c t => rfl)
      simpa using this
    rw [clauseText_append L1 _ h1 (by simp), findFrom_skip _ _ _ _ hskip,
      findFrom_cons_of_none _ _ _ _ hspace]
    rw [hyu] at hm ⊢
    rw [findFrom_here _ _ _ _ _ hm]
    simp

theorem forall_mem_optClause (n : String) (v : Option Str) (P : String × Str → Prop) :
    (∀ e ∈ optClause n v, P e) ↔ ∀ c, v = some c → P (n, c) := by
  cases v with
  | none => simp [optClause]
  | some c => simp [optClause]

theorem occFree_of (n : String) (hn : n ∈ selectOrder) (L : List (String × Str))
    (h : ∀ e ∈ L, e.1 ∈ selectOrder ∧ e.1 ≠ n ∧ plainContent e.2) :
    ∀ e ∈ L, noOccurrence (firstWord n) e.1.toList = true ∧
      noOccurrence (firstWord n) e.2 = true := by
  intro e he
  obtain ⟨h1, h2, h3⟩ := h e he
  exact ⟨firstWord_not_in_other n hn e.1 h1 (fun x => h2 x.symm), h3.2.2 n hn⟩

theorem extractClauses_cons_opt (n : String) (re : Re) (ps : List (String × Re)) (sql : Str)
    (v : Option Str) (hnone : v = none → FindStringSubmatch re sql = none)
    (hsome : ∀ c, v = some c → ∃ m0, FindStringSubmatch re sql = some [m0, c])
    (ht : ∀ c, v = some c → Trimmed c) :
    extractClauses ((n, re) :: ps) sql = optClause n v ++ extractClauses ps sql := by
  unfold extractClauses
  cases v with
  | none => simp [hnone rfl, optClause]
  | some c =>
    obtain ⟨m0, h⟩ := hsome c rfl
    simp [h, optClause, TrimSpace_of_trimmed c (ht c rfl)]

/-- The entry of one clause pattern for a statement made of the clauses `L1`, the
clause `n` when it is given, and the clauses `L2`. -/
theorem extractClauses_entry (n : String) (hn : n ∈ selectOrder) (stops : List String)
    (hst : ∀ k ∈ stops, k ∈ selectOrder) (ps : List (String × Re))
    (L1 L2 : List (String × Str)) (v : Option Str)
    (hL1 : ∀ e ∈ L1, e.1 ∈ selectOrder ∧ e.1 ≠ n ∧ plainContent e.2)
    (hL2 : ∀ e ∈ L2, e.1 ∈ selectOrder ∧ e.1 ≠ n ∧ plainContent e.2)
    (hL2s : ∀ e L2', L2 = e :: L2' → e.1 ∈ stops)
    (hv : ∀ c, v = some c → plainContent c)
    (hsp : singleSpaced (clauseText (L1 ++ (optClause n v ++ L2))) = true) :
    extractClauses ((n, clauseRe (kwRe n) (stops.map kwRe)) :: ps)
        (clauseText (L1 ++ (optClause n v ++ L2)))
      = optClause n v ++ extractClauses ps (clauseText (L1 ++ (optClause n v ++ L2))) := by
  obtain ⟨hw0, hw⟩ := firstWord_spaceless n hn
  apply extractClauses_cons_opt
  · intro h0
    subst h0
    apply FindStringSubmatch_clause_absent
    apply noOccurrence_clauseText _ _ hw hw0
    intro e he
    simp only [optClause, List.nil_append, List.mem_append] at he
    rcases he with he | he
    · exact occFree_of n hn L1 hL1 e he
    · exact occFree_of n hn L2 hL2 e he
  · intro c hcv
    subst hcv
    exact FindStringSubmatch_clause_present n hn stops hst L1 L2 c (occFree_of n hn L1 hL1)
      (hv c rfl) hL2s hsp
  · intro c hcv
    exact (hv c hcv).2.1

theorem selectPatterns_eq : selectPatterns =
    [("SELECT", clauseRe (kwRe "SELECT") (["FROM"].map kwRe)),
     ("FROM", clauseRe (kwRe "FROM")
       (["WHERE", "GROUP BY", "HAVING", "ORDER BY", "LIMIT"].map kwRe)),
     ("WHERE", clauseRe (kwRe "WHERE") (["GROUP BY", "HAVING", "ORDER BY", "LIMIT"].map kwRe)),
     ("GROUP BY", clauseRe (kwRe "GROUP BY") (["HAVING", "ORDER BY", "LIMIT"].map kwRe)),
     ("HAVING", clauseRe (kwRe "HAVING") (["ORDER BY", "LIMIT"].map kwRe)),
     ("ORDER BY", clauseRe (kwRe "ORDER BY") (["LIMIT"].map kwRe)),
     ("LIMIT", clauseRe (kwRe "LIMIT") ([].map kwRe))] := by
  rfl

/-- A list of clauses with keywords among `ks`, none of them `n`, and plain contents. -/
theorem clauses_ok (n : String) (ks : List String) (hks : ∀ k ∈ ks, k ∈ selectOrder ∧ k ≠ n)
    (L : List (String × Str)) (h : ∀ e ∈ L, e.1 ∈ ks ∧ plainContent e.2) :
    ∀ e ∈ L, e.1 ∈ selectOrder ∧ e.1 ≠ n ∧ plainContent e.2 := by
  intro e he
  obtain ⟨h1, h2⟩ := h e he
  exact ⟨(hks _ h1).1, (hks _ h1).2, h2⟩

theorem keys_cons (ks : List String) (k : String) (c : Str) (L : List (String × Str))
    (hk : k ∈ ks) (hc : plainContent c) (h : ∀ e ∈ L, e.1 ∈ ks ∧ plainContent e.2) :
    ∀ e ∈ (k, c) :: L, e.1 ∈ ks ∧ plainContent e.2 := by
  intro e he
  rcases List.mem_cons.mp he with rfl | he
  · exact ⟨hk, hc⟩
  · exact h e he

theorem keys_append (ks : List String) (L L' : List (String × Str))
    (h : ∀ e ∈ L, e.1 ∈ ks ∧ plainContent e.2) (h' : ∀ e ∈ L', e.1 ∈ ks ∧ plainContent e.2) :
    ∀ e ∈ L ++ L', e.1 ∈ ks ∧ plainContent e.2 := by
  intro e he
  rcases List.mem_append.mp he with he | he
  · exact h e he
  · exact h' e he

theorem keys_opt (ks : List String) (n : String) (v : Option Str) (hn : n ∈ ks)
    (hv : ∀ c, v = some c → plainContent c) :
    ∀ e ∈ optClause n v, e.1 ∈ ks ∧ plainContent e.2 :=
  (forall_mem_optClause _ _ _).mpr fun c hc => ⟨hn, hv c hc⟩

theorem keys_nil (ks : List String) :
    ∀ e ∈ ([] : List (String × Str)), e.1 ∈ ks ∧ plainContent e.2 := by
  simp

theorem keys_first (ks : List String) (L : List (String × Str))
    (h : ∀ e ∈ L, e.1 ∈ ks ∧ plainContent e.2) : ∀ e L', L = e :: L' → e.1 ∈ ks :=
  fun e L' hL => (h e (by rw [hL]; simp)).1

/-- C21 (amended): for a statement `SELECT a FROM b` followed by any of the clauses
WHERE, GROUP BY, HAVING, ORDER BY and LIMIT in this order, with single spaces and
with contents that are not empty, trimmed and free of the letters of the clause
keywords, `splitSelectSQL` returns exactly the contents the statement is made of:
the content of each clause is the text between its keyword and the next one, so the
captured regions do not overlap. -/
theorem splitSelectSQL_standard (a b : Str) (w g h o l : Option Str)
    (hc : ∀ e ∈ selectClauses a b w g h o l, plainContent e.2)
    (hsp : singleSpaced (clauseText (selectClauses a b w g h o l)) = true) :
    splitSelectSQL (clauseText (selectClauses a b w g h o l)) = selectClauses a b w g h o l := by
  simp only [selectClauses, List.forall_mem_cons, List.forall_mem_append,
    forall_mem_optClause] at hc
  obtain ⟨ha, hb, hw, hg, hh, ho, hl⟩ := hc
  have kS : ∀ c, some a = some c → plainContent c := fun c e => by
    simp only [Option.some.injEq] at e; exact e ▸ ha
  have kF : ∀ c, some b = some c → plainContent c := fun c e => by
    simp only [Option.some.injEq] at e; exact e ▸ hb
  unfold splitSelectSQL
  rw [selectPatterns_eq]
  have e0 : selectClauses a b w g h o l = [] ++ (optClause "SELECT" (some a) ++ (("FROM", b) :: (optClause "WHERE" w ++ (optClause "GROUP BY" g ++ (optClause "HAVING" h ++ (optClause "ORDER BY" o ++ (optClause "LIMIT" l))))))) := by
    simp [selectClauses, optClause]
  have s0 := extractClauses_entry "SELECT" (by decide) ["FROM"] (by decide)
      [("FROM", clauseRe (kwRe "FROM") (["WHERE", "GROUP BY", "HAVING", "ORDER BY", "LIMIT"].map kwRe)),
       ("WHERE", clauseRe (kwRe "WHERE") (["GROUP BY", "HAVING", "ORDER BY", "LIMIT"].map kwRe)),
       ("GROUP BY", clauseRe (kwRe "GROUP BY") (["HAVING", "ORDER BY", "LIMIT"].map kwRe)),
       ("HAVING", clauseRe (kwRe "HAVING") (["ORDER BY", "LIMIT"].map kwRe)),
       ("ORDER BY", clauseRe (kwRe "ORDER BY") (["LIMIT"].map kwRe)),
       ("LIMIT", clauseRe (kwRe "LIMIT") ([].map kwRe))]
      [] (("FROM", b) :: (optClause "WHERE" w ++ (optClause "GROUP BY" g ++ (optClause "HAVING" h ++ (optClause "ORDER BY" o ++ (optClause "LIMIT" l)))))) (some a)
      (clauses_ok "SELECT" [] (by decide) _ (keys_nil _))
      (clauses_ok "SELECT" ["FROM", "WHERE", "GROUP BY", "HAVING", "ORDER BY", "LIMIT"] (by decide) _ (keys_cons _ _ _ _ (by decide) hb (keys_append _ _ _ (keys_opt _ _ _ (by decide) hw) (keys_append _ _ _ (keys_opt _ _ _ (by decide) hg) (keys_append _ _ _ (keys_opt _ _ _ (by decide) hh) (keys_append _ _ _ (keys_opt _ _ _ (by decide) ho) (keys_opt _ _ _ (by decide) hl)))))))
      (by intro e L' hL; simp only [List.cons.injEq] at hL; rw [← hL.1]; simp)
      kS (by rw [← e0]; exact hsp)
  rw [← e0] at s0
  have e1 : selectClauses a b w g h o l = [("SELECT", a)] ++ (optClause "FROM" (some b) ++ (optClause "WHERE" w ++ (optClause "GROUP BY" g ++ (optClause "HAVING" h ++ (optClause "ORDER BY" o ++ (optClause "LIMIT" l)))))) := by
    simp [selectClauses, optClause]
  have s1 := extractClauses_entry "FROM" (by decide) ["WHERE", "GROUP BY", "HAVING", "ORDER BY", "LIMIT"] (by decide)
      [("WHERE", clauseRe (kwRe "WHERE") (["GROUP BY", "HAVING", "ORDER BY", "LIMIT"].map kwRe)),
       ("GROUP BY", clauseRe (kwRe "GROUP BY") (["HAVING", "ORDER BY", "LIMIT"].map kwRe)),
       ("HAVING", clauseRe (kwRe "HAVING") (["ORDER BY", "LIMIT"].map kwRe)),
       ("ORDER BY", clauseRe (kwRe "ORDER BY") (["LIMIT"].map kwRe)),
       ("LIMIT", clauseRe (kwRe "LIMIT") ([].map kwRe))]
      [("SELECT", a)] (optClause "WHERE" w ++ (optClause "GROUP BY" g ++ (optClause "HAVING" h ++ (optClause "ORDER BY" o ++ (optClause "LIMIT" l))))) (some b)
      (clauses_ok "FROM" ["SELECT"] (by decide) _ (keys_cons _ _ _ _ (by decide) ha (keys_nil _)))
      (clauses_ok "FROM" ["WHERE", "GROUP BY", "HAVING", "ORDER BY", "LIMIT"] (by decide) _ (keys_append _ _ _ (keys_opt _ _ _ (by decide) hw) (keys_append _ _ _ (keys_opt _ _ _ (by decide) hg) (keys_append _ _ _ (keys_opt _ _ _ (by decide) hh) (keys_append _ _ _ (keys_opt _ _ _ (by decide) ho) (keys_opt _ _ _ (by decide) hl))))))
      (keys_first ["WHERE", "GROUP BY", "HAVING", "ORDER BY", "LIMIT"] _ (keys_append _ _ _ (keys_opt _ _ _ (by decide) hw) (keys_append _ _ _ (keys_opt _ _ _ (by decide) hg) (keys_append _ _ _ (keys_opt _ _ _ (by decide) hh) (keys_append _ _ _ (keys_opt _ _ _ (by decide) ho) (keys_opt _ _ _ (by decide) hl))))))
      kF (by rw [← e1]; exact hsp)
  rw [← e1] at s1
  have e2 : selectClauses a b w g h o l = [("SELECT", a), ("FROM", b)] ++ (optClause "WHERE" w ++ (optClause "GROUP BY" g ++ (optClause "HAVING" h ++ (optClause "ORDER BY" o ++ (optClause "LIMIT" l))))) := by
    simp [selectClauses, optClause]
  have s2 := extractClauses_entry "WHERE" (by decide) ["GROUP BY", "HAVING", "ORDER BY", "LIMIT"] (by decide)
      [("GROUP BY", clauseRe (kwRe "GROUP BY") (["HAVING", "ORDER BY", "LIMIT"].map kwRe)),
       ("HAVING", clauseRe (kwRe "HAVING") (["ORDER BY", "LIMIT"].map kwRe)),
       ("ORDER BY", clauseRe (kwRe "ORDER BY") (["LIMIT"].map kwRe)),
       ("LIMIT", clauseRe (kwRe "LIMIT") ([].map kwRe))]
      [("SELECT", a), ("FROM", b)] (optClause "GROUP BY" g ++ (optClause "HAVING" h ++ (optClause "ORDER BY" o ++ (optClause "LIMIT" l)))) w
      (clauses_ok "WHERE" ["SELECT", "FROM"] (by decide) _ (keys_cons _ _ _ _ (by decide) ha (keys_cons _ _ _ _ (by decide) hb (keys_nil _))))
      (clauses_ok "WHERE" ["GROUP BY", "HAVING", "ORDER BY", "LIMIT"] (by decide) _ (keys_append _ _ _ (keys_opt _ _ _ (by decide) hg) (keys_append _ _ _ (keys_opt _ _ _ (by decide) hh) (keys_append _ _ _ (keys_opt _ _ _ (by decide) ho) (keys_opt _ _ _ (by decide) hl)))))
      (keys_first ["GROUP BY", "HAVING", "ORDER BY", "LIMIT"] _ (keys_append _ _ _ (keys_opt _ _ _ (by decide) hg) (keys_append _ _ _ (keys_opt _ _ _ (by decide) hh) (keys_append _ _ _ (keys_opt _ _ _ (by decide) ho) (keys_opt _ _ _ (by decide) hl)))))
      hw (by rw [← e2]; exact hsp)
  rw [← e2] at s2
  have e3 : selectClauses a b w g h o l = (("SELECT", a) :: ("FROM", b) :: (optClause "WHERE" w)) ++ (optClause "GROUP BY" g ++ (optClause "HAVING" h ++ (optClause "ORDER BY" o ++ (optClause "LIMIT" l)))) := by
    simp [selectClauses, optClause]
  have s3 := extractClauses_entry "GROUP BY" (by decide) ["HAVING", "ORDER BY", "LIMIT"] (by decide)
      [("HAVING", clauseRe (kwRe "HAVING") (["ORDER BY", "LIMIT"].map kwRe)),
       ("ORDER BY", clauseRe (kwRe "ORDER BY") (["LIMIT"].map kwRe)),
       ("LIMIT", clauseRe (kwRe "LIMIT") ([].map kwRe))]
      (("SELECT", a) :: ("FROM", b) :: (optClause "WHERE" w)) (optClause "HAVING" h ++ (optClause "ORDER BY" o ++ (optClause "LIMIT" l))) g
      (clauses_ok "GROUP BY" ["SELECT", "FROM", "WHERE"] (by decide) _ (keys_cons _ _ _ _ (by decide) ha (keys_cons _ _ _ _ (by decide) hb (keys_opt _ _ _ (by decide) hw))))
      (clauses_ok "GROUP BY" ["HAVING", "ORDER BY", "LIMIT"] (by decide) _ (keys_append _ _ _ (keys_opt _ _ _ (by decide) hh) (keys_append _ _ _ (keys_opt _ _ _ (by decide) ho) (keys_opt _ _ _ (by decide) hl))))
      (keys_first ["HAVING", "ORDER BY", "LIMIT"] _ (keys_append _ _ _ (keys_opt _ _ _ (by decide) hh) (keys_append _ _ _ (keys_opt _ _ _ (by decide) ho) (keys_opt _ _ _ (by decide) hl))))
      hg (by rw [← e3]; exact hsp)
  rw [← e3] at s3
  have e4 : selectClauses a b w g h o l = (("SELECT", a) :: ("FROM", b) :: (optClause "WHERE" w ++ (optClause "GROUP BY" g))) ++ (optClause "HAVING" h ++ (optClause "ORDER BY" o ++ (optClause "LIMIT" l))) := by
    simp [selectClauses, optClause]
  have s4 := extractClauses_entry "HAVING" (by decide) ["ORDER BY", "LIMIT"] (by decide)
      [("ORDER BY", clauseRe (kwRe "ORDER BY") (["LIMIT"].map kwRe)),
       ("LIMIT", clauseRe (kwRe "LIMIT") ([].map kwRe))]
      (("SELECT", a) :: ("FROM", b) :: (optClause "WHERE" w ++ (optClause "GROUP BY" g))) (optClause "ORDER BY" o ++ (optClause "LIMIT" l)) h
      (clauses_ok "HAVING" ["SELECT", "FROM", "WHERE", "GROUP BY"] (by decide) _ (keys_cons _ _ _ _ (by decide) ha (keys_cons _ _ _ _ (by decide) hb (keys_append _ _ _ (keys_opt _ _ _ (by decide) hw) (keys_opt _ _ _ (by decide) hg)))))
      (clauses_ok "HAVING" ["ORDER BY", "LIMIT"] (by decide) _ (keys_append _ _ _ (keys_opt _ _ _ (by decide) ho) (keys_opt _ _ _ (by decide) hl)))
      (keys_first ["ORDER BY", "LIMIT"] _ (keys_append _ _ _ (keys_opt _ _ _ (by decide) ho) (keys_opt _ _ _ (by decide) hl)))
      hh (by rw [← e4]; exact hsp)
  rw [← e4] at s4
  have e5 : selectClauses a b w g h o l = (("SELECT", a) :: ("FROM", b) :: (optClause "WHERE" w ++ (optClause "GROUP BY" g ++ (optClause "HAVING" h)))) ++ (optClause "ORDER BY" o ++ (optClause "LIMIT" l)) := by
    simp [selectClauses, optClause]
  have s5 := extractClauses_entry "ORDER BY" (by decide) ["LIMIT"] (by decide)
      [("LIMIT", clauseRe (kwRe "LIMIT") ([].map kwRe))]
      (("SELECT", a) :: ("FROM", b) :: (optClause "WHERE" w ++ (optClause "GROUP BY" g ++ (optClause "HAVING" h)))) (optClause "LIMIT" l) o
      (clauses_ok "ORDER BY" ["SELECT", "FROM", "WHERE", "GROUP BY", "HAVING"] (by decide) _ (keys_cons _ _ _ _ (by decide) ha (keys_cons _ _ _ _ (by decide) hb (keys_append _ _ _ (keys_opt _ _ _ (by decide) hw) (keys_append _ _ _ (keys_opt _ _ _ (by decide) hg) (keys_opt _ _ _ (by decide) hh))))))
      (clauses_ok "ORDER BY" ["LIMIT"] (by decide) _ (keys_opt _ _ _ (by decide) hl))
      (keys_first ["LIMIT"] _ (keys_opt _ _ _ (by decide) hl))
      ho (by rw [← e5]; exact hsp)
  rw [← e5] at s5
  have e6 : selectClauses a b w g h o l = (("SELECT", a) :: ("FROM", b) :: (optClause "WHERE" w ++ (optClause "GROUP BY" g ++ (optClause "HAVING" h ++ (optClause "ORDER BY" o))))) ++ (optClause "LIMIT" l ++ []) := by
    simp [selectClauses, optClause]
  have s6 := extractClauses_entry "LIMIT" (by decide) [] (by decide)
      []
      (("SELECT", a) :: ("FROM", b) :: (optClause "WHERE" w ++ (optClause "GROUP BY" g ++ (optClause "HAVING" h ++ (optClause "ORDER BY" o))))) [] l
      (clauses_ok "LIMIT" ["SELECT", "FROM", "WHERE", "GROUP BY", "HAVING", "ORDER BY"] (by decide) _ (keys_cons _ _ _ _ (by decide) ha (keys_cons _ _ _ _ (by decide) hb (keys_append _ _ _ (keys_opt _ _ _ (by decide) hw) (keys_append _ _ _ (keys_opt _ _ _ (by decide) hg) (keys_append _ _ _ (keys_opt _ _ _ (by decide) hh) (keys_opt _ _ _ (by decide) ho)))))))
      (clauses_ok "LIMIT" [] (by decide) _ (keys_nil _))
      (keys_first [] _ (keys_nil _))
      hl (by rw [← e6]; exact hsp)
  rw [← e6] at s6
  rw [s0, s1, s2, s3, s4, s5, s6]
  simp [selectClauses, optClause, extractClauses]

/-- Witness of C21: a statement with a WHERE, an ORDER BY and a LIMIT clause. -/
theorem splitSelectSQL_standard_witness :
    splitSelectSQL (clauseText (selectClauses "a, b".toList "t".toList (some "x > 1".toList)
        none none (some "y".toList) (some "3".toList)))
      = selectClauses "a, b".toList "t".toList (some "x > 1".toList) none none
          (some "y".toList) (some "3".toList) :=
  splitSelectSQL_standard _ _ _ _ _ _ _
    (by
      have hp : ∀ c : Str, c ≠ [] → TrimSpace c = c →
          (∀ n ∈ selectOrder, noOccurrence (firstWord n) c = true) → plainContent c :=
        fun c h1 h2 h3 => ⟨h1, trimmed_of_TrimSpace c h2, h3⟩
      intro e he
      simp only [selectClauses, optClause, List.mem_cons, List.mem_append, List.mem_singleton,
        List.not_mem_nil, or_false, false_or] at he
      rcases he with rfl | rfl | rfl | rfl | rfl
      · exact hp _ (by decide) (by decide) (by decide)
      · exact hp _ (by decide) (by decide) (by decide)
      · exact hp _ (by decide) (by decide) (by decide)
      · exact hp _ (by decide) (by decide) (by decide)
      · exact hp _ (by decide) (by decide) (by decide))
    (by decide)

/-- C21 fails as stated: in `SELECT 1 LIMIT 1` the content captured for SELECT runs
to the end of the statement and holds the whole LIMIT clause, content included;
in `SELECT (SELECT 1 WHERE x) FROM t` the content captured for WHERE starts inside
the content of SELECT and holds the FROM clause. -/
theorem splitSelectSQL_overlap :
    splitSelectSQL "SELECT 1 LIMIT 1".toList
      = [("SELECT", "1 LIMIT 1".toList), ("LIMIT", "1".toList)] ∧
    splitSelectSQL "SELECT (SELECT 1 WHERE x) FROM t".toList
      = [("SELECT", "(SELECT 1 WHERE x)".toList), ("FROM", "t".toList),
         ("WHERE", "x) FROM t".toList)] := by
  decide!

/-! ## Lower-casing of the ASCII letters -/

theorem toNat_toLowerRune (c : Char) :
    (toLowerRune c).toNat = if 65 ≤ c.toNat ∧ c.toNat ≤ 90 then c.toNat + 32 else c.toNat :=
  toNat_asciiLower c

theorem toLowerRune_idem (c : Char) : toLowerRune (toLowerRune c) = toLowerRune c := by
  apply toNat_inj
  rw [toNat_toLowerRune (toLowerRune c), toNat_toLowerRune c]
  split_ifs <;> omega

theorem ToLower_idem (s : Str) : ToLower (ToLower s) = ToLower s := by
  simp [ToLower, toLowerRune_idem]

theorem ToLower_append (a b : Str) : ToLower (a ++ b) = ToLower a ++ ToLower b := by
  simp [ToLower]

theorem ToLower_cons (c : Char) (s : Str) : ToLower (c :: s) = toLowerRune c :: ToLower s := rfl

theorem ToLower_nil : ToLower [] = [] := rfl

theorem ToLower_length (s : Str) : (ToLower s).length = s.length := by
  simp [ToLower]

theorem ToLower_eq_nil (s : Str) : ToLower s = [] ↔ s = [] := by
  simp [ToLower]

/-- A rune that is no ASCII letter is the lower case of itself only. -/
theorem toLowerRune_eq_iff (c x : Char)
    (hx : ¬ (65 ≤ x.toNat ∧ x.toNat ≤ 90) ∧ ¬ (97 ≤ x.toNat ∧ x.toNat ≤ 122)) :
    toLowerRune c = x ↔ c = x := by
  rw [char_eq_iff, char_eq_iff, toNat_toLowerRune]
  split_ifs <;> omega

theorem toLowerRune_beq (c x : Char)
    (hx : ¬ (65 ≤ x.toNat ∧ x.toNat ≤ 90) ∧ ¬ (97 ≤ x.toNat ∧ x.toNat ≤ 122)) :
    (toLowerRune c == x) = (c == x) := by
  rw [Bool.eq_iff_iff, beq_iff_eq, beq_iff_eq]
  exact toLowerRune_eq_iff c x hx

theorem isReSpace_toLowerRune (c : Char) : isReSpace (toLowerRune c) = isReSpace c := by
  unfold isReSpace
  rw [toLowerRune_beq c ' ' (by decide), toLowerRune_beq c '\t' (by decide),
    toLowerRune_beq c '\n' (by decide), toLowerRune_beq c '\x0c' (by decide),
    toLowerRune_beq c '\r' (by decide)]

theorem isSpace_toLowerRune (c : Char) : isSpace (toLowerRune c) = isSpace c := by
  rw [Bool.eq_iff_iff, isSpace_iff, isSpace_iff, toNat_toLowerRune]
  split_ifs <;> omega

theorem isWordChar_toLowerRune (c : Char) : isWordChar (toLowerRune c) = isWordChar c := by
  rw [Bool.eq_iff_iff]
  simp only [isWordChar, Bool.or_eq_true, Bool.and_eq_true, decide_eq_true_eq, beq_iff_eq,
    char_eq_iff, toNat_toLowerRune]
  simp only [Char.reduceToNat]
  split_ifs <;> omega

theorem isDot_toLowerRune (c : Char) : isDot (toLowerRune c) = isDot c := by
  unfold isDot
  rw [bne, bne, toLowerRune_beq c '\n' (by decide)]

theorem isNotReSpace_toLowerRune (c : Char) :
    isNotReSpace (toLowerRune c) = isNotReSpace c := by
  unfold isNotReSpace
  rw [isReSpace_toLowerRune]

theorem isNotRParen_toLowerRune (c : Char) : isNotRParen (toLowerRune c) = isNotRParen c := by
  unfold isNotRParen
  rw [bne, bne, toLowerRune_beq c ')' (by decide)]

theorem foldEq_toLowerRune (k c : Char) : foldEq k (toLowerRune c) = foldEq k c := by
  unfold foldEq
  have h1 : asciiLower (toLowerRune c) = asciiLower c := toLowerRune_idem c
  rw [h1, toLowerRune_beq c '\u017f' (by decide), toLowerRune_beq c '\u212a' (by decide)]

theorem ToUpper_ToLower (s : Str) : ToUpper (ToLower s) = ToUpper s := by
  simp [ToUpper, ToLower, toUpperRune_toLowerRune]

/-- Upper-casing an ASCII rune and lower-casing the result lower-cases the rune. -/
theorem toLowerRune_toUpperRune (c : Char) (h : c.toNat < 128) :
    toLowerRune (toUpperRune c) = toLowerRune c := by
  apply toNat_inj
  rw [toNat_toLowerRune, toNat_toLowerRune, toNat_toUpperRune]
  split_ifs <;> omega

theorem ToLower_keyword (f : Formatter) (w : Str) (h : ∀ c ∈ w, c.toNat < 128) :
    ToLower (keyword f w) = ToLower w := by
  unfold keyword
  split
  · unfold ToLower ToUpper
    rw [List.map_map]
    apply List.map_congr_left
    intro c hc
    exact toLowerRune_toUpperRune c (h c hc)
  · exact ToLower_idem w

theorem keyword_lower (f : Formatter) (w : Str) : keyword f.lower w = ToLower w := by
  simp [keyword, Formatter.lower]

theorem TrimSpace_ToLower (s : Str) : TrimSpace (ToLower s) = ToLower (TrimSpace s) :=
  TrimSpace_map toLowerRune isSpace_toLowerRune s

/-! ## Matching is blind to the case of ASCII letters -/

theorem runStar_low (p : Char → Bool) (hp : ∀ c, p (toLowerRune c) = p c) (caps : List Str)
    (prev : Option Char) (s : Str) :
    runStar p (caps.map ToLower) (prev.map toLowerRune) (ToLower s)
      = (runStar p caps prev s).map St.low := by
  unfold ToLower
  induction s generalizing prev with
  | nil => rfl
  | cons c t ih =>
    simp only [List.map_cons, runStar, hp]
    split
    · have := ih (some c)
      simp only [Option.map_some'] at this
      rw [this]
      simp [St.low, ToLower]
    · simp [St.low, ToLower]

theorem runLazy_low (p : Char → Bool) (hp : ∀ c, p (toLowerRune c) = p c) (caps : List Str)
    (prev : Option Char) (s : Str) :
    runLazy p (caps.map ToLower) (prev.map toLowerRune) (ToLower s)
      = (runLazy p caps prev s).map St.low := by
  unfold ToLower
  induction s generalizing prev with
  | nil => rfl
  | cons c t ih =>
    simp only [List.map_cons, runLazy, hp]
    split
    · have := ih (some c)
      simp only [Option.map_some'] at this
      rw [this]
      simp [St.low, ToLower]
    · simp [St.low, ToLower]

theorem atBoundary_low (prev : Option Char) (s : Str) :
    atBoundary (prev.map toLowerRune) (ToLower s) = atBoundary prev s := by
  cases prev <;> cases s <;> simp [atBoundary, ToLower_cons, ToLower_nil, isWordChar_toLowerRune]

theorem run_low (r : Re) (hr : r.caseBlind) (st : St) :
    r.run st.low = (r.run st).map St.low := by
  induction r generalizing st with
  | eps => rfl
  | cls p =>
    obtain ⟨prev, rest, caps⟩ := st
    cases rest with
    | nil => rfl
    | cons c t =>
      have hp : p (toLowerRune c) = p c := hr c
      simp only [St.low, ToLower_cons, Re.run, hp]
      split <;> simp [St.low]
  | bnd =>
    obtain ⟨prev, rest, caps⟩ := st
    simp only [St.low, Re.run, atBoundary_low]
    split <;> simp [St.low]
  | eot =>
    obtain ⟨prev, rest, caps⟩ := st
    cases rest with
    | nil => rfl
    | cons c t => rfl
  | cat a b iha ihb =>
    simp only [Re.run]
    rw [iha hr.1, List.flatMap_map, List.map_flatMap]
    congr 1
    funext e
    exact ihb hr.2 e
  | alt a b iha ihb =>
    simp only [Re.run, List.map_append]
    rw [iha hr.1, ihb hr.2]
  | star p =>
    obtain ⟨prev, rest, caps⟩ := st
    exact runStar_low p hr caps prev rest
  | lazy p =>
    obtain ⟨prev, rest, caps⟩ := st
    exact runLazy_low p hr caps prev rest
  | grp r ih =>
    simp only [Re.run]
    rw [ih hr, List.map_map, List.map_map]
    apply List.map_congr_left
    intro e _
    simp [St.low, ToLower, List.map_take]

theorem matchAt_low (r : Re) (hr : r.caseBlind) (prev : Option Char) (s : Str) :
    matchAt r (prev.map toLowerRune) (ToLower s) = (matchAt r prev s).map St.low := by
  unfold matchAt
  have := run_low r hr ⟨prev, s, []⟩
  simp only [St.low, List.map_nil] at this
  rw [this, List.head?_map]

theorem findFrom_low (r : Re) (hr : r.caseBlind) (prev : Option Char) (s : Str) :
    findFrom r (prev.map toLowerRune) (ToLower s) = (findFrom r prev s).map Found.low := by
  induction s generalizing prev with
  | nil =>
    have := matchAt_low r hr prev []
    simp only [ToLower_nil] at this ⊢
    simp only [findFrom, this]
    cases matchAt r prev [] <;> simp [Found.low, St.low, ToLower_nil]
  | cons c t ih =>
    have h1 := matchAt_low r hr prev (c :: t)
    have h2 := ih (some c)
    simp only [Option.map_some'] at h2
    simp only [ToLower_cons] at h1 ⊢
    simp only [findFrom, h1, h2]
    cases matchAt r prev (c :: t) with
    | some e =>
      simp [Found.low, St.low, ToLower, List.map_take]
    | none =>
      simp only [Option.map_none']
      cases findFrom r (some c) t <;> simp [Found.low, ToLower_cons]

theorem FindStringSubmatch_low (r : Re) (hr : r.caseBlind) (s : Str) :
    FindStringSubmatch r (ToLower s) = (FindStringSubmatch r s).map (List.map ToLower) := by
  unfold FindStringSubmatch
  have := findFrom_low r hr none s
  simp only [Option.map_none'] at this
  rw [this]
  cases findFrom r none s <;> simp [Found.low]

theorem scanAll_low (r : Re) (hr : r.caseBlind) (fuel : Nat) (prev : Option Char) (s : Str) :
    scanAll r fuel (prev.map toLowerRune) (ToLower s) =
      ((scanAll r fuel prev s).1.map (fun bm => (ToLower bm.1, ToLower bm.2)),
        ToLower (scanAll r fuel prev s).2) := by
  induction fuel generalizing prev s with
  | zero => simp [scanAll]
  | succ n ih =>
    simp only [scanAll, findFrom_low r hr]
    cases hf : findFrom r prev s with
    | none => simp
    | some f =>
      simp only [Option.map_some', Found.low]
      have he : (ToLower f.matched).isEmpty = f.matched.isEmpty := by
        cases f.matched <;> rfl
      rw [he]
      split
      · simp
      · rw [ih]
        simp

theorem ReplaceAllString_low (r : Re) (hr : r.caseBlind) (s repl : Str) :
    ReplaceAllString r (ToLower s) (ToLower repl) = ToLower (ReplaceAllString r s repl) := by
  unfold ReplaceAllString
  have := scanAll_low r hr (s.length + 1) none s
  simp only [Option.map_none'] at this
  simp only [ToLower_length, this]
  simp [ToLower, List.map_flatten, Function.comp_def]

theorem FindAllString_low (r : Re) (hr : r.caseBlind) (s : Str) :
    FindAllString r (ToLower s) = (FindAllString r s).map ToLower := by
  unfold FindAllString
  have := scanAll_low r hr (s.length + 1) none s
  simp only [Option.map_none'] at this
  simp only [ToLower_length, this]
  simp [Function.comp_def]

theorem Split_low (r : Re) (hr : r.caseBlind) (s : Str) :
    Split r (ToLower s) = (Split r s).map ToLower := by
  unfold Split
  have := scanAll_low r hr (s.length + 1) none s
  simp only [Option.map_none'] at this
  simp only [ToLower_length, this]
  simp [Function.comp_def]

theorem caseBlind_seq (l : List Re) (h : ∀ r ∈ l, r.caseBlind) : (Re.seq l).caseBlind := by
  induction l with
  | nil => trivial
  | cons r l ih =>
    cases l with
    | nil => exact h r (by simp)
    | cons r' l' =>
      exact ⟨h r (by simp), ih (fun x hx => h x (List.mem_cons_of_mem _ hx))⟩

theorem caseBlind_alts (l : List Re) (h : ∀ r ∈ l, r.caseBlind) : (Re.alts l).caseBlind := by
  induction l with
  | nil => trivial
  | cons r l ih =>
    cases l with
    | nil => exact h r (by simp)
    | cons r' l' =>
      exact ⟨h r (by simp), ih (fun x hx => h x (List.mem_cons_of_mem _ hx))⟩

theorem caseBlind_lit (w : Str) : (Re.lit w).caseBlind := by
  unfold Re.lit
  apply caseBlind_seq
  intro r hr
  obtain ⟨c, _, rfl⟩ := List.mem_map.mp hr
  exact fun x => foldEq_toLowerRune c x

theorem caseBlind_kw (w : String) : (kw w).caseBlind := caseBlind_lit _

theorem caseBlind_ws1 : Re.ws1.caseBlind :=
  ⟨isReSpace_toLowerRune, isReSpace_toLowerRune⟩

theorem caseBlind_ws0 : Re.ws0.caseBlind := isReSpace_toLowerRune

theorem caseBlind_keywordRe (w : String) : (keywordRe w).caseBlind := by
  unfold keywordRe
  apply caseBlind_seq
  intro r hr
  simp only [List.mem_cons, List.mem_singleton, List.not_mem_nil, or_false] at hr
  rcases hr with rfl | rfl | rfl
  · trivial
  · exact caseBlind_kw w
  · trivial

theorem caseBlind_byPair (w : String) : (Re.seq [kw w, Re.ws1, kw "BY"]).caseBlind :=
  ⟨caseBlind_kw w, caseBlind_ws1, caseBlind_kw "BY"⟩

theorem caseBlind_clauseRe (head : Re) (stops : List Re) (hh : head.caseBlind)
    (hs : ∀ k ∈ stops, k.caseBlind) : (clauseRe head stops).caseBlind := by
  unfold clauseRe
  apply caseBlind_seq
  intro r hr
  simp only [List.mem_cons, List.mem_singleton, List.not_mem_nil, or_false] at hr
  rcases hr with rfl | rfl | rfl | rfl | rfl
  · trivial
  · exact hh
  · exact caseBlind_ws1
  · exact isDot_toLowerRune
  · unfold clauseEnd
    apply caseBlind_alts
    intro r hr
    rcases List.mem_append.mp hr with hr | hr
    · obtain ⟨k, hk, rfl⟩ := List.mem_map.mp hr
      exact ⟨caseBlind_ws1, hs k hk⟩
    · simp only [List.mem_singleton] at hr
      subst hr
      exact ⟨caseBlind_ws0, trivial⟩

theorem caseBlind_of_words (stops : List Re)
    (h : ∀ k ∈ stops, (∃ w, k = kw w) ∨ ∃ w, k = Re.seq [kw w, Re.ws1, kw "BY"]) :
    ∀ k ∈ stops, k.caseBlind := by
  intro k hk
  rcases h k hk with ⟨w, rfl⟩ | ⟨w, rfl⟩
  · exact caseBlind_kw w
  · exact caseBlind_byPair w

theorem caseBlind_selectPatterns : ∀ kp ∈ selectPatterns, kp.2.caseBlind := by
  intro kp hkp
  simp only [selectPatterns, List.mem_cons, List.mem_singleton, List.not_mem_nil,
    or_false] at hkp
  rcases hkp with rfl | rfl | rfl | rfl | rfl | rfl | rfl <;>
    refine caseBlind_clauseRe _ _ (by first | exact caseBlind_kw _ | exact caseBlind_byPair _)
      (caseBlind_of_words _ ?_) <;>
    intro k hk <;>
    simp only [List.mem_cons, List.mem_singleton, List.not_mem_nil, or_false] at hk <;>
    (try rcases hk with rfl | rfl | rfl | rfl | rfl) <;>
    first
      | exact Or.inl ⟨_, rfl⟩
      | exact Or.inr ⟨_, rfl⟩

theorem caseBlind_chr (x : Char)
    (hx : ¬ (65 ≤ x.toNat ∧ x.toNat ≤ 90) ∧ ¬ (97 ≤ x.toNat ∧ x.toNat ≤ 122)) :
    (chr x).caseBlind := fun c => toLowerRune_beq c x hx

theorem caseBlind_plus (p : Char → Bool) (hp : ∀ c, p (toLowerRune c) = p c) :
    (Re.plus p).caseBlind := ⟨hp, hp⟩

theorem caseBlind_insertRe : insertRe.caseBlind := by
  unfold insertRe
  apply caseBlind_seq
  intro r hr
  simp only [List.mem_cons, List.mem_singleton, List.not_mem_nil, or_false] at hr
  rcases hr with rfl | rfl | rfl | rfl | rfl | rfl | rfl | rfl | rfl | rfl | rfl | rfl | rfl |
    rfl | rfl | rfl
  · trivial
  · exact caseBlind_kw _
  · exact caseBlind_ws1
  · exact caseBlind_kw _
  · exact caseBlind_ws1
  · exact caseBlind_plus _ isNotReSpace_toLowerRune
  · exact caseBlind_ws0
  · exact caseBlind_chr _ (by decide)
  · exact caseBlind_plus _ isNotRParen_toLowerRune
  · exact caseBlind_chr _ (by decide)
  · exact caseBlind_ws1
  · exact caseBlind_kw _
  · exact caseBlind_ws0
  · exact caseBlind_chr _ (by decide)
  · exact caseBlind_plus _ isNotRParen_toLowerRune
  · exact caseBlind_chr _ (by decide)

theorem caseBlind_joinRe : joinRe.caseBlind := by
  unfold joinRe
  apply caseBlind_seq
  intro r hr
  simp only [List.mem_cons, List.mem_singleton, List.not_mem_nil, or_false] at hr
  rcases hr with rfl | rfl | rfl
  · trivial
  · apply caseBlind_alts
    intro r hr
    simp only [List.mem_cons, List.mem_singleton, List.not_mem_nil, or_false] at hr
    rcases hr with rfl | rfl | rfl | rfl | rfl
    · exact ⟨caseBlind_kw _, caseBlind_ws1, caseBlind_kw _⟩
    · exact ⟨caseBlind_kw _, caseBlind_ws1, caseBlind_kw _⟩
    · exact ⟨caseBlind_kw _, caseBlind_ws1, caseBlind_kw _⟩
    · exact ⟨caseBlind_kw _, caseBlind_ws1, caseBlind_kw _⟩
    · exact caseBlind_kw _
  · trivial

/-! ## Matched JOIN keywords are ASCII -/

theorem run_ascii (r : Re) (hr : r.asciiOnly) (st e : St) (h : e ∈ r.run st) :
    ∃ m, st.rest = m ++ e.rest ∧ ∀ c ∈ m, c.toNat < 128 := by
  induction r generalizing st e with
  | eps =>
    simp only [Re.run, List.mem_singleton] at h
    subst h
    exact ⟨[], rfl, by simp⟩
  | cls p =>
    simp only [Re.run] at h
    split at h
    · rename_i c t hrest
      split at h
      · rename_i hp
        simp only [List.mem_singleton] at h
        subst h
        refine ⟨[c], by simp [hrest], ?_⟩
        intro x hx
        simp only [List.mem_singleton] at hx
        subst hx
        exact hr x hp
      · simp at h
    · simp at h
  | bnd =>
    simp only [Re.run] at h
    split at h
    · simp only [List.mem_singleton] at h
      subst h
      exact ⟨[], rfl, by simp⟩
    · simp at h
  | eot =>
    simp only [Re.run] at h
    split at h
    · simp only [List.mem_singleton] at h
      subst h
      exact ⟨[], rfl, by simp⟩
    · simp at h
  | cat a b iha ihb =>
    simp only [Re.run, List.mem_flatMap] at h
    obtain ⟨mid, h1, h2⟩ := h
    obtain ⟨m1, ha1, ha2⟩ := iha hr.1 _ _ h1
    obtain ⟨m2, hb1, hb2⟩ := ihb hr.2 _ _ h2
    refine ⟨m1 ++ m2, by rw [ha1, hb1, List.append_assoc], ?_⟩
    intro c hc
    rcases List.mem_append.mp hc with hc | hc
    · exact ha2 c hc
    · exact hb2 c hc
  | alt a b iha ihb =>
    simp only [Re.run] at h
    rcases List.mem_append.mp h with h | h
    · exact iha hr.1 _ _ h
    · exact ihb hr.2 _ _ h
  | star p =>
    simp only [Re.run] at h
    obtain ⟨m, h1, _, _, h4⟩ := runStar_sound _ _ _ _ _ h
    exact ⟨m, h1, fun c hc => hr c (h4 c hc)⟩
  | lazy p =>
    simp only [Re.run] at h
    obtain ⟨m, h1, _, _, h4⟩ := runLazy_sound _ _ _ _ _ h
    exact ⟨m, h1, fun c hc => hr c (h4 c hc)⟩
  | grp r ih =>
    simp only [Re.run, List.mem_map] at h
    obtain ⟨e', h1, h2⟩ := h
    obtain ⟨m, hm1, hm2⟩ := ih hr _ _ h1
    subst h2
    exact ⟨m, hm1, hm2⟩

theorem findFrom_ascii (r : Re) (hr : r.asciiOnly) (prev : Option Char) (s : Str) (f : Found)
    (h : findFrom r prev s = some f) : ∀ c ∈ f.matched, c.toNat < 128 := by
  obtain ⟨_, _, e, he, hrest, _⟩ := findFrom_some r prev s f h
  have hmem : e ∈ r.run ⟨lastOr prev f.before, f.matched ++ f.after, []⟩ :=
    List.mem_of_mem_head? he
  obtain ⟨m, hm, hall⟩ := run_ascii r hr _ _ hmem
  simp only [hrest] at hm
  have : f.matched = m := List.append_cancel_right hm
  rw [this]
  exact hall

theorem scanAll_ascii (r : Re) (hr : r.asciiOnly) (fuel : Nat) (prev : Option Char) (s : Str) :
    ∀ bm ∈ (scanAll r fuel prev s).1, ∀ c ∈ bm.2, c.toNat < 128 := by
  induction fuel generalizing prev s with
  | zero => simp [scanAll]
  | succ n ih =>
    simp only [scanAll]
    split
    · simp
    · rename_i f hf
      split
      · simp
      · intro bm hbm
        rcases List.mem_cons.mp hbm with h | h
        · subst h
          exact findFrom_ascii r hr _ _ f hf
        · exact ih _ _ bm h

theorem FindAllString_ascii (r : Re) (hr : r.asciiOnly) (s : Str) :
    ∀ j ∈ FindAllString r s, ∀ c ∈ j, c.toNat < 128 := by
  intro j hj
  unfold FindAllString at hj
  obtain ⟨bm, hbm, rfl⟩ := List.mem_map.mp hj
  exact scanAll_ascii r hr _ _ _ bm hbm

theorem asciiOnly_seq (l : List Re) (h : ∀ r ∈ l, r.asciiOnly) : (Re.seq l).asciiOnly := by
  induction l with
  | nil => trivial
  | cons r l ih =>
    cases l with
    | nil => exact h r (by simp)
    | cons r' l' =>
      exact ⟨h r (by simp), ih (fun x hx => h x (List.mem_cons_of_mem _ hx))⟩

theorem asciiOnly_alts (l : List Re) (h : ∀ r ∈ l, r.asciiOnly) : (Re.alts l).asciiOnly := by
  induction l with
  | nil => trivial
  | cons r l ih =>
    cases l with
    | nil => exact h r (by simp)
    | cons r' l' =>
      exact ⟨h r (by simp), ih (fun x hx => h x (List.mem_cons_of_mem _ hx))⟩

/-- A rune matched under `(?i)` by an ASCII letter other than `s` and `k` is ASCII. -/
theorem ascii_of_foldEq (k c : Char) (hk : k.toNat < 128)
    (hs : k ≠ 's' ∧ k ≠ 'S' ∧ k ≠ 'k' ∧ k ≠ 'K') (h : foldEq k c = true) : c.toNat < 128 := by
  obtain ⟨h1, h2, h3, h4⟩ := hs
  rw [Ne, char_eq_iff] at h1 h2 h3 h4
  simp only [Char.reduceToNat] at h1 h2 h3 h4
  simp only [foldEq, Bool.or_eq_true, Bool.and_eq_true, beq_iff_eq] at h
  rcases h with (h | ⟨h, _⟩) | ⟨h, _⟩
  · have h' := congrArg Char.toNat h
    rw [toNat_asciiLower, toNat_asciiLower] at h'
    split_ifs at h' <;> omega
  · have h' := congrArg Char.toNat h
    rw [toNat_asciiLower] at h'
    simp only [Char.reduceToNat] at h'
    split_ifs at h' <;> omega
  · have h' := congrArg Char.toNat h
    rw [toNat_asciiLower] at h'
    simp only [Char.reduceToNat] at h'
    split_ifs at h' <;> omega

theorem asciiOnly_kw (w : String)
    (hw : ∀ k ∈ w.toList, k.toNat < 128 ∧ k ≠ 's' ∧ k ≠ 'S' ∧ k ≠ 'k' ∧ k ≠ 'K') :
    (kw w).asciiOnly := by
  unfold kw Re.lit
  apply asciiOnly_seq
  intro r hr
  obtain ⟨k, hk, rfl⟩ := List.mem_map.mp hr
  exact fun c hc => ascii_of_foldEq k c (hw k hk).1 (hw k hk).2 hc

theorem ascii_of_isReSpace (c : Char) (h : isReSpace c = true) : c.toNat < 128 := by
  simp only [isReSpace, Bool.or_eq_true, beq_iff_eq] at h
  rcases h with (((h | h) | h) | h) | h <;> subst h <;> decide

theorem asciiOnly_ws1 : Re.ws1.asciiOnly := ⟨ascii_of_isReSpace, ascii_of_isReSpace⟩

theorem asciiOnly_joinRe : joinRe.asciiOnly := by
  have hj := asciiOnly_kw "JOIN" (by decide)
  unfold joinRe
  apply asciiOnly_seq
  intro r hr
  simp only [List.mem_cons, List.mem_singleton, List.not_mem_nil, or_false] at hr
  rcases hr with rfl | rfl | rfl
  · trivial
  · apply asciiOnly_alts
    intro r hr
    simp only [List.mem_cons, List.mem_singleton, List.not_mem_nil, or_false] at hr
    rcases hr with rfl | rfl | rfl | rfl | rfl
    · exact ⟨asciiOnly_kw "INNER" (by decide), asciiOnly_ws1, hj⟩
    · exact ⟨asciiOnly_kw "LEFT" (by decide), asciiOnly_ws1, hj⟩
    · exact ⟨asciiOnly_kw "RIGHT" (by decide), asciiOnly_ws1, hj⟩
    · exact ⟨asciiOnly_kw "FULL" (by decide), asciiOnly_ws1, hj⟩
    · exact hj
  · trivial

/-! ## The formatter is blind to the case of ASCII letters -/

theorem cleanSQL_low (s : Str) : cleanSQL (ToLower s) = ToLower (cleanSQL s) := by
  unfold cleanSQL
  have h := ReplaceAllString_low _ caseBlind_ws1 s " ".toList
  have h2 : ToLower " ".toList = " ".toList := rfl
  rw [h2] at h
  rw [h, TrimSpace_ToLower]

theorem replaceKeywords_low (f : Formatter) (ws : List String)
    (hws : ∀ w ∈ ws, ∀ c ∈ w.toList, c.toNat < 128) (x : Str) :
    replaceKeywords f.lower ws (ToLower x) = ToLower (replaceKeywords f ws x) := by
  unfold replaceKeywords
  induction ws generalizing x with
  | nil => rfl
  | cons w ws ih =>
    simp only [List.foldl_cons]
    rw [keyword_lower, ← ToLower_keyword f w.toList (hws w (by simp)),
      ReplaceAllString_low _ (caseBlind_keywordRe w)]
    exact ih (fun w' hw' => hws w' (List.mem_cons_of_mem _ hw')) _

theorem extractClauses_low (ps : List (String × Re)) (hps : ∀ kp ∈ ps, kp.2.caseBlind)
    (x : Str) :
    extractClauses ps (ToLower x) = (extractClauses ps x).map fun e => (e.1, ToLower e.2) := by
  unfold extractClauses
  induction ps with
  | nil => rfl
  | cons kp ps ih =>
    have ih' := ih (fun k hk => hps k (List.mem_cons_of_mem _ hk))
    simp only [List.filterMap_cons, FindStringSubmatch_low _ (hps kp (by simp)), ih']
    rcases FindStringSubmatch kp.2 x with _ | (_ | ⟨m0, _ | ⟨m1, l⟩⟩)
    · simp
    · simp
    · simp
    · simp [TrimSpace_ToLower]

theorem ClauseMap.get_low (m : ClauseMap) (k : String) :
    ClauseMap.get (m.map fun e => (e.1, ToLower e.2)) k = ToLower (m.get k) := by
  unfold ClauseMap.get
  induction m with
  | nil => rfl
  | cons e m ih =>
    simp only [List.map_cons, List.find?_cons]
    cases e.1 == k with
    | true => rfl
    | false => exact ih

theorem splitColumnsAux_low (s cur : Str) (d : Int) :
    splitColumnsAux (ToLower s) (ToLower cur) d = (splitColumnsAux s cur d).map ToLower := by
  induction s generalizing cur d with
  | nil =>
    simp only [ToLower_nil, splitColumnsAux, ToLower_length]
    split <;> simp
  | cons c t ih =>
    have h1 := toLowerRune_beq c '(' (by decide)
    have h2 := toLowerRune_beq c ')' (by decide)
    have h3 := toLowerRune_beq c ',' (by decide)
    have hcur : ToLower cur ++ [toLowerRune c] = ToLower (cur ++ [c]) := by
      simp [ToLower]
    rw [ToLower_cons, splitColumnsAux, splitColumnsAux, h1, h2, h3, hcur]
    split
    · exact ih _ _
    · split
      · exact ih _ _
      · split
        · split
          · have := ih [] d
            simp only [ToLower_nil] at this
            simp [this]
          · exact ih _ _
        · exact ih _ _

theorem splitColumns_low (s : Str) : splitColumns (ToLower s) = (splitColumns s).map ToLower :=
  splitColumnsAux_low s [] 0

theorem joinTrimmed_low (sep : Str) (l : List Str) :
    joinTrimmed (ToLower sep) (l.map ToLower) = ToLower (joinTrimmed sep l) := by
  cases l with
  | nil => rfl
  | cons c cs =>
    simp only [List.map_cons, joinTrimmed, TrimSpace_ToLower, ToLower_append, List.map_map]
    congr 1
    simp [ToLower, List.map_flatten, Function.comp_def, TrimSpace_map _ isSpace_toLowerRune]

theorem getIndent_lower (f : Formatter) (l : Int) : getIndent f.lower l = getIndent f l := rfl

theorem ToLower_indent (f : Formatter) (indent : Str) (h : getIndent f 1 = some indent) :
    ToLower indent = indent := by
  unfold getIndent Repeat at h
  split at h
  · simp at h
  · simp only [Option.some.injEq] at h
    subst h
    simp [ToLower, toLowerRune, asciiLower]

theorem ToLower_sep (f : Formatter) (indent : Str) (h : getIndent f 1 = some indent) (a : Str)
    (ha : ToLower a = a) : ToLower (a ++ indent) = a ++ indent := by
  rw [ToLower_append, ha, ToLower_indent f indent h]

theorem toLowerRune_newline : toLowerRune '\n' = '\n' := by decide

theorem toLowerRune_space : toLowerRune ' ' = ' ' := by decide

theorem toLowerRune_lparen : toLowerRune '(' = '(' := by decide

theorem toLowerRune_rparen : toLowerRune ')' = ')' := by decide

theorem ne_nil_low (s : Str) : (ToLower s != []) = (s != []) := by
  cases s <;> rfl

theorem formatSelectColumns_low (f : Formatter) (p : Str) :
    formatSelectColumns f.lower (ToLower p) = (formatSelectColumns f p).map ToLower := by
  unfold formatSelectColumns
  rw [splitColumns_low]
  rcases splitColumns p with _ | ⟨c, _ | ⟨d, ds⟩⟩
  · rfl
  · simp [TrimSpace_ToLower]
  · simp only [List.map_cons, getIndent_lower]
    cases hi : getIndent f 1 with
    | none => rfl
    | some indent =>
      have := joinTrimmed_low (",\n".toList ++ indent) (c :: d :: ds)
      rw [ToLower_sep f indent hi _ rfl] at this
      simp only [List.map_cons] at this
      simpa using this

theorem formatJoins_low (f : Formatter) (joins parts : List Str)
    (hj : ∀ j ∈ joins, ∀ c ∈ j, c.toNat < 128) :
    formatJoins f.lower (joins.map ToLower) (parts.map ToLower)
      = (formatJoins f joins parts).map ToLower := by
  induction joins generalizing parts with
  | nil => cases parts <;> rfl
  | cons j js ih =>
    have ihj := fun ps => ih ps (fun x hx => hj x (List.mem_cons_of_mem _ hx))
    cases parts with
    | nil =>
      have := ihj []
      simp only [List.map_nil] at this
      simp only [List.map_cons, List.map_nil, formatJoins]
      exact this
    | cons p ps =>
      simp only [List.map_cons, formatJoins, getIndent_lower, ihj ps]
      cases hi : getIndent f 1 with
      | none => rfl
      | some indent =>
        cases formatJoins f js ps with
        | none => rfl
        | some rest =>
          have hk : keyword f.lower (ToLower j) = ToLower (keyword f j) := by
            rw [keyword_lower, ToLower_idem, ToLower_keyword f j (hj j (by simp))]
          simp [hk, ToLower_append, ToLower_cons, ToLower_indent f indent hi, TrimSpace_ToLower,
            toLowerRune_newline, toLowerRune_space]

theorem formatFromClause_low (f : Formatter) (p : Str) :
    formatFromClause f.lower (ToLower p) = (formatFromClause f p).map ToLower := by
  unfold formatFromClause
  rw [Split_low _ caseBlind_joinRe, FindAllString_low _ caseBlind_joinRe]
  cases Split joinRe p with
  | nil => rfl
  | cons p0 parts =>
    simp only [List.map_cons]
    rw [formatJoins_low f _ parts (FindAllString_ascii _ asciiOnly_joinRe p)]
    cases formatJoins f (FindAllString joinRe p) parts with
    | none => rfl
    | some rest => simp [ToLower_append, TrimSpace_ToLower]

theorem clauseSection_low (f : Formatter) (indent : Str) (hi : ToLower indent = indent)
    (name : String) (hn : ∀ c ∈ name.toList, c.toNat < 128) (part : Str) :
    clauseSection f.lower indent name (ToLower part)
      = ToLower (clauseSection f indent name part) := by
  unfold clauseSection
  rw [ne_nil_low]
  split
  · rw [keyword_lower, ← ToLower_keyword f _ hn]
    simp [ToLower_append, ToLower_cons, hi, toLowerRune_newline]
  · rfl

theorem formatSelectStatement_low (f : Formatter) (x : Str) :
    formatSelectStatement f.lower (ToLower x) = (formatSelectStatement f x).map ToLower := by
  unfold formatSelectStatement splitSelectSQL
  rw [extractClauses_low _ caseBlind_selectPatterns]
  simp only [ClauseMap.get_low, getIndent_lower, ne_nil_low]
  cases hi : getIndent f 1 with
  | none => rfl
  | some indent =>
    have hind := ToLower_indent f indent hi
    have cW := clauseSection_low f indent hind "WHERE" (by decide)
    have cG := clauseSection_low f indent hind "GROUP BY" (by decide)
    have cH := clauseSection_low f indent hind "HAVING" (by decide)
    have cO := clauseSection_low f indent hind "ORDER BY" (by decide)
    have cL := clauseSection_low f indent hind "LIMIT" (by decide)
    simp only [Option.bind_eq_bind, Option.some_bind, Option.pure_def,
      formatSelectColumns_low, formatFromClause_low, cW, cG, cH, cO, cL, keyword_lower]
    clear cW cG cH cO cL
    have hS : ToLower "SELECT".toList = ToLower (keyword f "SELECT".toList) :=
      (ToLower_keyword f _ (by decide)).symm
    have hF : ToLower "FROM".toList = ToLower (keyword f "FROM".toList) :=
      (ToLower_keyword f _ (by decide)).symm
    rw [hS, hF]
    generalize clauseSection f indent "WHERE" _ = sW
    generalize clauseSection f indent "GROUP BY" _ = sG
    generalize clauseSection f indent "HAVING" _ = sH
    generalize clauseSection f indent "ORDER BY" _ = sO
    generalize clauseSection f indent "LIMIT" _ = sL
    generalize keyword f "SELECT".toList = kS
    generalize keyword f "FROM".toList = kF
    generalize formatSelectColumns f _ = c1
    generalize formatFromClause f _ = c2
    split <;> split <;> cases c1 <;> cases c2 <;>
      simp [ToLower_append, ToLower_cons, hind, toLowerRune_newline, ToLower_nil]

theorem formatColumnList_low (c : Str) :
    formatColumnList (ToLower c) = ToLower (formatColumnList c) := by
  unfold formatColumnList
  simp only [splitColumns_low, List.length_map]
  split
  · rfl
  · have := joinTrimmed_low ", ".toList (splitColumns c)
    exact this

theorem formatValueList_low (c : Str) :
    formatValueList (ToLower c) = ToLower (formatValueList c) := by
  unfold formatValueList
  simp only [splitColumns_low, List.length_map]
  split
  · rfl
  · have := joinTrimmed_low ", ".toList (splitColumns c)
    exact this

theorem formatSetClause_low (f : Formatter) (p : Str) :
    formatSetClause f.lower (ToLower p) = (formatSetClause f p).map ToLower := by
  unfold formatSetClause
  simp only [splitColumns_low, List.length_map, getIndent_lower]
  split
  · rfl
  · cases hi : getIndent f 1 with
    | none => rfl
    | some indent =>
      have := joinTrimmed_low (",\n".toList ++ indent) (splitColumns p)
      rw [ToLower_sep f indent hi _ rfl] at this
      simpa using this

theorem formatKeywords_low (f : Formatter) (x : Str) :
    formatKeywords f.lower (ToLower x) = ToLower (formatKeywords f x) :=
  replaceKeywords_low f _ (by decide) x

theorem formatInsertStatement_low (f : Formatter) (x : Str) :
    formatInsertStatement f.lower (ToLower x) = (formatInsertStatement f x).map ToLower := by
  unfold formatInsertStatement
  rw [FindStringSubmatch_low _ caseBlind_insertRe]
  have hfb : some (formatKeywords f.lower (ToLower x))
      = (some (formatKeywords f x)).map ToLower := by
    rw [formatKeywords_low]; rfl
  rcases FindStringSubmatch insertRe x with _ | (_ | ⟨m0, _ | ⟨m1, _ | ⟨m2, _ | ⟨m3, l⟩⟩⟩⟩)
  · exact hfb
  · exact hfb
  · exact hfb
  · exact hfb
  · exact hfb
  · simp only [Option.map_some', List.map_cons, getIndent_lower]
    cases hi : getIndent f 1 with
    | none => rfl
    | some indent =>
      have hind := ToLower_indent f indent hi
      have h1 : ToLower "INSERT INTO".toList = ToLower (keyword f "INSERT INTO".toList) :=
        (ToLower_keyword f _ (by decide)).symm
      have h2 : ToLower "VALUES".toList = ToLower (keyword f "VALUES".toList) :=
        (ToLower_keyword f _ (by decide)).symm
      simp only [Option.bind_eq_bind, Option.some_bind, Option.pure_def, keyword_lower,
        Option.map_some', TrimSpace_ToLower, formatColumnList_low, formatValueList_low, h1, h2]
      generalize keyword f "INSERT INTO".toList = k1
      generalize keyword f "VALUES".toList = k2
      simp [ToLower_append, ToLower_cons, hind, toLowerRune_newline, toLowerRune_space,
        toLowerRune_lparen, toLowerRune_rparen, ToLower_nil]

theorem caseBlind_updatePatterns : ∀ kp ∈
    [("UPDATE", clauseRe (kw "UPDATE") [kw "SET"]),
     ("SET", clauseRe (kw "SET") [kw "WHERE"]),
     ("WHERE", clauseRe (kw "WHERE") [])], kp.2.caseBlind := by
  intro kp hkp
  simp only [List.mem_cons, List.mem_singleton, List.not_mem_nil, or_false] at hkp
  rcases hkp with rfl | rfl | rfl
  · exact caseBlind_clauseRe _ _ (caseBlind_kw _) (by simp [caseBlind_kw])
  · exact caseBlind_clauseRe _ _ (caseBlind_kw _) (by simp [caseBlind_kw])
  · exact caseBlind_clauseRe _ _ (caseBlind_kw _) (by simp)

theorem caseBlind_deletePatterns : ∀ kp ∈
    [("FROM", clauseRe (Re.seq [kw "DELETE", Re.ws1, kw "FROM"]) [kw "WHERE"]),
     ("WHERE", clauseRe (kw "WHERE") [])], kp.2.caseBlind := by
  intro kp hkp
  simp only [List.mem_cons, List.mem_singleton, List.not_mem_nil, or_false] at hkp
  rcases hkp with rfl | rfl
  · exact caseBlind_clauseRe _ _ ⟨caseBlind_kw _, caseBlind_ws1, caseBlind_kw _⟩
      (by simp [caseBlind_kw])
  · exact caseBlind_clauseRe _ _ (caseBlind_kw _) (by simp)

theorem formatUpdateStatement_low (f : Formatter) (x : Str) :
    formatUpdateStatement f.lower (ToLower x) = (formatUpdateStatement f x).map ToLower := by
  unfold formatUpdateStatement splitUpdateSQL
  rw [extractClauses_low _ caseBlind_updatePatterns]
  simp only [ClauseMap.get_low, getIndent_lower, ne_nil_low]
  cases hi : getIndent f 1 with
  | none => rfl
  | some indent =>
    have hind := ToLower_indent f indent hi
    have cW := clauseSection_low f indent hind "WHERE" (by decide)
    have h1 : ToLower "UPDATE".toList = ToLower (keyword f "UPDATE".toList) :=
      (ToLower_keyword f _ (by decide)).symm
    have h2 : ToLower "SET".toList = ToLower (keyword f "SET".toList) :=
      (ToLower_keyword f _ (by decide)).symm
    simp only [Option.bind_eq_bind, Option.some_bind, Option.pure_def, formatSetClause_low, cW,
      keyword_lower, h1, h2]
    clear cW
    generalize clauseSection f indent "WHERE" _ = sW
    generalize keyword f "UPDATE".toList = k1
    generalize keyword f "SET".toList = k2
    generalize formatSetClause f _ = c1
    split <;> split <;> cases c1 <;>
      simp [ToLower_append, ToLower_cons, hind, toLowerRune_newline, toLowerRune_space,
        ToLower_nil]

theorem formatDeleteStatement_low (f : Formatter) (x : Str) :
    formatDeleteStatement f.lower (ToLower x) = (formatDeleteStatement f x).map ToLower := by
  unfold formatDeleteStatement splitDeleteSQL
  rw [extractClauses_low _ caseBlind_deletePatterns]
  simp only [ClauseMap.get_low, getIndent_lower, ne_nil_low]
  cases hi : getIndent f 1 with
  | none => rfl
  | some indent =>
    have hind := ToLower_indent f indent hi
    have cW := clauseSection_low f indent hind "WHERE" (by decide)
    have h1 : ToLower "DELETE FROM".toList = ToLower (keyword f "DELETE FROM".toList) :=
      (ToLower_keyword f _ (by decide)).symm
    simp only [Option.bind_eq_bind, Option.some_bind, Option.pure_def, cW, keyword_lower, h1]
    clear cW
    generalize clauseSection f indent "WHERE" _ = sW
    generalize keyword f "DELETE FROM".toList = k1
    split <;>
      simp [ToLower_append, ToLower_cons, hind, toLowerRune_space, ToLower_nil]

theorem formatSQL_low (f : Formatter) (x : Str) :
    formatSQL f.lower (ToLower x) = (formatSQL f x).map ToLower := by
  unfold formatSQL
  simp only [replaceKeywords_low f prepassKeywords (by decide), TrimSpace_ToLower,
    ToUpper_ToLower]
  split
  · exact formatSelectStatement_low f _
  · split
    · exact formatInsertStatement_low f _
    · split
      · exact formatUpdateStatement_low f _
      · split
        · exact formatDeleteStatement_low f _
        · rfl

theorem Format_low (f : Formatter) (s : Str) :
    Format f.lower (ToLower s) = (Format f s).map fun oe => (ToLower oe.1, oe.2) := by
  unfold Format
  have h : (TrimSpace (ToLower s) == []) = (TrimSpace s == []) := by
    rw [TrimSpace_ToLower]
    cases TrimSpace s <;> rfl
  rw [h]
  split
  · rfl
  · simp only [cleanSQL_low, formatSQL_low]
    cases formatSQL f (cleanSQL s) <;> rfl

/-! ## The keyword-case option -/

/-- C22: for every `IndentSize` and every input, `Format` with `KeywordUpper = true`
and with `KeywordUpper = false` either both panic, or both return, with the same
error value and with outputs of the same length that are equal after lower-casing
the ASCII letters: the option changes letter case only. -/
theorem Format_keyword_case (n : Int) (s : Str) :
    (Format ⟨n, true⟩ s = none ∧ Format ⟨n, false⟩ s = none) ∨
    ∃ ou ol err, Format ⟨n, true⟩ s = some (ou, err) ∧ Format ⟨n, false⟩ s = some (ol, err) ∧
      ou.length = ol.length ∧ ToLower ou = ToLower ol := by
  have h1 := Format_low ⟨n, true⟩ s
  have h2 := Format_low ⟨n, false⟩ s
  have hl : (⟨n, true⟩ : Formatter).lower = (⟨n, false⟩ : Formatter).lower := rfl
  rw [hl, h2] at h1
  cases hu : Format ⟨n, true⟩ s with
  | none =>
    cases hd : Format ⟨n, false⟩ s with
    | none => exact Or.inl ⟨rfl, rfl⟩
    | some b => rw [hu, hd] at h1; simp at h1
  | some a =>
    cases hd : Format ⟨n, false⟩ s with
    | none => rw [hu, hd] at h1; simp at h1
    | some b =>
      rw [hu, hd] at h1
      simp only [Option.map_some', Option.some.injEq, Prod.mk.injEq] at h1
      obtain ⟨ou, eu⟩ := a
      obtain ⟨ol, el⟩ := b
      simp only at h1
      refine Or.inr ⟨ou, ol, eu, rfl, by rw [h1.2], ?_, h1.1.symm⟩
      have := congrArg List.length h1.1
      rw [ToLower_length, ToLower_length] at this
      exact this.symm

/-- Witness of C22: a SELECT statement with a JOIN at the default indent. -/
theorem Format_keyword_case_witness :
    (Format ⟨2, true⟩ "select a from t Left join u on x".toList = none ∧
      Format ⟨2, false⟩ "select a from t Left join u on x".toList = none) ∨
    ∃ ou ol err, Format ⟨2, true⟩ "select a from t Left join u on x".toList = some (ou, err) ∧
      Format ⟨2, false⟩ "select a from t Left join u on x".toList = some (ol, err) ∧
      ou.length = ol.length ∧ ToLower ou = ToLower ol :=
  Format_keyword_case 2 "select a from t Left join u on x".toList

/-! ## Keyword case of the clause headers -/

theorem keyword_header (f : Formatter) (p : String × String) (hp : p ∈ headerSpellings) :
    keyword f p.1.toList = header f p.1 p.2 := by
  unfold keyword header
  cases f.KeywordUpper
  · simp only [Bool.false_eq_true, if_false]
    revert p
    decide
  · simp only [if_true]
    revert p
    decide

theorem clauseSection_headed (f : Formatter) (indent : Str) (p : String × String)
    (hp : p ∈ headerSpellings) (part : Str) :
    clauseSection f indent p.1 part = headed "\n".toList (header f p.1 p.2) indent part part := by
  unfold clauseSection headed
  rw [keyword_header f p hp]
  by_cases h : part = []
  · simp [h]
  · simp [h]

theorem HasPrefix_exclusive (u a b : Str) (x y : Char) (a' b' : Str) (ha : a = x :: a')
    (hb : b = y :: b') (hxy : x ≠ y) (h : HasPrefix u a = true) : HasPrefix u b = false := by
  subst ha hb
  cases u with
  | nil => simp [HasPrefix] at h
  | cons c t =>
    simp only [HasPrefix, Bool.and_eq_true, beq_iff_eq] at h
    simp only [HasPrefix, Bool.and_eq_false_imp, beq_iff_eq]
    intro e
    exact absurd (h.1.symm.trans e) hxy
theorem formatSelectStatement_headed (f : Formatter) (h : 0 ≤ f.IndentSize) (sql : Str) :
    ∃ indent cols frm, getIndent f 1 = some indent ∧
      ((splitSelectSQL sql).get "SELECT" ≠ [] →
        formatSelectColumns f ((splitSelectSQL sql).get "SELECT") = some cols) ∧
      ((splitSelectSQL sql).get "FROM" ≠ [] →
        formatFromClause f ((splitSelectSQL sql).get "FROM") = some frm) ∧
      formatSelectStatement f sql = some (
        headed [] (header f "SELECT" "select") indent ((splitSelectSQL sql).get "SELECT") cols
        ++ headed "\n".toList (header f "FROM" "from") indent ((splitSelectSQL sql).get "FROM") frm
        ++ headed "\n".toList (header f "WHERE" "where") indent
            ((splitSelectSQL sql).get "WHERE") ((splitSelectSQL sql).get "WHERE")
        ++ headed "\n".toList (header f "GROUP BY" "group by") indent
            ((splitSelectSQL sql).get "GROUP BY") ((splitSelectSQL sql).get "GROUP BY")
        ++ headed "\n".toList (header f "HAVING" "having") indent
            ((splitSelectSQL sql).get "HAVING") ((splitSelectSQL sql).get "HAVING")
        ++ headed "\n".toList (header f "ORDER BY" "order by") indent
            ((splitSelectSQL sql).get "ORDER BY") ((splitSelectSQL sql).get "ORDER BY")
        ++ headed "\n".toList (header f "LIMIT" "limit") indent
            ((splitSelectSQL sql).get "LIMIT") ((splitSelectSQL sql).get "LIMIT")) := by
  obtain ⟨cols, hc⟩ := formatSelectColumns_of_nonneg f h ((splitSelectSQL sql).get "SELECT")
  obtain ⟨frm, hf⟩ := formatFromClause_of_nonneg f h ((splitSelectSQL sql).get "FROM")
  refine ⟨_, cols, frm, getIndent_of_nonneg f h, fun _ => hc, fun _ => hf, ?_⟩
  unfold formatSelectStatement
  simp only [getIndent_of_nonneg f h, hc, hf, Option.bind_eq_bind, Option.some_bind,
    Option.pure_def]
  rw [clauseSection_headed f _ ("WHERE", "where") (by decide),
    clauseSection_headed f _ ("GROUP BY", "group by") (by decide),
    clauseSection_headed f _ ("HAVING", "having") (by decide),
    clauseSection_headed f _ ("ORDER BY", "order by") (by decide),
    clauseSection_headed f _ ("LIMIT", "limit") (by decide),
    keyword_header f ("SELECT", "select") (by decide),
    keyword_header f ("FROM", "from") (by decide)]
  unfold headed
  by_cases h1 : (splitSelectSQL sql).get "SELECT" = [] <;>
    by_cases h2 : (splitSelectSQL sql).get "FROM" = [] <;> simp [h1, h2]

theorem formatInsertStatement_headed (f : Formatter) (h : 0 ≤ f.IndentSize) (sql : Str) :
    ∃ indent, getIndent f 1 = some indent ∧
      ((∃ m0 m1 m2 m3 rest, FindStringSubmatch insertRe sql = some (m0 :: m1 :: m2 :: m3 :: rest) ∧
        formatInsertStatement f sql = some (
          header f "INSERT INTO" "insert into" ++ ' ' :: TrimSpace m1
          ++ '\n' :: (indent ++ '(' :: (formatColumnList (TrimSpace m2) ++ [')']))
          ++ '\n' :: header f "VALUES" "values"
          ++ '\n' :: (indent ++ '(' :: (formatValueList (TrimSpace m3) ++ [')'])))) ∨
       formatInsertStatement f sql = some (formatKeywords f sql)) := by
  refine ⟨_, getIndent_of_nonneg f h, ?_⟩
  unfold formatInsertStatement
  split
  · rename_i m0 m1 m2 m3 rest heq
    left
    refine ⟨m0, m1, m2, m3, rest, heq, ?_⟩
    simp only [getIndent_of_nonneg f h, Option.bind_eq_bind, Option.some_bind, Option.pure_def,
      keyword_header f ("INSERT INTO", "insert into") (by decide),
      keyword_header f ("VALUES", "values") (by decide)]
    simp [String.toList]
  · right
    rfl

theorem formatUpdateStatement_headed (f : Formatter) (h : 0 ≤ f.IndentSize) (sql : Str) :
    ∃ indent sets, getIndent f 1 = some indent ∧
      ((splitUpdateSQL sql).get "SET" ≠ [] →
        formatSetClause f ((splitUpdateSQL sql).get "SET") = some sets) ∧
      formatUpdateStatement f sql = some (
        titled (header f "UPDATE" "update") ((splitUpdateSQL sql).get "UPDATE")
        ++ headed "\n".toList (header f "SET" "set") indent ((splitUpdateSQL sql).get "SET") sets
        ++ headed "\n".toList (header f "WHERE" "where") indent
            ((splitUpdateSQL sql).get "WHERE") ((splitUpdateSQL sql).get "WHERE")) := by
  obtain ⟨sets, hc⟩ := formatSetClause_of_nonneg f h ((splitUpdateSQL sql).get "SET")
  refine ⟨_, sets, getIndent_of_nonneg f h, fun _ => hc, ?_⟩
  unfold formatUpdateStatement
  simp only [getIndent_of_nonneg f h, hc, Option.bind_eq_bind, Option.some_bind,
    Option.pure_def]
  rw [clauseSection_headed f _ ("WHERE", "where") (by decide),
    keyword_header f ("UPDATE", "update") (by decide),
    keyword_header f ("SET", "set") (by decide)]
  unfold headed titled
  by_cases h1 : (splitUpdateSQL sql).get "UPDATE" = [] <;>
    by_cases h2 : (splitUpdateSQL sql).get "SET" = [] <;> simp [h1, h2]

theorem formatDeleteStatement_headed (f : Formatter) (h : 0 ≤ f.IndentSize) (sql : Str) :
    ∃ indent, getIndent f 1 = some indent ∧
      formatDeleteStatement f sql = some (
        titled (header f "DELETE FROM" "delete from") ((splitDeleteSQL sql).get "FROM")
        ++ headed "\n".toList (header f "WHERE" "where") indent
            ((splitDeleteSQL sql).get "WHERE") ((splitDeleteSQL sql).get "WHERE")) := by
  refine ⟨_, getIndent_of_nonneg f h, ?_⟩
  unfold formatDeleteStatement
  simp only [getIndent_of_nonneg f h, Option.bind_eq_bind, Option.some_bind,
    Option.pure_def]
  rw [clauseSection_headed f _ ("WHERE", "where") (by decide),
    keyword_header f ("DELETE FROM", "delete from") (by decide)]
  unfold titled
  by_cases h1 : (splitDeleteSQL sql).get "FROM" = [] <;> simp [h1]
theorem newline_not_mem_of_upper (x y : Str) (h : ToUpper y = ToUpper x) (hx : '\n' ∉ x) :
    '\n' ∉ y := by
  intro hy
  have h1 : '\n' ∈ ToUpper y := List.mem_map.mpr ⟨'\n', hy, by decide⟩
  rw [h] at h1
  exact hx (mem_ToUpper_newline _ h1)

theorem newline_not_mem_prepassed (f : Formatter) (s : Str) : '\n' ∉ prepassed f s :=
  newline_not_mem_of_upper _ _ (ToUpper_replaceKeywords f _ prepassKeywords_plain _)
    (newline_not_mem_cleanSQL s)

theorem formatSQL_dispatch (f : Formatter) (s : Str) :
    formatSQL f (cleanSQL s) =
      if HasPrefix (ToUpper (cleanSQL s)) "SELECT".toList then
        formatSelectStatement f (prepassed f s)
      else if HasPrefix (ToUpper (cleanSQL s)) "INSERT".toList then
        formatInsertStatement f (prepassed f s)
      else if HasPrefix (ToUpper (cleanSQL s)) "UPDATE".toList then
        formatUpdateStatement f (prepassed f s)
      else if HasPrefix (ToUpper (cleanSQL s)) "DELETE".toList then
        formatDeleteStatement f (prepassed f s)
      else some (prepassed f s) := by
  unfold formatSQL prepassed
  simp only [sqlUpper_eq]

/-- C14: `keyword` is `ToUpper` when `KeywordUpper` is set and `ToLower` otherwise,
and for every non-blank input, in any letter case, and `IndentSize ≥ 0`, every
clause header that `Format` writes is the fully upper-case spelling when
`KeywordUpper` is set and the fully lower-case spelling otherwise: the output of
a SELECT statement is made of the sections of the clauses found, each under its
header SELECT, FROM, WHERE, GROUP BY, HAVING, ORDER BY or LIMIT in that spelling;
the output of a matched INSERT statement has the headers INSERT INTO and VALUES;
that of an UPDATE statement UPDATE, SET and WHERE; that of a DELETE statement
DELETE FROM and WHERE; every other output is a single line without a header. -/
theorem Format_clause_headers (f : Formatter) (s : Str) (h : 0 ≤ f.IndentSize)
    (hs : TrimSpace s ≠ []) :
    (∀ w, keyword f w = if f.KeywordUpper then ToUpper w else ToLower w) ∧
    (∀ p ∈ headerSpellings, fullyUpper p.1.toList = true ∧ fullyLower p.2.toList = true ∧
      ToUpper p.2.toList = p.1.toList) ∧
    ∃ indent out, getIndent f 1 = some indent ∧ Format f s = some (out, none) ∧
      (HasPrefix (ToUpper (cleanSQL s)) "SELECT".toList = true →
        ∃ cols frm,
          ((splitSelectSQL (prepassed f s)).get "SELECT" ≠ [] →
            formatSelectColumns f ((splitSelectSQL (prepassed f s)).get "SELECT") = some cols) ∧
          ((splitSelectSQL (prepassed f s)).get "FROM" ≠ [] →
            formatFromClause f ((splitSelectSQL (prepassed f s)).get "FROM") = some frm) ∧
          out =
            headed [] (header f "SELECT" "select") indent
              ((splitSelectSQL (prepassed f s)).get "SELECT") cols
            ++ headed "\n".toList (header f "FROM" "from") indent
              ((splitSelectSQL (prepassed f s)).get "FROM") frm
            ++ headed "\n".toList (header f "WHERE" "where") indent
              ((splitSelectSQL (prepassed f s)).get "WHERE")
              ((splitSelectSQL (prepassed f s)).get "WHERE")
            ++ headed "\n".toList (header f "GROUP BY" "group by") indent
              ((splitSelectSQL (prepassed f s)).get "GROUP BY")
              ((splitSelectSQL (prepassed f s)).get "GROUP BY")
            ++ headed "\n".toList (header f "HAVING" "having") indent
              ((splitSelectSQL (prepassed f s)).get "HAVING")
              ((splitSelectSQL (prepassed f s)).get "HAVING")
            ++ headed "\n".toList (header f "ORDER BY" "order by") indent
              ((splitSelectSQL (prepassed f s)).get "ORDER BY")
              ((splitSelectSQL (prepassed f s)).get "ORDER BY")
            ++ headed "\n".toList (header f "LIMIT" "limit") indent
              ((splitSelectSQL (prepassed f s)).get "LIMIT")
              ((splitSelectSQL (prepassed f s)).get "LIMIT")) ∧
      (HasPrefix (ToUpper (cleanSQL s)) "INSERT".toList = true →
        (∃ m0 m1 m2 m3 rest,
          FindStringSubmatch insertRe (prepassed f s) = some (m0 :: m1 :: m2 :: m3 :: rest) ∧
          out =
            header f "INSERT INTO" "insert into" ++ ' ' :: TrimSpace m1
            ++ '\n' :: (indent ++ '(' :: (formatColumnList (TrimSpace m2) ++ [')']))
            ++ '\n' :: header f "VALUES" "values"
            ++ '\n' :: (indent ++ '(' :: (formatValueList (TrimSpace m3) ++ [')']))) ∨
        (out = formatKeywords f (prepassed f s) ∧ '\n' ∉ out)) ∧
      (HasPrefix (ToUpper (cleanSQL s)) "UPDATE".toList = true →
        ∃ sets,
          ((splitUpdateSQL (prepassed f s)).get "SET" ≠ [] →
            formatSetClause f ((splitUpdateSQL (prepassed f s)).get "SET") = some sets) ∧
          out =
            titled (header f "UPDATE" "update") ((splitUpdateSQL (prepassed f s)).get "UPDATE")
            ++ headed "\n".toList (header f "SET" "set") indent
              ((splitUpdateSQL (prepassed f s)).get "SET") sets
            ++ headed "\n".toList (header f "WHERE" "where") indent
              ((splitUpdateSQL (prepassed f s)).get "WHERE")
              ((splitUpdateSQL (prepassed f s)).get "WHERE")) ∧
      (HasPrefix (ToUpper (cleanSQL s)) "DELETE".toList = true →
        out =
          titled (header f "DELETE FROM" "delete from")
            ((splitDeleteSQL (prepassed f s)).get "FROM")
          ++ headed "\n".toList (header f "WHERE" "where") indent
            ((splitDeleteSQL (prepassed f s)).get "WHERE")
            ((splitDeleteSQL (prepassed f s)).get "WHERE")) ∧
      (HasPrefix (ToUpper (cleanSQL s)) "SELECT".toList = false →
        HasPrefix (ToUpper (cleanSQL s)) "INSERT".toList = false →
        HasPrefix (ToUpper (cleanSQL s)) "UPDATE".toList = false →
        HasPrefix (ToUpper (cleanSQL s)) "DELETE".toList = false →
        out = prepassed f s ∧ '\n' ∉ out) := by
  refine ⟨fun w => rfl, by decide, ?_⟩
  obtain ⟨out, hout⟩ := formatSQL_of_nonneg f h (cleanSQL s)
  refine ⟨_, out, getIndent_of_nonneg f h, ?_, ?_, ?_, ?_, ?_, ?_⟩
  · exact Format_of_formatSQL f s _ out hs rfl hout
  · intro hk
    rw [formatSQL_dispatch, if_pos hk] at hout
    obtain ⟨indent, cols, frm, hi, h1, h2, h3⟩ := formatSelectStatement_headed f h (prepassed f s)
    rw [getIndent_of_nonneg f h] at hi
    cases hi
    rw [h3] at hout
    exact ⟨cols, frm, h1, h2, (Option.some.inj hout).symm⟩
  · intro hk
    have n1 := HasPrefix_exclusive _ _ "SELECT".toList 'I' 'S' _ _ rfl rfl (by decide) hk
    rw [formatSQL_dispatch, if_neg (by rw [n1]; exact Bool.false_ne_true), if_pos hk] at hout
    obtain ⟨indent, hi, h3⟩ := formatInsertStatement_headed f h (prepassed f s)
    rw [getIndent_of_nonneg f h] at hi
    cases hi
    rcases h3 with ⟨m0, m1, m2, m3, rest, hm, h3⟩ | h3
    · left
      rw [h3] at hout
      exact ⟨m0, m1, m2, m3, rest, hm, (Option.some.inj hout).symm⟩
    · right
      rw [h3] at hout
      have e := (Option.some.inj hout).symm
      refine ⟨e, ?_⟩
      rw [e]
      exact newline_not_mem_of_upper _ _ (ToUpper_replaceKeywords f _ fallbackKeywords_plain _)
        (newline_not_mem_prepassed f s)
  · intro hk
    have n1 := HasPrefix_exclusive _ _ "SELECT".toList 'U' 'S' _ _ rfl rfl (by decide) hk
    have n2 := HasPrefix_exclusive _ _ "INSERT".toList 'U' 'I' _ _ rfl rfl (by decide) hk
    rw [formatSQL_dispatch, if_neg (by rw [n1]; exact Bool.false_ne_true), if_neg (by rw [n2]; exact Bool.false_ne_true), if_pos hk] at hout
    obtain ⟨indent, sets, hi, h1, h3⟩ := formatUpdateStatement_headed f h (prepassed f s)
    rw [getIndent_of_nonneg f h] at hi
    cases hi
    rw [h3] at hout
    exact ⟨sets, h1, (Option.some.inj hout).symm⟩
  · intro hk
    have n1 := HasPrefix_exclusive _ _ "SELECT".toList 'D' 'S' _ _ rfl rfl (by decide) hk
    have n2 := HasPrefix_exclusive _ _ "INSERT".toList 'D' 'I' _ _ rfl rfl (by decide) hk
    have n3 := HasPrefix_exclusive _ _ "UPDATE".toList 'D' 'U' _ _ rfl rfl (by decide) hk
    rw [formatSQL_dispatch, if_neg (by rw [n1]; exact Bool.false_ne_true), if_neg (by rw [n2]; exact Bool.false_ne_true), if_neg (by rw [n3]; exact Bool.false_ne_true),
      if_pos hk] at hout
    obtain ⟨indent, hi, h3⟩ := formatDeleteStatement_headed f h (prepassed f s)
    rw [getIndent_of_nonneg f h] at hi
    cases hi
    rw [h3] at hout
    exact (Option.some.inj hout).symm
  · intro n1 n2 n3 n4
    rw [formatSQL_dispatch, if_neg (by rw [n1]; exact Bool.false_ne_true), if_neg (by rw [n2]; exact Bool.false_ne_true), if_neg (by rw [n3]; exact Bool.false_ne_true),
      if_neg (by rw [n4]; exact Bool.false_ne_true)] at hout
    have e := (Option.some.inj hout).symm
    exact ⟨e, e ▸ newline_not_mem_prepassed f s⟩
/-- Witness of C14: a DELETE statement in mixed letter case with lower-case
keywords configured; both headers come out in lower case. -/
theorem Format_clause_headers_witness :
    0 ≤ (⟨2, false⟩ : Formatter).IndentSize ∧ TrimSpace "DeLeTe FrOm t wHeRe x".toList ≠ [] ∧
    (∃ indent out, getIndent ⟨2, false⟩ 1 = some indent ∧
      Format ⟨2, false⟩ "DeLeTe FrOm t wHeRe x".toList = some (out, none) ∧
      (HasPrefix (ToUpper (cleanSQL "DeLeTe FrOm t wHeRe x".toList)) "DELETE".toList = true →
        out =
          titled (header ⟨2, false⟩ "DELETE FROM" "delete from")
            ((splitDeleteSQL (prepassed ⟨2, false⟩ "DeLeTe FrOm t wHeRe x".toList)).get "FROM")
          ++ headed "\n".toList (header ⟨2, false⟩ "WHERE" "where") indent
            ((splitDeleteSQL (prepassed ⟨2, false⟩ "DeLeTe FrOm t wHeRe x".toList)).get "WHERE")
            ((splitDeleteSQL (prepassed ⟨2, false⟩ "DeLeTe FrOm t wHeRe x".toList)).get
              "WHERE"))) ∧
    Format ⟨2, false⟩ "DeLeTe FrOm t wHeRe x".toList
      = some ("delete from t\nwhere\n  x".toList, none) ∧
    Format ⟨2, true⟩ "SeLeCt a FrOm t wHeRe x grOUP by y".toList
      = some ("SELECT\n  a\nFROM\n  t\nWHERE\n  x\nGROUP BY\n  y".toList, none) ∧
    Format ⟨2, false⟩ "SeLeCt a FrOm t wHeRe x grOUP by y".toList
      = some ("select\n  a\nfrom\n  t\nwhere\n  x\ngroup by\n  y".toList, none) := by
  obtain ⟨_, _, indent, out, h1, h2, _, _, _, h6, _⟩ :=
    Format_clause_headers ⟨2, false⟩ "DeLeTe FrOm t wHeRe x".toList (by decide) (by decide!)
  exact ⟨by decide, by decide!, ⟨indent, out, h1, h2, h6⟩, by decide!, by decide!, by decide!⟩
/-! ## A keyword pass changes the letter case of keywords only -/

theorem foldEq_iff_toNat (c x : Char) :
    foldEq c x = true ↔
      (asciiLower x).toNat = (asciiLower c).toNat ∨
      ((asciiLower c).toNat = 115 ∧ x.toNat = 383) ∨
      ((asciiLower c).toNat = 107 ∧ x.toNat = 8490) := by
  simp only [foldEq, Bool.or_eq_true, Bool.and_eq_true, beq_iff_eq]
  constructor
  · rintro ((h | ⟨h1, h2⟩) | ⟨h1, h2⟩)
    · exact Or.inl (congrArg Char.toNat h)
    · exact Or.inr (Or.inl ⟨congrArg Char.toNat h1, congrArg Char.toNat h2⟩)
    · exact Or.inr (Or.inr ⟨congrArg Char.toNat h1, congrArg Char.toNat h2⟩)
  · rintro (h | ⟨h1, h2⟩ | ⟨h1, h2⟩)
    · exact Or.inl (Or.inl (toNat_inj _ _ h))
    · exact Or.inl (Or.inr ⟨toNat_inj _ _ h1, toNat_inj _ _ h2⟩)
    · exact Or.inr ⟨toNat_inj _ _ h1, toNat_inj _ _ h2⟩

theorem keyword_singleton (f : Formatter) (c b : Char) :
    keyword f [c] = [b] ↔
      b.toNat = if f.KeywordUpper = true then (toUpperRune c).toNat else (toLowerRune c).toNat := by
  unfold keyword ToUpper ToLower
  cases f.KeywordUpper
  · simp only [Bool.false_eq_true, if_false, List.map_cons, List.map_nil, List.cons.injEq,
      and_true]
    exact ⟨fun h => by rw [h], fun h => toNat_inj _ _ h.symm⟩
  · simp only [if_true, List.map_cons, List.map_nil, List.cons.injEq, and_true]
    exact ⟨fun h => by rw [h], fun h => toNat_inj _ _ h.symm⟩

theorem toNat_cased (f : Formatter) (c b : Char) (hc : c.toNat < 128)
    (hb : keyword f [c] = [b]) :
    b.toNat < 128 ∧ (asciiLower b).toNat = (asciiLower c).toNat ∧
    (f.KeywordUpper = true → ¬(97 ≤ b.toNat ∧ b.toNat ≤ 122)) ∧
    (f.KeywordUpper = false → ¬(65 ≤ b.toNat ∧ b.toNat ≤ 90)) := by
  rw [keyword_singleton] at hb
  rw [toNat_asciiLower, toNat_asciiLower]
  cases hu : f.KeywordUpper
  · rw [hu, toNat_toLowerRune] at hb
    simp only [Bool.false_eq_true, if_false] at hb
    refine ⟨?_, ?_, fun h => Bool.noConfusion h, fun _ => ?_⟩
    · split_ifs at hb <;> omega
    · split_ifs at hb ⊢ <;> omega
    · split_ifs at hb <;> omega
  · rw [hu, toNat_toUpperRune] at hb
    simp only [if_true] at hb
    refine ⟨?_, ?_, fun _ => ?_, fun h => Bool.noConfusion h⟩
    · split_ifs at hb <;> omega
    · split_ifs at hb ⊢ <;> omega
    · split_ifs at hb <;> omega

theorem toNat_foldEq_ascii (c2 b : Char) (hb : b.toNat < 128) (h : foldEq c2 b = true) :
    (asciiLower b).toNat = (asciiLower c2).toNat ∧ c2.toNat < 128 := by
  rw [foldEq_iff_toNat] at h
  have h1 : (asciiLower b).toNat = (asciiLower c2).toNat := by
    rcases h with h | ⟨_, h⟩ | ⟨_, h⟩
    · exact h
    · omega
    · omega
  refine ⟨h1, ?_⟩
  rw [toNat_asciiLower, toNat_asciiLower] at h1
  split_ifs at h1 <;> omega

/-- A later keyword pass leaves a rune written by an earlier one as it is. -/
theorem recased_again (f : Formatter) (c c2 b : Char) (hc : c.toNat < 128)
    (hb : keyword f [c] = [b]) (h : foldEq c2 b = true) : keyword f [c2] = [b] := by
  obtain ⟨k1, k2, k3, k4⟩ := toNat_cased f c b hc hb
  obtain ⟨e, hc2⟩ := toNat_foldEq_ascii c2 b k1 h
  rw [keyword_singleton]
  rw [toNat_asciiLower, toNat_asciiLower] at e
  cases hu : f.KeywordUpper
  · have k4' := k4 hu
    simp only [Bool.false_eq_true, if_false]
    rw [toNat_toLowerRune]
    split_ifs at e ⊢ <;> omega
  · have k3' := k3 hu
    simp only [if_true]
    rw [toNat_toUpperRune]
    split_ifs at e ⊢ <;> omega

/-- A rune over which a later pass finds a keyword letter held that letter before
the earlier pass. -/
theorem foldEq_before (f : Formatter) (c1 c2 x y : Char) (hc : c1.toNat < 128)
    (h1 : foldEq c1 x = true) (hy : keyword f [c1] = [y]) (h2 : foldEq c2 y = true) :
    foldEq c2 x = true := by
  obtain ⟨k1, k2, _, _⟩ := toNat_cased f c1 y hc hy
  obtain ⟨e, _⟩ := toNat_foldEq_ascii c2 y k1 h2
  rw [foldEq_iff_toNat] at h1 ⊢
  rw [← e, k2]
  exact h1
theorem keyword_cons (f : Formatter) (c : Char) (w : Str) :
    keyword f (c :: w) = keyword f [c] ++ keyword f w := by
  unfold keyword ToUpper ToLower
  split <;> rfl

theorem keyword_length (f : Formatter) (w : Str) : (keyword f w).length = w.length := by
  unfold keyword ToUpper ToLower
  split <;> simp

theorem keyword_one (f : Formatter) (c : Char) : ∃ b, keyword f [c] = [b] := by
  unfold keyword ToUpper ToLower
  split <;> exact ⟨_, rfl⟩

theorem recasedAt_cons (f : Formatter) (c : Char) (w X R : Str)
    (h : recasedAt f (c :: w) X R = true) :
    ∃ a b X' R', X = a :: X' ∧ R = b :: R' ∧ foldEq c a = true ∧ keyword f [c] = [b] ∧
      recasedAt f w X' R' = true := by
  unfold recasedAt at h
  simp only [Bool.and_eq_true, beq_iff_eq] at h
  obtain ⟨h1, h2⟩ := h
  cases X with
  | nil => simp [stripLit] at h1
  | cons a X' =>
    simp only [stripLit] at h1
    split at h1
    · rename_i hf
      obtain ⟨b, hb⟩ := keyword_one f c
      rw [keyword_cons, hb] at h2
      cases R with
      | nil => simp at h2
      | cons b' R' =>
        simp only [List.length_cons, List.take_succ_cons, List.singleton_append,
          List.cons.injEq] at h2
        refine ⟨a, b', X', R', rfl, rfl, hf, by rw [hb, h2.1], ?_⟩
        unfold recasedAt
        simp [h1, h2.2]
    · simp at h1

theorem recasedAt_get (f : Formatter) (w X R : Str) (h : recasedAt f w X R = true) (k : Nat)
    (hk : k < w.length) :
    ∃ c a b, w[k]? = some c ∧ X[k]? = some a ∧ R[k]? = some b ∧ foldEq c a = true ∧
      keyword f [c] = [b] := by
  induction w generalizing X R k with
  | nil => simp at hk
  | cons c w ih =>
    obtain ⟨a, b, X', R', e1, e2, h1, h2, h3⟩ := recasedAt_cons f c w X R h
    subst e1 e2
    cases k with
    | zero => exact ⟨c, a, b, by simp, by simp, by simp, h1, h2⟩
    | succ k =>
      obtain ⟨c', a', b', g1, g2, g3, g4, g5⟩ := ih X' R' h3 k (by simpa using hk)
      exact ⟨c', a', b', by simpa using g1, by simpa using g2, by simpa using g3, g4, g5⟩

theorem recasedOnly_runes (f : Formatter) (ws : List String)
    (hws : ∀ w ∈ ws, ∀ c ∈ w.toList, c.toNat < 128) (x r : Str) (h : recasedOnly f ws x r) :
    List.Forall₂ (recasedRune f) x r := by
  rw [List.forall₂_iff_get]
  refine ⟨h.1.symm, fun i h1 h2 => ?_⟩
  rcases h.2 i with e | ⟨w, hw, a, ha, hi, hwin⟩
  · left
    rw [List.getElem?_eq_getElem h2, List.getElem?_eq_getElem h1] at e
    simpa using e
  · right
    obtain ⟨c, p, q, g1, g2, g3, g4, g5⟩ := recasedAt_get f _ _ _ hwin (i - a) (by omega)
    rw [List.getElem?_drop, show a + (i - a) = i by omega] at g2 g3
    rw [List.getElem?_eq_getElem h1] at g2
    rw [List.getElem?_eq_getElem h2] at g3
    simp only [Option.some.injEq] at g2 g3
    refine ⟨c, hws w hw c (List.mem_iff_getElem?.mpr ⟨_, g1⟩), ?_, ?_⟩
    · simpa [g2] using g4
    · simpa [g3] using g5

theorem stripLit_before (f : Formatter) (w X Y : Str)
    (hXY : List.Forall₂ (recasedRune f) X Y) (h : (stripLit w Y).isSome = true) :
    (stripLit w X).isSome = true := by
  induction w generalizing X Y with
  | nil => simp [stripLit]
  | cons c w ih =>
    cases hXY with
    | nil => simp [stripLit] at h
    | cons hxy hrest =>
      rename_i x y X' Y'
      simp only [stripLit] at h ⊢
      split at h
      · rename_i hf
        have hx : foldEq c x = true := by
          rcases hxy with e | ⟨c1, hc1, g1, g2⟩
          · rw [← e]; exact hf
          · exact foldEq_before f c1 c x y hc1 g1 g2 hf
        rw [if_pos hx]
        exact ih X' Y' hrest h
      · simp at h

theorem take_keyword_after (f : Formatter) (w Y Z : Str) (hw : ∀ c ∈ w, c.toNat < 128)
    (hYZ : List.Forall₂ (recasedRune f) Y Z) (h : Y.take w.length = keyword f w) :
    Z.take w.length = keyword f w := by
  induction w generalizing Y Z with
  | nil => simp [keyword, ToUpper, ToLower]
  | cons c w ih =>
    obtain ⟨b, hb⟩ := keyword_one f c
    rw [keyword_cons, hb] at h ⊢
    cases hYZ with
    | nil => simp at h
    | cons hyz hrest =>
      rename_i y z Y' Z'
      simp only [List.length_cons, List.take_succ_cons, List.singleton_append,
        List.cons.injEq] at h ⊢
      refine ⟨?_, ih Y' Z' (fun c hc => hw c (List.mem_cons_of_mem _ hc)) hrest h.2⟩
      rcases hyz with e | ⟨c2, hc2, g1, g2⟩
      · rw [e, h.1]
      · have hy : keyword f [c] = [y] := by rw [hb, h.1]
        have := recased_again f c c2 y (hw c (by simp)) hy g1
        rw [g2] at this
        simp only [List.cons.injEq, and_true] at this
        rw [this, h.1]
theorem recasedOnly_refl (f : Formatter) (ws : List String) (x : Str) : recasedOnly f ws x x :=
  ⟨rfl, fun _ => Or.inl rfl⟩

theorem recasedOnly_mono (f : Formatter) (ws ws' : List String) (h : ∀ w ∈ ws, w ∈ ws')
    (x r : Str) (hr : recasedOnly f ws x r) : recasedOnly f ws' x r := by
  refine ⟨hr.1, fun i => ?_⟩
  rcases hr.2 i with e | ⟨w, hw, rest⟩
  · exact Or.inl e
  · exact Or.inr ⟨w, h w hw, rest⟩

/-- Two keyword passes one after the other: a window of either pass is still a
window between the first text and the last. -/
theorem recasedOnly_trans (f : Formatter) (ws1 ws2 : List String)
    (h1 : ∀ w ∈ ws1, ∀ c ∈ w.toList, c.toNat < 128)
    (h2 : ∀ w ∈ ws2, ∀ c ∈ w.toList, c.toNat < 128) (x y z : Str)
    (hxy : recasedOnly f ws1 x y) (hyz : recasedOnly f ws2 y z) :
    recasedOnly f (ws1 ++ ws2) x z := by
  have rxy := recasedOnly_runes f ws1 h1 x y hxy
  have ryz := recasedOnly_runes f ws2 h2 y z hyz
  refine ⟨hyz.1.trans hxy.1, fun i => ?_⟩
  rcases hyz.2 i with e2 | ⟨w, hw, a, ha, hi, hwin⟩
  · rcases hxy.2 i with e1 | ⟨w, hw, a, ha, hi, hwin⟩
    · exact Or.inl (e2.trans e1)
    · right
      refine ⟨w, List.mem_append_left _ hw, a, ha, hi, ?_⟩
      unfold recasedAt at hwin ⊢
      simp only [Bool.and_eq_true, beq_iff_eq] at hwin ⊢
      exact ⟨hwin.1, take_keyword_after f _ _ _ (h1 w hw) (List.forall₂_drop a ryz) hwin.2⟩
  · right
    refine ⟨w, List.mem_append_right _ hw, a, ha, hi, ?_⟩
    unfold recasedAt at hwin ⊢
    simp only [Bool.and_eq_true, beq_iff_eq] at hwin ⊢
    exact ⟨stripLit_before f _ _ _ (List.forall₂_drop a rxy) hwin.1, hwin.2⟩

/-- A common text written before both texts. -/
theorem recasedOnly_append_left (f : Formatter) (ws : List String) (p x r : Str)
    (h : recasedOnly f ws x r) : recasedOnly f ws (p ++ x) (p ++ r) := by
  refine ⟨by simp [h.1], fun i => ?_⟩
  by_cases hi : i < p.length
  · left
    rw [List.getElem?_append_left hi, List.getElem?_append_left hi]
  · rcases h.2 (i - p.length) with e | ⟨w, hw, a, ha, hlt, hwin⟩
    · left
      rw [List.getElem?_append_right (by omega), List.getElem?_append_right (by omega), e]
    · right
      refine ⟨w, hw, p.length + a, by omega, by omega, ?_⟩
      rw [List.drop_append, List.drop_append]
      exact hwin

/-- A keyword occurrence and its configured spelling written before the texts. -/
theorem recasedOnly_window (f : Formatter) (ws : List String) (w : String) (hw : w ∈ ws)
    (m x r : Str) (hm : List.Forall₂ (fun c a => foldEq c a = true) w.toList m)
    (h : recasedOnly f ws x r) : recasedOnly f ws (m ++ x) (keyword f w.toList ++ r) := by
  have hlen : m.length = w.toList.length := hm.length_eq.symm
  have hk : (keyword f w.toList).length = w.toList.length := keyword_length f _
  have hstrip : ∀ (w m : Str), List.Forall₂ (fun c a => foldEq c a = true) w m →
      (stripLit w (m ++ x)).isSome = true := by
    intro w m hwm
    induction hwm with
    | nil => cases x <;> simp [stripLit]
    | cons hca _ ih => simp [stripLit, hca, ih]
  refine ⟨by rw [List.length_append, List.length_append, h.1, hlen, hk], fun i => ?_⟩
  by_cases hi : i < w.toList.length
  · right
    refine ⟨w, hw, 0, by omega, by omega, ?_⟩
    unfold recasedAt
    simp only [List.drop_zero, Bool.and_eq_true, beq_iff_eq]
    refine ⟨hstrip _ _ hm, ?_⟩
    rw [← hk, List.take_left]
  · rcases h.2 (i - w.toList.length) with e | ⟨w', hw', a, ha, hlt, hwin⟩
    · left
      rw [List.getElem?_append_right (by omega), List.getElem?_append_right (by omega), hk, hlen,
        e]
    · right
      refine ⟨w', hw', w.toList.length + a, by omega, by omega, ?_⟩
      have e1 : List.drop (w.toList.length + a) (m ++ x) = List.drop a x := by
        rw [← hlen, List.drop_append]
      have e2 : List.drop (w.toList.length + a) (keyword f w.toList ++ r) = List.drop a r := by
        rw [← hk, List.drop_append]
      rw [e1, e2]
      exact hwin

theorem recasedOnly_scanAll (f : Formatter) (w : String) (fuel : Nat) (prev : Option Char)
    (s : Str) :
    recasedOnly f [w] s
      (((scanAll (keywordRe w) fuel prev s).1.map fun bm => bm.1 ++ keyword f w.toList).flatten
        ++ (scanAll (keywordRe w) fuel prev s).2) := by
  induction fuel generalizing prev s with
  | zero => simpa [scanAll] using recasedOnly_refl f [w] s
  | succ n ih =>
    simp only [scanAll]
    split
    · simpa using recasedOnly_refl f [w] s
    · rename_i fd hf
      split
      · simpa using recasedOnly_refl f [w] s
      · obtain ⟨h1, h2, e, h3, h4, _⟩ := findFrom_some _ _ _ _ hf
        have hm := keywordRe_sound w _ _ e h3
        rw [h4] at hm
        simp only [List.length_append, Nat.add_sub_cancel, List.take_left'] at hm
        simp only [List.map_cons, List.flatten_cons, List.append_assoc]
        have := recasedOnly_append_left f [w] fd.before _ _
          (recasedOnly_window f [w] w (by simp) fd.matched _ _ hm (ih fd.prevAfter fd.after))
        rw [← h1] at this
        exact this

theorem recasedOnly_replaceKeywords (f : Formatter) (ws : List String)
    (hws : ∀ w ∈ ws, ∀ c ∈ w.toList, c.toNat < 128) (s : Str) :
    recasedOnly f ws s (replaceKeywords f ws s) := by
  suffices H : ∀ (ws0 : List String) (acc : Str),
      (∀ w ∈ ws0, ∀ c ∈ w.toList, c.toNat < 128) → recasedOnly f ws0 s acc →
      recasedOnly f (ws0 ++ ws) s
        (ws.foldl (fun acc w => ReplaceAllString (keywordRe w) acc (keyword f w.toList)) acc) by
    simpa [replaceKeywords] using H [] s (by simp) (recasedOnly_refl f [] s)
  induction ws with
  | nil =>
    intro ws0 acc _ h
    simpa using h
  | cons w ws ih =>
    intro ws0 acc h0 h
    simp only [List.foldl_cons]
    have hw : ∀ c ∈ w.toList, c.toNat < 128 := hws w (by simp)
    have step : recasedOnly f (ws0 ++ [w]) s
        (ReplaceAllString (keywordRe w) acc (keyword f w.toList)) :=
      recasedOnly_trans f ws0 [w] h0 (by simpa using hw) s acc _ h
        (recasedOnly_scanAll f w _ none acc)
    have := ih (fun w' hw' => hws w' (List.mem_cons_of_mem _ hw')) (ws0 ++ [w]) _
      (by
        intro w' hw'
        rcases List.mem_append.mp hw' with h' | h'
        · exact h0 w' h'
        · rw [List.mem_singleton.mp h']; exact hw) step
    simpa using this
theorem keywords_ascii :
    ∀ w ∈ prepassKeywords ++ ["INSERT INTO", "VALUES", "UPDATE", "SET", "DELETE FROM", "WHERE"],
      ∀ c ∈ w.toList, c.toNat < 128 := by
  decide

theorem runStar_flatMap (p : Char → Bool) (g : St → List St)
    (hg : ∀ prev c t caps, p c = true → g ⟨prev, c :: t, caps⟩ = []) (caps : List Str)
    (prev : Option Char) (s : Str) :
    (runStar p caps prev s).flatMap g =
      g ⟨lastOr prev (s.takeWhile p), s.dropWhile p, caps⟩ := by
  induction s generalizing prev with
  | nil => simp [runStar, lastOr_nil]
  | cons c t ih =>
    simp only [runStar]
    by_cases hp : p c = true
    · simp only [hp, if_true, List.takeWhile_cons_of_pos, List.dropWhile_cons_of_pos,
        List.flatMap_append, ih, lastOr_cons]
      simp [List.flatMap, hg prev c t caps hp]
    · simp [hp, lastOr_nil, List.flatMap]

theorem foldEq_J_space (x : Char) (h : isReSpace x = true) : foldEq 'J' x = false := by
  simp only [isReSpace, Bool.or_eq_true, beq_iff_eq] at h
  rcases h with (((h | h) | h) | h) | h <;> subst h <;> decide

theorem stripLit_sound (w s rest : Str) (h : stripLit w s = some rest) :
    ∃ m, s = m ++ rest ∧ List.Forall₂ (fun c x => foldEq c x = true) w m := by
  induction w generalizing s with
  | nil =>
    simp only [stripLit, Option.some.injEq] at h
    exact ⟨[], by simp [h], List.Forall₂.nil⟩
  | cons c w ih =>
    cases s with
    | nil => simp [stripLit] at h
    | cons x s =>
      simp only [stripLit] at h
      split at h
      · rename_i hf
        obtain ⟨m, h1, h2⟩ := ih s h
        exact ⟨x :: m, by simp [h1], List.Forall₂.cons hf h2⟩
      · simp at h

theorem stripLit_of_fold (w m t : Str) (h : List.Forall₂ (fun c x => foldEq c x = true) w m) :
    stripLit w (m ++ t) = some t := by
  induction h with
  | nil => cases t <;> simp [stripLit]
  | cons hca _ ih => simp [stripLit, hca, ih]

/-- The end states of a single keyword of the JOIN family. -/
theorem oneWord_run (B : String) (prev : Option Char) (s : Str) (caps : List Str) :
    ∃ p, (kw B).run ⟨prev, s, caps⟩ =
      (stripWords [B] s).toList.map fun rest => ⟨p, rest, caps⟩ := by
  unfold kw
  rw [lit_run_eq]
  simp only [stripWords]
  cases stripLit B.toList s with
  | none => exact ⟨none, rfl⟩
  | some rest => exact ⟨_, rfl⟩

/-- The end states of `A\s+JOIN`: the greedy `\s+` has to take the whole run of
whitespace, as no whitespace rune matches the letter J. -/
theorem twoWords_run (A : String) (prev : Option Char) (s : Str) (caps : List Str) :
    ∃ p, (Re.seq [kw A, Re.ws1, kw "JOIN"]).run ⟨prev, s, caps⟩ =
      (stripWords [A, "JOIN"] s).toList.map fun rest => ⟨p, rest, caps⟩ := by
  rw [Re.seq_cons_run]
  have e1 : (Re.seq [Re.ws1, kw "JOIN"]).run
      = fun st => (Re.ws1.run st).flatMap (kw "JOIN").run :=
    funext fun st => Re.seq_cons_run _ _ st
  rw [e1]
  have hA : (kw A).run ⟨prev, s, caps⟩ = _ := lit_run_eq A.toList prev s caps
  rw [hA]
  simp only [stripWords]
  cases hs : stripLit A.toList s with
  | none => exact ⟨none, by simp⟩
  | some r1 =>
    simp only [List.flatMap_cons, List.flatMap_nil, List.append_nil, Option.some_bind]
    cases r1 with
    | nil => exact ⟨none, by simp [Re.ws1, Re.run, skipSpaces]⟩
    | cons c t =>
      by_cases hc : isReSpace c = true
      · have hJ : ∀ prev c t caps, isReSpace c = true →
            (kw "JOIN").run ⟨prev, c :: t, caps⟩ = [] := by
          intro prev c t caps hc
          apply kw_run_nil
          show stripLit ('J' :: "OIN".toList) (c :: t) = none
          simp [stripLit, foldEq_J_space c hc]
        have hw : Re.ws1.run ⟨lastOr prev (List.take A.toList.length s), c :: t, caps⟩
            = runStar isReSpace caps (some c) t := by
          simp [Re.ws1, Re.run, hc]
        rw [hw, runStar_flatMap isReSpace _ hJ]
        have hB : (kw "JOIN").run ⟨lastOr (some c) (t.takeWhile isReSpace),
            t.dropWhile isReSpace, caps⟩ = _ := lit_run_eq _ _ _ _
        rw [hB]
        simp only [skipSpaces, hc, if_true, Option.some_bind]
        cases stripLit "JOIN".toList (t.dropWhile isReSpace) with
        | none => exact ⟨none, rfl⟩
        | some rest => exact ⟨_, rfl⟩
      · exact ⟨none, by simp [Re.ws1, Re.run, skipSpaces, hc]⟩
theorem isWordChar_of_foldEq (c x : Char)
    (hc : (65 ≤ c.toNat ∧ c.toNat ≤ 90) ∧ c.toNat ≠ 83 ∧ c.toNat ≠ 75)
    (h : foldEq c x = true) : isWordChar x = true := by
  rw [foldEq_iff_toNat, toNat_asciiLower, toNat_asciiLower] at h
  have hx : (65 ≤ x.toNat ∧ x.toNat ≤ 90) ∨ (97 ≤ x.toNat ∧ x.toNat ≤ 122) := by
    split_ifs at h <;> omega
  unfold isWordChar
  simp only [Bool.or_eq_true, Bool.and_eq_true, decide_eq_true_eq, beq_iff_eq]
  rcases hx with hx | hx
  · exact Or.inl (Or.inl (Or.inr hx))
  · exact Or.inl (Or.inr hx)

theorem skipSpaces_sound (s r : Str) (h : skipSpaces s = some r) : ∃ m, s = m ++ r := by
  cases s with
  | nil => simp [skipSpaces] at h
  | cons c t =>
    simp only [skipSpaces] at h
    split at h
    · simp only [Option.some.injEq] at h
      exact ⟨c :: t.takeWhile isReSpace, by rw [← h]; simp⟩
    · simp at h

theorem stripLit_JOIN_last (s rest : Str) (h : stripLit "JOIN".toList s = some rest) :
    ∃ m x, s = m ++ x :: rest ∧ isWordChar x = true := by
  obtain ⟨m, h1, h2⟩ := stripLit_sound _ _ _ h
  have e : "JOIN".toList = ['J', 'O', 'I', 'N'] := rfl
  rw [e] at h2
  simp only [List.forall₂_cons_left_iff, List.forall₂_nil_left_iff] at h2
  obtain ⟨a, u1, _, ⟨b, u2, _, ⟨c, u3, _, ⟨d, u4, hn, e4, e3⟩, e2⟩, e1⟩, e0⟩ := h2
  subst e4 e3 e2 e1 e0
  exact ⟨[a, b, c], d, by simp [h1], isWordChar_of_foldEq 'N' d (by decide) hn⟩

theorem stripWords_last (k : List String) (hk : k ∈ joinFamily) (s rest : Str)
    (h : stripWords k s = some rest) : ∃ m x, s = m ++ x :: rest ∧ isWordChar x = true := by
  have two : ∀ A : String, stripWords [A, "JOIN"] s = some rest →
      ∃ m x, s = m ++ x :: rest ∧ isWordChar x = true := by
    intro A hA
    simp only [stripWords] at hA
    obtain ⟨r1, g1, hA⟩ := Option.bind_eq_some.mp hA
    obtain ⟨r2, g2, hA⟩ := Option.bind_eq_some.mp hA
    obtain ⟨m1, e1, _⟩ := stripLit_sound _ _ _ g1
    obtain ⟨m2, e2⟩ := skipSpaces_sound _ _ g2
    obtain ⟨m3, x, e3, hx⟩ := stripLit_JOIN_last _ _ hA
    exact ⟨m1 ++ m2 ++ m3, x, by rw [e1, e2, e3]; simp, hx⟩
  simp only [joinFamily, List.mem_cons, List.mem_singleton, List.not_mem_nil, or_false] at hk
  rcases hk with hk | hk | hk | hk | hk <;> subst hk
  · exact two _ h
  · exact two _ h
  · exact two _ h
  · exact two _ h
  · exact stripLit_JOIN_last _ _ h

theorem stripWords_first (k : List String) (hk : k ∈ joinFamily) (s rest : Str)
    (h : stripWords k s = some rest) : isWord s.head? = true := by
  have one : ∀ (w : Str) (c : Char) (w' : Str), w = c :: w' →
      ((65 ≤ c.toNat ∧ c.toNat ≤ 90) ∧ c.toNat ≠ 83 ∧ c.toNat ≠ 75) →
      ∀ r, stripLit w s = some r → isWord s.head? = true := by
    intro w c w' e hc r hr
    subst e
    cases s with
    | nil => simp [stripLit] at hr
    | cons x t =>
      simp only [stripLit] at hr
      split at hr
      · rename_i hf
        exact isWordChar_of_foldEq c x hc hf
      · simp at hr
  have two : ∀ (A : String) (c : Char) (w' : Str), A.toList = c :: w' →
      ((65 ≤ c.toNat ∧ c.toNat ≤ 90) ∧ c.toNat ≠ 83 ∧ c.toNat ≠ 75) →
      stripWords [A, "JOIN"] s = some rest → isWord s.head? = true := by
    intro A c w' e hc hA
    simp only [stripWords] at hA
    obtain ⟨r1, g1, _⟩ := Option.bind_eq_some.mp hA
    exact one _ c w' e hc r1 g1
  simp only [joinFamily, List.mem_cons, List.mem_singleton, List.not_mem_nil, or_false] at hk
  rcases hk with hk | hk | hk | hk | hk <;> subst hk
  · exact two "INNER" 'I' _ rfl (by decide) h
  · exact two "LEFT" 'L' _ rfl (by decide) h
  · exact two "RIGHT" 'R' _ rfl (by decide) h
  · exact two "FULL" 'F' _ rfl (by decide) h
  · exact one _ 'J' _ rfl (by decide) rest h

theorem filterMap_cons_toList {α β : Type} (g : α → Option β) (a : α) (l : List α) :
    List.filterMap g (a :: l) = (g a).toList ++ List.filterMap g l := by
  cases h : g a <;> simp [List.filterMap_cons, h]

theorem map_rest_toList (p : Option Char) (caps : List Str) (o : Option Str) :
    List.map ((fun e : St => e.rest) ∘ fun rest => ⟨p, rest, caps⟩) o.toList = o.toList := by
  cases o <;> rfl

theorem alts_five_run (a1 a2 a3 a4 a5 : Re) (st : St) :
    (Re.alts [a1, a2, a3, a4, a5]).run st =
      a1.run st ++ (a2.run st ++ (a3.run st ++ (a4.run st ++ a5.run st))) := by
  simp [Re.alts, Re.run]

/-- The end states of the alternation of `joinRe`, in order: one for every keyword
of the JOIN family that stands at the cursor. -/
theorem joinAlts_run (prev : Option Char) (s : Str) (caps : List Str) :
    ((Re.alts [Re.seq [kw "INNER", Re.ws1, kw "JOIN"], Re.seq [kw "LEFT", Re.ws1, kw "JOIN"],
      Re.seq [kw "RIGHT", Re.ws1, kw "JOIN"], Re.seq [kw "FULL", Re.ws1, kw "JOIN"],
      kw "JOIN"]).run ⟨prev, s, caps⟩).map (fun e => e.rest)
      = joinFamily.filterMap fun k => stripWords k s := by
  obtain ⟨p1, h1⟩ := twoWords_run "INNER" prev s caps
  obtain ⟨p2, h2⟩ := twoWords_run "LEFT" prev s caps
  obtain ⟨p3, h3⟩ := twoWords_run "RIGHT" prev s caps
  obtain ⟨p4, h4⟩ := twoWords_run "FULL" prev s caps
  obtain ⟨p5, h5⟩ := oneWord_run "JOIN" prev s caps
  rw [alts_five_run, h1, h2, h3, h4, h5]
  simp only [joinFamily, List.map_append, List.map_map, map_rest_toList, filterMap_cons_toList,
    List.filterMap_nil, List.append_nil]
theorem atBoundary_eq (prev : Option Char) (s : Str) :
    atBoundary prev s = (isWord prev != isWord s.head?) := by
  cases prev <;> cases s <;> rfl

theorem head?_filter_map_rest (L : List St) (g : St → St) (Q : St → Bool) (R : Str → Bool)
    (hg : ∀ e, (g e).rest = e.rest) (hQ : ∀ e ∈ L, Q (g e) = R e.rest) :
    (((L.map g).flatMap fun e => if Q e then [e] else []).head?).map (fun e => e.rest)
      = (L.map fun e => e.rest).find? R := by
  induction L with
  | nil => rfl
  | cons e L ih =>
    have ih' := ih (fun x hx => hQ x (List.mem_cons_of_mem _ hx))
    simp only [List.map_cons, List.flatMap_cons, List.find?_cons]
    have h1 := hQ e (by simp)
    by_cases hq : Q (g e) = true
    · rw [if_pos hq]
      rw [h1] at hq
      simp [hq, hg]
    · rw [if_neg hq]
      rw [h1] at hq
      simp only [List.nil_append]
      rw [ih']
      simp [hq]

theorem joinFamily_none (s : Str) (h : isWord s.head? = false) :
    (joinFamily.filterMap fun k => stripWords k s) = [] := by
  rw [List.filterMap_eq_nil_iff]
  intro k hk
  cases hs : stripWords k s with
  | none => rfl
  | some rest =>
    have := stripWords_first k hk s rest hs
    rw [h] at this
    exact Bool.noConfusion this

/-- The pattern `joinRe` matches at the cursor exactly a whole-word occurrence of a
keyword of the JOIN family, and the text after the match is the text after that
keyword. -/
theorem matchAt_joinRe (prev : Option Char) (s : Str) :
    (matchAt joinRe prev s).map (fun e => e.rest) = joinKeywordAt prev s := by
  unfold matchAt joinRe joinKeywordAt
  rw [Re.seq_cons_run]
  have e1 : ∀ (A : Re) (st : St), (Re.seq [.grp A, .bnd]).run st
      = ((A.run st).map fun e =>
          (⟨e.prev, e.rest, e.caps ++ [st.rest.take (st.rest.length - e.rest.length)]⟩ : St)).flatMap
        fun e => if atBoundary e.prev e.rest then [e] else [] := by
    intro A st
    rw [Re.seq_cons_run]
    rfl
  have e0 : (Re.bnd).run ⟨prev, s, []⟩ = if atBoundary prev s then [⟨prev, s, []⟩] else [] := rfl
  rw [e0]
  by_cases hb : atBoundary prev s = true
  · rw [if_pos hb]
    simp only [List.flatMap_cons, List.flatMap_nil, List.append_nil]
    rw [e1]
    rw [atBoundary_eq] at hb
    by_cases hp : isWord prev = true
    · rw [if_pos hp]
      have hs : isWord s.head? = false := by
        rw [hp] at hb
        cases h : isWord s.head? with
        | false => rfl
        | true => rw [h] at hb; exact absurd hb (by decide)
      have hnil := joinFamily_none s hs
      rw [← joinAlts_run prev s []] at hnil
      rw [List.map_eq_nil_iff] at hnil
      rw [hnil]
      rfl
    · rw [if_neg hp]
      rw [← joinAlts_run prev s []]
      apply head?_filter_map_rest
      · intro e; rfl
      · intro e he
        obtain ⟨m, hm1, hm2⟩ := run_sound _ _ _ he
        simp only at hm1 hm2
        have hmem : e.rest ∈ joinFamily.filterMap fun k => stripWords k s := by
          rw [← joinAlts_run prev s []]
          exact List.mem_map.mpr ⟨e, he, rfl⟩
        obtain ⟨k, hk, hks⟩ := List.mem_filterMap.mp hmem
        obtain ⟨m', x, hx1, hx2⟩ := stripWords_last k hk s e.rest hks
        have hmm : m = m' ++ [x] := by
          have : m ++ e.rest = (m' ++ [x]) ++ e.rest := by rw [← hm1, hx1]; simp
          exact List.append_cancel_right this
        rw [atBoundary_eq, hm2, hmm, lastOr_append_singleton]
        simp [isWord, hx2]
  · rw [if_neg hb]
    simp only [List.flatMap_nil, List.head?_nil, Option.map_none']
    rw [atBoundary_eq] at hb
    by_cases hp : isWord prev = true
    · rw [if_pos hp]
    · rw [if_neg hp]
      have hs : isWord s.head? = false := by
        simp only [Bool.not_eq_true] at hp
        rw [hp] at hb
        cases h : isWord s.head? with
        | false => rfl
        | true => rw [h] at hb; exact absurd rfl hb
      rw [joinFamily_none s hs]
      rfl
theorem joinKeywordAt_some (prev : Option Char) (s rest : Str)
    (h : joinKeywordAt prev s = some rest) :
    ∃ m x, s = m ++ x :: rest ∧ isWordChar x = true := by
  unfold joinKeywordAt at h
  split at h
  · simp at h
  · have hmem := List.mem_of_find?_eq_some h
    obtain ⟨k, hk, hks⟩ := List.mem_filterMap.mp hmem
    exact stripWords_last k hk s rest hks

theorem findFrom_joinRe (prev : Option Char) (s : Str) :
    (findFrom joinRe prev s).map (fun f => (f.before, f.matched, f.after)) = findJoin prev s := by
  induction s generalizing prev with
  | nil =>
    have h := matchAt_joinRe prev []
    have hn : joinKeywordAt prev [] = none := by
      cases hj : joinKeywordAt prev [] with
      | none => rfl
      | some rest =>
        obtain ⟨m, x, e, _⟩ := joinKeywordAt_some _ _ _ hj
        simp at e
    rw [hn] at h
    cases hm : matchAt joinRe prev [] with
    | none => simp [findFrom, hm, findJoin]
    | some e => rw [hm] at h; simp at h
  | cons c t ih =>
    have h := matchAt_joinRe prev (c :: t)
    cases hm : matchAt joinRe prev (c :: t) with
    | none =>
      rw [hm] at h
      simp only [Option.map_none'] at h
      rw [findFrom_cons_of_none _ _ _ _ hm]
      simp only [findJoin, ← h, ← ih (some c)]
      cases findFrom joinRe (some c) t <;> rfl
    | some e =>
      rw [hm] at h
      simp only [Option.map_some'] at h
      rw [findFrom_here _ _ _ _ _ hm]
      simp only [findJoin, ← h, Option.map_some']

/-- The scan of a text with `joinRe` finds the JOIN keywords of the text. -/
theorem scanAll_joinRe (fuel : Nat) (prev : Option Char) (s : Str) :
    scanAll joinRe fuel prev s = joinOccurrences fuel prev s := by
  induction fuel generalizing prev s with
  | zero => rfl
  | succ n ih =>
    have h := findFrom_joinRe prev s
    simp only [scanAll, joinOccurrences]
    cases hf : findFrom joinRe prev s with
    | none =>
      rw [hf] at h
      simp only [Option.map_none'] at h
      rw [← h]
    | some fd =>
      rw [hf] at h
      simp only [Option.map_some'] at h
      rw [← h]
      obtain ⟨h1, h2, e, h3, h4, _⟩ := findFrom_some _ _ _ _ hf
      have hj : joinKeywordAt (lastOr prev fd.before) (fd.matched ++ fd.after) = some fd.after := by
        rw [← matchAt_joinRe, h3, Option.map_some', h4]
      obtain ⟨m, x, hx, _⟩ := joinKeywordAt_some _ _ _ hj
      have hm : fd.matched = m ++ [x] := by
        have : fd.matched ++ fd.after = (m ++ [x]) ++ fd.after := by rw [hx]; simp
        exact List.append_cancel_right this
      have hne : fd.matched.isEmpty = false := by rw [hm]; simp
      simp only [hne, Bool.false_eq_true, if_false, ih, h2]

theorem FindAllString_joinRe (s : Str) : FindAllString joinRe s = joinWords s := by
  unfold FindAllString joinWords
  rw [scanAll_joinRe]

theorem Split_joinRe (s : Str) : Split joinRe s = joinTexts s := by
  unfold Split joinTexts
  simp only [scanAll_joinRe]
theorem findJoin_some (prev : Option Char) (s before word after : Str)
    (h : findJoin prev s = some (before, word, after)) :
    s = before ++ (word ++ after) ∧ word ≠ [] := by
  rw [← findFrom_joinRe] at h
  cases hf : findFrom joinRe prev s with
  | none => rw [hf] at h; simp at h
  | some fd =>
    rw [hf] at h
    simp only [Option.map_some', Option.some.injEq, Prod.mk.injEq] at h
    obtain ⟨g1, g2, g3⟩ := h
    obtain ⟨h1, _, e, h3, h4, _⟩ := findFrom_some _ _ _ _ hf
    have hj : joinKeywordAt (lastOr prev fd.before) (fd.matched ++ fd.after) = some fd.after := by
      rw [← matchAt_joinRe, h3, Option.map_some', h4]
    obtain ⟨m, x, hx, _⟩ := joinKeywordAt_some _ _ _ hj
    have hm : fd.matched = m ++ [x] := by
      have : fd.matched ++ fd.after = (m ++ [x]) ++ fd.after := by rw [hx]; simp
      exact List.append_cancel_right this
    subst g1 g2 g3
    exact ⟨h1, by rw [hm]; simp⟩

/-- The bound of `joinOccurrences` does not matter once it exceeds the length of
the text. -/
theorem joinOccurrences_fuel (fuel fuel' : Nat) (prev : Option Char) (s : Str)
    (h : s.length < fuel) (h' : s.length < fuel') :
    joinOccurrences fuel prev s = joinOccurrences fuel' prev s := by
  induction fuel generalizing fuel' prev s with
  | zero => omega
  | succ n ih =>
    cases fuel' with
    | zero => omega
    | succ n' =>
      simp only [joinOccurrences]
      cases hf : findJoin prev s with
      | none => rfl
      | some r =>
        obtain ⟨before, word, after⟩ := r
        obtain ⟨e, hw⟩ := findJoin_some _ _ _ _ _ hf
        have hl : after.length < s.length := by
          have h0 : 0 < word.length := List.length_pos.mpr hw
          have := congrArg List.length e
          simp only [List.length_append] at this
          omega
        simp only
        rw [ih n' _ after (by omega) (by omega)]
/-- C6: for `IndentSize ≥ 0` and every FROM text without a newline, the text is
cut at its whole-word, case-insensitive occurrences of the JOIN-family keywords
(`joinWords`, found from left to right, the two-word keywords first): with `k`
such occurrences there are `k + 1` texts around them, which interleave with the
keywords to give the text back, and `formatFromClause` returns exactly `k + 1`
lines: the trimmed text before the first keyword, and for the `i`-th keyword one
indent level, the keyword in the configured case, one space, and the trimmed text
between that keyword and the next one (or the end).  The matches of the pattern
`joinRe` are exactly these occurrences. -/
theorem formatFromClause_lines (f : Formatter) (s : Str) (h : 0 ≤ f.IndentSize)
    (hs : '\n' ∉ s) :
    ∃ indent p0 parts lines,
      getIndent f 1 = some indent ∧
      joinTexts s = p0 :: parts ∧ parts.length = (joinWords s).length ∧
      p0 ++ (List.zipWith (fun j p => j ++ p) (joinWords s) parts).flatten = s ∧
      FindAllString joinRe s = joinWords s ∧ Split joinRe s = joinTexts s ∧
      (∀ n, joinOccurrences (s.length + 1 + n) none s = joinOccurrences (s.length + 1) none s) ∧
      formatFromClause f s = some (joinLines lines) ∧
      lines = TrimSpace p0 :: List.zipWith
        (fun j p => indent ++ keyword f j ++ " ".toList ++ TrimSpace p) (joinWords s) parts ∧
      lines.length = (joinWords s).length + 1 ∧
      ∀ l ∈ lines, '\n' ∉ l := by
  obtain ⟨indent, p0, parts, out, lines, h1, h2, h3, h4, h5, h6, h7, h8, h9⟩ :=
    fromClause_by_split f s h hs
  rw [FindAllString_joinRe] at h3 h4 h7 h8
  rw [Split_joinRe] at h2
  subst h6
  exact ⟨indent, p0, parts, lines, h1, h2, h3, h4, FindAllString_joinRe s, Split_joinRe s,
    fun n => joinOccurrences_fuel _ _ none s (by omega) (by omega), h5, h7, h8, h9⟩

/-- Witness of C6: a FROM text with two joins in mixed letter case at the default
configuration, with its keywords and its three lines. -/
theorem formatFromClause_lines_witness :
    (∃ indent p0 parts lines,
      getIndent NewFormatter 1 = some indent ∧
      joinTexts "users u left join orders o ON a Join items i ON b".toList = p0 :: parts ∧
      parts.length = (joinWords "users u left join orders o ON a Join items i ON b".toList).length ∧
      p0 ++ (List.zipWith (fun j p => j ++ p)
        (joinWords "users u left join orders o ON a Join items i ON b".toList) parts).flatten
        = "users u left join orders o ON a Join items i ON b".toList ∧
      FindAllString joinRe "users u left join orders o ON a Join items i ON b".toList
        = joinWords "users u left join orders o ON a Join items i ON b".toList ∧
      Split joinRe "users u left join orders o ON a Join items i ON b".toList
        = joinTexts "users u left join orders o ON a Join items i ON b".toList ∧
      (∀ n, joinOccurrences ("users u left join orders o ON a Join items i ON b".toList.length
          + 1 + n) none "users u left join orders o ON a Join items i ON b".toList
        = joinOccurrences ("users u left join orders o ON a Join items i ON b".toList.length + 1)
          none "users u left join orders o ON a Join items i ON b".toList) ∧
      formatFromClause NewFormatter "users u left join orders o ON a Join items i ON b".toList
        = some (joinLines lines) ∧
      lines = TrimSpace p0 :: List.zipWith
        (fun j p => indent ++ keyword NewFormatter j ++ " ".toList ++ TrimSpace p)
        (joinWords "users u left join orders o ON a Join items i ON b".toList) parts ∧
      lines.length
        = (joinWords "users u left join orders o ON a Join items i ON b".toList).length + 1 ∧
      ∀ l ∈ lines, '\n' ∉ l) ∧
    joinWords "users u left join orders o ON a Join items i ON b".toList
      = ["left join".toList, "Join".toList] ∧
    joinTexts "users u left join orders o ON a Join items i ON b".toList
      = ["users u ".toList, " orders o ON a ".toList, " items i ON b".toList] ∧
    formatFromClause NewFormatter "users u left join orders o ON a Join items i ON b".toList
      = some (joinLines ["users u".toList, "  LEFT JOIN orders o ON a".toList,
          "  JOIN items i ON b".toList]) ∧
    joinWords "rejoin a joined b join_c".toList = [] :=
  ⟨formatFromClause_lines NewFormatter
    "users u left join orders o ON a Join items i ON b".toList (by decide) (by decide),
    by decide!, by decide!, by decide!, by decide!⟩

/-! ## Clause patterns on statements with keywords in the configured case -/

theorem clauseTextOf_singleton (hdr : String → Str) (e : String × Str) :
    clauseTextOf hdr [e] = hdr e.1 ++ ' ' :: e.2 := rfl

theorem clauseTextOf_cons_cons (hdr : String → Str) (e e' : String × Str)
    (l : List (String × Str)) :
    clauseTextOf hdr (e :: e' :: l) = hdr e.1 ++ ' ' :: (e.2 ++ ' ' :: clauseTextOf hdr (e' :: l)) :=
  rfl

theorem noOccurrence_clauseTextOf (hdr : String → Str) (w : String) (L : List (String × Str))
    (hw : ∀ c ∈ w.toList, foldEq c ' ' = false) (hw0 : w.toList ≠ [])
    (h : ∀ e ∈ L, noOccurrence w (hdr e.1) = true ∧ noOccurrence w e.2 = true) :
    noOccurrence w (clauseTextOf hdr L) = true := by
  induction L with
  | nil =>
    rw [noOccurrence_iff]
    intro a b hab
    have hb : b = [] := (List.append_eq_nil.mp hab.symm).2
    subst hb
    cases hwl : w.toList with
    | nil => exact absurd hwl hw0
    | cons c t => rfl
  | cons e l ih =>
    obtain ⟨h1, h2⟩ := h e (by simp)
    cases l with
    | nil =>
      rw [clauseTextOf_singleton]
      exact noOccurrence_append_space w _ _ hw hw0 h1 h2
    | cons e' l =>
      rw [clauseTextOf_cons_cons]
      exact noOccurrence_append_space w _ _ hw hw0 h1
        (noOccurrence_append_space w _ _ hw hw0 h2
          (ih (fun x hx => h x (List.mem_cons_of_mem _ hx))))

theorem clauseTextOf_first (hdr : String → Str) (e : String × Str) (L2 : List (String × Str)) :
    ∃ rest, clauseTextOf hdr (e :: L2) = hdr e.1 ++ ' ' :: (e.2 ++ rest) ∧
      ((L2 = [] ∧ rest = []) ∨
        ∃ e2 L2' more, L2 = e2 :: L2' ∧ rest = ' ' :: (hdr e2.1 ++ ' ' :: more)) := by
  cases L2 with
  | nil => exact ⟨[], by simp [clauseTextOf_singleton], Or.inl ⟨rfl, rfl⟩⟩
  | cons e2 L2' =>
    refine ⟨' ' :: clauseTextOf hdr (e2 :: L2'), by rw [clauseTextOf_cons_cons], Or.inr ?_⟩
    cases L2' with
    | nil => exact ⟨e2, [], e2.2, rfl, by rw [clauseTextOf_singleton]⟩
    | cons e3 L3 => exact ⟨e2, e3 :: L3, _, rfl, by rw [clauseTextOf_cons_cons]⟩

/-- The clause pattern of the keyword `n` matches at a header `n`, and captures the
content up to the next header, when that one is among the stops of the pattern. -/
theorem matchAt_header (hdr : String → Str) (re : String → Re) (fw : String → String)
    (ns : List String) (T : ClauseTable hdr re fw ns)
    (n : String) (hn : n ∈ ns) (stops : List String)
    (hst : ∀ k ∈ stops, k ∈ ns) (c : Str) (hc : plainIn fw ns c)
    (L2 : List (String × Str)) (hL2 : ∀ e L2', L2 = e :: L2' → e.1 ∈ stops)
    (prev : Option Char) (hprev : prev = none ∨ prev = some ' ')
    (hdot : ∀ x ∈ c, isDot x = true) :
    ∃ p' rest', matchAt (clauseRe (re n) (stops.map re)) prev (clauseTextOf hdr ((n, c) :: L2))
      = some ⟨p', rest', [c]⟩ := by
  obtain ⟨Tfails, Tsteps, Tsp, Tother, Thead⟩ := T
  obtain ⟨hc0, hct, hcw⟩ := hc
  obtain ⟨rest, hrest, hcases⟩ := clauseTextOf_first hdr (n, c) L2
  simp only at hrest
  obtain ⟨x0, t0, hx0, hx0w⟩ := Thead n hn
  obtain ⟨z, hz, hzl⟩ : ∃ z, c.getLast? = some z ∧ isReSpace z = false := by
    have h : c.getLast? = some (c.getLast hc0) := List.getLast?_eq_getLast _ _
    exact ⟨_, h, isReSpace_of_not_isSpace _ (hct _ (Or.inr h))⟩
  have htail : rest = [] ∨ ∃ r, rest = ' ' :: r := by
    rcases hcases with ⟨_, h⟩ | ⟨e2, L2', more, _, h⟩
    · exact Or.inl h
    · exact Or.inr ⟨_, h⟩
  have hb : atBoundary prev (hdr n ++ ' ' :: (c ++ rest)) = true := by
    rw [hx0]
    have hsp : isWordChar ' ' = false := by decide
    rcases hprev with h | h <;> subst h <;> simp [atBoundary, hx0w, hsp]
  have hend : ∃ rest', Steps (clauseEnd (stops.map re)) rest [c] rest' [c] := by
    unfold clauseEnd
    rcases hcases with ⟨_, h⟩ | ⟨e2, L2', more, hL, h⟩
    · subst h
      refine ⟨[], Steps.alts _ [] _ _ _ _ _ ?_ (steps_ws0_eot_nil _)⟩
      intro x hx
      obtain ⟨k, _, rfl⟩ := List.mem_map.mp hx
      exact fails_ws1_nil _
    · subst h
      have he2 : e2.1 ∈ stops := hL2 e2 L2' hL
      obtain ⟨s1, s2, hs, hnot⟩ := List.eq_append_cons_of_mem he2
      obtain ⟨y0, u0, hy0, hy0w⟩ := Thead e2.1 (hst _ he2)
      have hhead : ∀ y, (hdr e2.1 ++ ' ' :: more).head? = some y → isReSpace y = false := by
        intro y hy
        rw [hy0] at hy
        simp only [List.cons_append, List.head?_cons, Option.some.injEq] at hy
        subst hy
        exact isReSpace_of_isWordChar _ hy0w
      refine ⟨' ' :: more, ?_⟩
      have hsplit : List.map (fun k => Re.cat Re.ws1 k) (List.map re stops)
          ++ [Re.cat Re.ws0 Re.eot]
          = List.map (fun k => Re.cat Re.ws1 k) (List.map re s1) ++
            Re.cat Re.ws1 (re e2.1) ::
              (List.map (fun k => Re.cat Re.ws1 k) (List.map re s2)
                ++ [Re.cat Re.ws0 Re.eot]) := by
        rw [hs]; simp
      rw [hsplit]
      refine Steps.alts _ _ _ _ _ _ _ ?_
        (Steps.cat (Steps.ws1_space _ _ hhead) (Tsteps e2.1 (hst _ he2) more _))
      intro x hx
      obtain ⟨r, hr, rfl⟩ := List.mem_map.mp hx
      obtain ⟨k, hk, rfl⟩ := List.mem_map.mp hr
      have hk1 : k ∈ stops := by rw [hs]; simp [hk]
      have hne : k ≠ e2.1 := fun e => hnot (e ▸ hk)
      have hno := Tother k (hst k hk1) e2.1 (hst _ he2) hne
      have h0 : stripLit (fw k).toList (hdr e2.1) = none :=
        (noOccurrence_iff _ _).mp hno [] _ rfl
      exact fails_ws1_space _ _ hhead
        (Tfails k _ (stripLit_append_space _ _ _ (Tsp k (hst k hk1)).2 h0))
  obtain ⟨rest', hend⟩ := hend
  have hm := matchAt_clauseRe (re n) (stops.map re) (hdr n) c rest rest' prev hb
    (Tsteps n hn _ _)
    (fun x hx => isReSpace_of_not_isSpace x (hct x (Or.inl (by
      cases c with
      | nil => exact absurd rfl hc0
      | cons a b => simpa using hx))))
    hdot
    (by
      intro p x b hp
      have hlast : (x :: b).getLast? = some z := by
        rw [hp, List.getLast?_append_of_ne_nil _ (by simp)] at hz
        exact hz
      have hzm : z ∈ x :: b := List.mem_of_getLast?_eq_some hlast
      unfold clauseEnd
      refine Fails.alts_all _ _ (by simp) ?_
      intro r hr
      rcases List.mem_append.mp hr with hr | hr
      · obtain ⟨r0, hr0, rfl⟩ := List.mem_map.mp hr
        obtain ⟨k, hk, rfl⟩ := List.mem_map.mp hr0
        refine fails_ws1_inside _ (x :: b) rest ⟨z, hlast, hzl⟩ ?_
        intro q suf hq
        exact Tfails k _ (stripLit_in_content _ (Tsp k (hst k hk)).2 c rest
          htail (hcw k (hst k hk)) (p ++ q) suf (by rw [hp, hq]; simp))
      · simp only [List.mem_singleton] at hr
        subst hr
        exact fails_ws0_eot _ ⟨z, List.mem_append_left _ hzm, hzl⟩)
    hend
  obtain ⟨p', hp'⟩ := hm
  rw [← hrest] at hp'
  exact ⟨p', rest', hp'⟩

theorem clauseTextOf_append (hdr : String → Str) (L1 L : List (String × Str)) (h1 : L1 ≠ [])
    (h : L ≠ []) :
    clauseTextOf hdr (L1 ++ L) = clauseTextOf hdr L1 ++ ' ' :: clauseTextOf hdr L := by
  induction L1 with
  | nil => exact absurd rfl h1
  | cons e l ih =>
    cases l with
    | nil =>
      obtain ⟨e', L', rfl⟩ : ∃ e' L', L = e' :: L' := by
        cases L with
        | nil => exact absurd rfl h
        | cons e' L' => exact ⟨e', L', rfl⟩
      simp [clauseTextOf_cons_cons, clauseTextOf_singleton]
    | cons e2 l =>
      have := ih (by simp)
      simp only [List.cons_append] at this ⊢
      rw [clauseTextOf_cons_cons, this, clauseTextOf_cons_cons]
      simp

theorem mem_clauseTextOf (hdr : String → Str) (L : List (String × Str)) (e : String × Str)
    (he : e ∈ L) (x : Char) (hx : x ∈ e.2) : x ∈ clauseTextOf hdr L := by
  induction L with
  | nil => simp at he
  | cons e' l ih =>
    cases l with
    | nil =>
      simp only [List.mem_singleton] at he
      subst he
      rw [clauseTextOf_singleton]
      simp [hx]
    | cons e2 l =>
      rw [clauseTextOf_cons_cons]
      rcases List.mem_cons.mp he with h | h
      · subst h; simp [hx]
      · have := ih h
        simp [this]
theorem find_clause_absent (re : String → Re) (fw : String → String)
    (hfails : ∀ n s, stripLit (fw n).toList s = none → Fails (re n) s)
    (n : String) (stops : List Re) (S : Str) (h : noOccurrence (fw n) S = true) :
    FindStringSubmatch (clauseRe (re n) stops) S = none := by
  unfold FindStringSubmatch
  rw [findFrom_none]
  intro p b hpb
  exact matchAt_clauseRe_of_fails _ _ _ _ (hfails n b ((noOccurrence_iff _ _).mp h p b hpb))

/-- In a statement in which the first word of the keyword `n` occurs only in the
header `n`, the clause pattern of `n` captures the content that follows that
header. -/
theorem find_clause_present (hdr : String → Str) (re : String → Re) (fw : String → String)
    (ns : List String) (T : ClauseTable hdr re fw ns)
    (n : String) (hn : n ∈ ns) (stops : List String) (hst : ∀ k ∈ stops, k ∈ ns)
    (L1 L2 : List (String × Str)) (c : Str)
    (hL1 : ∀ e ∈ L1, noOccurrence (fw n) (hdr e.1) = true ∧ noOccurrence (fw n) e.2 = true)
    (hc : plainIn fw ns c) (hL2 : ∀ e L2', L2 = e :: L2' → e.1 ∈ stops)
    (hsp : singleSpaced (clauseTextOf hdr (L1 ++ (n, c) :: L2)) = true) :
    ∃ m0, FindStringSubmatch (clauseRe (re n) (stops.map re))
      (clauseTextOf hdr (L1 ++ (n, c) :: L2)) = some [m0, c] := by
  have hdot : ∀ x ∈ c, isDot x = true := fun x hx =>
    isDot_of_singleSpaced _ hsp x (mem_clauseTextOf hdr _ (n, c) (by simp) x hx)
  obtain ⟨hw0, hw⟩ := T.2.2.1 n hn
  obtain ⟨x0, t0, hx0, _⟩ := T.2.2.2.2 n hn
  obtain ⟨y, u, hyu⟩ : ∃ y u, clauseTextOf hdr ((n, c) :: L2) = y :: u := by
    obtain ⟨rest, hrest, _⟩ := clauseTextOf_first hdr (n, c) L2
    simp only at hrest
    exact ⟨x0, _, by rw [hrest, hx0]; rfl⟩
  unfold FindStringSubmatch
  by_cases h1 : L1 = []
  · subst h1
    obtain ⟨p', rest', hm⟩ := matchAt_header hdr re fw ns T n hn stops hst c hc L2 hL2 none
      (Or.inl rfl) hdot
    rw [List.nil_append]
    rw [hyu] at hm ⊢
    rw [findFrom_here _ _ _ _ _ hm]
    exact ⟨_, rfl⟩
  · obtain ⟨p', rest', hm⟩ := matchAt_header hdr re fw ns T n hn stops hst c hc L2 hL2
      (some ' ') (Or.inr rfl) hdot
    have hno := noOccurrence_clauseTextOf hdr (fw n) L1 hw hw0 hL1
    have hskip : ∀ a x b, clauseTextOf hdr L1 = a ++ x :: b →
        matchAt (clauseRe (re n) (stops.map re)) (lastOr none a)
          (x :: b ++ ' ' :: clauseTextOf hdr ((n, c) :: L2)) = none := by
      intro a x b hab
      exact matchAt_clauseRe_of_fails _ _ _ _ (T.1 n _
        (stripLit_in_content _ hw _ _ (Or.inr ⟨_, rfl⟩) hno a (x :: b) hab))
    have hspace : matchAt (clauseRe (re n) (stops.map re)) (lastOr none (clauseTextOf hdr L1))
        (' ' :: clauseTextOf hdr ((n, c) :: L2)) = none := by
      refine matchAt_clauseRe_of_fails _ _ _ _ (T.1 n _ ?_)
      have := stripLit_append_space (fw n).toList [] (clauseTextOf hdr ((n, c) :: L2)) hw (by
        cases hwl : (fw n).toList with
        | nil => exact absurd hwl hw0
        | cons c t => rfl)
      simpa using this
    rw [clauseTextOf_append hdr L1 _ h1 (by simp), findFrom_skip _ _ _ _ hskip,
      findFrom_cons_of_none _ _ _ _ hspace]
    rw [hyu] at hm ⊢
    rw [findFrom_here _ _ _ _ _ hm]
    simp

theorem occFree_in (hdr : String → Str) (re : String → Re) (fw : String → String)
    (ns : List String) (T : ClauseTable hdr re fw ns) (n : String) (hn : n ∈ ns)
    (L : List (String × Str)) (h : ∀ e ∈ L, e.1 ∈ ns ∧ e.1 ≠ n ∧ plainIn fw ns e.2) :
    ∀ e ∈ L, noOccurrence (fw n) (hdr e.1) = true ∧ noOccurrence (fw n) e.2 = true := by
  intro e he
  obtain ⟨h1, h2, h3⟩ := h e he
  exact ⟨T.2.2.2.1 n hn e.1 h1 (fun x => h2 x.symm), h3.2.2 n hn⟩

/-- The entry of one clause pattern for a statement made of the clauses `L1`, the
clause `n` when it is given, and the clauses `L2`. -/
theorem extract_entry (hdr : String → Str) (re : String → Re) (fw : String → String)
    (ns : List String) (T : ClauseTable hdr re fw ns)
    (n : String) (hn : n ∈ ns) (stops : List String)
    (hst : ∀ k ∈ stops, k ∈ ns) (ps : List (String × Re))
    (L1 L2 : List (String × Str)) (v : Option Str)
    (hL1 : ∀ e ∈ L1, e.1 ∈ ns ∧ e.1 ≠ n ∧ plainIn fw ns e.2)
    (hL2 : ∀ e ∈ L2, e.1 ∈ ns ∧ e.1 ≠ n ∧ plainIn fw ns e.2)
    (hL2s : ∀ e L2', L2 = e :: L2' → e.1 ∈ stops)
    (hv : ∀ c, v = some c → plainIn fw ns c)
    (hsp : singleSpaced (clauseTextOf hdr (L1 ++ (optClause n v ++ L2))) = true) :
    extractClauses ((n, clauseRe (re n) (stops.map re)) :: ps)
        (clauseTextOf hdr (L1 ++ (optClause n v ++ L2)))
      = optClause n v ++ extractClauses ps (clauseTextOf hdr (L1 ++ (optClause n v ++ L2))) := by
  obtain ⟨hw0, hw⟩ := T.2.2.1 n hn
  apply extractClauses_cons_opt
  · intro h0
    subst h0
    apply find_clause_absent re fw T.1
    apply noOccurrence_clauseTextOf _ _ _ hw hw0
    intro e he
    simp only [optClause, List.nil_append, List.mem_append] at he
    rcases he with he | he
    · exact occFree_in hdr re fw ns T n hn L1 hL1 e he
    · exact occFree_in hdr re fw ns T n hn L2 hL2 e he
  · intro c hcv
    subst hcv
    exact find_clause_present hdr re fw ns T n hn stops hst L1 L2 c
      (occFree_in hdr re fw ns T n hn L1 hL1) (hv c rfl) hL2s hsp
  · intro c hcv
    exact (hv c hcv).2.1

/-- A list of clauses with keywords among `ks`, none of them `n`, and plain contents. -/
theorem clauses_okay (fw : String → String) (ns : List String) (n : String) (ks : List String)
    (hks : ∀ k ∈ ks, k ∈ ns ∧ k ≠ n)
    (L : List (String × Str)) (h : ∀ e ∈ L, e.1 ∈ ks ∧ plainIn fw ns e.2) :
    ∀ e ∈ L, e.1 ∈ ns ∧ e.1 ≠ n ∧ plainIn fw ns e.2 := by
  intro e he
  obtain ⟨h1, h2⟩ := h e he
  exact ⟨(hks _ h1).1, (hks _ h1).2, h2⟩

theorem keyed_cons (fw : String → String) (ns : List String) (ks : List String) (k : String)
    (c : Str) (L : List (String × Str))
    (hk : k ∈ ks) (hc : plainIn fw ns c) (h : ∀ e ∈ L, e.1 ∈ ks ∧ plainIn fw ns e.2) :
    ∀ e ∈ (k, c) :: L, e.1 ∈ ks ∧ plainIn fw ns e.2 := by
  intro e he
  rcases List.mem_cons.mp he with rfl | he
  · exact ⟨hk, hc⟩
  · exact h e he

theorem keyed_append (fw : String → String) (ns : List String) (ks : List String)
    (L L' : List (String × Str))
    (h : ∀ e ∈ L, e.1 ∈ ks ∧ plainIn fw ns e.2) (h' : ∀ e ∈ L', e.1 ∈ ks ∧ plainIn fw ns e.2) :
    ∀ e ∈ L ++ L', e.1 ∈ ks ∧ plainIn fw ns e.2 := by
  intro e he
  rcases List.mem_append.mp he with he | he
  · exact h e he
  · exact h' e he

theorem keyed_opt (fw : String → String) (ns : List String) (ks : List String) (n : String)
    (v : Option Str) (hn : n ∈ ks) (hv : ∀ c, v = some c → plainIn fw ns c) :
    ∀ e ∈ optClause n v, e.1 ∈ ks ∧ plainIn fw ns e.2 :=
  (forall_mem_optClause _ _ _).mpr fun c hc => ⟨hn, hv c hc⟩

theorem keyed_nil (fw : String → String) (ns : List String) (ks : List String) :
    ∀ e ∈ ([] : List (String × Str)), e.1 ∈ ks ∧ plainIn fw ns e.2 := by
  simp

theorem keyed_first (fw : String → String) (ns : List String) (ks : List String)
    (L : List (String × Str))
    (h : ∀ e ∈ L, e.1 ∈ ks ∧ plainIn fw ns e.2) : ∀ e L', L = e :: L' → e.1 ∈ ks :=
  fun e L' hL => (h e (by rw [hL]; simp)).1
theorem steps_lit_fold (w H rest : Str) (c : List Str)
    (h : List.Forall₂ (fun a x => foldEq a x = true) w H) :
    Steps (Re.lit w) (H ++ rest) c rest c := by
  induction h with
  | nil => exact fun prev => ⟨prev, rfl⟩
  | @cons a x w' H' hax _ ih =>
    have e : Re.lit (a :: w') = Re.seq (Re.cls (foldEq a) :: w'.map fun c => Re.cls (foldEq c)) :=
      rfl
    rw [e]
    exact Steps.seq_cons (Steps.cls _ x (H' ++ rest) c hax) ih

/-- A keyword pattern steps over the keyword written in any letter case. -/
theorem steps_kw_fold (w : String) (H rest : Str) (c : List Str)
    (h : stripLit w.toList H = some []) : Steps (kw w) (H ++ rest) c rest c := by
  obtain ⟨m, h1, h2⟩ := stripLit_sound _ _ _ h
  rw [List.append_nil] at h1
  subst h1
  exact steps_lit_fold _ _ _ _ h2

theorem keyword_cases (f : Formatter) (w : Str) :
    keyword f w = ToUpper w ∨ keyword f w = ToLower w := by
  unfold keyword
  cases f.KeywordUpper
  · exact Or.inr rfl
  · exact Or.inl rfl

theorem keyword_two_words (f : Formatter) (a b : Str) :
    keyword f (a ++ ' ' :: b) = keyword f a ++ ' ' :: keyword f b := by
  unfold keyword ToUpper ToLower
  split <;> simp <;> rfl

theorem steps_two_words (f : Formatter) (A B : String) (X : Str) (c : List Str)
    (hA : stripLit A.toList (keyword f A.toList) = some [])
    (hB : stripLit B.toList (keyword f B.toList) = some [])
    (hB0 : ∀ x, (keyword f B.toList).head? = some x → isReSpace x = false)
    (hne : keyword f B.toList ≠ []) :
    Steps (Re.seq [kw A, Re.ws1, kw B]) (keyword f (A.toList ++ ' ' :: B.toList) ++ X) c X c := by
  rw [keyword_two_words, List.append_assoc]
  refine Steps.seq_cons (steps_kw_fold A _ _ _ hA)
    (Steps.seq_cons (Steps.ws1_space _ _ ?_) (steps_kw_fold B _ _ _ hB))
  intro x hx
  apply hB0 x
  cases hk : keyword f B.toList with
  | nil => exact absurd hk hne
  | cons y t => rw [hk] at hx; simpa using hx

theorem keyword_facts (f : Formatter) (P : Str → Prop) (w : Str) (hU : P (ToUpper w))
    (hL : P (ToLower w)) : P (keyword f w) := by
  rcases keyword_cases f w with h | h <;> rw [h] <;> assumption

theorem kwRe_steps_cased (f : Formatter) (n : String)
    (hn : n ∈ selectOrder ++ ["UPDATE", "SET"]) (X : Str) (c : List Str) :
    Steps (kwRe n) (kwText f n ++ ' ' :: X) c (' ' :: X) c := by
  have one : ∀ w : String, stripLit w.toList (ToUpper w.toList) = some [] →
      stripLit w.toList (ToLower w.toList) = some [] →
      Steps (kw w) (kwText f w ++ ' ' :: X) c (' ' :: X) c := fun w hU hL =>
    steps_kw_fold w _ _ _ (keyword_facts f (fun H => stripLit w.toList H = some []) _ hU hL)
  have two : ∀ A : String, stripLit A.toList (ToUpper A.toList) = some [] →
      stripLit A.toList (ToLower A.toList) = some [] →
      Steps (Re.seq [kw A, Re.ws1, kw "BY"])
        (keyword f (A.toList ++ ' ' :: "BY".toList) ++ ' ' :: X) c (' ' :: X) c := fun A hU hL =>
    steps_two_words f A "BY" _ c
      (keyword_facts f (fun H => stripLit A.toList H = some []) _ hU hL)
      (keyword_facts f (fun H => stripLit "BY".toList H = some []) _ (by decide) (by decide))
      (keyword_facts f (fun H => ∀ x, H.head? = some x → isReSpace x = false) _
        (by decide) (by decide))
      (keyword_facts f (fun H => H ≠ []) _ (by decide) (by decide))
  simp only [selectOrder, List.cons_append, List.nil_append, List.mem_cons, List.mem_singleton,
    List.not_mem_nil, or_false] at hn
  rcases hn with rfl | rfl | rfl | rfl | rfl | rfl | rfl | rfl | rfl
  · exact one "SELECT" (by decide) (by decide)
  · exact one "FROM" (by decide) (by decide)
  · exact one "WHERE" (by decide) (by decide)
  · exact two "GROUP" (by decide) (by decide)
  · exact one "HAVING" (by decide) (by decide)
  · exact two "ORDER" (by decide) (by decide)
  · exact one "LIMIT" (by decide) (by decide)
  · exact one "UPDATE" (by decide) (by decide)
  · exact one "SET" (by decide) (by decide)

theorem head_word (H : Str) (h : H.head?.map isWordChar = some true) :
    ∃ x t, H = x :: t ∧ isWordChar x = true := by
  cases H with
  | nil => simp at h
  | cons x t => exact ⟨x, t, rfl, by simpa using h⟩

theorem selectTable (f : Formatter) : ClauseTable (kwText f) kwRe firstWord selectOrder := by
  refine ⟨kwRe_fails, fun n hn X c => kwRe_steps_cased f n (List.mem_append_left _ hn) X c,
    firstWord_spaceless, ?_, ?_⟩
  · intro n hn n' hn' hne
    refine keyword_facts f (fun H => noOccurrence (firstWord n) H = true) _ ?_ ?_
    · revert n n'; decide
    · revert n n'; decide
  · intro n hn
    apply head_word
    refine keyword_facts f (fun H => H.head?.map isWordChar = some true) _ ?_ ?_
    · revert n; decide
    · revert n; decide
/-- The clause map of a standard SELECT statement with its keywords in the
configured case. -/
theorem splitSelect_cased (f : Formatter) (a b : Str) (w g h o l : Option Str)
    (hc : ∀ e ∈ selectClauses a b w g h o l, plainContent e.2)
    (hsp : singleSpaced (clauseTextOf (kwText f) (selectClauses a b w g h o l)) = true) :
    splitSelectSQL (clauseTextOf (kwText f) (selectClauses a b w g h o l)) = selectClauses a b w g h o l := by
  simp only [selectClauses, List.forall_mem_cons, List.forall_mem_append,
    forall_mem_optClause] at hc
  obtain ⟨ha, hb, hw, hg, hh, ho, hl⟩ := hc
  have kS : ∀ c, some a = some c → plainContent c := fun c e => by
    simp only [Option.some.injEq] at e; exact e ▸ ha
  have kF : ∀ c, some b = some c → plainContent c := fun c e => by
    simp only [Option.some.injEq] at e; exact e ▸ hb
  have T := selectTable f
  unfold splitSelectSQL
  rw [selectPatterns_eq]
  have e0 : selectClauses a b w g h o l = [] ++ (optClause "SELECT" (some a) ++ (("FROM", b) :: (optClause "WHERE" w ++ (optClause "GROUP BY" g ++ (optClause "HAVING" h ++ (optClause "ORDER BY" o ++ (optClause "LIMIT" l))))))) := by
    simp [selectClauses, optClause]
  have s0 := extract_entry _ _ _ _ T "SELECT" (by decide) ["FROM"] (by decide)
      [("FROM", clauseRe (kwRe "FROM") (["WHERE", "GROUP BY", "HAVING", "ORDER BY", "LIMIT"].map kwRe)),
       ("WHERE", clauseRe (kwRe "WHERE") (["GROUP BY", "HAVING", "ORDER BY", "LIMIT"].map kwRe)),
       ("GROUP BY", clauseRe (kwRe "GROUP BY") (["HAVING", "ORDER BY", "LIMIT"].map kwRe)),
       ("HAVING", clauseRe (kwRe "HAVING") (["ORDER BY", "LIMIT"].map kwRe)),
       ("ORDER BY", clauseRe (kwRe "ORDER BY") (["LIMIT"].map kwRe)),
       ("LIMIT", clauseRe (kwRe "LIMIT") ([].map kwRe))]
      [] (("FROM", b) :: (optClause "WHERE" w ++ (optClause "GROUP BY" g ++ (optClause "HAVING" h ++ (optClause "ORDER BY" o ++ (optClause "LIMIT" l)))))) (some a)
      (clauses_okay _ _ "SELECT" [] (by decide) _ (keyed_nil _ _ _))
      (clauses_okay _ _ "SELECT" ["FROM", "WHERE", "GROUP BY", "HAVING", "ORDER BY", "LIMIT"] (by decide) _ (keyed_cons _ _ _ _ _ _ (by decide) hb (keyed_append _ _ _ _ _ (keyed_opt _ _ _ _ _ (by decide) hw) (keyed_append _ _ _ _ _ (keyed_opt _ _ _ _ _ (by decide) hg) (keyed_append _ _ _ _ _ (keyed_opt _ _ _ _ _ (by decide) hh) (keyed_append _ _ _ _ _ (keyed_opt _ _ _ _ _ (by decide) ho) (keyed_opt _ _ _ _ _ (by decide) hl)))))))
      (by intro e L' hL; simp only [List.cons.injEq] at hL; rw [← hL.1]; simp)
      kS (by rw [← e0]; exact hsp)
  rw [← e0] at s0
  have e1 : selectClauses a b w g h o l = [("SELECT", a)] ++ (optClause "FROM" (some b) ++ (optClause "WHERE" w ++ (optClause "GROUP BY" g ++ (optClause "HAVING" h ++ (optClause "ORDER BY" o ++ (optClause "LIMIT" l)))))) := by
    simp [selectClauses, optClause]
  have s1 := extract_entry _ _ _ _ T "FROM" (by decide) ["WHERE", "GROUP BY", "HAVING", "ORDER BY", "LIMIT"] (by decide)
      [("WHERE", clauseRe (kwRe "WHERE") (["GROUP BY", "HAVING", "ORDER BY", "LIMIT"].map kwRe)),
       ("GROUP BY", clauseRe (kwRe "GROUP BY") (["HAVING", "ORDER BY", "LIMIT"].map kwRe)),
       ("HAVING", clauseRe (kwRe "HAVING") (["ORDER BY", "LIMIT"].map kwRe)),
       ("ORDER BY", clauseRe (kwRe "ORDER BY") (["LIMIT"].map kwRe)),
       ("LIMIT", clauseRe (kwRe "LIMIT") ([].map kwRe))]
      [("SELECT", a)] (optClause "WHERE" w ++ (optClause "GROUP BY" g ++ (optClause "HAVING" h ++ (optClause "ORDER BY" o ++ (optClause "LIMIT" l))))) (some b)
      (clauses_okay _ _ "FROM" ["SELECT"] (by decide) _ (keyed_cons _ _ _ _ _ _ (by decide) ha (keyed_nil _ _ _)))
      (clauses_okay _ _ "FROM" ["WHERE", "GROUP BY", "HAVING", "ORDER BY", "LIMIT"] (by decide) _ (keyed_append _ _ _ _ _ (keyed_opt _ _ _ _ _ (by decide) hw) (keyed_append _ _ _ _ _ (keyed_opt _ _ _ _ _ (by decide) hg) (keyed_append _ _ _ _ _ (keyed_opt _ _ _ _ _ (by decide) hh) (keyed_append _ _ _ _ _ (keyed_opt _ _ _ _ _ (by decide) ho) (keyed_opt _ _ _ _ _ (by decide) hl))))))
      (keyed_first firstWord selectOrder ["WHERE", "GROUP BY", "HAVING", "ORDER BY", "LIMIT"] _ (keyed_append _ _ _ _ _ (keyed_opt _ _ _ _ _ (by decide) hw) (keyed_append _ _ _ _ _ (keyed_opt _ _ _ _ _ (by decide) hg) (keyed_append _ _ _ _ _ (keyed_opt _ _ _ _ _ (by decide) hh) (keyed_append _ _ _ _ _ (keyed_opt _ _ _ _ _ (by decide) ho) (keyed_opt _ _ _ _ _ (by decide) hl))))))
      kF (by rw [← e1]; exact hsp)
  rw [← e1] at s1
  have e2 : selectClauses a b w g h o l = [("SELECT", a), ("FROM", b)] ++ (optClause "WHERE" w ++ (optClause "GROUP BY" g ++ (optClause "HAVING" h ++ (optClause "ORDER BY" o ++ (optClause "LIMIT" l))))) := by
    simp [selectClauses, optClause]
  have s2 := extract_entry _ _ _ _ T "WHERE" (by decide) ["GROUP BY", "HAVING", "ORDER BY", "LIMIT"] (by decide)
      [("GROUP BY", clauseRe (kwRe "GROUP BY") (["HAVING", "ORDER BY", "LIMIT"].map kwRe)),
       ("HAVING", clauseRe (kwRe "HAVING") (["ORDER BY", "LIMIT"].map kwRe)),
       ("ORDER BY", clauseRe (kwRe "ORDER BY") (["LIMIT"].map kwRe)),
       ("LIMIT", clauseRe (kwRe "LIMIT") ([].map kwRe))]
      [("SELECT", a), ("FROM", b)] (optClause "GROUP BY" g ++ (optClause "HAVING" h ++ (optClause "ORDER BY" o ++ (optClause "LIMIT" l)))) w
      (clauses_okay _ _ "WHERE" ["SELECT", "FROM"] (by decide) _ (keyed_cons _ _ _ _ _ _ (by decide) ha (keyed_cons _ _ _ _ _ _ (by decide) hb (keyed_nil _ _ _))))
      (clauses_okay _ _ "WHERE" ["GROUP BY", "HAVING", "ORDER BY", "LIMIT"] (by decide) _ (keyed_append _ _ _ _ _ (keyed_opt _ _ _ _ _ (by decide) hg) (keyed_append _ _ _ _ _ (keyed_opt _ _ _ _ _ (by decide) hh) (keyed_append _ _ _ _ _ (keyed_opt _ _ _ _ _ (by decide) ho) (keyed_opt _ _ _ _ _ (by decide) hl)))))
      (keyed_first firstWord selectOrder ["GROUP BY", "HAVING", "ORDER BY", "LIMIT"] _ (keyed_append _ _ _ _ _ (keyed_opt _ _ _ _ _ (by decide) hg) (keyed_append _ _ _ _ _ (keyed_opt _ _ _ _ _ (by decide) hh) (keyed_append _ _ _ _ _ (keyed_opt _ _ _ _ _ (by decide) ho) (keyed_opt _ _ _ _ _ (by decide) hl)))))
      hw (by rw [← e2]; exact hsp)
  rw [← e2] at s2
  have e3 : selectClauses a b w g h o l = (("SELECT", a) :: ("FROM", b) :: (optClause "WHERE" w)) ++ (optClause "GROUP BY" g ++ (optClause "HAVING" h ++ (optClause "ORDER BY" o ++ (optClause "LIMIT" l)))) := by
    simp [selectClauses, optClause]
  have s3 := extract_entry _ _ _ _ T "GROUP BY" (by decide) ["HAVING", "ORDER BY", "LIMIT"] (by decide)
      [("HAVING", clauseRe (kwRe "HAVING") (["ORDER BY", "LIMIT"].map kwRe)),
       ("ORDER BY", clauseRe (kwRe "ORDER BY") (["LIMIT"].map kwRe)),
       ("LIMIT", clauseRe (kwRe "LIMIT") ([].map kwRe))]
      (("SELECT", a) :: ("FROM", b) :: (optClause "WHERE" w)) (optClause "HAVING" h ++ (optClause "ORDER BY" o ++ (optClause "LIMIT" l))) g
      (clauses_okay _ _ "GROUP BY" ["SELECT", "FROM", "WHERE"] (by decide) _ (keyed_cons _ _ _ _ _ _ (by decide) ha (keyed_cons _ _ _ _ _ _ (by decide) hb (keyed_opt _ _ _ _ _ (by decide) hw))))
      (clauses_okay _ _ "GROUP BY" ["HAVING", "ORDER BY", "LIMIT"] (by decide) _ (keyed_append _ _ _ _ _ (keyed_opt _ _ _ _ _ (by decide) hh) (keyed_append _ _ _ _ _ (keyed_opt _ _ _ _ _ (by decide) ho) (keyed_opt _ _ _ _ _ (by decide) hl))))
      (keyed_first firstWord selectOrder ["HAVING", "ORDER BY", "LIMIT"] _ (keyed_append _ _ _ _ _ (keyed_opt _ _ _ _ _ (by decide) hh) (keyed_append _ _ _ _ _ (keyed_opt _ _ _ _ _ (by decide) ho) (keyed_opt _ _ _ _ _ (by decide) hl))))
      hg (by rw [← e3]; exact hsp)
  rw [← e3] at s3
  have e4 : selectClauses a b w g h o l = (("SELECT", a) :: ("FROM", b) :: (optClause "WHERE" w ++ (optClause "GROUP BY" g))) ++ (optClause "HAVING" h ++ (optClause "ORDER BY" o ++ (optClause "LIMIT" l))) := by
    simp [selectClauses, optClause]
  have s4 := extract_entry _ _ _ _ T "HAVING" (by decide) ["ORDER BY", "LIMIT"] (by decide)
      [("ORDER BY", clauseRe (kwRe "ORDER BY") (["LIMIT"].map kwRe)),
       ("LIMIT", clauseRe (kwRe "LIMIT") ([].map kwRe))]
      (("SELECT", a) :: ("FROM", b) :: (optClause "WHERE" w ++ (optClause "GROUP BY" g))) (optClause "ORDER BY" o ++ (optClause "LIMIT" l)) h
      (clauses_okay _ _ "HAVING" ["SELECT", "FROM", "WHERE", "GROUP BY"] (by decide) _ (keyed_cons _ _ _ _ _ _ (by decide) ha (keyed_cons _ _ _ _ _ _ (by decide) hb (keyed_append _ _ _ _ _ (keyed_opt _ _ _ _ _ (by decide) hw) (keyed_opt _ _ _ _ _ (by decide) hg)))))
      (clauses_okay _ _ "HAVING" ["ORDER BY", "LIMIT"] (by decide) _ (keyed_append _ _ _ _ _ (keyed_opt _ _ _ _ _ (by decide) ho) (keyed_opt _ _ _ _ _ (by decide) hl)))
      (keyed_first firstWord selectOrder ["ORDER BY", "LIMIT"] _ (keyed_append _ _ _ _ _ (keyed_opt _ _ _ _ _ (by decide) ho) (keyed_opt _ _ _ _ _ (by decide) hl)))
      hh (by rw [← e4]; exact hsp)
  rw [← e4] at s4
  have e5 : selectClauses a b w g h o l = (("SELECT", a) :: ("FROM", b) :: (optClause "WHERE" w ++ (optClause "GROUP BY" g ++ (optClause "HAVING" h)))) ++ (optClause "ORDER BY" o ++ (optClause "LIMIT" l)) := by
    simp [selectClauses, optClause]
  have s5 := extract_entry _ _ _ _ T "ORDER BY" (by decide) ["LIMIT"] (by decide)
      [("LIMIT", clauseRe (kwRe "LIMIT") ([].map kwRe))]
      (("SELECT", a) :: ("FROM", b) :: (optClause "WHERE" w ++ (optClause "GROUP BY" g ++ (optClause "HAVING" h)))) (optClause "LIMIT" l) o
      (clauses_okay _ _ "ORDER BY" ["SELECT", "FROM", "WHERE", "GROUP BY", "HAVING"] (by decide) _ (keyed_cons _ _ _ _ _ _ (by decide) ha (keyed_cons _ _ _ _ _ _ (by decide) hb (keyed_append _ _ _ _ _ (keyed_opt _ _ _ _ _ (by decide) hw) (keyed_append _ _ _ _ _ (keyed_opt _ _ _ _ _ (by decide) hg) (keyed_opt _ _ _ _ _ (by decide) hh))))))
      (clauses_okay _ _ "ORDER BY" ["LIMIT"] (by decide) _ (keyed_opt _ _ _ _ _ (by decide) hl))
      (keyed_first firstWord selectOrder ["LIMIT"] _ (keyed_opt _ _ _ _ _ (by decide) hl))
      ho (by rw [← e5]; exact hsp)
  rw [← e5] at s5
  have e6 : selectClauses a b w g h o l = (("SELECT", a) :: ("FROM", b) :: (optClause "WHERE" w ++ (optClause "GROUP BY" g ++ (optClause "HAVING" h ++ (optClause "ORDER BY" o))))) ++ (optClause "LIMIT" l ++ []) := by
    simp [selectClauses, optClause]
  have s6 := extract_entry _ _ _ _ T "LIMIT" (by decide) [] (by decide)
      []
      (("SELECT", a) :: ("FROM", b) :: (optClause "WHERE" w ++ (optClause "GROUP BY" g ++ (optClause "HAVING" h ++ (optClause "ORDER BY" o))))) [] l
      (clauses_okay _ _ "LIMIT" ["SELECT", "FROM", "WHERE", "GROUP BY", "HAVING", "ORDER BY"] (by decide) _ (keyed_cons _ _ _ _ _ _ (by decide) ha (keyed_cons _ _ _ _ _ _ (by decide) hb (keyed_append _ _ _ _ _ (keyed_opt _ _ _ _ _ (by decide) hw) (keyed_append _ _ _ _ _ (keyed_opt _ _ _ _ _ (by decide) hg) (keyed_append _ _ _ _ _ (keyed_opt _ _ _ _ _ (by decide) hh) (keyed_opt _ _ _ _ _ (by decide) ho)))))))
      (clauses_okay _ _ "LIMIT" [] (by decide) _ (keyed_nil _ _ _))
      (keyed_first firstWord selectOrder [] _ (keyed_nil _ _ _))
      hl (by rw [← e6]; exact hsp)
  rw [← e6] at s6
  rw [s0, s1, s2, s3, s4, s5, s6]
  simp [selectClauses, optClause, extractClauses]

/-! ## Verbatim clauses of a standard SELECT statement -/

theorem selectClauses_get (a b : Str) (w g h o l : Option Str) :
    ClauseMap.get (selectClauses a b w g h o l) "SELECT" = a ∧
    ClauseMap.get (selectClauses a b w g h o l) "FROM" = b ∧
    ClauseMap.get (selectClauses a b w g h o l) "WHERE" = w.getD [] ∧
    ClauseMap.get (selectClauses a b w g h o l) "GROUP BY" = g.getD [] ∧
    ClauseMap.get (selectClauses a b w g h o l) "HAVING" = h.getD [] ∧
    ClauseMap.get (selectClauses a b w g h o l) "ORDER BY" = o.getD [] ∧
    ClauseMap.get (selectClauses a b w g h o l) "LIMIT" = l.getD [] := by
  cases w <;> cases g <;> cases h <;> cases o <;> cases l <;>
    exact ⟨rfl, rfl, rfl, rfl, rfl, rfl, rfl⟩

theorem clauseSection_verbatim (f : Formatter) (indent : Str) (n : String) (v : Option Str)
    (hv : ∀ c, v = some c → c ≠ []) :
    clauseSection f indent n (v.getD []) = verbatim f indent n v := by
  cases v with
  | none => rfl
  | some c =>
    have := hv c rfl
    simp [clauseSection, verbatim, kwText, this]

/-- The output of `formatSelectStatement` on a standard SELECT statement with its
keywords in the configured case. -/
theorem formatSelect_cased (f : Formatter) (a b : Str) (w g h o l : Option Str)
    (hc : ∀ e ∈ selectClauses a b w g h o l, plainContent e.2)
    (hsp : singleSpaced (clauseTextOf (kwText f) (selectClauses a b w g h o l)) = true)
    (indent cols frm : Str) (hi : getIndent f 1 = some indent)
    (hcols : formatSelectColumns f a = some cols) (hfrm : formatFromClause f b = some frm) :
    formatSelectStatement f (clauseTextOf (kwText f) (selectClauses a b w g h o l)) = some (
      (kwText f "SELECT" ++ '\n' :: (indent ++ cols)) ++
      ('\n' :: (kwText f "FROM" ++ '\n' :: (indent ++ frm))) ++
      verbatim f indent "WHERE" w ++ verbatim f indent "GROUP BY" g ++
      verbatim f indent "HAVING" h ++ verbatim f indent "ORDER BY" o ++
      verbatim f indent "LIMIT" l) := by
  have hc' := hc
  simp only [selectClauses, List.forall_mem_cons, List.forall_mem_append,
    forall_mem_optClause] at hc'
  obtain ⟨ha, hb, hw, hg, hh, ho, hl⟩ := hc'
  obtain ⟨g1, g2, g3, g4, g5, g6, g7⟩ := selectClauses_get a b w g h o l
  unfold formatSelectStatement
  rw [splitSelect_cased f a b w g h o l hc hsp]
  simp only [hi, g1, g2, g3, g4, g5, g6, g7, hcols, hfrm, Option.bind_eq_bind, Option.some_bind,
    Option.pure_def]
  rw [clauseSection_verbatim f indent "WHERE" w (fun c e => (hw c e).1),
    clauseSection_verbatim f indent "GROUP BY" g (fun c e => (hg c e).1),
    clauseSection_verbatim f indent "HAVING" h (fun c e => (hh c e).1),
    clauseSection_verbatim f indent "ORDER BY" o (fun c e => (ho c e).1),
    clauseSection_verbatim f indent "LIMIT" l (fun c e => (hl c e).1)]
  have ha0 : (a != []) = true := by simpa using ha.1
  have hb0 : (b != []) = true := by simpa using hb.1
  simp [ha0, hb0, kwText]
theorem toUpperRune_eq_ws (c x : Char) (hx : x.toNat < 65) : toUpperRune c = x ↔ c = x := by
  constructor
  · intro h
    apply toNat_inj
    have h' := congrArg Char.toNat h
    rw [toNat_toUpperRune] at h'
    split_ifs at h' <;> omega
  · intro h
    subst h
    apply toNat_inj
    rw [toNat_toUpperRune]
    split_ifs <;> omega

theorem isReSpace_toUpperRune (c : Char) : isReSpace (toUpperRune c) = isReSpace c := by
  unfold isReSpace
  have h1 := toUpperRune_eq_ws c ' ' (by decide)
  have h2 := toUpperRune_eq_ws c '\t' (by decide)
  have h3 := toUpperRune_eq_ws c '\n' (by decide)
  have h4 := toUpperRune_eq_ws c '\x0c' (by decide)
  have h5 := toUpperRune_eq_ws c '\r' (by decide)
  rw [Bool.eq_iff_iff]
  simp only [Bool.or_eq_true, beq_iff_eq, h1, h2, h3, h4, h5]

theorem singleSpaced_map (φ : Char → Char) (h1 : ∀ c, isReSpace (φ c) = isReSpace c)
    (h2 : ∀ c, (φ c == ' ') = (c == ' ')) (s : Str) :
    singleSpaced (s.map φ) = singleSpaced s := by
  induction s with
  | nil => rfl
  | cons c t ih =>
    cases t with
    | nil => simp [singleSpaced, h1, h2]
    | cons d t' =>
      simp only [List.map_cons] at ih ⊢
      simp only [singleSpaced, h1, h2, ih]

theorem singleSpaced_of_upper (x y : Str) (h : ToUpper y = ToUpper x)
    (hx : singleSpaced x = true) : singleSpaced y = true := by
  have e : ∀ s, singleSpaced (ToUpper s) = singleSpaced s := fun s =>
    singleSpaced_map toUpperRune isReSpace_toUpperRune (fun c => by
      rw [Bool.eq_iff_iff]
      simp only [beq_iff_eq]
      exact toUpperRune_eq_ws c ' ' (by decide)) s
  rw [← e y, h, e x]
  exact hx

theorem singleSpaced_collapseWs (b : Bool) (s : Str) :
    singleSpaced (collapseWs b s) = true ∧
    (b = true → ∀ x, (collapseWs b s).head? = some x → isReSpace x = false) := by
  induction s generalizing b with
  | nil => exact ⟨rfl, fun _ x hx => by simp [collapseWs] at hx⟩
  | cons c t ih =>
    by_cases hc : isReSpace c = true
    · cases b with
      | true =>
        simp only [collapseWs, hc, if_true]
        exact ⟨(ih true).1, fun _ => (ih true).2 rfl⟩
      | false =>
        simp only [collapseWs, hc, if_true, Bool.false_eq_true, if_false]
        obtain ⟨i1, i2⟩ := ih true
        refine ⟨?_, fun h => by simp at h⟩
        cases hr : collapseWs true t with
        | nil => rfl
        | cons d r =>
          rw [hr] at i1 i2
          have hd := i2 rfl d rfl
          simp only [singleSpaced, Bool.and_eq_true, Bool.or_eq_true, Bool.not_eq_true',
            beq_iff_eq]
          exact ⟨Or.inr ⟨trivial, hd⟩, i1⟩
    · simp only [Bool.not_eq_true] at hc
      simp only [collapseWs, hc, Bool.false_eq_true, if_false]
      obtain ⟨i1, _⟩ := ih false
      refine ⟨?_, fun _ x hx => by simp at hx; rw [← hx]; exact hc⟩
      cases hr : collapseWs false t with
      | nil => simp [singleSpaced, hc]
      | cons d r =>
        rw [hr] at i1
        simp only [singleSpaced, Bool.and_eq_true, Bool.or_eq_true, Bool.not_eq_true',
          beq_iff_eq]
        exact ⟨Or.inl hc, i1⟩

theorem singleSpaced_tail (c : Char) (t : Str) (h : singleSpaced (c :: t) = true) :
    singleSpaced t = true := by
  cases t with
  | nil => rfl
  | cons d t' =>
    simp only [singleSpaced, Bool.and_eq_true] at h
    exact h.2

theorem singleSpaced_suffix (a b : Str) (h : singleSpaced (a ++ b) = true) :
    singleSpaced b = true := by
  induction a with
  | nil => exact h
  | cons c a ih => exact ih (singleSpaced_tail c _ h)

theorem singleSpaced_init (a b : Str) (h : singleSpaced (a ++ b) = true) :
    singleSpaced a = true := by
  induction a with
  | nil => rfl
  | cons c a ih =>
    have ht := ih (singleSpaced_tail c _ h)
    cases a with
    | nil =>
      cases b with
      | nil => exact h
      | cons d b' =>
        simp only [List.cons_append, List.nil_append, singleSpaced, Bool.and_eq_true,
          Bool.or_eq_true, Bool.not_eq_true', beq_iff_eq] at h ⊢
        rcases h.1 with h1 | ⟨h1, _⟩
        · exact Or.inl h1
        · exact Or.inr h1
    | cons d a' =>
      simp only [List.cons_append, singleSpaced, Bool.and_eq_true] at h ⊢
      exact ⟨h.1, ht⟩

theorem TrimSpace_inside (s : Str) : ∃ p q, s = p ++ TrimSpace s ++ q := by
  unfold TrimSpace trimLeft
  obtain ⟨p, hp⟩ : s.dropWhile isSpace <:+ s := List.dropWhile_suffix _
  obtain ⟨q, hq⟩ : (s.dropWhile isSpace).reverse.dropWhile isSpace
      <:+ (s.dropWhile isSpace).reverse := List.dropWhile_suffix _
  refine ⟨p, q.reverse, ?_⟩
  have h2 : s.dropWhile isSpace
      = ((s.dropWhile isSpace).reverse.dropWhile isSpace).reverse ++ q.reverse := by
    have := congrArg List.reverse hq
    simpa using this.symm
  rw [List.append_assoc, ← h2, hp]

theorem singleSpaced_cleanSQL (s : Str) : singleSpaced (cleanSQL s) = true := by
  rw [cleanSQL_eq]
  obtain ⟨p, q, h⟩ := TrimSpace_inside (collapseWs false s)
  have h1 := (singleSpaced_collapseWs false s).1
  rw [h, List.append_assoc] at h1
  exact singleSpaced_init _ _ (singleSpaced_suffix _ _ h1)

theorem singleSpaced_prepassed (f : Formatter) (s : Str) :
    singleSpaced (prepassed f s) = true :=
  singleSpaced_of_upper _ _ (ToUpper_replaceKeywords f _ prepassKeywords_plain _)
    (singleSpaced_cleanSQL s)
theorem occursIn_clauseTextOf (hdr : String → Str) (L : List (String × Str)) (e : String × Str)
    (he : e ∈ L) : occursIn e.2 (clauseTextOf hdr L) := by
  induction L with
  | nil => simp at he
  | cons e' l ih =>
    cases l with
    | nil =>
      simp only [List.mem_singleton] at he
      subst he
      rw [clauseTextOf_singleton]
      exact ⟨hdr e.1 ++ [' '], [], by simp⟩
    | cons e2 l =>
      rw [clauseTextOf_cons_cons]
      rcases List.mem_cons.mp he with h | h
      · subst h
        exact ⟨hdr e.1 ++ [' '], ' ' :: clauseTextOf hdr (e2 :: l), by simp⟩
      · obtain ⟨p, q, hpq⟩ := ih h
        exact ⟨hdr e'.1 ++ ' ' :: (e'.2 ++ ' ' :: p), q, by rw [hpq]; simp⟩
theorem HasPrefix_append (p r : Str) : HasPrefix (p ++ r) p = true := by
  induction p with
  | nil => cases r <;> rfl
  | cons c p ih => simp [HasPrefix, ih]

theorem ToUpper_append (a b : Str) : ToUpper (a ++ b) = ToUpper a ++ ToUpper b := by
  simp [ToUpper]

theorem prepassed_ne_nil (f : Formatter) (s : Str) (h : prepassed f s ≠ []) :
    TrimSpace s ≠ [] := by
  intro e
  apply h
  have h1 : ToUpper (prepassed f s) = ToUpper (cleanSQL s) :=
    ToUpper_replaceKeywords f _ prepassKeywords_plain _
  rw [cleanSQL_eq_nil_of_blank s e] at h1
  simpa [ToUpper] using h1

/-- The statement kind of an input whose pre-passed statement starts with the
keyword `k` in the configured case. -/
theorem kind_of_prepassed (f : Formatter) (s : Str) (k : String) (rest : Str)
    (hk : ToUpper k.toList = k.toList) (hP : prepassed f s = keyword f k.toList ++ rest) :
    HasPrefix (ToUpper (cleanSQL s)) k.toList = true := by
  have h1 : ToUpper (prepassed f s) = ToUpper (cleanSQL s) :=
    ToUpper_replaceKeywords f _ prepassKeywords_plain _
  rw [← h1, hP, ToUpper_append, ToUpper_keyword, hk]
  exact HasPrefix_append _ _

theorem selectText_head (f : Formatter) (a b : Str) (w g h o l : Option Str) :
    ∃ rest, clauseTextOf (kwText f) (selectClauses a b w g h o l)
      = keyword f "SELECT".toList ++ rest := by
  obtain ⟨rest, hr, _⟩ := clauseTextOf_first (kwText f) ("SELECT", a)
    (("FROM", b) :: (optClause "WHERE" w ++ (optClause "GROUP BY" g ++
      (optClause "HAVING" h ++ (optClause "ORDER BY" o ++ optClause "LIMIT" l)))))
  exact ⟨_, hr⟩

/-- C16 (amended): for `IndentSize ≥ 0` and every input whose statement after the
whitespace normalization and the keyword pre-pass is a standard SELECT statement
(`SELECT a FROM b` followed by any of the clauses WHERE, GROUP BY, HAVING, ORDER BY
and LIMIT, in this order, keywords in the configured case, contents not empty,
trimmed and free of the letters of the clause keywords), the output of `Format`
is the SELECT section, the FROM section, and for each of the five clauses that is
present a newline, its header, a newline, one indent level and exactly the content
of that clause in the pre-passed statement, on one line.  The pre-passed statement
differs from the whitespace-normalized input only in the letter case of keywords:
every position at which the two differ lies inside a window where the normalized
input holds the letters of a pre-pass keyword and the pre-passed statement holds
that keyword in the configured case. -/
theorem Format_select_clause_text (f : Formatter) (s : Str) (hind : 0 ≤ f.IndentSize)
    (a b : Str) (w g h o l : Option Str)
    (hP : prepassed f s = clauseTextOf (kwText f) (selectClauses a b w g h o l))
    (hc : ∀ e ∈ selectClauses a b w g h o l, plainContent e.2) :
    ∃ indent cols frm, getIndent f 1 = some indent ∧
      formatSelectColumns f a = some cols ∧ formatFromClause f b = some frm ∧
      Format f s = some (
        (kwText f "SELECT" ++ '\n' :: (indent ++ cols)) ++
        ('\n' :: (kwText f "FROM" ++ '\n' :: (indent ++ frm))) ++
        verbatim f indent "WHERE" w ++ verbatim f indent "GROUP BY" g ++
        verbatim f indent "HAVING" h ++ verbatim f indent "ORDER BY" o ++
        verbatim f indent "LIMIT" l, none) ∧
      (∀ v ∈ [w, g, h, o, l], ∀ c, v = some c →
        '\n' ∉ indent ++ c ∧ occursIn c (prepassed f s)) ∧
      recasedOnly f prepassKeywords (cleanSQL s) (prepassed f s) := by
  have hi := getIndent_of_nonneg f hind
  obtain ⟨cols, hcols⟩ := formatSelectColumns_of_nonneg f hind a
  obtain ⟨frm, hfrm⟩ := formatFromClause_of_nonneg f hind b
  have hsp : singleSpaced (clauseTextOf (kwText f) (selectClauses a b w g h o l)) = true := by
    rw [← hP]; exact singleSpaced_prepassed f s
  obtain ⟨rest, hrest⟩ := selectText_head f a b w g h o l
  have hne : TrimSpace s ≠ [] := by
    apply prepassed_ne_nil f
    rw [hP, hrest]
    exact keyword_facts f (fun H => H ++ rest ≠ []) _ (by simp [ToUpper]) (by simp [ToLower])
  have hkind := kind_of_prepassed f s "SELECT" rest (by decide) (by rw [hP, hrest])
  have hfmt : formatSQL f (cleanSQL s) = _ := formatSQL_dispatch f s
  rw [if_pos hkind, hP, formatSelect_cased f a b w g h o l hc hsp _ cols frm hi hcols hfrm]
    at hfmt
  refine ⟨_, cols, frm, hi, hcols, hfrm, Format_of_formatSQL f s _ _ hne rfl hfmt, ?_,
    recasedOnly_replaceKeywords f _
      (fun w hw => keywords_ascii w (List.mem_append_left _ hw)) _⟩
  intro v hv c hvc
  have hmem : (∃ n, (n, c) ∈ selectClauses a b w g h o l) := by
    simp only [List.mem_cons, List.mem_singleton, List.not_mem_nil, or_false] at hv
    rcases hv with rfl | rfl | rfl | rfl | rfl
    · exact ⟨"WHERE", by simp [selectClauses, optClause, hvc]⟩
    · exact ⟨"GROUP BY", by simp [selectClauses, optClause, hvc]⟩
    · exact ⟨"HAVING", by simp [selectClauses, optClause, hvc]⟩
    · exact ⟨"ORDER BY", by simp [selectClauses, optClause, hvc]⟩
    · exact ⟨"LIMIT", by simp [selectClauses, optClause, hvc]⟩
  obtain ⟨n, hn⟩ := hmem
  constructor
  · intro hnl
    rcases List.mem_append.mp hnl with h1 | h1
    · exact absurd (List.eq_of_mem_replicate h1) (by decide)
    · apply newline_not_mem_prepassed f s
      rw [hP]
      exact mem_clauseTextOf _ _ (n, c) hn _ h1
  · rw [hP]
    exact occursIn_clauseTextOf _ _ (n, c) hn
/-- Witness of C16: a statement in mixed letter case with irregular whitespace,
formatted with four spaces and lower-case keywords; the WHERE line holds the
content of the pre-passed statement, in which the keyword END of the quoted
literal has been lower-cased. -/
theorem Format_select_clause_text_witness :
    prepassed ⟨4, false⟩ "  select a  from t wHere note = 'The END'\n limit 3".toList
      = clauseTextOf (kwText ⟨4, false⟩) (selectClauses "a".toList "t".toList
          (some "note = 'The end'".toList) none none none (some "3".toList)) ∧
    (∃ indent cols frm, getIndent ⟨4, false⟩ 1 = some indent ∧
      formatSelectColumns ⟨4, false⟩ "a".toList = some cols ∧
      formatFromClause ⟨4, false⟩ "t".toList = some frm ∧
      Format ⟨4, false⟩ "  select a  from t wHere note = 'The END'\n limit 3".toList = some (
        (kwText ⟨4, false⟩ "SELECT" ++ '\n' :: (indent ++ cols)) ++
        ('\n' :: (kwText ⟨4, false⟩ "FROM" ++ '\n' :: (indent ++ frm))) ++
        verbatim ⟨4, false⟩ indent "WHERE" (some "note = 'The end'".toList) ++
        verbatim ⟨4, false⟩ indent "GROUP BY" none ++
        verbatim ⟨4, false⟩ indent "HAVING" none ++ verbatim ⟨4, false⟩ indent "ORDER BY" none ++
        verbatim ⟨4, false⟩ indent "LIMIT" (some "3".toList), none) ∧
      (∀ v ∈ [some "note = 'The end'".toList, none, none, none, some "3".toList],
        ∀ c, v = some c → '\n' ∉ indent ++ c ∧
          occursIn c
            (prepassed ⟨4, false⟩ "  select a  from t wHere note = 'The END'\n limit 3".toList)) ∧
      recasedOnly ⟨4, false⟩ prepassKeywords
        (cleanSQL "  select a  from t wHere note = 'The END'\n limit 3".toList)
        (prepassed ⟨4, false⟩ "  select a  from t wHere note = 'The END'\n limit 3".toList)) ∧
    Format ⟨4, false⟩ "  select a  from t wHere note = 'The END'\n limit 3".toList
      = some ("select\n    a\nfrom\n    t\nwhere\n    note = 'The end'\nlimit\n    3".toList,
          none) :=
  ⟨by decide!,
   Format_select_clause_text ⟨4, false⟩
    "  select a  from t wHere note = 'The END'\n limit 3".toList (by decide)
    "a".toList "t".toList (some "note = 'The end'".toList) none none none (some "3".toList)
    (by decide!)
    (by
      have hp : ∀ c : Str, c ≠ [] → TrimSpace c = c →
          (∀ n ∈ selectOrder, noOccurrence (firstWord n) c = true) → plainContent c :=
        fun c h1 h2 h3 => ⟨h1, trimmed_of_TrimSpace c h2, h3⟩
      intro e he
      simp only [selectClauses, optClause, List.mem_cons, List.mem_append, List.mem_singleton,
        List.not_mem_nil, or_false, false_or] at he
      rcases he with rfl | rfl | rfl | rfl
      · exact hp _ (by decide) (by decide) (by decide)
      · exact hp _ (by decide) (by decide) (by decide)
      · exact hp _ (by decide) (by decide) (by decide)
      · exact hp _ (by decide) (by decide) (by decide)),
   by decide!⟩

/-! ## Formatting a formatted statement again: standard statements -/

theorem sameWords_trans (x y z : Str) (h1 : sameWords x y) (h2 : sameWords y z) :
    sameWords x z :=
  fun b => ⟨(h1 b).1.trans (h2 b).1, (h1 b).2.trans (h2 b).2⟩

end SqlFormatter
